import Mathlib

/-! The MKLDNN graph optimizer.

A shallow embedding of `mkldnn_graph_optimizer.cpp`: the operator graph is an
arena of node records and an arena of edge records addressed by integer
handles; the graph owns an ordered node list and an ordered edge list, and
nodes refer to edges through weak references.

Functions that can dereference a null pointer or read a vector out of range
return `Option`, with `none` standing for that failure.
-/

namespace MKLDNNPlugin

/-- Handle of a node record in the arena. -/
abbrev NodeId := Nat

/-- Handle of an edge record in the arena. -/
abbrev EdgeId := Nat

/-- Modelled from the spec: the enum `Type` of mkldnn_node.h, which is not among
the sources. The listed kinds are the ones the optimizer names; `Generic`,
`Input` and `Output` stand for the kinds it never tests for. -/
inductive NodeType
  | Generic
  | Input
  | Output
  | Convolution
  | Convolution_Activation
  | Convolution_Sum
  | Convolution_Sum_Activation
  | Split
  | Concatenation
  | Activation
  | Pooling
  | Eltwise
  | BatchNormalization
  | ScaleShift
  | Power
  | Copy
  deriving DecidableEq

/-- A single-precision value, by its 32-bit pattern. -/
abbrev F32 := Nat

/-- The pattern is a NaN: exponent field all ones and a non-zero fraction. -/
def f32IsNaN (x : F32) : Bool :=
  (x / 2 ^ 23) % 256 == 255 && x % 2 ^ 23 != 0

/-- The pattern is a zero of either sign. -/
def f32IsZero (x : F32) : Bool :=
  x % 2 ^ 31 == 0

/-- The comparison `a == b` of two `float` values: false when either is a NaN,
true for two zeros of any sign, otherwise equality of the patterns. -/
def f32Eq (a b : F32) : Bool :=
  !f32IsNaN a && !f32IsNaN b &&
    (a % 2 ^ 32 == b % 2 ^ 32 || (f32IsZero a && f32IsZero b))

/-- The literal `1.0f`. -/
def f32One : F32 := 0x3F800000

/-- The literal `0.0f`. -/
def f32Zero : F32 := 0

/-- Modelled from the spec: `PoolingLayer::PoolType` of ie_layers.h, which is not
among the sources. -/
inductive PoolType
  | MAX
  | AVG
  deriving DecidableEq

/-- Modelled from the spec: the layer descriptors of ie_layers.h, which is not
among the sources. Every descriptor has the layer type string; the
constructor tells which `dynamic_cast` succeeds. `_weights` and `_biases` say
whether the blob pointer is non-null. `WithParams` is a descriptor of the base
class given with its parameter map, as `GetParamAsFloat` reads it (parameter
name, single-precision value). -/
inductive CNNLayer
  | Base (type : String)
  | PoolingLayer (type : String) (_type : PoolType)
  | PowerLayer (type : String) (power scale offset : F32)
  | ScaleShiftLayer (type : String) (_weights _biases : Bool)
  | WithParams (type : String) (params : List (String × F32))
  deriving DecidableEq

/-- The layer type string, `CNNLayer::type`. -/
def CNNLayer.type : CNNLayer → String
  | .Base t => t
  | .PoolingLayer t _ => t
  | .PowerLayer t _ _ _ => t
  | .ScaleShiftLayer t _ _ => t
  | .WithParams t _ => t

/-- Modelled from the spec: the class MKLDNNEdge of mkldnn_edge.h, which is not
among the sources: one producer, one consumer and a shape descriptor. The two
port numbers are positions in the endpoint lists, see `getInputNum`. -/
structure MKLDNNEdge where
  parent : NodeId
  child : NodeId
  dims : List Nat
  deriving DecidableEq

/-- A weak reference to an edge; `none` is a reference that was reset. -/
abbrev MKLDNNEdgeWeakPtr := Option EdgeId

/-- Modelled from the spec: the class MKLDNNNode of mkldnn_node.h, which is not
among the sources: a mutable kind, a name, the original layer descriptor (may
be absent), ordered lists of weak references to the parent and child edges,
the absorbed nodes (`fusedWith`, `mergedWith`) and the per-port shape vectors.
`eltwise` is present exactly when the object is an MKLDNNEltwiseNode and holds
the answers of `isSum()` and `isUnitScales()`. -/
structure MKLDNNNode where
  type : NodeType
  name : String
  cnnLayer : Option CNNLayer
  parentEdges : List MKLDNNEdgeWeakPtr
  childEdges : List MKLDNNEdgeWeakPtr
  fusedWith : List NodeId
  mergedWith : List NodeId
  inDims : List (List Nat)
  outDims : List (List Nat)
  eltwise : Option (Bool × Bool)

/-- Modelled from the spec: the class MKLDNNGraph of mkldnn_graph.h, which is not
among the sources. The graph exclusively owns its nodes (`graphNodes`, what
`GetNodes()` returns) and its edges (`graphEdges`, what `GetEdges()` returns);
`node` and `edge` are the arenas, `edgeCount` is the next unused edge handle. -/
structure MKLDNNGraph where
  node : NodeId → MKLDNNNode
  edge : EdgeId → MKLDNNEdge
  graphNodes : List NodeId
  graphEdges : List EdgeId
  outputNodes : List NodeId
  edgeCount : Nat

/-- Replace the record of node `n`. -/
def MKLDNNGraph.setNode (g : MKLDNNGraph) (n : NodeId) (v : MKLDNNNode) : MKLDNNGraph :=
  { g with node := fun m => if m = n then v else g.node m }

/-- Replace the list of child references of node `n`. -/
def MKLDNNGraph.setChildEdges (g : MKLDNNGraph) (n : NodeId)
    (l : List MKLDNNEdgeWeakPtr) : MKLDNNGraph :=
  g.setNode n { g.node n with childEdges := l }

/-- Replace the list of parent references of node `n`. -/
def MKLDNNGraph.setParentEdges (g : MKLDNNGraph) (n : NodeId)
    (l : List MKLDNNEdgeWeakPtr) : MKLDNNGraph :=
  g.setNode n { g.node n with parentEdges := l }

/-- The call `w.lock()` on a weak reference: the edge when the reference was not
reset and the edge is still owned by the graph (the graph is the only owner of
edges), the null pointer otherwise. -/
def lock (g : MKLDNNGraph) (w : MKLDNNEdgeWeakPtr) : Option EdgeId :=
  match w with
  | none => none
  | some e => if e ∈ g.graphEdges then some e else none

/-- Modelled from the spec: MKLDNNEdge::getParent, not among the sources. Edges
hold a non-owning reference to the producer; it is null once the graph no
longer owns that node. -/
def getParent (g : MKLDNNGraph) (e : EdgeId) : Option NodeId :=
  if (g.edge e).parent ∈ g.graphNodes then some (g.edge e).parent else none

/-- Modelled from the spec: MKLDNNEdge::getChild, not among the sources. Edges
hold a non-owning reference to the consumer; it is null once the graph no
longer owns that node. -/
def getChild (g : MKLDNNGraph) (e : EdgeId) : Option NodeId :=
  if (g.edge e).child ∈ g.graphNodes then some (g.edge e).child else none

/-- Position of the first reference in `l` that locks to edge `e`, counted from
`k`; `-1` when there is none. -/
def slotOf (g : MKLDNNGraph) (e : EdgeId) : List MKLDNNEdgeWeakPtr → Nat → Int
  | [], _ => -1
  | w :: rest, k => if lock g w = some e then (k : Int) else slotOf g e rest (k + 1)

/-- Modelled from the spec: MKLDNNEdge::getInputNum, not among the sources. The
position of the edge among the child edges of its producer, `-1` when the
producer is gone or does not list the edge. The call sites at lines 325 to 335
of the optimizer pass this number as the third argument of `addEdge`, the
position among the producer's children. -/
def getInputNum (g : MKLDNNGraph) (e : EdgeId) : Int :=
  match getParent g e with
  | none => -1
  | some p => slotOf g e (g.node p).childEdges 0

/-- Modelled from the spec: MKLDNNEdge::getOutputNum, not among the sources. The
position of the edge among the parent edges of its consumer, `-1` when the
consumer is gone or does not list the edge. -/
def getOutputNum (g : MKLDNNGraph) (e : EdgeId) : Int :=
  match getChild g e with
  | none => -1
  | some c => slotOf g e (g.node c).parentEdges 0

/-- Modelled from the spec: MKLDNNEdge::getDims, not among the sources: the shape
descriptor of the edge. -/
def getDims (g : MKLDNNGraph) (e : EdgeId) : List Nat :=
  (g.edge e).dims

/-- Modelled from the spec: MKLDNNEdge::isDropped, not among the sources. An edge
is pending removal when neither endpoint lists it any more. -/
def edgeIsDropped (g : MKLDNNGraph) (e : EdgeId) : Bool :=
  getInputNum g e == -1 && getOutputNum g e == -1

/-- Modelled from the spec: MKLDNNNode::isDropped, not among the sources. DropNode
sets no flag of its own, so a node counts as dropped when none of its parent
and child references is live any more. -/
def nodeIsDropped (g : MKLDNNGraph) (n : NodeId) : Bool :=
  (g.node n).parentEdges.all (fun w => (lock g w).isNone) &&
    (g.node n).childEdges.all (fun w => (lock g w).isNone)

/-- Reset every reference to edge `e` in a list of weak references. -/
def resetRef (e : EdgeId) (l : List MKLDNNEdgeWeakPtr) : List MKLDNNEdgeWeakPtr :=
  l.map (fun w => if w = some e then none else w)

/-- Modelled from the spec: MKLDNNNode::removeEdge, not among the sources. The
reference is locked and the endpoints are checked for liveness before acting;
then the edge is detached from the parent list of its consumer and from the
child list of its producer (the lists keep their length, the slot is reset). -/
def removeEdge (g : MKLDNNGraph) (w : MKLDNNEdgeWeakPtr) : MKLDNNGraph :=
  match lock g w with
  | none => g
  | some e =>
    match getParent g e, getChild g e with
    | some parentPtr, some childPtr =>
      let g1 := g.setParentEdges childPtr (resetRef e (g.node childPtr).parentEdges)
      g1.setChildEdges parentPtr (resetRef e (g1.node parentPtr).childEdges)
    | _, _ => g

/-- Conversion of an `int` to `size_t` (64 bits). -/
def toSizeT (x : Int) : Nat :=
  (x % (2 ^ 64 : Int)).toNat

/-- The first half of `addEdge`: attach the edge at position `cIndex` among the
child edges of its producer. -/
def addEdge.toParent (g : MKLDNNGraph) (parentPtr : NodeId) (edge : EdgeId)
    (cIndex : Nat) : MKLDNNGraph :=
  if cIndex < (g.node parentPtr).childEdges.length then
    let g0 := removeEdge g ((g.node parentPtr).childEdges.getD cIndex none)
    g0.setChildEdges parentPtr ((g0.node parentPtr).childEdges.set cIndex (some edge))
  else
    g.setChildEdges parentPtr ((g.node parentPtr).childEdges ++ [some edge])

/-- The second half of `addEdge`: attach the edge at position `pIndex` among the
parent edges of its consumer. -/
def addEdge.toChild (g : MKLDNNGraph) (childPtr : NodeId) (edge : EdgeId)
    (pIndex : Nat) : MKLDNNGraph :=
  if pIndex < (g.node childPtr).parentEdges.length then
    let g0 := removeEdge g ((g.node childPtr).parentEdges.getD pIndex none)
    g0.setParentEdges childPtr ((g0.node childPtr).parentEdges.set pIndex (some edge))
  else
    g.setParentEdges childPtr ((g.node childPtr).parentEdges ++ [some edge])

/-- Modelled from the spec: MKLDNNNode::addEdge, not among the sources. The edge
is attached at position `cIndex` among the child edges of its producer and at
position `pIndex` among the parent edges of its consumer, after the liveness
checks. A port holds one edge: at an occupied position the edge found there is
detached first, at a position past the end the edge is appended. -/
def addEdge (g : MKLDNNGraph) (edge : EdgeId) (pIndex cIndex : Nat) : MKLDNNGraph :=
  match lock g (some edge) with
  | none => g
  | some _ =>
    match getParent g edge, getChild g edge with
    | some parentPtr, some childPtr =>
      addEdge.toChild (addEdge.toParent g parentPtr edge cIndex) childPtr edge pIndex
    | _, _ => g

/-- Modelled from the spec: MKLDNNNode::remove, not among the sources: detach every
parent edge, then every child edge, of the node. -/
def remove (g : MKLDNNGraph) (n : NodeId) : MKLDNNGraph :=
  let g1 := (g.node n).parentEdges.foldl removeEdge g
  (g1.node n).childEdges.foldl removeEdge g1

/-- Modelled from the spec: the constructor `MKLDNNEdge(parent, child)`, not among
the sources. The new edge takes the next unused handle; it receives only its
two endpoints, the shape is left empty. -/
def newEdge (g : MKLDNNGraph) (parent child : NodeId) : EdgeId × MKLDNNGraph :=
  (g.edgeCount,
    { g with
      edge := fun e => if e = g.edgeCount then ⟨parent, child, []⟩ else g.edge e
      edgeCount := g.edgeCount + 1 })

/-- The statement `graph.GetEdges().push_back(edge)`. -/
def pushEdge (g : MKLDNNGraph) (e : EdgeId) : MKLDNNGraph :=
  { g with graphEdges := g.graphEdges ++ [e] }

/-- The two statements `MKLDNNEdgePtr e(new MKLDNNEdge(parent, child));
graph.GetEdges().push_back(e);`: the handle of the new edge and the new graph. -/
def pushNewEdge (g : MKLDNNGraph) (parent child : NodeId) : EdgeId × MKLDNNGraph :=
  ((newEdge g parent child).1, pushEdge (newEdge g parent child).2 (newEdge g parent child).1)

/-- Modelled from the spec: MKLDNNNode::getChildEdgeAt, not among the sources: the
child edge at a position; fails when the position is out of range or the
reference there is no longer live. -/
def getChildEdgeAt (g : MKLDNNGraph) (n : NodeId) (idx : Nat) : Option EdgeId :=
  match (g.node n).childEdges.get? idx with
  | none => none
  | some w => lock g w

/-- Modelled from the spec: MKLDNNNode::getParentEdgeAt, not among the sources: the
parent edge at a position; fails when the position is out of range or the
reference there is no longer live. -/
def getParentEdgeAt (g : MKLDNNGraph) (n : NodeId) (idx : Nat) : Option EdgeId :=
  match (g.node n).parentEdges.get? idx with
  | none => none
  | some w => lock g w

/-- The lambda `removeEdge` of DropNode (lines 392 to 400): erase the first
occurrence of the edge from the edge list of the graph. -/
def DropNode.removeEdge (g : MKLDNNGraph) (edge : EdgeId) : MKLDNNGraph :=
  { g with graphEdges := g.graphEdges.erase edge }

/-- Lines 415 to 421 of DropNode: when the parent reference at position `i` is
still live, read its input number, detach the edge and erase it from the edge
list; the number read (0 when the reference is dead) and the new graph. -/
def DropNode.takeParentEdge (g : MKLDNNGraph) (node : NodeId) (i : Nat) : Int × MKLDNNGraph :=
  match lock g ((g.node node).parentEdges.getD i none) with
  | some remEdge =>
    (getInputNum g remEdge,
      DropNode.removeEdge (MKLDNNPlugin.removeEdge g (some remEdge)) remEdge)
  | none => (0, g)

/-- Lines 423 to 429 of DropNode: when the child reference at position `j` is
still live, read its output number, detach the edge and erase it from the edge
list; the number read (0 when the reference is dead) and the new graph. -/
def DropNode.takeChildEdge (g : MKLDNNGraph) (node : NodeId) (j : Nat) : Int × MKLDNNGraph :=
  match lock g ((g.node node).childEdges.getD j none) with
  | some remEdge =>
    (getOutputNum g remEdge,
      DropNode.removeEdge (MKLDNNPlugin.removeEdge g (some remEdge)) remEdge)
  | none => (0, g)

/-- The body of the inner loop of DropNode (lines 409 to 433) for the parent
position `i`, the child position `j` and the producer `parent` found before
the inner loop was entered. -/
def DropNode.body (node : NodeId) (i : Nat) (parent : NodeId) (j : Nat)
    (g : MKLDNNGraph) : MKLDNNGraph :=
  match lock g ((g.node node).childEdges.getD j none) with
  | none => g
  | some ce =>
    match getChild g ce with
    | none => g
    | some child =>
      let r1 := DropNode.takeParentEdge g node i
      let inNum : Int := r1.1 + (j : Int)
      let r2 := DropNode.takeChildEdge r1.2 node j
      let outNum : Int := r2.1
      let r3 := pushNewEdge r2.2 parent child
      addEdge r3.2 r3.1 (toSizeT outNum) (toSizeT inNum)

/-- The inner loop of DropNode (line 408): `j` runs while it is below the current
number of child references of the node. `fuel` bounds the number of tests of
the loop condition; `none` means the bound was reached. -/
def DropNode.inner (node : NodeId) (i : Nat) (parent : NodeId) :
    Nat → Nat → MKLDNNGraph → Option MKLDNNGraph
  | 0, _, _ => none
  | fuel + 1, j, g =>
    if j < (g.node node).childEdges.length then
      DropNode.inner node i parent fuel (j + 1) (DropNode.body node i parent j g)
    else some g

/-- The outer loop of DropNode (lines 401 to 435): `i` runs while it is below the
current number of parent references of the node; a reference that is not live,
or whose producer is gone, is skipped. -/
def DropNode.outer (node : NodeId) : Nat → Nat → MKLDNNGraph → Option MKLDNNGraph
  | 0, _, _ => none
  | fuel + 1, i, g =>
    if i < (g.node node).parentEdges.length then
      match lock g ((g.node node).parentEdges.getD i none) with
      | none => DropNode.outer node fuel (i + 1) g
      | some pe =>
        match getParent g pe with
        | none => DropNode.outer node fuel (i + 1) g
        | some parent =>
          match DropNode.inner node i parent ((g.node node).childEdges.length + 2) 0 g with
          | none => none
          | some g1 => DropNode.outer node fuel (i + 1) g1
    else some g

/-- MKLDNNGraphOptimizer::DropNode (lines 391 to 436). The loop bounds are read
again at every test, as in the source; the lists of the node keep their length
unless the node has an edge to itself, so the fuel given here is the number of
slots plus the final test and a margin. -/
def DropNode (g : MKLDNNGraph) (node : NodeId) : Option MKLDNNGraph :=
  DropNode.outer node
    ((g.node node).parentEdges.length + (g.node node).childEdges.length + 2) 0 g

/-- The loop of RemoveDropped (lines 373 to 379): `done` is the part of the node
list already passed, `rest` the part from the iterator on. -/
def RemoveDropped.loop (g : MKLDNNGraph) : List NodeId → List NodeId → List NodeId
  | done, [] => done
  | done, n :: rest =>
    if nodeIsDropped { g with graphNodes := done ++ n :: rest } n then
      RemoveDropped.loop g done rest
    else RemoveDropped.loop g (done ++ [n]) rest

/-- MKLDNNGraphOptimizer::RemoveDropped (lines 368 to 380). -/
def RemoveDropped (g : MKLDNNGraph) : MKLDNNGraph :=
  { g with graphNodes := RemoveDropped.loop g [] g.graphNodes }

/-- The loop of RemoveDroppedEdges (lines 443 to 449). -/
def RemoveDroppedEdges.loop (g : MKLDNNGraph) : List EdgeId → List EdgeId → List EdgeId
  | done, [] => done
  | done, e :: rest =>
    if edgeIsDropped { g with graphEdges := done ++ e :: rest } e then
      RemoveDroppedEdges.loop g done rest
    else RemoveDroppedEdges.loop g (done ++ [e]) rest

/-- MKLDNNGraphOptimizer::RemoveDroppedEdges (lines 438 to 450). -/
def RemoveDroppedEdges (g : MKLDNNGraph) : MKLDNNGraph :=
  { g with graphEdges := RemoveDroppedEdges.loop g [] g.graphEdges }

end MKLDNNPlugin

namespace MKLDNNPlugin

/-- Modelled from the spec: MKLDNNNode::setType, not among the sources: the kind
of a node is re-tagged in place. -/
def setType (g : MKLDNNGraph) (n : NodeId) (t : NodeType) : MKLDNNGraph :=
  g.setNode n { g.node n with type := t }

/-- Modelled from the spec: MKLDNNNode::fuseWith, not among the sources: the fused
node is appended to the list of absorbed operators. -/
def fuseWith (g : MKLDNNGraph) (n fuse : NodeId) : MKLDNNGraph :=
  g.setNode n { g.node n with fusedWith := (g.node n).fusedWith ++ [fuse] }

/-- Modelled from the spec: MKLDNNNode::mergeWith, not among the sources: the merged
node is recorded; joining the weights is left to the node. -/
def mergeWith (g : MKLDNNGraph) (n merge : NodeId) : MKLDNNGraph :=
  g.setNode n { g.node n with mergedWith := (g.node n).mergedWith ++ [merge] }

/-- MKLDNNGraphOptimizer::IsOneOf (lines 382 to 389). -/
def IsOneOf (type : NodeType) (types : List NodeType) : Bool :=
  match types with
  | [] => false
  | tp :: rest => if type = tp then true else IsOneOf type rest

/-- The test of lines 85 to 96 of MergeGroupConvolution for the child positions in
`idxs`: the value of `canBeMerged` after the loop. -/
def MergeGroupConvolution.canBeMerged (g : MKLDNNGraph) (split : NodeId)
    (convType : NodeType) (convInDims convOutDims : List Nat) :
    List Nat → Option Bool
  | [] => some true
  | i :: rest =>
    match getChildEdgeAt g split i with
    | none => none
    | some childEdge =>
      match getChild g childEdge with
      | none => none
      | some child =>
        if convType ≠ (g.node child).type then some false
        else
          match getChildEdgeAt g child 0 with
          | none => none
          | some ce =>
            match getChild g ce with
            | none => none
            | some cc =>
              if (g.node cc).type ≠ .Concatenation then some false
              else if convOutDims ≠ getDims g ce then some false
              else if (g.node child).childEdges.length ≠ 1 then some false
              else if convInDims ≠ getDims g childEdge then some false
              else MergeGroupConvolution.canBeMerged g split convType convInDims convOutDims rest

/-- The statement `dims[1] += x` on a vector of `size_t`; fails when the vector has
no element at index 1. -/
def addChannels (dims : List Nat) (x : Nat) : Option (List Nat) :=
  match dims.get? 1 with
  | none => none
  | some c => some (dims.set 1 ((c + x) % 2 ^ 64))

/-- The loop of lines 103 to 110 of MergeGroupConvolution for the child positions
in `idxs`: every peer is merged into `conv`, its channel counts are added to
the running shapes, and it is detached. -/
def MergeGroupConvolution.merge (split conv : NodeId) :
    List Nat → MKLDNNGraph × List Nat × List Nat → Option (MKLDNNGraph × List Nat × List Nat)
  | [], st => some st
  | i :: rest, (g, convInDims, convOutDims) =>
    match getChildEdgeAt g split i with
    | none => none
    | some peerInEdge =>
      match getChild g peerInEdge with
      | none => none
      | some peer =>
        let g1 := mergeWith g conv peer
        match (getDims g1 peerInEdge).get? 1 with
        | none => none
        | some a =>
          match addChannels convInDims a with
          | none => none
          | some inD =>
            match getChildEdgeAt g1 peer 0 with
            | none => none
            | some pe =>
              match (getDims g1 pe).get? 1 with
              | none => none
              | some b =>
                match addChannels convOutDims b with
                | none => none
                | some outD =>
                  MergeGroupConvolution.merge split conv rest (remove g1 peer, inD, outD)

/-- The statement `v[0] = dims` on a vector of shapes; fails on an empty vector. -/
def setFirst (v : List (List Nat)) (dims : List Nat) : Option (List (List Nat)) :=
  match v with
  | [] => none
  | _ :: rest => some (dims :: rest)

/-- The body of the loop of MergeGroupConvolution (lines 67 to 115) for one node
of the node list. -/
def MergeGroupConvolution.step (g : MKLDNNGraph) (node : NodeId) : Option MKLDNNGraph :=
  if !IsOneOf (g.node node).type [.Split] then some g
  else if (g.node node).childEdges.length < 2 then some g
  else
    match getChildEdgeAt g node 0 with
    | none => none
    | some convInEdge =>
      match getChild g convInEdge with
      | none => none
      | some conv =>
        if !IsOneOf (g.node conv).type [.Convolution, .Convolution_Activation] then some g
        else
          match getChildEdgeAt g conv 0 with
          | none => none
          | some convOutEdge =>
            let idxs := List.range' 1 ((g.node node).childEdges.length - 1)
            match MergeGroupConvolution.canBeMerged g node (g.node conv).type
                (getDims g convInEdge) (getDims g convOutEdge) idxs with
            | none => none
            | some false => some g
            | some true =>
              match getChild g convOutEdge with
              | none => none
              | some concat =>
                match MergeGroupConvolution.merge node conv idxs
                    (g, getDims g convInEdge, getDims g convOutEdge) with
                | none => none
                | some (g1, convInDims, convOutDims) =>
                  match setFirst (g1.node conv).inDims convInDims with
                  | none => none
                  | some inD =>
                    let g2 := g1.setNode conv { g1.node conv with inDims := inD }
                    match setFirst (g2.node conv).outDims convOutDims with
                    | none => none
                    | some outD =>
                      let g3 := g2.setNode conv { g2.node conv with outDims := outD }
                      match DropNode g3 node with
                      | none => none
                      | some g4 => DropNode g4 concat

/-- MKLDNNGraphOptimizer::MergeGroupConvolution (lines 65 to 117). No statement of
the loop body changes the node list, so the loop runs over the list as it is
on entry. -/
def MergeGroupConvolution (g : MKLDNNGraph) : Option MKLDNNGraph :=
  g.graphNodes.foldlM MergeGroupConvolution.step g

/-- The lambda `isFusingSupported` (lines 146 to 152 and 257 to 263), applied to a
node pointer that is not null. -/
def isFusingSupported (g : MKLDNNGraph) (node : NodeId) : Bool :=
  match (g.node node).cnnLayer with
  | none => false
  | some l => (g.node node).type = .Activation && (l.type = "ReLU" || l.type = "ELU")

/-- The lambda `fuse` (lines 158 to 162). -/
def FuseConvolutionAndActivation.fuse (g : MKLDNNGraph) (conv relu : NodeId) :
    Option MKLDNNGraph :=
  DropNode (fuseWith (setType g conv .Convolution_Activation) conv relu) relu

/-- The body of the loop of FuseConvolutionAndActivation (lines 155 to 184) for
one node of the node list. -/
def FuseConvolutionAndActivation.step (g : MKLDNNGraph) (conv : NodeId) :
    Option MKLDNNGraph :=
  if (g.node conv).type ≠ .Convolution then some g
  else if (g.node conv).childEdges.length ≠ 1 then some g
  else
    match getChildEdgeAt g conv 0 with
    | none => none
    | some e1 =>
      match getChild g e1 with
      | none => none
      | some ch1 =>
        if isFusingSupported g ch1 then FuseConvolutionAndActivation.fuse g conv ch1
        else if (g.node ch1).type ≠ .Pooling then some g
        else
          match (g.node ch1).cnnLayer with
          | some (.PoolingLayer _ poolType) =>
            if poolType = .MAX ∧ (g.node ch1).childEdges.length = 1 then
              match getChildEdgeAt g ch1 0 with
              | none => none
              | some e2 =>
                match getChild g e2 with
                | none => none
                | some ch2 =>
                  if isFusingSupported g ch2 then FuseConvolutionAndActivation.fuse g conv ch2
                  else some g
            else some g
          | _ => none

/-- MKLDNNGraphOptimizer::FuseConvolutionAndActivation (lines 143 to 186). -/
def FuseConvolutionAndActivation (g : MKLDNNGraph) : Option MKLDNNGraph :=
  g.graphNodes.foldlM FuseConvolutionAndActivation.step g

/-- The body of the loop of FuseBatchNormWithScale (lines 123 to 139) for one node
of the node list. -/
def FuseBatchNormWithScale.step (g : MKLDNNGraph) (bn : NodeId) : Option MKLDNNGraph :=
  if (g.node bn).type ≠ .BatchNormalization then some g
  else if g.outputNodes.any (fun x => (g.node x).name = (g.node bn).name) then some g
  else if (g.node bn).childEdges.length ≠ 1 then some g
  else
    match getChildEdgeAt g bn 0 with
    | none => none
    | some e =>
      match getChild g e with
      | none => none
      | some child =>
        if (g.node child).type = .ScaleShift then DropNode (fuseWith g bn child) child
        else some g

/-- MKLDNNGraphOptimizer::FuseBatchNormWithScale (lines 119 to 141). -/
def FuseBatchNormWithScale (g : MKLDNNGraph) : Option MKLDNNGraph :=
  g.graphNodes.foldlM FuseBatchNormWithScale.step g

/-- The value of `toDrop` at line 364 of RemoveIdentityOperator for one node; fails
when the layer descriptor is not of the class the node kind is cast to. -/
def RemoveIdentityOperator.toDrop (g : MKLDNNGraph) (node : NodeId) : Option Bool :=
  let d0 : Option Bool :=
    if (g.node node).type = .Power then
      match (g.node node).cnnLayer with
      | some (.PowerLayer _ power scale offset) =>
        some (f32Eq power f32One && f32Eq scale f32One && f32Eq offset f32Zero)
      | _ => none
    else some false
  match d0 with
  | none => none
  | some t0 =>
    let d1 : Option Bool :=
      if (g.node node).type = .ScaleShift then
        match (g.node node).cnnLayer with
        | some (.ScaleShiftLayer _ w b) => some (if !w && !b then true else t0)
        | _ => none
      else some t0
    match d1 with
    | none => none
    | some t1 => some (if (g.node node).type = .Copy then true else t1)

/-- The body of the loop of RemoveIdentityOperator (lines 348 to 364) for one node
of the node list. -/
def RemoveIdentityOperator.step (g : MKLDNNGraph) (node : NodeId) : Option MKLDNNGraph :=
  match RemoveIdentityOperator.toDrop g node with
  | none => none
  | some true => DropNode g node
  | some false => some g

/-- MKLDNNGraphOptimizer::RemoveIdentityOperator (lines 346 to 366). -/
def RemoveIdentityOperator (g : MKLDNNGraph) : Option MKLDNNGraph :=
  g.graphNodes.foldlM RemoveIdentityOperator.step g

/-- The two ways `is_data_dependency` can end without an answer. -/
inductive Failure
  | nullPointer
  | bound
  deriving DecidableEq

/-- The loop of lines 204 to 210 of is_data_dependency over the child references
of the current layer: a consumer not yet in `visited` is appended to
`nextLayers` and inserted into `visited`. A consumer may be the null pointer;
locking a dead reference fails. -/
def is_data_dependency.expand (g : MKLDNNGraph) :
    List MKLDNNEdgeWeakPtr → List (Option NodeId) → List (Option NodeId) →
      Option (List (Option NodeId) × List (Option NodeId))
  | [], visited, nextLayers => some (visited, nextLayers)
  | oe :: rest, visited, nextLayers =>
    match lock g oe with
    | none => none
    | some e =>
      let nn := getChild g e
      if nn ∈ visited then is_data_dependency.expand g rest visited nextLayers
      else is_data_dependency.expand g rest (nn :: visited) (nextLayers ++ [nn])

/-- The loop of lines 201 to 212 of is_data_dependency; `fuel` bounds the number of
tests of the loop condition. -/
def is_data_dependency.loop (g : MKLDNNGraph) (child : NodeId) :
    Nat → List (Option NodeId) → List (Option NodeId) → Except Failure Bool
  | 0, _, _ => .error .bound
  | _ + 1, _, [] => .ok false
  | fuel + 1, visited, layer :: rest =>
    match layer with
    | none => .error .nullPointer
    | some l =>
      if l = child then .ok true
      else
        match is_data_dependency.expand g (g.node l).childEdges visited (layer :: rest) with
        | none => .error .nullPointer
        | some (visited1, nextLayers1) =>
          is_data_dependency.loop g child fuel visited1 nextLayers1.tail

/-- The function is_data_dependency (lines 196 to 214): breadth-first search from
`parent` along child edges, looking for `child`. Every consumer enters the
queue at most once, so the loop condition is tested at most once per node of
the graph, once for the start and once at the end. -/
def is_data_dependency (g : MKLDNNGraph) (parent child : NodeId) : Except Failure Bool :=
  is_data_dependency.loop g child (g.graphNodes.length + 2) [] [some parent]

/-- The loop of lines 288 to 290: `fuse_allowed` after comparing the producers of
the parent edges of `mergedConv` at the positions `idxs` with `peerNode`. -/
def FuseConvolutionSum.checkParents (g : MKLDNNGraph) (mergedConv peerNode : NodeId) :
    List Nat → Bool → Option Bool
  | [], fuse_allowed => some fuse_allowed
  | j :: rest, fuse_allowed =>
    if !fuse_allowed then some false
    else
      match getParentEdgeAt g mergedConv j with
      | none => none
      | some e =>
        FuseConvolutionSum.checkParents g mergedConv peerNode rest
          (if getParent g e = some peerNode then false else fuse_allowed)

/-- The loop of lines 296 to 300: `fuse_allowed` after asking, for every child
reference of the peer, whether the sum depends on that consumer. -/
def FuseConvolutionSum.checkConsumers (g : MKLDNNGraph) (sum : NodeId) :
    List MKLDNNEdgeWeakPtr → Bool → Option Bool
  | [], fuse_allowed => some fuse_allowed
  | edge :: rest, fuse_allowed =>
    if !fuse_allowed then some false
    else
      match lock g edge with
      | none => none
      | some e =>
        match getChild g e with
        | none => none
        | some c =>
          match is_data_dependency g c sum with
          | .error _ => none
          | .ok b => FuseConvolutionSum.checkConsumers g sum rest (fuse_allowed && b)

/-- The loop of lines 319 to 323: the first position `childIdx`, counted from `k`,
at which the peer has a child edge into `sum`; the length of the list when
there is none. Reading a dead reference fails. -/
def FuseConvolutionSum.childIdx (g : MKLDNNGraph) (sum : NodeId) :
    List MKLDNNEdgeWeakPtr → Nat → Option Nat
  | [], k => some k
  | w :: rest, k =>
    match lock g w with
    | none => none
    | some e =>
      if getChild g e = some sum then some k
      else FuseConvolutionSum.childIdx g sum rest (k + 1)

/-- The body of the loop of lines 327 to 336 for position `j`: a new edge from
`mergedConv` to the consumer of the child edge of `lastNode` at that position
is attached at the ports of the old edge. -/
def FuseConvolutionSum.rewireStep (mergedConv lastNode : NodeId) (j : Nat)
    (g : MKLDNNGraph) : Option MKLDNNGraph :=
  match getChildEdgeAt g lastNode j with
  | none => none
  | some edgePtr =>
    match getChild g edgePtr with
    | none => none
    | some child =>
      let idxParent := getOutputNum g edgePtr
      let idxChild := getInputNum g edgePtr
      let r := pushNewEdge g mergedConv child
      some (addEdge r.2 r.1 (toSizeT idxParent) (toSizeT idxChild))

/-- The loop of lines 327 to 336 over the positions `idxs`. -/
def FuseConvolutionSum.rewire (mergedConv lastNode : NodeId) :
    List Nat → MKLDNNGraph → Option MKLDNNGraph
  | [], g => some g
  | j :: rest, g =>
    match FuseConvolutionSum.rewireStep mergedConv lastNode j g with
    | none => none
    | some g1 => FuseConvolutionSum.rewire mergedConv lastNode rest g1

/-- The tests of lines 267 to 283 for one node: `none` inside when the node is
skipped, otherwise the pair (`mergedConv`, `peerNode`). -/
def FuseConvolutionSum.candidate (g : MKLDNNGraph) (graphNode : NodeId) :
    Option (Option (NodeId × NodeId)) :=
  if (g.node graphNode).type ≠ .Eltwise then some none
  else
    match (g.node graphNode).eltwise with
    | none => none
    | some (isSum, isUnitScales) =>
      if !isSum then some none
      else if !isUnitScales then some none
      else if (g.node graphNode).parentEdges.length ≠ 2 then some none
      else
        match getParentEdgeAt g graphNode 0 with
        | none => none
        | some pe1 =>
          match getParent g pe1 with
          | none => none
          | some parent1 =>
            match getParentEdgeAt g graphNode 1 with
            | none => none
            | some pe2 =>
              match getParent g pe2 with
              | none => none
              | some parent2 =>
                if (g.node parent1).type ≠ .Convolution ∧ (g.node parent2).type ≠ .Convolution
                then some none
                else if (g.node parent1).type = .Convolution then some (some (parent1, parent2))
                else some (some (parent2, parent1))

/-- The value of `fuse_allowed` at line 301 for a candidate. -/
def FuseConvolutionSum.fuseAllowed (g : MKLDNNGraph) (sum mergedConv peerNode : NodeId) :
    Option Bool :=
  match FuseConvolutionSum.checkParents g mergedConv peerNode
      (List.range (g.node mergedConv).parentEdges.length)
      (decide ((g.node mergedConv).childEdges.length = 1)) with
  | none => none
  | some fa => FuseConvolutionSum.checkConsumers g sum (g.node peerNode).childEdges fa

/-- Lines 303 to 311 for a candidate that passed the tests: the last absorbed
node (the activation behind the sum when the sum has exactly one child and it
is a supported activation, else the sum) and the graph with the convolution
re-tagged. -/
def FuseConvolutionSum.retag (g : MKLDNNGraph) (sum mergedConv : NodeId) :
    Option (NodeId × MKLDNNGraph) :=
  if (g.node sum).childEdges.length = 1 then
    match getChildEdgeAt g sum 0 with
    | none => none
    | some ce =>
      match getChild g ce with
      | none => none
      | some relu_shared =>
        if isFusingSupported g relu_shared then
          some (relu_shared, fuseWith (setType g mergedConv .Convolution_Sum_Activation)
            mergedConv sum)
        else some (sum, setType g mergedConv .Convolution_Sum)
  else some (sum, setType g mergedConv .Convolution_Sum)

/-- Lines 315 to 341: attach the peer and the former consumers of `lastNode` to
the convolution, and detach the absorbed nodes. -/
def FuseConvolutionSum.connect (g : MKLDNNGraph) (sum mergedConv peerNode lastNode : NodeId) :
    Option MKLDNNGraph :=
  let r := pushNewEdge g peerNode mergedConv
  match FuseConvolutionSum.childIdx r.2 sum (r.2.node peerNode).childEdges 0 with
  | none => none
  | some childIdx =>
    let g4 := addEdge r.2 r.1 (r.2.node mergedConv).parentEdges.length childIdx
    match FuseConvolutionSum.rewire mergedConv lastNode
        (List.range (g4.node lastNode).childEdges.length) g4 with
    | none => none
    | some g5 =>
      let g6 := if lastNode ≠ sum then remove g5 lastNode else g5
      some (remove g6 sum)

/-- Lines 303 to 341 for a candidate that passed the tests: re-tag the
convolution, absorb the sum (and the activation), attach the peer and the
former consumers to the convolution, and detach the absorbed nodes. -/
def FuseConvolutionSum.apply (g : MKLDNNGraph) (sum mergedConv peerNode : NodeId) :
    Option MKLDNNGraph :=
  match FuseConvolutionSum.retag g sum mergedConv with
  | none => none
  | some (lastNode, g1) =>
    FuseConvolutionSum.connect (fuseWith g1 mergedConv lastNode) sum mergedConv peerNode
      lastNode

/-- The body of the loop of FuseConvolutionSumAndConvolutionSumActivation (lines
267 to 341) for one node of the node list. -/
def FuseConvolutionSum.step (g : MKLDNNGraph) (graphNode : NodeId) : Option MKLDNNGraph :=
  match FuseConvolutionSum.candidate g graphNode with
  | none => none
  | some none => some g
  | some (some (mergedConv, peerNode)) =>
    match FuseConvolutionSum.fuseAllowed g graphNode mergedConv peerNode with
    | none => none
    | some false => some g
    | some true => FuseConvolutionSum.apply g graphNode mergedConv peerNode

/-- MKLDNNGraphOptimizer::FuseConvolutionSumAndConvolutionSumActivation (lines 254
to 343). -/
def FuseConvolutionSumAndConvolutionSumActivation (g : MKLDNNGraph) : Option MKLDNNGraph :=
  g.graphNodes.foldlM FuseConvolutionSum.step g

/-- MKLDNNGraphOptimizer::Optimize (lines 46 to 63). -/
def Optimize (g : MKLDNNGraph) : Option MKLDNNGraph :=
  match MergeGroupConvolution g with
  | none => none
  | some g1 =>
    match FuseConvolutionAndActivation (RemoveDropped g1) with
    | none => none
    | some g2 =>
      match FuseBatchNormWithScale (RemoveDropped g2) with
      | none => none
      | some g3 =>
        match RemoveIdentityOperator (RemoveDropped g3) with
        | none => none
        | some g4 =>
          match FuseConvolutionSumAndConvolutionSumActivation (RemoveDropped g4) with
          | none => none
          | some g5 => some (RemoveDroppedEdges (RemoveDropped g5))

end MKLDNNPlugin

namespace MKLDNNPlugin

/-- A node record with the given kind, name, layer descriptor and edge handles;
the other fields start empty. -/
def mkNode (type : NodeType) (name : String) (cnnLayer : Option CNNLayer)
    (parentEdges childEdges : List EdgeId) : MKLDNNNode :=
  { type := type, name := name, cnnLayer := cnnLayer,
    parentEdges := parentEdges.map some, childEdges := childEdges.map some,
    fusedWith := [], mergedWith := [], inDims := [], outDims := [], eltwise := none }

/-- The record found at handles that were never allocated. -/
def nullNode : MKLDNNNode := mkNode .Generic "" none [] []

/-- A graph that owns the listed nodes and edges; handles are list positions. -/
def mkGraph (nodes : List MKLDNNNode) (edges : List MKLDNNEdge)
    (outputNodes : List NodeId) : MKLDNNGraph :=
  { node := fun n => nodes.getD n nullNode
    edge := fun e => edges.getD e ⟨0, 0, []⟩
    graphNodes := List.range nodes.length
    graphEdges := List.range edges.length
    outputNodes := outputNodes
    edgeCount := edges.length }

end MKLDNNPlugin

/-! The lowering stages of the VPU graph transformer (`stages/fc.cpp`,
`stages/norm.cpp`, `stages/elu.cpp`, `stages/none.cpp`) and the blob
constructor of `ie_blob.h`.

The header `graph_transformer_impl.hpp` is not among the sources; the classes
it declares are modelled as far as the stage files use them. -/

namespace VPU

/-- A `float` as its 32-bit pattern. -/
abbrev Float32 := Nat

/-- An `ie_fp16` as its 16-bit pattern. -/
abbrev Half := Nat

/-- The ways a call can end without a result: a thrown exception
(`THROW_IE_EXCEPTION`), a failed `assert`, or undefined behaviour (a vector read
out of range, a null pointer dereferenced). -/
inductive Error
  | exception (what : String)
  | assertion
  | undefined
  deriving DecidableEq

/-- Modelled from the spec: PrecisionUtils::f32tof16, not among the sources: the
conversion of a single-precision value to IEEE half precision, rounding to the
nearest value, ties to even; values too large become infinity. -/
def f32tof16 (x : Float32) : Half :=
  let sign := (x / 2 ^ 31) % 2
  let exp := (x / 2 ^ 23) % 2 ^ 8
  let man := x % 2 ^ 23
  let s := sign * 2 ^ 15
  if exp = 255 then
    if man = 0 then s + 0x7C00 else s + 0x7E00 + (man / 2 ^ 13) % 2 ^ 9
  else if exp ≥ 143 then s + 0x7C00
  else if exp ≥ 113 then
    let h := (exp - 112) * 2 ^ 10 + man / 2 ^ 13
    let rem := man % 2 ^ 13
    s + (if rem > 2 ^ 12 ∨ (rem = 2 ^ 12 ∧ h % 2 = 1) then h + 1 else h)
  else if exp ≥ 102 then
    let full := man + 2 ^ 23
    let shift := 126 - exp
    let h := full / 2 ^ shift
    let rem := full % 2 ^ shift
    let half := 2 ^ (shift - 1)
    s + (if rem > half ∨ (rem = half ∧ h % 2 = 1) then h + 1 else h)
  else s

/-- A handle to a Data object of the lowering: its position in the list of Data
objects of the transformer. -/
abbrev VpuDataHandle := Nat

/-- Modelled from the spec: what the class BlobWriter (not among the sources)
receives, in order. The writer is append-only; `write` appends a value with
the width of its C++ type, and a Data object serializes itself through its
own `dumpToBlob`, which is recorded here as one item. -/
inductive Item
  | u32 (v : Nat)
  | f16 (v : Half)
  | data (h : VpuDataHandle)
  | defaultData
  deriving DecidableEq

/-- The writer: the items written so far, oldest first. -/
abbrev BlobWriter := List Item

/-- The call `writer.write(v)` for a `uint32_t`. -/
def BlobWriter.write32 (w : BlobWriter) (v : Nat) : BlobWriter :=
  w ++ [Item.u32 (v % 2 ^ 32)]

/-- The call `writer.write(v)` for an `ie_fp16`. -/
def BlobWriter.write16 (w : BlobWriter) (v : Half) : BlobWriter :=
  w ++ [Item.f16 (v % 2 ^ 16)]

/-- The call `h->dumpToBlob(writer)` on the handle at position `i` of a vector of
handles; reading the vector out of range is undefined. -/
def dumpHandleAt (w : BlobWriter) (hs : List VpuDataHandle) (i : Nat) :
    Except Error BlobWriter :=
  match hs.get? i with
  | none => .error .undefined
  | some h => .ok (w ++ [Item.data h])

/-- The scalar parameters a stage captures when it is built. -/
inductive StageParams
  | plain
  | elu (alpha : Float32)
  | lrn (size : Nat) (k alpha beta : Float32)
  deriving DecidableEq

end VPU

namespace VPU

/-- Modelled from the spec: the element types of a Data object (the enumeration
VpuDataType is not among the sources; the stage files use `FP16` only). -/
inductive VpuDataType
  | FP16
  | other (tag : Nat)
  deriving DecidableEq

/-- Modelled from the spec: where a Data object lives (the enumeration is not
among the sources; the stage files use `IndexBlob` only). -/
inductive VpuDataIndex
  | IndexBlob
  | other (tag : Nat)
  deriving DecidableEq

/-- Modelled from the spec: the logical dimension order of a Data object (not
among the sources; the stage files use `orderXYZ` only). -/
inductive VpuDataOrder
  | orderXYZ
  | other (tag : Nat)
  deriving DecidableEq

/-- Modelled from the spec: the enumeration `Dim` that indexes a `VpuDims`. -/
inductive Dim
  | X
  | Y
  | Z
  deriving DecidableEq

/-- The position a `Dim` selects. -/
def Dim.toNat : Dim → Nat
  | .X => 0
  | .Y => 1
  | .Z => 2

/-- Modelled from the spec: the class VpuDims, not among the sources: a short
vector of 32-bit unsigned sizes (line 105 of fc.cpp casts to `uint32_t` to build
one), indexed by `Dim`. -/
abbrev VpuDims := List Nat

/-- The byte strides of a Data object. -/
abbrev VpuStrides := List Nat

/-- The read `dims[d]`; undefined past the end of the vector. -/
def VpuDims.at (dims : VpuDims) (d : Dim) : Except Error Nat :=
  match dims.get? d.toNat with
  | none => .error .undefined
  | some v => .ok v

/-- A blob of trained parameters (`Blob::Ptr`), as far as the lowering looks at
it: its identity and its number of elements. -/
structure Blob where
  tag : Nat
  size : Nat
  deriving DecidableEq

/-- The deferred value-producing function of a Data object. -/
inductive DataWriter
  | DefaultWeightsWriter (dims : VpuDims) (weights : Blob)
  | DefaultBiasesWriter (biases : Blob)
  deriving DecidableEq

/-- Modelled from the spec: the class VpuData, not among the sources: a named,
typed buffer descriptor with the fields the stage files assign. -/
structure VpuData where
  name : String
  index : VpuDataIndex
  type : VpuDataType
  order : VpuDataOrder
  dims : VpuDims
  strides : VpuStrides
  writer : Option DataWriter
  deriving DecidableEq

/-- The classes of layer descriptors the stage files cast to, with the fields they
read. -/
inductive LayerClass
  | CNNLayer
  | FullyConnectedLayer (_weights _biases : Option Blob)
  | NormLayer (_size : Nat) (_k _alpha _beta : Float32)
  deriving DecidableEq

/-- Modelled from the spec: the class CNNLayer as the lowering sees it: the name,
the parameters `GetParamAsFloat` can read, and the dynamic class. -/
structure CNNLayer where
  name : String
  params : List (String × Float32)
  cls : LayerClass
  deriving DecidableEq

/-- The call `layer->GetParamAsFloat(param, def)`. -/
def CNNLayer.GetParamAsFloat (layer : CNNLayer) (param : String) (dflt : Float32) : Float32 :=
  match layer.params.lookup param with
  | none => dflt
  | some v => v

/-- The operator-kind tags the stage files pass to `addNewStage`. -/
inductive VpuStageType
  | kNone0
  | kFC
  | kBias
  | kElu
  | kLRN
  deriving DecidableEq

/-- The stage classes the stage files instantiate. -/
inductive StageClass
  | VpuStage
  | VpuFullyConnectedStage
  | VpuBiasStage
  | VpuEluStage
  | VpuLRNStage
  deriving DecidableEq

/-- A handle to a stage: the number of stages created before it. -/
abbrev VpuStageHandle := Nat

/-- Modelled from the spec: the class VpuStage and its subclasses, not among the
sources: a unit of computation with an operator-kind tag, the layer it comes
from, the scalar parameters fixed at construction, ordered inputs and outputs,
and the stage it accumulates into (`parentOp`), if any. -/
structure VpuStage where
  handle : VpuStageHandle
  cls : StageClass
  name : String
  type : VpuStageType
  layer : Option CNNLayer
  params : StageParams
  inputs : List VpuDataHandle
  outputs : List VpuDataHandle
  parentOp : Option VpuStageHandle
  deriving DecidableEq

/-- What the absent header fixes and the stage files only call: the stride
function, the element count of a `VpuDims`, and the field values of a
default-constructed VpuData. -/
structure Header where
  calcStrides : VpuDims → VpuDataType → VpuDataOrder → VpuStrides
  totalSize : VpuDims → Nat
  blank : VpuData

/-- Modelled from the spec: the state of GraphTransformerImpl that the stage files
change: the Data objects (a handle is a position), the ordered stage list, and
the counters behind `newDataId` and the stage handles. -/
structure GraphTransformerImpl where
  datas : List VpuData
  stages : List VpuStage
  dataIds : Nat
  stageCount : Nat
  deriving DecidableEq

end VPU

namespace VPU

/-- Modelled from the spec: GraphTransformerImpl::addNewData with a fresh
`newDataId()`, not among the sources: a default-constructed Data object is
passed through the initializer and appended; the handle of the new object is
returned. -/
def addNewData (hdr : Header) (s : GraphTransformerImpl) (init : VpuData → VpuData) :
    VpuDataHandle × GraphTransformerImpl :=
  (s.datas.length,
    { s with datas := s.datas ++ [init hdr.blank], dataIds := s.dataIds + 1 })

/-- Modelled from the spec: GraphTransformerImpl::addNewStage, not among the
sources: the stage is built from its arguments and placed at position `pos` of
the stage list, or at the end when no position is given; the handle of the new
stage is returned. -/
def addNewStage (s : GraphTransformerImpl) (cls : StageClass) (name : String)
    (type : VpuStageType) (layer : Option CNNLayer) (params : StageParams)
    (inputs outputs : List VpuDataHandle) (parentOp : Option VpuStageHandle)
    (pos : Option Nat) : VpuStageHandle × GraphTransformerImpl :=
  let stage : VpuStage :=
    { handle := s.stageCount, cls := cls, name := name, type := type, layer := layer,
      params := params, inputs := inputs, outputs := outputs, parentOp := parentOp }
  (s.stageCount,
    { s with
      stages :=
        match pos with
        | none => s.stages ++ [stage]
        | some p => s.stages.take p ++ stage :: s.stages.drop p
      stageCount := s.stageCount + 1 })

/-- VpuFullyConnectedStage::dumpToBlob (fc.cpp, lines 37 to 44). -/
def VpuFullyConnectedStage.dumpToBlob (stage : VpuStage) (writer : BlobWriter) :
    Except Error BlobWriter :=
  match dumpHandleAt writer stage.inputs 0 with
  | .error e => .error e
  | .ok w1 =>
    match dumpHandleAt w1 stage.outputs 0 with
    | .error e => .error e
    | .ok w2 =>
      match dumpHandleAt w2 stage.inputs 1 with
      | .error e => .error e
      | .ok w3 => .ok (w3 ++ [Item.defaultData])

/-- VpuEluStage::dumpToBlob (elu.cpp, lines 40 to 45): the 32 bits of `alpha` are
read as a `uint32_t` and written as such. -/
def VpuEluStage.dumpToBlob (alpha : Float32) (stage : VpuStage) (writer : BlobWriter) :
    Except Error BlobWriter :=
  match dumpHandleAt (writer.write32 alpha) stage.inputs 0 with
  | .error e => .error e
  | .ok w1 => dumpHandleAt w1 stage.outputs 0

/-- VpuLRNStage::dumpToBlob (norm.cpp, lines 43 to 52). -/
def VpuLRNStage.dumpToBlob (size : Nat) (k alpha beta : Float32) (stage : VpuStage)
    (writer : BlobWriter) : Except Error BlobWriter :=
  let w1 := writer.write32 size
  let w2 := w1.write16 (f32tof16 k)
  let w3 := w2.write16 (f32tof16 alpha)
  let w4 := w3.write16 (f32tof16 beta)
  let w5 := w4.write16 (f32tof16 0)
  match dumpHandleAt w5 stage.inputs 0 with
  | .error e => .error e
  | .ok w6 => dumpHandleAt w6 stage.outputs 0

/-- The virtual call `stage->dumpToBlob(writer)` for the stage classes whose
serializer is among the sources; the scalar parameters are the members the
stage was built with. -/
def VpuStage.dumpToBlob (stage : VpuStage) (writer : BlobWriter) :
    Option (Except Error BlobWriter) :=
  match stage.cls, stage.params with
  | .VpuFullyConnectedStage, _ => some (VpuFullyConnectedStage.dumpToBlob stage writer)
  | .VpuEluStage, .elu alpha => some (VpuEluStage.dumpToBlob alpha stage writer)
  | .VpuLRNStage, .lrn size k alpha beta =>
    some (VpuLRNStage.dumpToBlob size k alpha beta stage writer)
  | _, _ => none

/-- The dereference `h->dims` of a Data handle; undefined for a handle that names
no Data object. -/
def dimsOf (s : GraphTransformerImpl) (h : VpuDataHandle) : Except Error VpuDims :=
  match s.datas.get? h with
  | none => .error .undefined
  | some d => .ok d.dims

/-- GraphTransformerImpl::checkBatchFC (fc.cpp, lines 46 to 57). The state is
passed through to show that the call changes nothing. -/
def checkBatchFC (s : GraphTransformerImpl) (layer : Option CNNLayer)
    (inputs outputs : List VpuDataHandle) : Except Error GraphTransformerImpl :=
  match layer with
  | none => .error .assertion
  | some l =>
    match inputs.get? 0, outputs.get? 0 with
    | some _, some output =>
      match dimsOf s output with
      | .error e => .error e
      | .ok dims =>
        match dims.at .X, dims.at .Y with
        | .ok x, .ok y =>
          if x ≠ 1 ∨ y ≠ 1 then
            .error (.exception ("[VPU] FC output " ++ l.name ++ " has invalid batch"))
          else .ok s
        | .ok x, .error e => if x ≠ 1 then
            .error (.exception ("[VPU] FC output " ++ l.name ++ " has invalid batch"))
          else .error e
        | .error e, _ => .error e
    | _, _ => .error .undefined

end VPU

namespace VPU

/-- The multiplication of two `uint32_t` values. -/
def mulU32 (a b : Nat) : Nat := (a * b) % 2 ^ 32

/-- The initializer of the weights Data (fc.cpp, lines 79 to 87). -/
def parseFullyConnected.weightsInit (hdr : Header) (layer : CNNLayer) (weights : Blob)
    (wDims : VpuDims) (data : VpuData) : VpuData :=
  { data with
    name := layer.name ++ "@weights"
    index := .IndexBlob
    type := .FP16
    order := .orderXYZ
    dims := wDims
    strides := hdr.calcStrides wDims .FP16 .orderXYZ
    writer := some (.DefaultWeightsWriter wDims weights) }

/-- The initializer of the biases Data (fc.cpp, lines 101 to 108); the order is
the one the object was constructed with. -/
def parseFullyConnected.biasesInit (hdr : Header) (layer : CNNLayer) (biases : Blob)
    (data : VpuData) : VpuData :=
  { data with
    name := layer.name ++ "@biases"
    index := .IndexBlob
    type := .FP16
    dims := [biases.size % 2 ^ 32, 1, 1]
    strides := hdr.calcStrides [biases.size % 2 ^ 32, 1, 1] .FP16 data.order
    writer := some (.DefaultBiasesWriter biases) }

/-- Lines 89 to 119 of parseFullyConnected: the FullyConnected stage and, when the
layer has biases, the biases Data and the Bias stage. -/
def parseFullyConnected.stages (hdr : Header) (s : GraphTransformerImpl) (layer : CNNLayer)
    (biases : Option Blob) (input output weights : VpuDataHandle) : GraphTransformerImpl :=
  let r := addNewStage s .VpuFullyConnectedStage layer.name .kFC (some layer) .plain
    [input, weights] [output] none none
  match biases with
  | none => r.2
  | some b =>
    let d := addNewData hdr r.2 (parseFullyConnected.biasesInit hdr layer b)
    let name := match d.2.datas.get? d.1 with
      | some data => data.name
      | none => ""
    (addNewStage d.2 .VpuBiasStage name .kBias (some layer) .plain
      [output, d.1] [output] (some r.1) none).2

/-- GraphTransformerImpl::parseFullyConnected (fc.cpp, lines 59 to 120). -/
def parseFullyConnected (hdr : Header) (s : GraphTransformerImpl) (_layer : Option CNNLayer)
    (inputs outputs : List VpuDataHandle) : Except Error GraphTransformerImpl :=
  if inputs.length ≠ 1 then .error .assertion
  else if outputs.length ≠ 1 then .error .assertion
  else
    match _layer with
    | some ⟨name, params, .FullyConnectedLayer _weights _biases⟩ =>
      match inputs.get? 0, outputs.get? 0 with
      | some input, some output =>
        match dimsOf s input with
        | .error e => .error e
        | .ok idims =>
          match idims.at .X, idims.at .Y, idims.at .Z with
          | .ok ix, .ok iy, .ok iz =>
            match dimsOf s output with
            | .error e => .error e
            | .ok odims =>
              let wDims : VpuDims := [mulU32 ix iy, iz, hdr.totalSize odims]
              match _weights with
              | none => .error .assertion
              | some w =>
                let layer : CNNLayer := ⟨name, params, .FullyConnectedLayer _weights _biases⟩
                let d := addNewData hdr s (parseFullyConnected.weightsInit hdr layer w wDims)
                .ok (parseFullyConnected.stages hdr d.2 layer _biases input output d.1)
          | _, _, _ => .error .undefined
      | _, _ => .error .undefined
    | _ => .error .assertion

/-- GraphTransformerImpl::parseELU (elu.cpp, lines 47 to 64); the layer pointer is
dereferenced without a check. -/
def parseELU (s : GraphTransformerImpl) (layer : Option CNNLayer)
    (inputs outputs : List VpuDataHandle) : Except Error GraphTransformerImpl :=
  if inputs.length ≠ 1 then .error .assertion
  else if outputs.length ≠ 1 then .error .assertion
  else
    match layer with
    | none => .error .undefined
    | some l =>
      .ok (addNewStage s .VpuEluStage l.name .kElu layer
        (.elu (l.GetParamAsFloat "alpha" 0x3F800000)) inputs outputs none none).2

/-- GraphTransformerImpl::parseNorm (norm.cpp, lines 54 to 75). -/
def parseNorm (s : GraphTransformerImpl) (_layer : Option CNNLayer)
    (inputs outputs : List VpuDataHandle) : Except Error GraphTransformerImpl :=
  if inputs.length ≠ 1 then .error .assertion
  else if outputs.length ≠ 1 then .error .assertion
  else
    match _layer with
    | some ⟨name, params, .NormLayer _size _k _alpha _beta⟩ =>
      .ok (addNewStage s .VpuLRNStage name .kLRN
        (some ⟨name, params, .NormLayer _size _k _alpha _beta⟩)
        (.lrn _size _k _alpha _beta) inputs outputs none none).2
    | _ => .error .assertion

/-- GraphTransformerImpl::addNoneStage (none.cpp, lines 38 to 54). -/
def addNoneStage (s : GraphTransformerImpl) (name : String) (layer : Option CNNLayer)
    (inputs outputs : List VpuDataHandle) (pos : Option Nat) :
    VpuStageHandle × GraphTransformerImpl :=
  addNewStage s .VpuStage name .kNone0 layer .plain inputs outputs none pos

end VPU

namespace InferenceEngine

/-- The type `SizeVector`, a vector of `size_t`. -/
abbrev SizeVector := List Nat

/-- The method Blob::product (ie_blob.h, lines 248 to 252): 0 for an empty vector,
else the product accumulated in `size_t` from 1. -/
def Blob.product (dims : SizeVector) : Nat :=
  if dims.isEmpty then 0
  else dims.foldl (fun acc d => (acc * d) % 2 ^ 64) 1

/-- Modelled from the spec: the class TensorDesc, not among the sources, as far as
the blob constructor reads it: the dimensions. -/
structure TensorDesc where
  dims : SizeVector
  deriving DecidableEq

/-- The method Blob::size (lines 194 to 196). -/
def Blob.size (tensorDesc : TensorDesc) : Nat :=
  Blob.product tensorDesc.dims

/-- A blob on attached memory after construction: its description, and the
pre-allocator made from the pointer and the size. `none` is the null pointer. -/
structure TBlob where
  tensorDesc : TensorDesc
  allocatorPtr : Option Nat
  allocatorSize : Nat
  deriving DecidableEq

/-- The constructor `TBlob(const TensorDesc&, T* ptr, size_t data_sze = 0)` (lines
305 to 312). The parameter `data_sze` is not read. The call `allocate()` at the
end asks the pre-allocator for the attached memory and does not throw. -/
def TBlob.onMemory (tensorDesc : TensorDesc) (ptr : Option Nat) (_data_sze : Nat) :
    Except String TBlob :=
  if Blob.size tensorDesc ≠ 0 ∧ ptr = none then
    .error "Using Blob on external nullptr memory"
  else
    .ok { tensorDesc := tensorDesc, allocatorPtr := ptr,
          allocatorSize := Blob.size tensorDesc }

end InferenceEngine

/-! The forward pass of ROI pooling (`jit_uni_roi_pooling.cpp`) and the control
flow of the kernel it calls (`jit_uni_roi_pool_kernel_f32.cpp`). -/

namespace RoiPooling

/-- The value an `int` holds after an arithmetic result `x`: a result in the range
of the type is kept; a result out of range (signed overflow, undefined in C++)
is taken to wrap around, as the x86 instructions the code compiles to do. -/
def wrapInt (x : Int) : Int :=
  (x + 2 ^ 31) % 2 ^ 32 - 2 ^ 31

/-- The sum of two `int`. -/
def addInt (a b : Int) : Int := wrapInt (a + b)

/-- The difference of two `int`. -/
def subInt (a b : Int) : Int := wrapInt (a - b)

/-- The product of two `int`. -/
def mulInt (a b : Int) : Int := wrapInt (a * b)

/-- The quotient of two `int`, truncated toward zero. Division by zero is
undefined in C++; here it gives 0. -/
def divInt (a b : Int) : Int := wrapInt (Int.tdiv a b)

/-- The remainder of two `int`, with the sign of the dividend. -/
def modInt (a b : Int) : Int := Int.tmod a b

/-- Modelled from the spec: utils::div_up of utils.hpp, not among the sources: the
quotient rounded up, computed as `(a + b - 1) / b`. -/
def div_up (a b : Int) : Int :=
  divInt (subInt (addInt a b) 1) b

/-- The fields of `jit_roi_pool_conf_t` that execute_forward and generate read. -/
structure jit_roi_pool_conf_t where
  nb_c : Int
  nb_c_blocking : Int
  ih : Int
  iw : Int
  pooled_h : Int
  pooled_w : Int

/-- The fields of `jit_roi_pool_call_s` that execute_forward computes. -/
structure jit_roi_pool_call_s where
  c_blocks : Int
  bin_area : Int
  kh : Int
  kw : Int
  deriving DecidableEq

/-- Line 54: the number of channel work items, `cb_work`. -/
def execute_forward.cb_work (jpp : jit_roi_pool_conf_t) : Int :=
  div_up jpp.nb_c jpp.nb_c_blocking

/-- Lines 79 to 82: the value of `arg.c_blocks` for the channel work index `cbb`. -/
def execute_forward.c_blocks (jpp : jit_roi_pool_conf_t) (cbb : Int) : Int :=
  let cb := mulInt cbb jpp.nb_c_blocking
  let cb_num := jpp.nb_c_blocking
  subInt (min (addInt cb cb_num) jpp.nb_c) cb

/-- Lines 102 and 103: the extent of the region along one axis. -/
def execute_forward.roi_size (roi_start roi_end : Int) : Int :=
  max (addInt (subInt roi_end roi_start) 1) 1

/-- Lines 106 and 111: the quotient the start of a bin is computed from. -/
def execute_forward.start0 (pooled roi_size o : Int) : Int :=
  divInt (mulInt o roi_size) pooled

/-- The conditions of lines 107 and 112: whether the start is decremented. -/
def execute_forward.startDec (pooled roi_size o : Int) : Bool :=
  decide (mulInt (execute_forward.start0 pooled roi_size o) pooled > mulInt o roi_size)

/-- Lines 106 to 114: the start of the bin `o` along one axis, relative to the
region. -/
def execute_forward.start1 (pooled roi_size o : Int) : Int :=
  if execute_forward.startDec pooled roi_size o then
    subInt (execute_forward.start0 pooled roi_size o) 1
  else execute_forward.start0 pooled roi_size o

/-- Lines 116 and 121: the quotient the end of a bin is computed from. -/
def execute_forward.end0 (pooled roi_size o : Int) : Int :=
  divInt (mulInt (addInt o 1) roi_size) pooled

/-- Lines 116 to 124: the end of the bin `o` along one axis, relative to the
region. -/
def execute_forward.end1 (pooled roi_size o : Int) : Int :=
  if mulInt (execute_forward.end0 pooled roi_size o) pooled < mulInt (addInt o 1) roi_size then
    addInt (execute_forward.end0 pooled roi_size o) 1
  else execute_forward.end0 pooled roi_size o

/-- Lines 125 to 128: a bin bound moved to the region and clamped to the input. -/
def execute_forward.clamp (x roi_start i : Int) : Int :=
  min (max (addInt x roi_start) 0) i

/-- Lines 75 to 133 for one work item of a region that is present (`n <
real_rois`): the argument record passed to the kernel. The region bounds are
the rounded, scaled coordinates of lines 97 to 100. -/
def execute_forward.args (jpp : jit_roi_pool_conf_t)
    (cbb roi_start_w roi_start_h roi_end_w roi_end_h oh ow : Int) : jit_roi_pool_call_s :=
  let roi_height := execute_forward.roi_size roi_start_h roi_end_h
  let roi_width := execute_forward.roi_size roi_start_w roi_end_w
  let hstart := execute_forward.clamp (execute_forward.start1 jpp.pooled_h roi_height oh)
    roi_start_h jpp.ih
  let hend := execute_forward.clamp (execute_forward.end1 jpp.pooled_h roi_height oh)
    roi_start_h jpp.ih
  let wstart := execute_forward.clamp (execute_forward.start1 jpp.pooled_w roi_width ow)
    roi_start_w jpp.iw
  let wend := execute_forward.clamp (execute_forward.end1 jpp.pooled_w roi_width ow)
    roi_start_w jpp.iw
  { c_blocks := execute_forward.c_blocks jpp cbb
    bin_area := mulInt (subInt hend hstart) (subInt wend wstart)
    kh := subInt hend hstart
    kw := subInt wend wstart }

/-- The paths through the code that generate emits: the pooling loops over a
number of channel blocks, the zero fill of a number of channel blocks, or the
jump to the exit without any store. -/
inductive KernelPath
  | roi_pool (c_blocks : Int)
  | empty_roi (c_blocks : Int)
  | exit
  deriving DecidableEq

/-- The control flow of the code emitted by jit_uni_roi_pool_kernel_f32::generate
(lines 119 to 188) for the values of `c_blocks` and `bin_area` in the argument
record: which of the emitted blocks runs. -/
def generate (jpp : jit_roi_pool_conf_t) (c_blocks bin_area : Int) : KernelPath :=
  let nb_c_tail := modInt jpp.nb_c jpp.nb_c_blocking
  if c_blocks ≠ jpp.nb_c_blocking then
    if nb_c_tail ≠ 0 then
      if bin_area = 0 then .empty_roi nb_c_tail
      else if c_blocks ≠ nb_c_tail then .exit
      else .roi_pool nb_c_tail
    else .exit
  else if bin_area = 0 then .empty_roi jpp.nb_c_blocking
  else .roi_pool jpp.nb_c_blocking

end RoiPooling

namespace MKLDNNPlugin

/-! ## Reachability, well-formedness and the graphs used as concrete inputs -/

/-- The consumers a node reaches through its live child references, in port
order; a reference that is dead, or whose consumer is gone, gives none. -/
def children (g : MKLDNNGraph) (u : NodeId) : List NodeId :=
  (g.node u).childEdges.filterMap (fun w => (lock g w).bind (getChild g))

/-- The live parent edges of a node, in port order. -/
def liveParentEdges (g : MKLDNNGraph) (n : NodeId) : List EdgeId :=
  (g.node n).parentEdges.filterMap (lock g)

/-- The live child edges of a node, in port order. -/
def liveChildEdges (g : MKLDNNGraph) (n : NodeId) : List EdgeId :=
  (g.node n).childEdges.filterMap (lock g)

/-- One step along a child edge. -/
def childRel (g : MKLDNNGraph) (u v : NodeId) : Prop :=
  v ∈ children g u

/-- There is a directed path of child edges from `u` to `v` (possibly empty). -/
def Reachable (g : MKLDNNGraph) (u v : NodeId) : Prop :=
  Relation.ReflTransGen (childRel g) u v

/-- Two producers `p0` (0) and `p1` (1) feed node `n` (2), which feeds `c` (3). -/
def twoParentsGraph : MKLDNNGraph :=
  mkGraph
    [mkNode .Generic "p0" none [] [0], mkNode .Generic "p1" none [] [1],
     mkNode .Copy "n" none [0, 1] [2], mkNode .Generic "c" none [2] []]
    [⟨0, 2, []⟩, ⟨1, 2, []⟩, ⟨2, 3, []⟩] []

/-- Node `n` (0) has no producer and feeds `c` (1). -/
def noParentGraph : MKLDNNGraph :=
  mkGraph [mkNode .Copy "n" none [] [0], mkNode .Generic "c" none [0] []]
    [⟨0, 1, []⟩] []

/-- Node `n` (1) is fed by `p` (0) and has no consumer. -/
def noChildGraph : MKLDNNGraph :=
  mkGraph [mkNode .Generic "p" none [] [0], mkNode .Copy "n" none [0] []]
    [⟨0, 1, []⟩] []

/-- An input (0) feeds a convolution (1) whose only child is a ReLU activation (2)
that is the last layer of the network. -/
def convReluLastGraph : MKLDNNGraph :=
  mkGraph
    [mkNode .Input "in" none [] [0],
     mkNode .Convolution "conv" (some (.Base "Convolution")) [0] [1],
     mkNode .Activation "relu" (some (.Base "ReLU")) [1] []]
    [⟨0, 1, []⟩, ⟨1, 2, []⟩] [2]

/-- The graph `convReluLastGraph` with an output node (3) behind the activation. -/
def convReluGraph : MKLDNNGraph :=
  mkGraph
    [mkNode .Input "in" none [] [0],
     mkNode .Convolution "conv" (some (.Base "Convolution")) [0] [1],
     mkNode .Activation "relu" (some (.Base "ReLU")) [1] [2],
     mkNode .Output "out" none [2] []]
    [⟨0, 1, []⟩, ⟨1, 2, []⟩, ⟨2, 3, []⟩] [3]

/-- A convolution of the split/concat scenario with 4 channels in and out. -/
def branchConv (name : String) (pe ce : EdgeId) : MKLDNNNode :=
  { mkNode .Convolution name (some (.Base "Convolution")) [pe] [ce] with
    inDims := [[1, 4, 8, 8]], outDims := [[1, 4, 8, 8]] }

/-- An input (0) feeds a Split (1) with three convolution branches (2, 3, 4) of 4
channels each that meet in a Concatenation (5), the last layer of the network. -/
def splitConcatLastGraph : MKLDNNGraph :=
  mkGraph
    [mkNode .Input "in" none [] [0], mkNode .Split "split" none [0] [1, 2, 3],
     branchConv "c0" 1 4, branchConv "c1" 2 5, branchConv "c2" 3 6,
     mkNode .Concatenation "concat" none [4, 5, 6] []]
    [⟨0, 1, [1, 12, 8, 8]⟩, ⟨1, 2, [1, 4, 8, 8]⟩, ⟨1, 3, [1, 4, 8, 8]⟩, ⟨1, 4, [1, 4, 8, 8]⟩,
     ⟨2, 5, [1, 4, 8, 8]⟩, ⟨3, 5, [1, 4, 8, 8]⟩, ⟨4, 5, [1, 4, 8, 8]⟩] [5]

/-- The graph `splitConcatLastGraph` with an output node (6) behind the
Concatenation. -/
def splitConcatGraph : MKLDNNGraph :=
  mkGraph
    [mkNode .Input "in" none [] [0], mkNode .Split "split" none [0] [1, 2, 3],
     branchConv "c0" 1 4, branchConv "c1" 2 5, branchConv "c2" 3 6,
     mkNode .Concatenation "concat" none [4, 5, 6] [7], mkNode .Output "out" none [7] []]
    [⟨0, 1, [1, 12, 8, 8]⟩, ⟨1, 2, [1, 4, 8, 8]⟩, ⟨1, 3, [1, 4, 8, 8]⟩, ⟨1, 4, [1, 4, 8, 8]⟩,
     ⟨2, 5, [1, 4, 8, 8]⟩, ⟨3, 5, [1, 4, 8, 8]⟩, ⟨4, 5, [1, 4, 8, 8]⟩, ⟨5, 6, [1, 12, 8, 8]⟩] [6]

/-- The kinds of the nodes that the graph still owns, in list order. -/
def kinds (g : MKLDNNGraph) : List NodeType :=
  g.graphNodes.map (fun n => (g.node n).type)

/-- The endpoints of the edges that the graph still owns, in list order. -/
def endpoints (g : MKLDNNGraph) : List (NodeId × NodeId) :=
  g.graphEdges.map (fun e => ((g.edge e).parent, (g.edge e).child))

/-- The graph that DropNode leaves for `twoParentsGraph` and its node 2. -/
def twoParentsDropped : MKLDNNGraph :=
  (DropNode twoParentsGraph 2).getD twoParentsGraph

/-- Every child reference of every node the graph owns is live and leads to a
consumer the graph owns. -/
def childRefsLive (g : MKLDNNGraph) : Bool :=
  g.graphNodes.all (fun n =>
    (g.node n).childEdges.all (fun w => ((lock g w).bind (getChild g)).isSome))

/-- The number of owned nodes not yet in the visited set. -/
def unvisited (g : MKLDNNGraph) (visited : List (Option NodeId)) : Nat :=
  g.graphNodes.countP (fun n => decide (some n ∉ visited))

/-- Every parent reference of every node the graph owns is live. -/
def parentRefsLive (g : MKLDNNGraph) : Bool :=
  g.graphNodes.all (fun n => (g.node n).parentEdges.all (fun w => (lock g w).isSome))

/-- A sum node with unit scales (0-based handles of its two parent edges and its
child edges are given). -/
def sumNode (parentEdges childEdges : List EdgeId) : MKLDNNNode :=
  { mkNode .Eltwise "sum" (some (.Base "Eltwise")) parentEdges childEdges with
    eltwise := some (true, true) }

/-- Convolutions `A` (2) and `B` (3), each fed by an input (0, 1), feed the sum
node (4) in this order; `B` has a further consumer `D` (5) that leads nowhere;
the sum feeds the output (6). -/
def sumRejectGraph : MKLDNNGraph :=
  mkGraph
    [mkNode .Input "in1" none [] [0], mkNode .Input "in2" none [] [1],
     mkNode .Convolution "A" (some (.Base "Convolution")) [0] [2],
     mkNode .Convolution "B" (some (.Base "Convolution")) [1] [3, 4],
     sumNode [2, 3] [5], mkNode .Generic "D" none [4] [], mkNode .Output "out" none [5] []]
    [⟨0, 2, []⟩, ⟨1, 3, []⟩, ⟨2, 4, []⟩, ⟨3, 4, []⟩, ⟨3, 5, []⟩, ⟨4, 6, []⟩] [6]

end MKLDNNPlugin

namespace MKLDNNPlugin

/-- The pattern denotes the number 1 (sign 0, exponent 127, fraction 0). -/
def f32DenotesOne (x : F32) : Bool :=
  decide (x % 2 ^ 32 = 0x3F800000)

/-- The pattern denotes the number 0 (plus or minus zero). -/
def f32DenotesZero (x : F32) : Bool :=
  decide (x % 2 ^ 32 = 0 ∨ x % 2 ^ 32 = 0x80000000)

/-- The no-op test in the words of the spec: a power-law node with exponent 1,
unit scale and zero offset, a scale/shift node with no weights and no bias, or
a copy node. -/
def isIdentityOperator (v : MKLDNNNode) : Bool :=
  match v.type with
  | .Power =>
    match v.cnnLayer with
    | some (.PowerLayer _ power scale offset) =>
      f32DenotesOne power && f32DenotesOne scale && f32DenotesZero offset
    | _ => false
  | .ScaleShift =>
    match v.cnnLayer with
    | some (.ScaleShiftLayer _ w b) => !w && !b
    | _ => false
  | .Copy => true
  | _ => false

/-- The layer descriptor of a Power node is a PowerLayer and that of a ScaleShift
node is a ScaleShiftLayer. -/
def layerMatchesKind (v : MKLDNNNode) : Bool :=
  match v.type with
  | .Power =>
    match v.cnnLayer with
    | some (.PowerLayer _ _ _ _) => true
    | _ => false
  | .ScaleShift =>
    match v.cnnLayer with
    | some (.ScaleShiftLayer _ _ _) => true
    | _ => false
  | _ => true

/-- The kind and the layer descriptor of every node are the same in both graphs. -/
def SameLayers (g g1 : MKLDNNGraph) : Prop :=
  ∀ n, (g1.node n).type = (g.node n).type ∧ (g1.node n).cnnLayer = (g.node n).cnnLayer

/-- An input (0) feeds a Power node with exponent 1, scale 1, offset 0 (1), then
a Power node with exponent 2 (2), a ScaleShift node without weights and biases
(3), a ScaleShift node with weights (4), a Copy node (5) and the output (6). -/
def identityChainGraph : MKLDNNGraph :=
  mkGraph
    [mkNode .Input "in" none [] [0],
     mkNode .Power "pow1" (some (.PowerLayer "Power" 0x3F800000 0x3F800000 0)) [0] [1],
     mkNode .Power "pow2" (some (.PowerLayer "Power" 0x40000000 0x3F800000 0)) [1] [2],
     mkNode .ScaleShift "ss0" (some (.ScaleShiftLayer "ScaleShift" false false)) [2] [3],
     mkNode .ScaleShift "ss1" (some (.ScaleShiftLayer "ScaleShift" true false)) [3] [4],
     mkNode .Copy "copy" none [4] [5],
     mkNode .Output "out" none [5] []]
    [⟨0, 1, []⟩, ⟨1, 2, []⟩, ⟨2, 3, []⟩, ⟨3, 4, []⟩, ⟨4, 5, []⟩, ⟨5, 6, []⟩] [6]

end MKLDNNPlugin

namespace MKLDNNPlugin

/-- An input (0) feeds convolution `B` (1); `B` feeds the sum (4) and a further
consumer `D` (2); `D` feeds convolution `A` (3), which feeds the sum as its
first parent; the sum feeds the output (5). -/
def sumFuseGraph : MKLDNNGraph :=
  mkGraph
    [mkNode .Input "in" none [] [0],
     mkNode .Convolution "B" (some (.Base "Convolution")) [0] [1, 2],
     mkNode .Generic "D" none [2] [3],
     mkNode .Convolution "A" (some (.Base "Convolution")) [3] [4],
     sumNode [4, 1] [5], mkNode .Output "out" none [5] []]
    [⟨0, 1, []⟩, ⟨1, 4, []⟩, ⟨1, 2, []⟩, ⟨2, 3, []⟩, ⟨3, 4, []⟩, ⟨4, 5, []⟩] [5]

/-- The graph `sumFuseGraph` with a ReLU activation (5) between the sum (4) and
the output (6). -/
def sumFuseReluGraph : MKLDNNGraph :=
  mkGraph
    [mkNode .Input "in" none [] [0],
     mkNode .Convolution "B" (some (.Base "Convolution")) [0] [1, 2],
     mkNode .Generic "D" none [2] [3],
     mkNode .Convolution "A" (some (.Base "Convolution")) [3] [4],
     sumNode [4, 1] [5], mkNode .Activation "relu" (some (.Base "ReLU")) [5] [6],
     mkNode .Output "out" none [6] []]
    [⟨0, 1, []⟩, ⟨1, 4, []⟩, ⟨1, 2, []⟩, ⟨2, 3, []⟩, ⟨3, 4, []⟩, ⟨4, 5, []⟩, ⟨5, 6, []⟩] [6]

/-- The producers of the live parent edges of a node, in port order. -/
def parents (g : MKLDNNGraph) (n : NodeId) : List NodeId :=
  (g.node n).parentEdges.filterMap (fun w => (lock g w).bind (getParent g))

/-- An input (0) feeds a convolution (1), a Copy node (2), a ReLU activation (3)
and the output (4), in a chain. -/
def convCopyReluGraph : MKLDNNGraph :=
  mkGraph
    [mkNode .Input "in" none [] [0],
     mkNode .Convolution "conv" (some (.Base "Convolution")) [0] [1],
     mkNode .Copy "copy" none [1] [2],
     mkNode .Activation "relu" (some (.Base "ReLU")) [2] [3],
     mkNode .Output "out" none [3] []]
    [⟨0, 1, []⟩, ⟨1, 2, []⟩, ⟨2, 3, []⟩, ⟨3, 4, []⟩] [4]

end MKLDNNPlugin

namespace MKLDNNPlugin

/-- The references of the graph are consistent: every owned edge has a handle
below `edgeCount`; every reference held by an owned node is to a handle below
`edgeCount`, and when it is live the edge has that node as the endpoint on
this side and an owned node on the other side. -/
def Consistent (g : MKLDNNGraph) : Prop :=
  (∀ e ∈ g.graphEdges, e < g.edgeCount) ∧
  (∀ n ∈ g.graphNodes, ∀ e, some e ∈ (g.node n).parentEdges →
    e < g.edgeCount ∧
      (e ∈ g.graphEdges → (g.edge e).child = n ∧ (g.edge e).parent ∈ g.graphNodes)) ∧
  (∀ n ∈ g.graphNodes, ∀ e, some e ∈ (g.node n).childEdges →
    e < g.edgeCount ∧
      (e ∈ g.graphEdges → (g.edge e).parent = n ∧ (g.edge e).child ∈ g.graphNodes))

/-- The list `l1` is `l` with some references reset. -/
def Shrinks (l l1 : List MKLDNNEdgeWeakPtr) : Prop :=
  List.Forall₂ (fun a b => b = a ∨ b = none) l l1

/-- The graphs agree on the node list, the edge list and the edge records. -/
def SameFrame (g g1 : MKLDNNGraph) : Prop :=
  g1.graphNodes = g.graphNodes ∧ g1.graphEdges = g.graphEdges ∧ g1.edge = g.edge ∧
    g1.edgeCount = g.edgeCount

/-- Relative to `g`, the lists of `g1` hold no reference that the same list of `g`
did not hold, but for the edge `E` in the lists of its own endpoints. -/
def RefsFrom (g g1 : MKLDNNGraph) (E : EdgeId) : Prop :=
  SameFrame g g1 ∧
  ∀ m e,
    (some e ∈ (g1.node m).parentEdges →
      some e ∈ (g.node m).parentEdges ∨ (e = E ∧ getChild g E = some m)) ∧
    (some e ∈ (g1.node m).childEdges →
      some e ∈ (g.node m).childEdges ∨ (e = E ∧ getParent g E = some m))

/-- The list `l1` is `l` with some references reset, and only references to an
edge that satisfies `P`. -/
def ShrinksBy (P : EdgeId → Prop) (l l1 : List MKLDNNEdgeWeakPtr) : Prop :=
  List.Forall₂ (fun a b => b = a ∨ (b = none ∧ ∃ e, a = some e ∧ P e)) l l1

/-- What the loop of lines 327 to 336 needs of the graph `G` it starts on: the
references are consistent; `lastNode` and `mergedConv` are distinct owned
nodes; every child reference of `lastNode` is live and no two are the same;
`mergedConv` is not a consumer of `lastNode`; the list lengths fit `size_t`. -/
structure RewireHyp (G : MKLDNNGraph) (mergedConv lastNode : NodeId) : Prop where
  cons : Consistent G
  ln_mem : lastNode ∈ G.graphNodes
  mc_mem : mergedConv ∈ G.graphNodes
  ne : lastNode ≠ mergedConv
  live : ∀ w ∈ (G.node lastNode).childEdges, ∃ e, w = some e ∧ e ∈ G.graphEdges
  nodup : (G.node lastNode).childEdges.Nodup
  kid : mergedConv ∉ children G lastNode
  size : (G.node lastNode).childEdges.length < 2 ^ 64
  psize : ∀ c ∈ children G lastNode,
    (G.node c).parentEdges.length + (G.node lastNode).childEdges.length < 2 ^ 64

/-- The state of the loop of lines 327 to 336 before position `j`, relative to
the graph `G` the loop started on: the edges of `G` and their records are
kept; the child references of `lastNode` from position `j` on are untouched;
the child list of `mergedConv` holds, at each position `t` below `j`, a new live
edge into the consumer of the child edge `t` of `lastNode`, and old references
from position `j` on; an edge of `G` that neither leaves `mergedConv` nor
enters a consumer of `lastNode` is still listed wherever it was. -/
structure RewireInv (G : MKLDNNGraph) (mergedConv lastNode : NodeId) (j : Nat)
    (γ : MKLDNNGraph) : Prop where
  cons : Consistent γ
  nodes : γ.graphNodes = G.graphNodes
  count : G.edgeCount ≤ γ.edgeCount
  edgeOld : ∀ e, e < G.edgeCount → γ.edge e = G.edge e
  edgesOld : ∀ e, e < G.edgeCount → (e ∈ γ.graphEdges ↔ e ∈ G.graphEdges)
  lnShr : Shrinks (G.node lastNode).childEdges (γ.node lastNode).childEdges
  lnKeep : ∀ i, j ≤ i →
    (γ.node lastNode).childEdges[i]? = (G.node lastNode).childEdges[i]?
  mcLen : j ≤ (γ.node mergedConv).childEdges.length
  mcNew : ∀ t, t < j → ∃ E, (γ.node mergedConv).childEdges[t]? = some (some E) ∧
    G.edgeCount ≤ E ∧ E ∈ γ.graphEdges ∧
    ∃ e c, (G.node lastNode).childEdges[t]? = some (some e) ∧ getChild G e = some c ∧
      (γ.edge E).child = c
  mcOld : ∀ i e, j ≤ i → (γ.node mergedConv).childEdges[i]? = some (some e) →
    e < G.edgeCount
  parLen : ∀ n, (γ.node n).parentEdges.length ≤ (G.node n).parentEdges.length + j
  keep : ∀ X m, X ∈ G.graphEdges → (G.edge X).parent ≠ mergedConv →
    (G.edge X).child ∉ children G lastNode →
    (some X ∈ (G.node m).parentEdges → some X ∈ (γ.node m).parentEdges) ∧
    (some X ∈ (G.node m).childEdges → some X ∈ (γ.node m).childEdges)

end MKLDNNPlugin

namespace MKLDNNPlugin

/-- The graph `g4` is the graph `h` with one more edge, from `peerNode` into
`mergedConv`, listed by both; the child list of `lastNode` is as before, and so
is the length of the parent list of every node but `mergedConv`. -/
structure Attached (h : MKLDNNGraph) (mergedConv peerNode lastNode : NodeId)
    (g4 : MKLDNNGraph) : Prop where
  cons : Consistent g4
  layers : SameLayers h g4
  nodes : g4.graphNodes = h.graphNodes
  edges : g4.graphEdges = h.graphEdges ++ [h.edgeCount]
  count : g4.edgeCount = h.edgeCount + 1
  edgeOld : ∀ e, e ≠ h.edgeCount → g4.edge e = h.edge e
  edgeNew : g4.edge h.edgeCount = ⟨peerNode, mergedConv, []⟩
  lnList : (g4.node lastNode).childEdges = (h.node lastNode).childEdges
  parLen : ∀ m, m ≠ mergedConv →
    (g4.node m).parentEdges.length = (h.node m).parentEdges.length
  atChild : some h.edgeCount ∈ (g4.node mergedConv).parentEdges
  atParent : some h.edgeCount ∈ (g4.node peerNode).childEdges

end MKLDNNPlugin

namespace MKLDNNPlugin

/-- The graphs agree on the node list, the edge list, the edge records and the
reference lists of every node. -/
def SameLists (g h : MKLDNNGraph) : Prop :=
  SameFrame g h ∧
  ∀ m, (h.node m).parentEdges = (g.node m).parentEdges ∧
    (h.node m).childEdges = (g.node m).childEdges

/-- The test of `Consistent` for one reference held by node `n`, where `own` is
the endpoint of the edge on the side of `n` and `other` the opposite one. -/
def consistentRef (g : MKLDNNGraph) (n : NodeId) (own other : MKLDNNEdge → NodeId)
    (w : MKLDNNEdgeWeakPtr) : Bool :=
  match w with
  | none => true
  | some e =>
    decide (e < g.edgeCount) &&
      (!decide (e ∈ g.graphEdges) ||
        (decide (own (g.edge e) = n) && decide (other (g.edge e) ∈ g.graphNodes)))

/-- The references of the graph are consistent (`Consistent`, as a test). -/
def consistentRefs (g : MKLDNNGraph) : Bool :=
  g.graphEdges.all (fun e => decide (e < g.edgeCount)) &&
  g.graphNodes.all (fun n =>
    (g.node n).parentEdges.all (consistentRef g n MKLDNNEdge.child MKLDNNEdge.parent) &&
    (g.node n).childEdges.all (consistentRef g n MKLDNNEdge.parent MKLDNNEdge.child))

/-- The graph is well formed: its references are consistent and live, no node is
owned twice, no child list names an edge twice, and the reference lists are
shorter than 2^32. -/
def wellFormed (g : MKLDNNGraph) : Bool :=
  consistentRefs g && childRefsLive g && parentRefsLive g &&
  decide g.graphNodes.Nodup &&
  g.graphNodes.all (fun n =>
    decide (g.node n).childEdges.Nodup &&
    decide ((g.node n).parentEdges.length < 2 ^ 32) &&
    decide ((g.node n).childEdges.length < 2 ^ 32))

end MKLDNNPlugin

namespace VPU

/-- A stride function used for concrete inputs: dense strides for 2-byte
elements in the order given by the dimensions. -/
def denseStrides (dims : VpuDims) (_type : VpuDataType) (_order : VpuDataOrder) : VpuStrides :=
  (dims.foldl (fun (acc : Nat × List Nat) d => (acc.1 * d, acc.2 ++ [acc.1])) (2, [])).2

/-- A header used for concrete inputs: dense strides, the element count as the
product of the sizes, and an empty default Data object. -/
def sampleHeader : Header :=
  { calcStrides := denseStrides
    totalSize := fun dims => dims.foldl (fun acc d => (acc * d) % 2 ^ 32) 1
    blank := { name := "", index := .other 0, type := .other 0, order := .other 0,
               dims := [], strides := [], writer := none } }

/-- A Data object of the graph with the given name and sizes. -/
def tensor (name : String) (dims : VpuDims) : VpuData :=
  { name := name, index := .other 1, type := .FP16, order := .orderXYZ, dims := dims,
    strides := denseStrides dims .FP16 .orderXYZ, writer := none }

/-- A transformer state with an input Data 0 of sizes (7, 7, 64) and an output
Data 1 of sizes (1, 1, 10), and no stage. -/
def fcState : GraphTransformerImpl :=
  { datas := [tensor "in" [7, 7, 64], tensor "out" [1, 1, 10]], stages := [],
    dataIds := 2, stageCount := 0 }

/-- A transformer state whose output Data 1 has sizes (2, 1, 10). -/
def fcBatchState : GraphTransformerImpl :=
  { datas := [tensor "in" [7, 7, 64], tensor "out" [2, 1, 10]], stages := [],
    dataIds := 2, stageCount := 0 }

/-- A fully-connected layer named `fc` with weights and without biases. -/
def fcLayer : CNNLayer :=
  { name := "fc", params := [], cls := .FullyConnectedLayer (some ⟨0, 31360⟩) none }

/-- An ELU layer named `elu` with alpha 1.5. -/
def eluLayer : CNNLayer :=
  { name := "elu", params := [("alpha", 0x3FC00000)], cls := .CNNLayer }

/-- A normalization layer named `lrn` with window 5 and k, alpha and beta 1.5. -/
def lrnLayer : CNNLayer :=
  { name := "lrn", params := [], cls := .NormLayer 5 0x3FC00000 0x3FC00000 0x3FC00000 }

/-- The stream that `dumpToBlob` of the first stage of a state writes into an
empty writer. -/
def firstStageBlob (s : Except Error GraphTransformerImpl) : Option (Except Error BlobWriter) :=
  match s with
  | .ok s1 =>
    match s1.stages.head? with
    | some stage => stage.dumpToBlob []
    | none => none
  | .error _ => none

end VPU

namespace MKLDNNPlugin

/-- The graph has no directed cycle of child edges (a self-loop is a cycle). -/
def Acyclic (g : MKLDNNGraph) : Prop :=
  ∀ n, ¬ Relation.TransGen (childRel g) n n

/-- Every child edge of an owned node leads to a node with a larger handle. -/
def increasing (g : MKLDNNGraph) : Prop :=
  ∀ u ∈ g.graphNodes, ∀ v ∈ children g u, u < v

instance increasingDecidable (g : MKLDNNGraph) : Decidable (increasing g) := by
  unfold increasing
  infer_instance

end MKLDNNPlugin

namespace MKLDNNPlugin

/-- The dropped nodes that the node list of the graph still holds. -/
def droppedNodes (g : MKLDNNGraph) : List NodeId :=
  g.graphNodes.filter (nodeIsDropped g)

/-- The dropped edges that the edge list of the graph still holds. -/
def droppedEdges (g : MKLDNNGraph) : List EdgeId :=
  g.graphEdges.filter (edgeIsDropped g)

end MKLDNNPlugin

namespace MKLDNNPlugin

/-- A producer `p` (0) feeds `x` (1) from its port 0 and the node `n` (2) from its
port 1; `n` feeds `c0` (3) and `c1` (4). -/
def portsGraph : MKLDNNGraph :=
  mkGraph
    [mkNode .Generic "p" none [] [0, 1], mkNode .Generic "x" none [0] [],
     mkNode .Copy "n" none [1] [2, 3], mkNode .Generic "c0" none [2] [],
     mkNode .Generic "c1" none [3] []]
    [⟨0, 1, []⟩, ⟨0, 2, []⟩, ⟨2, 3, []⟩, ⟨2, 4, []⟩] []

/-- A producer `p` (0) feeds the node `n` (1) from its port 0; `n` feeds `c0` (2)
and `c1` (3). -/
def portsGraphZero : MKLDNNGraph :=
  mkGraph
    [mkNode .Generic "p" none [] [0], mkNode .Copy "n" none [0] [1, 2],
     mkNode .Generic "c0" none [1] [], mkNode .Generic "c1" none [2] []]
    [⟨0, 1, []⟩, ⟨1, 2, []⟩, ⟨1, 3, []⟩] []

/-- The edges the graph owns, each with its endpoints, its input number and its
output number. -/
def ports (g : MKLDNNGraph) : List (EdgeId × (NodeId × NodeId) × Int × Int) :=
  g.graphEdges.map (fun e =>
    (e, ((g.edge e).parent, (g.edge e).child), getInputNum g e, getOutputNum g e))

end MKLDNNPlugin

namespace MKLDNNPlugin

/-- An input (0) feeds a batch normalization (1) whose only child is a ScaleShift
node (2), the last layer of the network. -/
def bnScaleLastGraph : MKLDNNGraph :=
  mkGraph
    [mkNode .Input "in" none [] [0],
     mkNode .BatchNormalization "bn" (some (.Base "BatchNormalization")) [0] [1],
     mkNode .ScaleShift "ss" (some (.ScaleShiftLayer "ScaleShift" true true)) [1] []]
    [⟨0, 1, []⟩, ⟨1, 2, []⟩] [2]

/-- The graph `bnScaleLastGraph` with an output node (3) behind the ScaleShift
node. -/
def bnScaleGraph : MKLDNNGraph :=
  mkGraph
    [mkNode .Input "in" none [] [0],
     mkNode .BatchNormalization "bn" (some (.Base "BatchNormalization")) [0] [1],
     mkNode .ScaleShift "ss" (some (.ScaleShiftLayer "ScaleShift" true true)) [1] [2],
     mkNode .Output "out" none [2] []]
    [⟨0, 1, []⟩, ⟨1, 2, []⟩, ⟨2, 3, []⟩] [3]

end MKLDNNPlugin

namespace MKLDNNPlugin

/-- The node is a designated graph output: an output node of the graph carries its
name. -/
def isGraphOutput (g : MKLDNNGraph) (n : NodeId) : Bool :=
  g.outputNodes.any (fun x => decide ((g.node x).name = (g.node n).name))

/-- The layer descriptor of the node is a pooling layer of type MAX. -/
def isMaxPooling (g : MKLDNNGraph) (n : NodeId) : Bool :=
  match (g.node n).cnnLayer with
  | some (.PoolingLayer _ .MAX) => true
  | _ => false

/-- The casts of the passes succeed on every owned node: a Pooling node has a
pooling layer descriptor and an Eltwise node is an MKLDNNEltwiseNode. -/
def castsSucceed (g : MKLDNNGraph) : Bool :=
  g.graphNodes.all (fun n =>
    (match (g.node n).type, (g.node n).cnnLayer with
      | .Pooling, some (.PoolingLayer _ _) => true
      | .Pooling, _ => false
      | _, _ => true) &&
    (match (g.node n).type, (g.node n).eltwise with
      | .Eltwise, none => false
      | _, _ => true))

/-- What FuseBatchNormWithScale looks for, in terms of the graph: a batch
normalization that is no graph output and whose sole child is a ScaleShift
node. -/
def BatchNormCandidate (g : MKLDNNGraph) (bn : NodeId) : Prop :=
  (g.node bn).type = .BatchNormalization ∧ isGraphOutput g bn = false ∧
  ∃ child, children g bn = [child] ∧ (g.node child).type = .ScaleShift

/-- What FuseConvolutionAndActivation looks for, in terms of the graph: a
Convolution whose sole child is a supported activation, or a max pooling whose
sole child is a supported activation. -/
def ConvActivationCandidate (g : MKLDNNGraph) (conv : NodeId) : Prop :=
  (g.node conv).type = .Convolution ∧
  ∃ ch1, children g conv = [ch1] ∧
    (isFusingSupported g ch1 = true ∨
      ((g.node ch1).type = .Pooling ∧ isMaxPooling g ch1 = true ∧
        ∃ ch2, children g ch1 = [ch2] ∧ isFusingSupported g ch2 = true))

/-- What FuseConvolutionSumAndConvolutionSumActivation looks for, in terms of the
graph, as lines 266 to 301 test it: a unit-scale sum of two producers, of which
the first that is a Convolution is `conv` and the other, of any kind, is
`peer`; `conv` has one child, `peer` is no producer of `conv`, and every
consumer of `peer` leads to the sum. -/
def ConvSumCandidate (g : MKLDNNGraph) (sum : NodeId) : Prop :=
  (g.node sum).type = .Eltwise ∧ (g.node sum).eltwise = some (true, true) ∧
  ∃ conv peer,
    (parents g sum = [conv, peer] ∨
      (parents g sum = [peer, conv] ∧ (g.node peer).type ≠ .Convolution)) ∧
    (g.node conv).type = .Convolution ∧ (∃ c, children g conv = [c]) ∧
    peer ∉ parents g conv ∧ ∀ d ∈ children g peer, Reachable g d sum

/-- The test of MergeGroupConvolution for one further branch, entered through the
edge `childEdge`: the branch node has the kind `convType` and one child edge,
which leads to a Concatenation, and the shapes of its two edges are those of
the first branch. -/
def MergeBranch (g : MKLDNNGraph) (convType : NodeType) (convInDims convOutDims : List Nat)
    (childEdge : EdgeId) : Prop :=
  ∃ child ce cc, getChild g childEdge = some child ∧ (g.node child).type = convType ∧
    liveChildEdges g child = [ce] ∧ getChild g ce = some cc ∧
    (g.node cc).type = .Concatenation ∧ getDims g ce = convOutDims ∧
    getDims g childEdge = convInDims

/-- What MergeGroupConvolution looks for, in terms of the graph, as lines 68 to 96
test it: a Split with at least two child edges, the first into a convolution
(plain or already fused with an activation) that has a child edge, and every
further branch passing `MergeBranch`. The first branch is not tested further,
and the Concatenation nodes of the branches are not compared. -/
def MergeCandidate (g : MKLDNNGraph) (split : NodeId) : Prop :=
  (g.node split).type = .Split ∧
  ∃ convInEdge rest conv convOutEdge,
    liveChildEdges g split = convInEdge :: rest ∧ rest ≠ [] ∧
    getChild g convInEdge = some conv ∧
    ((g.node conv).type = .Convolution ∨ (g.node conv).type = .Convolution_Activation) ∧
    (liveChildEdges g conv).head? = some convOutEdge ∧
    ∀ e ∈ rest,
      MergeBranch g (g.node conv).type (getDims g convInEdge) (getDims g convOutEdge) e

/-- No owned node of the graph is what a pass looks for: no Split with branches to
merge (and every branch of a Split has a child edge, which the test of the
branches reads first), no Convolution before a supported activation, no batch
normalization before a ScaleShift node, no identity operator, and no sum to
fuse into a Convolution. -/
structure Settled (g : MKLDNNGraph) : Prop where
  merge : ∀ n ∈ g.graphNodes, ¬ MergeCandidate g n
  branches : ∀ n ∈ g.graphNodes, (g.node n).type = .Split →
    ∀ c ∈ children g n, (g.node c).childEdges ≠ []
  activation : ∀ n ∈ g.graphNodes, ¬ ConvActivationCandidate g n
  batchNorm : ∀ n ∈ g.graphNodes, ¬ BatchNormCandidate g n
  identity : ∀ n ∈ g.graphNodes, isIdentityOperator (g.node n) = false
  sum : ∀ n ∈ g.graphNodes, ¬ ConvSumCandidate g n

/-- The graph that Optimize returns for `sumFuseReluGraph`. -/
def sumFuseReluOptimized : MKLDNNGraph :=
  (Optimize sumFuseReluGraph).getD sumFuseReluGraph

/-- A Split (1) with two convolution branches (2, 3) of 4 channels: the first
feeds a Concatenation (4) and through it the output (5); the second is a last
layer of the network and has no child edge. -/
def splitLastGraph : MKLDNNGraph :=
  mkGraph
    [mkNode .Input "in" none [] [0], mkNode .Split "split" none [0] [1, 2],
     branchConv "c0" 1 3,
     { mkNode .Convolution "c1" (some (.Base "Convolution")) [2] [] with
       inDims := [[1, 4, 8, 8]], outDims := [[1, 4, 8, 8]] },
     mkNode .Concatenation "concat" none [3] [4], mkNode .Output "out" none [4] []]
    [⟨0, 1, [1, 8, 8, 8]⟩, ⟨1, 2, [1, 4, 8, 8]⟩, ⟨1, 3, [1, 4, 8, 8]⟩, ⟨2, 4, [1, 4, 8, 8]⟩,
     ⟨4, 5, [1, 4, 8, 8]⟩] [3, 5]

end MKLDNNPlugin

namespace MKLDNNPlugin

/-- Every live parent reference of an owned node is matched by a child reference
of the producer of the edge. -/
def Paired (g : MKLDNNGraph) : Prop :=
  ∀ n ∈ g.graphNodes, ∀ e, some e ∈ (g.node n).parentEdges → e ∈ g.graphEdges →
    some e ∈ (g.node (g.edge e).parent).childEdges

/-- No owned node lists a live edge at two positions of its parent list. -/
def ParentsNodup (g : MKLDNNGraph) : Prop :=
  ∀ n ∈ g.graphNodes, ∀ (i j : Nat) (e : EdgeId),
    (g.node n).parentEdges[i]? = some (some e) → (g.node n).parentEdges[j]? = some (some e) →
    e ∈ g.graphEdges → i = j

/-- The references of the graph are linked: consistent, every parent reference
matched at the producer, no parent list naming a live edge twice, and no child
list (of an owned node or not) naming a handle that is not allocated yet. -/
structure Linked (g : MKLDNNGraph) : Prop where
  cons : Consistent g
  paired : Paired g
  nodup : ParentsNodup g
  bounded : ∀ n e, some e ∈ (g.node n).childEdges → e < g.edgeCount

/-- Every child edge of `g` follows a path of child edges of `G`. -/
def Shortcut (G g : MKLDNNGraph) : Prop :=
  ∀ u v, childRel g u v → Relation.TransGen (childRel G) u v

/-- Every live edge that an owned node lists among its child edges, but for the
edge `E` when one is given, is listed among the parent edges of its consumer. -/
def BackBut (E : Option EdgeId) (g : MKLDNNGraph) : Prop :=
  ∀ n ∈ g.graphNodes, ∀ e, some e ∈ (g.node n).childEdges → e ∈ g.graphEdges →
    some e ≠ E → some e ∈ (g.node (g.edge e).child).parentEdges

/-- The graph is linked, and every live edge is listed at both of its ends. -/
def Tied (g : MKLDNNGraph) : Prop :=
  Linked g ∧ BackBut none g

/-- The state of the loops of DropNode on `node`, relative to the graph `G` on
entry: the graph is tied, owns the same nodes, every child step of it is a
path of `G`, and the two lists of `node` have kept their length. -/
structure DropInv (G : MKLDNNGraph) (node : NodeId) (g : MKLDNNGraph) : Prop where
  linked : Tied g
  nodes : g.graphNodes = G.graphNodes
  short : Shortcut G g
  plen : (g.node node).parentEdges.length = (G.node node).parentEdges.length
  clen : (g.node node).childEdges.length = (G.node node).childEdges.length

/-- The test of `Paired` and `ParentsNodup`, with the test of `Consistent`. -/
def linkedRefs (g : MKLDNNGraph) : Bool :=
  consistentRefs g &&
  g.graphNodes.all (fun n =>
    (g.node n).parentEdges.all (fun w =>
      match w with
      | none => true
      | some e =>
        !decide (e ∈ g.graphEdges) ||
          decide (some e ∈ (g.node (g.edge e).parent).childEdges)) &&
    decide ((g.node n).parentEdges.filterMap id).Nodup)

/-- The test of `Tied` for the lists of the owned nodes: the test of `Linked`, and
every live edge in a child list is in the parent list of its consumer. -/
def tiedRefs (g : MKLDNNGraph) : Bool :=
  linkedRefs g &&
  g.graphNodes.all (fun n =>
    (g.node n).childEdges.all (fun w =>
      match w with
      | none => true
      | some e =>
        !decide (e ∈ g.graphEdges) ||
          decide (some e ∈ (g.node (g.edge e).child).parentEdges)))

end MKLDNNPlugin

namespace VPU

/-- The item is a scalar written by `writer.write`, not a Data object. -/
def Item.isScalar : Item → Bool
  | .u32 _ => true
  | .f16 _ => true
  | _ => false

/-- The order that a stage serializer is expected to follow: scalars first, then
every input Data of the stage in input order, then every output Data in output
order, and nothing else. -/
def scalarsInputsOutputs (stage : VpuStage) (items : List Item) : Bool :=
  items.dropWhile Item.isScalar ==
    stage.inputs.map Item.data ++ stage.outputs.map Item.data

/-- A fully-connected layer named `fc` with weights and with 10 biases. -/
def fcBiasLayer : CNNLayer :=
  { name := "fc", params := [], cls := .FullyConnectedLayer (some ⟨0, 31360⟩) (some ⟨1, 10⟩) }

/-- The first stage of a state. -/
def firstStage (s : Except Error GraphTransformerImpl) : Option VpuStage :=
  match s with
  | .ok s1 => s1.stages.head?
  | .error _ => none

end VPU

namespace MKLDNNPlugin

/-- An input (0) feeds a convolution (1) whose only child is a max-pooling node
(2) whose only child is a ReLU activation (3), the last layer of the network. -/
def convPoolReluLastGraph : MKLDNNGraph :=
  mkGraph
    [mkNode .Input "in" none [] [0],
     mkNode .Convolution "conv" (some (.Base "Convolution")) [0] [1],
     mkNode .Pooling "pool" (some (.PoolingLayer "Pooling" .MAX)) [1] [2],
     mkNode .Activation "relu" (some (.Base "ReLU")) [2] []]
    [⟨0, 1, []⟩, ⟨1, 2, []⟩, ⟨2, 3, []⟩] [3]

/-- The graph `convPoolReluLastGraph` with two consumers (4, 5) behind the
activation; `poolType` is the type of the pooling node and `act` the layer type
of the activation. -/
def convPoolActGraph (poolType : PoolType) (act : String) : MKLDNNGraph :=
  mkGraph
    [mkNode .Input "in" none [] [0],
     mkNode .Convolution "conv" (some (.Base "Convolution")) [0] [1],
     mkNode .Pooling "pool" (some (.PoolingLayer "Pooling" poolType)) [1] [2],
     mkNode .Activation "act" (some (.Base act)) [2] [3, 4],
     mkNode .Output "out0" none [3] [], mkNode .Output "out1" none [4] []]
    [⟨0, 1, []⟩, ⟨1, 2, []⟩, ⟨2, 3, []⟩, ⟨3, 4, []⟩, ⟨3, 5, []⟩] [4, 5]

/-- A max-pooling node (2) behind a convolution (1) with two children: a ReLU
activation (3) and another consumer (4). -/
def convPoolTwoGraph : MKLDNNGraph :=
  mkGraph
    [mkNode .Input "in" none [] [0],
     mkNode .Convolution "conv" (some (.Base "Convolution")) [0] [1],
     mkNode .Pooling "pool" (some (.PoolingLayer "Pooling" .MAX)) [1] [2, 3],
     mkNode .Activation "relu" (some (.Base "ReLU")) [2] [4],
     mkNode .Generic "side" none [3] [],
     mkNode .Output "out" none [4] []]
    [⟨0, 1, []⟩, ⟨1, 2, []⟩, ⟨2, 3, []⟩, ⟨2, 4, []⟩, ⟨3, 5, []⟩] [5]

/-- A Split (1) with two convolution branches (2, 3) of 4 channels: the first
branch has two child edges, into the Concatenation (4) and into a further
consumer (5); the second has the Concatenation as its only child. -/
def splitFirstTwoGraph : MKLDNNGraph :=
  mkGraph
    [mkNode .Input "in" none [] [0], mkNode .Split "split" none [0] [1, 2],
     { mkNode .Convolution "c0" (some (.Base "Convolution")) [1] [3, 4] with
       inDims := [[1, 4, 8, 8]], outDims := [[1, 4, 8, 8]] },
     branchConv "c1" 2 5,
     mkNode .Concatenation "concat" none [3, 5] [6], mkNode .Generic "side" none [4] [],
     mkNode .Output "out" none [6] []]
    [⟨0, 1, [1, 8, 8, 8]⟩, ⟨1, 2, [1, 4, 8, 8]⟩, ⟨1, 3, [1, 4, 8, 8]⟩, ⟨2, 4, [1, 4, 8, 8]⟩,
     ⟨2, 5, [1, 4, 8, 8]⟩, ⟨3, 4, [1, 4, 8, 8]⟩, ⟨4, 6, [1, 8, 8, 8]⟩] [6]

/-- A Split (1) with two convolution branches (2, 3) of 4 channels that do not
meet: the only child of the first is a ReLU activation (4) that feeds an output
(6), the only child of the second is a Concatenation (5) that feeds another
output (7). -/
def splitApartGraph : MKLDNNGraph :=
  mkGraph
    [mkNode .Input "in" none [] [0], mkNode .Split "split" none [0] [1, 2],
     branchConv "c0" 1 3, branchConv "c1" 2 4,
     mkNode .Activation "relu" (some (.Base "ReLU")) [3] [5],
     mkNode .Concatenation "concat" none [4] [6],
     mkNode .Output "out0" none [5] [], mkNode .Output "out1" none [6] []]
    [⟨0, 1, [1, 8, 8, 8]⟩, ⟨1, 2, [1, 4, 8, 8]⟩, ⟨1, 3, [1, 4, 8, 8]⟩, ⟨2, 4, [1, 4, 8, 8]⟩,
     ⟨3, 5, [1, 4, 8, 8]⟩, ⟨4, 6, [1, 4, 8, 8]⟩, ⟨5, 7, [1, 4, 8, 8]⟩] [6, 7]

/-- The graph `splitFirstTwoGraph` with the roles of the two branches exchanged:
the second branch (3) is the one with two child edges. -/
def splitSecondTwoGraph : MKLDNNGraph :=
  mkGraph
    [mkNode .Input "in" none [] [0], mkNode .Split "split" none [0] [1, 2],
     branchConv "c0" 1 3,
     { mkNode .Convolution "c1" (some (.Base "Convolution")) [2] [4, 5] with
       inDims := [[1, 4, 8, 8]], outDims := [[1, 4, 8, 8]] },
     mkNode .Concatenation "concat" none [3, 4] [6], mkNode .Generic "side" none [5] [],
     mkNode .Output "out" none [6] []]
    [⟨0, 1, [1, 8, 8, 8]⟩, ⟨1, 2, [1, 4, 8, 8]⟩, ⟨1, 3, [1, 4, 8, 8]⟩, ⟨2, 4, [1, 4, 8, 8]⟩,
     ⟨3, 4, [1, 4, 8, 8]⟩, ⟨3, 5, [1, 4, 8, 8]⟩, ⟨4, 6, [1, 8, 8, 8]⟩] [6]

end MKLDNNPlugin

namespace MKLDNNPlugin

/-- The graph that the loop body of the sum fusion leaves for `sumFuseGraph` and
its sum node (4). -/
def sumFused : MKLDNNGraph :=
  (FuseConvolutionSum.step sumFuseGraph 4).getD sumFuseGraph

end MKLDNNPlugin

namespace RoiPooling

/-- The conditions on one axis under which the bin bounds are computed without
leaving the range of `int`: the number `pooled` of bins is positive, the
extent `roi_size` of the region is at least 1, the input size `i` is not
negative, the bin index `o` is from 0 to below `pooled`; all are `int` values;
the product `(o + 1) * roi_size` and the sum of the region start and the
extent fit an `int`. -/
structure AxisFits (pooled i roi_start roi_size o : Int) : Prop where
  pooled_pos : 0 < pooled
  pooled_int : pooled < 2 ^ 31
  size_pos : 1 ≤ roi_size
  input_nonneg : 0 ≤ i
  input_int : i < 2 ^ 31
  bin_nonneg : 0 ≤ o
  bin_lt : o < pooled
  product_int : (o + 1) * roi_size < 2 ^ 31
  start_int : -2 ^ 31 ≤ roi_start
  end_int : roi_start + roi_size < 2 ^ 31

end RoiPooling

namespace MKLDNNPlugin

/-- What the search can still add to its queue: the owned nodes not yet visited,
and the null pointer while it is not visited. -/
def potential (g : MKLDNNGraph) (visited : List (Option NodeId)) : Nat :=
  unvisited g visited + (if none ∈ visited then 0 else 1)

/-- The number of times the statement `nextLayers.pop_front()` (line 211) runs in
the loop of lines 201 to 212 of is_data_dependency, started in the given state;
the function follows `is_data_dependency.loop` and counts the iterations that
reach the end of the loop body. -/
def is_data_dependency.pops (g : MKLDNNGraph) (child : NodeId) :
    Nat → List (Option NodeId) → List (Option NodeId) → Nat
  | 0, _, _ => 0
  | _ + 1, _, [] => 0
  | fuel + 1, visited, layer :: rest =>
    match layer with
    | none => 0
    | some l =>
      if l = child then 0
      else
        match is_data_dependency.expand g (g.node l).childEdges visited (layer :: rest) with
        | none => 0
        | some (visited1, nextLayers1) =>
          1 + is_data_dependency.pops g child fuel visited1 nextLayers1.tail

/-- Two nodes that feed each other, the second (1) also feeding itself. -/
def cycleGraph : MKLDNNGraph :=
  mkGraph [mkNode .Generic "a" none [1] [0], mkNode .Generic "b" none [0, 2] [1, 2]]
    [⟨0, 1, []⟩, ⟨1, 0, []⟩, ⟨1, 1, []⟩] []

end MKLDNNPlugin

namespace MKLDNNPlugin

/-- The graph `convPoolActGraph` with max pooling and the layer descriptor `l` on
the activation node (3). -/
def convPoolLayerGraph (l : CNNLayer) : MKLDNNGraph :=
  mkGraph
    [mkNode .Input "in" none [] [0],
     mkNode .Convolution "conv" (some (.Base "Convolution")) [0] [1],
     mkNode .Pooling "pool" (some (.PoolingLayer "Pooling" .MAX)) [1] [2],
     mkNode .Activation "act" (some l) [2] [3, 4],
     mkNode .Output "out0" none [3] [], mkNode .Output "out1" none [4] []]
    [⟨0, 1, []⟩, ⟨1, 2, []⟩, ⟨2, 3, []⟩, ⟨3, 4, []⟩, ⟨3, 5, []⟩] [4, 5]

/-- Modelled from the spec: the call `GetParamAsFloat(name, dflt)` on a layer
descriptor, not among the sources of this plugin: the value in the parameter
map, or the default. -/
def CNNLayer.GetParamAsFloat (l : CNNLayer) (name : String) (dflt : F32) : F32 :=
  match l with
  | .WithParams _ params => (params.lookup name).getD dflt
  | _ => dflt

/-- The number that a single-precision pattern stands for, for zeros, subnormal
and normal numbers (infinities and NaN have none; they are read as if normal). -/
def f32Value (x : F32) : ℚ :=
  let sign : Nat := (x / 2 ^ 31) % 2
  let exp : Nat := (x / 2 ^ 23) % 2 ^ 8
  let man : Nat := x % 2 ^ 23
  let mag : ℚ :=
    if exp = 0 then (man : ℚ) / 2 ^ 149
    else if exp ≥ 150 then ((2 ^ 23 + man : Nat) : ℚ) * 2 ^ (exp - 150)
    else ((2 ^ 23 + man : Nat) : ℚ) / 2 ^ (150 - exp)
  if sign = 1 then -mag else mag

/-- Modelled from the spec: the reduction of a max-pooling window, given by its
first element and its further elements. -/
def maxpool {α : Type} [LinearOrder α] (x : α) (xs : List α) : α :=
  xs.foldl max x

/-- Modelled from the spec: the function of an ELU activation with parameter
`alpha`, which no source file holds: `x` for a positive `x`, else
`alpha * (exp x - 1)`. -/
noncomputable def elu (alpha x : ℝ) : ℝ :=
  if 0 < x then x else alpha * (Real.exp x - 1)

/-- Modelled from the spec: the function that an activation node with the layer
descriptor `l` of type ELU applies to each element: the ELU function with the
parameter `alpha` of the layer, 1 when the layer gives none (as in
parseELU, elu.cpp line 53). -/
noncomputable def eluOf (l : CNNLayer) : ℝ → ℝ :=
  elu ((f32Value (l.GetParamAsFloat "alpha" 0x3F800000) : ℚ) : ℝ)

end MKLDNNPlugin

namespace MKLDNNPlugin

/-! ## Theorems -/

/-- C1: on a node with two live parent edges and one live child edge DropNode
creates one new edge, from the first producer to the consumer, and none from
the second producer; the claimed number is 2 * 1 = 2. -/
theorem DropNode_two_parents_creates_one_edge :
    (liveParentEdges twoParentsGraph 2).length = 2 ∧
    (liveChildEdges twoParentsGraph 2).length = 1 ∧
    (DropNode twoParentsGraph 2).map
        (fun g => (g.edgeCount - twoParentsGraph.edgeCount, endpoints g)) =
      some (1, [(1, 2), (0, 3)]) := by
  decide

/-- Everything reachable from the second producer after the drop is the producer
itself or the node that was to be dropped. -/
lemma twoParentsDropped_reach (v : NodeId) (h : Reachable twoParentsDropped 1 v) :
    v = 1 ∨ v = 2 := by
  induction h with
  | refl => exact Or.inl rfl
  | tail _ hbc ih =>
    rcases ih with rfl | rfl
    · have h1 : children twoParentsDropped 1 = [2] := by decide
      unfold childRel at hbc
      rw [h1] at hbc
      exact Or.inr (List.mem_singleton.mp hbc)
    · have h2 : children twoParentsDropped 2 = [] := by decide
      unfold childRel at hbc
      rw [h2] at hbc
      exact absurd hbc (List.not_mem_nil _)

/-- C2: in `twoParentsGraph` the consumer `c` (3) is reachable from the second
producer `p1` (1) through node 2; after DropNode on node 2 it no longer is,
although both nodes differ from the dropped node. -/
theorem DropNode_loses_reachability :
    Reachable twoParentsGraph 1 3 ∧
    ∃ g, DropNode twoParentsGraph 2 = some g ∧ ¬ Reachable g 1 3 := by
  refine ⟨?_, twoParentsDropped, rfl, ?_⟩
  · have h12 : childRel twoParentsGraph 1 2 := by
      show 2 ∈ children twoParentsGraph 1
      decide
    have h23 : childRel twoParentsGraph 2 3 := by
      show 3 ∈ children twoParentsGraph 2
      decide
    exact Relation.ReflTransGen.head h12 (Relation.ReflTransGen.single h23)
  · intro h
    rcases twoParentsDropped_reach 3 h with h3 | h3 <;> exact absurd h3 (by decide)

/-- C3: DropNode on a node without producer, or without consumer, changes
nothing: the edge of the node stays in the edge list, the node is not dropped,
and the RemoveDropped sweep keeps it in the node list. -/
theorem DropNode_keeps_node_without_neighbours_on_one_side :
    (DropNode noParentGraph 0).map
        (fun g => (g.graphEdges, nodeIsDropped g 0, edgeIsDropped g 0,
          (RemoveDropped g).graphNodes)) =
      some ([0], false, false, [0, 1]) ∧
    (DropNode noChildGraph 1).map
        (fun g => (g.graphEdges, nodeIsDropped g 1, edgeIsDropped g 0,
          (RemoveDropped g).graphNodes)) =
      some ([0], false, false, [0, 1]) := by
  decide

/-- C5: for a convolution whose only child is a ReLU activation without consumer
the pass re-tags the convolution, yet after the sweep the node list still has
its three nodes and the edge from the convolution to the activation is still
in the edge list. With a consumer behind the activation (`convReluGraph`) the
activation is removed and the convolution feeds that consumer. -/
theorem FuseConvolutionAndActivation_keeps_last_activation :
    (FuseConvolutionAndActivation convReluLastGraph).map
        (fun g => (kinds (RemoveDropped g), endpoints (RemoveDropped g))) =
      some ([.Input, .Convolution_Activation, .Activation], [(0, 1), (1, 2)]) ∧
    (FuseConvolutionAndActivation convReluGraph).map
        (fun g => (kinds (RemoveDropped g), endpoints (RemoveDropped g))) =
      some ([.Input, .Convolution_Activation, .Output], [(0, 1), (1, 3)]) :=
  ⟨rfl, rfl⟩

/-- C8: for three branches of 4 channels that meet in a Concatenation without
consumer, the pass and the sweep leave one convolution with 12 channels in and
out and remove the Split and the two peers, but the Concatenation stays in the
node list, still fed by the convolution. With a consumer behind the
Concatenation (`splitConcatGraph`) the Concatenation is removed as well. -/
theorem MergeGroupConvolution_keeps_last_concat :
    (MergeGroupConvolution splitConcatLastGraph).map
        (fun g => (kinds (RemoveDropped g), (g.node 2).inDims, (g.node 2).outDims,
          children (RemoveDropped g) 2)) =
      some ([.Input, .Convolution, .Concatenation], [[1, 12, 8, 8]], [[1, 12, 8, 8]], [5]) ∧
    (MergeGroupConvolution splitConcatGraph).map
        (fun g => (kinds (RemoveDropped g), (g.node 2).inDims, (g.node 2).outDims,
          children (RemoveDropped g) 2)) =
      some ([.Input, .Convolution, .Output], [[1, 12, 8, 8]], [[1, 12, 8, 8]], [6]) :=
  ⟨rfl, rfl⟩

lemma getChild_mem {g : MKLDNNGraph} {e : EdgeId} {c : NodeId}
    (h : getChild g e = some c) : c ∈ g.graphNodes := by
  unfold getChild at h
  split at h
  · cases h; assumption
  · cases h

lemma childRefsLive_node {g : MKLDNNGraph} (hwf : childRefsLive g = true) {n : NodeId}
    (hn : n ∈ g.graphNodes) :
    ∀ w ∈ (g.node n).childEdges, ((lock g w).bind (getChild g)).isSome = true := by
  unfold childRefsLive at hwf
  rw [List.all_eq_true] at hwf
  have h1 := hwf n hn
  rw [List.all_eq_true] at h1
  exact h1

lemma children_mem_graphNodes {g : MKLDNNGraph} {u c : NodeId} (h : c ∈ children g u) :
    c ∈ g.graphNodes := by
  unfold children at h
  rw [List.mem_filterMap] at h
  obtain ⟨w, _, hw⟩ := h
  cases hl : lock g w with
  | none => rw [hl] at hw; cases hw
  | some e =>
    rw [hl] at hw
    exact getChild_mem hw

lemma countP_insert_lt (l : List NodeId) (visited : List (Option NodeId)) (c : NodeId)
    (hc : c ∈ l) (hv : some c ∉ visited) :
    l.countP (fun n => decide (some n ∉ some c :: visited)) + 1 ≤
      l.countP (fun n => decide (some n ∉ visited)) := by
  induction l with
  | nil => cases hc
  | cons x xs ih =>
    have hmono : xs.countP (fun n => decide (some n ∉ some c :: visited)) ≤
        xs.countP (fun n => decide (some n ∉ visited)) := by
      apply List.countP_mono_left
      intro n _ hn
      simp only [decide_eq_true_eq, List.mem_cons, not_or] at hn ⊢
      exact hn.2
    by_cases hx : x = c
    · subst hx
      rw [List.countP_cons_of_neg, List.countP_cons_of_pos]
      · omega
      · simpa using hv
      · simp
    · have hc2 : c ∈ xs := by
        rcases List.mem_cons.mp hc with h | h
        · exact absurd h.symm hx
        · exact h
      have ih2 := ih hc2
      by_cases hxv : some x ∈ visited
      · rw [List.countP_cons_of_neg, List.countP_cons_of_neg]
        · exact ih2
        · simpa using hxv
        · simp [hxv]
      · rw [List.countP_cons_of_pos, List.countP_cons_of_pos]
        · omega
        · simpa using hxv
        · simp [hxv, hx]

/-- The loop over the child references of one layer, when all references are
live: it succeeds, appends to the queue exactly the consumers that were not
visited, and leaves every consumer visited. -/
lemma expand_spec (g : MKLDNNGraph) :
    ∀ (ws : List MKLDNNEdgeWeakPtr),
      (∀ w ∈ ws, ((lock g w).bind (getChild g)).isSome = true) →
      ∀ (visited nextLayers : List (Option NodeId)),
        ∃ visited1 added, is_data_dependency.expand g ws visited nextLayers =
            some (visited1, nextLayers ++ added) ∧
          (∀ x, x ∈ visited1 ↔ x ∈ visited ∨ x ∈ added) ∧
          (∀ x ∈ added, ∃ c, x = some c ∧
            c ∈ ws.filterMap (fun w => (lock g w).bind (getChild g))) ∧
          (∀ c ∈ ws.filterMap (fun w => (lock g w).bind (getChild g)), some c ∈ visited1) ∧
          added.length + unvisited g visited1 ≤ unvisited g visited := by
  intro ws
  induction ws with
  | nil =>
    intro _ visited nextLayers
    exact ⟨visited, [], by simp [is_data_dependency.expand], by simp, by simp, by simp, by simp⟩
  | cons w ws ih =>
    intro hws visited nextLayers
    have hw := hws w (List.mem_cons_self _ _)
    have hws2 : ∀ w ∈ ws, ((lock g w).bind (getChild g)).isSome = true :=
      fun w1 h1 => hws w1 (List.mem_cons_of_mem _ h1)
    cases hl : lock g w with
    | none => rw [hl] at hw; simp at hw
    | some e =>
      rw [hl] at hw
      cases hc : getChild g e with
      | none => simp [hc] at hw
      | some c =>
        have hfm : (w :: ws).filterMap (fun w => (lock g w).bind (getChild g)) =
            c :: ws.filterMap (fun w => (lock g w).bind (getChild g)) := by
          rw [List.filterMap_cons]
          simp [hl, hc]
        rw [hfm]
        by_cases hv : some c ∈ visited
        · obtain ⟨v1, added, he, hmem, hadd, hall, hlen⟩ := ih hws2 visited nextLayers
          refine ⟨v1, added, ?_, hmem, ?_, ?_, hlen⟩
          · simp only [is_data_dependency.expand, hl, hc, hv, if_true]
            exact he
          · intro x hx
            obtain ⟨c1, h1, h2⟩ := hadd x hx
            exact ⟨c1, h1, List.mem_cons_of_mem _ h2⟩
          · intro c1 hc1
            rcases List.mem_cons.mp hc1 with h | h
            · subst h
              exact (hmem _).mpr (Or.inl hv)
            · exact hall c1 h
        · obtain ⟨v1, added, he, hmem, hadd, hall, hlen⟩ :=
            ih hws2 (some c :: visited) (nextLayers ++ [some c])
          refine ⟨v1, some c :: added, ?_, ?_, ?_, ?_, ?_⟩
          · simp only [is_data_dependency.expand, hl, hc, hv, if_false]
            rw [he]
            simp
          · intro x
            rw [hmem x]
            simp only [List.mem_cons]
            tauto
          · intro x hx
            rcases List.mem_cons.mp hx with h | h
            · exact ⟨c, h, List.mem_cons_self _ _⟩
            · obtain ⟨c1, h1, h2⟩ := hadd x h
              exact ⟨c1, h1, List.mem_cons_of_mem _ h2⟩
          · intro c1 hc1
            rcases List.mem_cons.mp hc1 with h | h
            · subst h
              exact (hmem _).mpr (Or.inl (List.mem_cons_self _ _))
            · exact hall c1 h
          · have hlt := countP_insert_lt g.graphNodes visited c (getChild_mem hc) hv
            unfold unvisited at hlen ⊢
            simp only [List.length_cons]
            omega

lemma reach_closed (g : MKLDNNGraph) (a : NodeId) (D : List NodeId) (ha : a ∈ D)
    (hD : ∀ n ∈ D, ∀ c ∈ children g n, c ∈ D) : ∀ v, Reachable g a v → v ∈ D := by
  intro v h
  induction h with
  | refl => exact ha
  | tail _ hbc ih => exact hD _ ih _ hbc

/-- The search loop under its invariant: the queue holds reachable owned nodes,
every visited node is queued or done, the consumers of every done node are
visited, and `b` is not done. The fuel exceeds the queue length plus the
number of unvisited nodes. -/
lemma loop_spec (g : MKLDNNGraph) (hwf : childRefsLive g = true) (a b : NodeId) :
    ∀ (fuel : Nat) (visited nextLayers : List (Option NodeId)) (D : List NodeId),
      (∀ x ∈ nextLayers, ∃ n, x = some n ∧ n ∈ g.graphNodes ∧ Reachable g a n) →
      (∀ x ∈ visited, x ∈ nextLayers ∨ ∃ n ∈ D, x = some n) →
      (∀ n ∈ D, ∀ c ∈ children g n, some c ∈ visited) →
      (a ∈ D ∨ some a ∈ nextLayers) →
      b ∉ D →
      nextLayers.length + unvisited g visited < fuel →
      (is_data_dependency.loop g b fuel visited nextLayers = .ok true ∧ Reachable g a b) ∨
      (is_data_dependency.loop g b fuel visited nextLayers = .ok false ∧ ¬ Reachable g a b) := by
  intro fuel
  induction fuel with
  | zero => intro _ _ _ _ _ _ _ _ hf; omega
  | succ fuel ih =>
    intro visited nextLayers D hQ hV hD ha hb hf
    cases nextLayers with
    | nil =>
      right
      refine ⟨by simp [is_data_dependency.loop], ?_⟩
      intro hr
      have haD : a ∈ D := by
        rcases ha with h | h
        · exact h
        · cases h
      have hcl : ∀ n ∈ D, ∀ c ∈ children g n, c ∈ D := by
        intro n hn c hc
        rcases hV _ (hD n hn c hc) with h | ⟨m, hm, hcm⟩
        · cases h
        · cases hcm; exact hm
      exact hb (reach_closed g a D haD hcl b hr)
    | cons layer rest =>
      obtain ⟨l, hl, hlg, hlr⟩ := hQ layer (List.mem_cons_self _ _)
      subst hl
      by_cases hlb : l = b
      · left
        subst hlb
        exact ⟨by simp [is_data_dependency.loop], hlr⟩
      · obtain ⟨v1, added, he, hmem, hadd, hall, hlen⟩ :=
          expand_spec g (g.node l).childEdges (childRefsLive_node hwf hlg) visited
            (some l :: rest)
        have hstep : is_data_dependency.loop g b (fuel + 1) visited (some l :: rest) =
            is_data_dependency.loop g b fuel v1 (rest ++ added) := by
          simp [is_data_dependency.loop, hlb, he]
        rw [hstep]
        apply ih v1 (rest ++ added) (l :: D)
        · intro x hx
          rcases List.mem_append.mp hx with h | h
          · exact hQ x (List.mem_cons_of_mem _ h)
          · obtain ⟨c, hc1, hc2⟩ := hadd x h
            exact ⟨c, hc1, children_mem_graphNodes hc2,
              Relation.ReflTransGen.tail hlr hc2⟩
        · intro x hx
          rcases (hmem x).mp hx with h | h
          · rcases hV x h with h1 | ⟨n, hn, hxn⟩
            · rcases List.mem_cons.mp h1 with h2 | h2
              · exact Or.inr ⟨l, List.mem_cons_self _ _, h2⟩
              · exact Or.inl (List.mem_append_left _ h2)
            · exact Or.inr ⟨n, List.mem_cons_of_mem _ hn, hxn⟩
          · exact Or.inl (List.mem_append_right _ h)
        · intro n hn c hc
          rcases List.mem_cons.mp hn with h | h
          · subst h
            exact hall c hc
          · exact (hmem _).mpr (Or.inl (hD n h c hc))
        · rcases ha with h | h
          · exact Or.inl (List.mem_cons_of_mem _ h)
          · rcases List.mem_cons.mp h with h1 | h1
            · left
              cases h1
              exact List.mem_cons_self _ _
            · exact Or.inr (List.mem_append_left _ h1)
        · intro h
          rcases List.mem_cons.mp h with h1 | h1
          · exact hlb h1.symm
          · exact hb h1
        · simp only [List.length_append, List.length_cons] at hf ⊢
          omega

/-- On a graph without dangling child references the search from an owned node
answers, and the answer is whether the target is reachable. -/
lemma is_data_dependency_spec (g : MKLDNNGraph) (hwf : childRefsLive g = true)
    (a b : NodeId) (ha : a ∈ g.graphNodes) :
    (is_data_dependency g a b = .ok true ∧ Reachable g a b) ∨
    (is_data_dependency g a b = .ok false ∧ ¬ Reachable g a b) := by
  unfold is_data_dependency
  apply loop_spec g hwf a b _ [] [some a] []
  · intro x hx
    rcases List.mem_singleton.mp hx with rfl
    exact ⟨a, rfl, ha, Relation.ReflTransGen.refl⟩
  · intro x hx; cases hx
  · intro n hn; cases hn
  · exact Or.inr (List.mem_singleton.mpr rfl)
  · intro h; cases h
  · have : unvisited g [] ≤ g.graphNodes.length := List.countP_le_length _
    simp only [List.length_singleton]
    omega

/-- C4: on a graph whose child references are all live, for two distinct nodes
`a` and `b` of which `a` is owned by the graph, is_data_dependency(a, b)
returns, and it returns true exactly when there is a directed path of one or
more child edges from `a` to `b`. -/
theorem is_data_dependency_iff_path (g : MKLDNNGraph) (a b : NodeId)
    (hwf : childRefsLive g = true) (ha : a ∈ g.graphNodes) (hab : a ≠ b) :
    (∃ r, is_data_dependency g a b = .ok r) ∧
    (is_data_dependency g a b = .ok true ↔ Relation.TransGen (childRel g) a b) := by
  have hiff : Relation.TransGen (childRel g) a b ↔ Reachable g a b := by
    unfold Reachable
    rw [Relation.reflTransGen_iff_eq_or_transGen]
    constructor
    · intro h; exact Or.inr h
    · intro h
      rcases h with h | h
      · exact absurd h.symm hab
      · exact h
  rcases is_data_dependency_spec g hwf a b ha with ⟨h1, h2⟩ | ⟨h1, h2⟩
  · exact ⟨⟨true, h1⟩, ⟨fun _ => hiff.mpr h2, fun _ => h1⟩⟩
  · refine ⟨⟨false, h1⟩, ⟨fun h => ?_, fun h => absurd (hiff.mp h) h2⟩⟩
    rw [h1] at h
    cases h

lemma getParent_mem {g : MKLDNNGraph} {e : EdgeId} {p : NodeId}
    (h : getParent g e = some p) : p ∈ g.graphNodes := by
  unfold getParent at h
  split at h
  · cases h; assumption
  · cases h

lemma foldlM_skip {f : MKLDNNGraph → NodeId → Option MKLDNNGraph} {g : MKLDNNGraph} :
    ∀ (l : List NodeId), (∀ n ∈ l, f g n = some g) → l.foldlM f g = some g := by
  intro l
  induction l with
  | nil => intro _; rfl
  | cons x xs ih =>
    intro h
    rw [List.foldlM_cons, h x (List.mem_cons_self _ _)]
    exact ih (fun n hn => h n (List.mem_cons_of_mem _ hn))

lemma candidate_mem {g : MKLDNNGraph} {sum mergedConv peerNode : NodeId}
    (h : FuseConvolutionSum.candidate g sum = some (some (mergedConv, peerNode))) :
    mergedConv ∈ g.graphNodes ∧ peerNode ∈ g.graphNodes := by
  unfold FuseConvolutionSum.candidate at h
  repeat' split at h
  all_goals
    cases h <;> exact ⟨getParent_mem (by assumption), getParent_mem (by assumption)⟩

lemma checkParents_false (g : MKLDNNGraph) (mergedConv peerNode : NodeId) :
    ∀ idxs, FuseConvolutionSum.checkParents g mergedConv peerNode idxs false = some false := by
  intro idxs
  cases idxs <;> simp [FuseConvolutionSum.checkParents]

lemma checkConsumers_false (g : MKLDNNGraph) (sum : NodeId) :
    ∀ ws, FuseConvolutionSum.checkConsumers g sum ws false = some false := by
  intro ws
  cases ws <;> simp [FuseConvolutionSum.checkConsumers]

lemma checkParents_returns (g : MKLDNNGraph) (hp : parentRefsLive g = true)
    (mergedConv peerNode : NodeId) (hm : mergedConv ∈ g.graphNodes) :
    ∀ idxs, (∀ j ∈ idxs, j < (g.node mergedConv).parentEdges.length) →
      ∀ fa, ∃ r, FuseConvolutionSum.checkParents g mergedConv peerNode idxs fa = some r := by
  intro idxs
  induction idxs with
  | nil => intro _ fa; exact ⟨fa, rfl⟩
  | cons j rest ih =>
    intro hj fa
    cases fa with
    | false => exact ⟨false, checkParents_false g mergedConv peerNode _⟩
    | true =>
      have hlt := hj j (List.mem_cons_self _ _)
      unfold parentRefsLive at hp
      rw [List.all_eq_true] at hp
      have h1 := hp mergedConv hm
      rw [List.all_eq_true] at h1
      have hw := h1 ((g.node mergedConv).parentEdges.get ⟨j, hlt⟩) (List.get_mem _ _ _)
      cases hl : lock g ((g.node mergedConv).parentEdges.get ⟨j, hlt⟩) with
      | none => rw [hl] at hw; cases hw
      | some e =>
        have hge : getParentEdgeAt g mergedConv j = some e := by
          unfold getParentEdgeAt
          rw [List.get?_eq_get hlt]
          exact hl
        simp only [FuseConvolutionSum.checkParents, hge, Bool.not_true, Bool.false_eq_true,
          if_false]
        exact ih (fun k hk => hj k (List.mem_cons_of_mem _ hk)) _

/-- The loop over the consumers of the peer ends with `false` as soon as one
consumer cannot reach the sum. -/
lemma checkConsumers_unreachable (g : MKLDNNGraph) (hwf : childRefsLive g = true)
    (sum d : NodeId) (hnr : ¬ Reachable g d sum) :
    ∀ ws, (∀ w ∈ ws, ((lock g w).bind (getChild g)).isSome = true) →
      d ∈ ws.filterMap (fun w => (lock g w).bind (getChild g)) →
      ∀ fa, FuseConvolutionSum.checkConsumers g sum ws fa = some false := by
  intro ws
  induction ws with
  | nil => intro _ hd; simp at hd
  | cons w ws ih =>
    intro hws hd fa
    cases fa with
    | false => exact checkConsumers_false g sum _
    | true =>
      have hw := hws w (List.mem_cons_self _ _)
      cases hl : lock g w with
      | none => rw [hl] at hw; simp at hw
      | some e =>
        rw [hl] at hw
        cases hc : getChild g e with
        | none => simp [hc] at hw
        | some c =>
          rw [List.filterMap_cons] at hd
          simp only [hl, hc, Option.some_bind, List.mem_cons] at hd
          rcases is_data_dependency_spec g hwf c sum (getChild_mem hc) with ⟨h1, h2⟩ | ⟨h1, _⟩
          · have hd2 : d ∈ ws.filterMap (fun w => (lock g w).bind (getChild g)) := by
              rcases hd with h | h
              · subst h; exact absurd h2 hnr
              · exact h
            simp only [FuseConvolutionSum.checkConsumers, hl, hc, h1, Bool.not_true,
              Bool.false_eq_true, if_false]
            exact ih (fun w1 h => hws w1 (List.mem_cons_of_mem _ h)) hd2 _
          · simp only [FuseConvolutionSum.checkConsumers, hl, hc, h1, Bool.not_true,
              Bool.false_eq_true, if_false, Bool.and_false]
            exact checkConsumers_false g sum _

lemma not_reachable_of_search (g : MKLDNNGraph) (hwf : childRefsLive g = true)
    (a b : NodeId) (ha : a ∈ g.graphNodes) (h : is_data_dependency g a b = .ok false) :
    ¬ Reachable g a b := by
  rcases is_data_dependency_spec g hwf a b ha with ⟨h1, _⟩ | ⟨_, h2⟩
  · rw [h1] at h
    cases h
  · exact h2

lemma two_le_length_of_mem {l : List NodeId} {x y : NodeId} (hx : x ∈ l) (hy : y ∈ l)
    (hxy : x ≠ y) : 2 ≤ l.length := by
  match l, hx, hy with
  | [], hx, _ => cases hx
  | [z], hx, hy =>
    rw [List.mem_singleton] at hx hy
    exact absurd (hx.trans hy.symm) hxy
  | _ :: _ :: _, _, _ => simp

lemma children_length_le (g : MKLDNNGraph) (u : NodeId) :
    (children g u).length ≤ (g.node u).childEdges.length := by
  unfold children
  exact List.length_filterMap_le _ _

/-- C6: let `sum` be a candidate of the sum fusion with convolution `mergedConv`
and peer `peerNode`, on a graph without dangling references. If a producer `b`
of the sum, be it the peer or the convolution itself, has a consumer `d` from
which the sum is not reachable along child edges, the loop body leaves the
graph as it is: no kind is changed and no edge is added or removed. When the
sum is the only Eltwise node, the whole pass leaves the graph as it is. -/
theorem FuseConvolutionSum_rejects_unread_consumer (g : MKLDNNGraph)
    (sum mergedConv peerNode b d : NodeId)
    (hwf : childRefsLive g = true) (hp : parentRefsLive g = true)
    (hcand : FuseConvolutionSum.candidate g sum = some (some (mergedConv, peerNode)))
    (hb : b = peerNode ∨ (b = mergedConv ∧ sum ∈ children g b))
    (hd : d ∈ children g b) (hnr : ¬ Reachable g d sum) :
    FuseConvolutionSum.step g sum = some g ∧
    ((∀ n ∈ g.graphNodes, n ≠ sum → (g.node n).type ≠ .Eltwise) →
      FuseConvolutionSumAndConvolutionSumActivation g = some g) := by
  obtain ⟨hm, hpe⟩ := candidate_mem hcand
  have hfa : FuseConvolutionSum.fuseAllowed g sum mergedConv peerNode = some false := by
    unfold FuseConvolutionSum.fuseAllowed
    rcases hb with hb | ⟨hb, hs⟩
    · subst hb
      obtain ⟨r, hr⟩ := checkParents_returns g hp mergedConv b hm
        (List.range (g.node mergedConv).parentEdges.length)
        (fun j hj => List.mem_range.mp hj)
        (decide ((g.node mergedConv).childEdges.length = 1))
      rw [hr]
      exact checkConsumers_unreachable g hwf sum d hnr _ (childRefsLive_node hwf hpe) hd r
    · subst hb
      have hne : sum ≠ d := by
        intro h
        subst h
        exact hnr Relation.ReflTransGen.refl
      have h2 := two_le_length_of_mem hs hd hne
      have h3 := children_length_le g b
      have h1 : decide ((g.node b).childEdges.length = 1) = false := by
        rw [decide_eq_false_iff_not]
        omega
      rw [h1, checkParents_false]
      exact checkConsumers_false g sum _
  have hstep : FuseConvolutionSum.step g sum = some g := by
    unfold FuseConvolutionSum.step
    rw [hcand]
    simp only [hfa]
  refine ⟨hstep, fun hone => ?_⟩
  unfold FuseConvolutionSumAndConvolutionSumActivation
  apply foldlM_skip
  intro n _
  by_cases hn : n = sum
  · subst hn
    exact hstep
  · have ht := hone n (by assumption) hn
    unfold FuseConvolutionSum.step FuseConvolutionSum.candidate
    simp [ht]

/-- C6, at the scenario of the claim: `A` (2) and `B` (3) feed the sum (4), the
further consumer `D` (5) of `B` does not reach the sum, and the pass leaves
`sumRejectGraph` as it is. -/
theorem FuseConvolutionSum_rejects_unread_consumer_witness :
    childRefsLive sumRejectGraph = true ∧ parentRefsLive sumRejectGraph = true ∧
    FuseConvolutionSum.candidate sumRejectGraph 4 = some (some (2, 3)) ∧
    5 ∈ children sumRejectGraph 3 ∧ ¬ Reachable sumRejectGraph 5 4 ∧
    FuseConvolutionSum.step sumRejectGraph 4 = some sumRejectGraph ∧
    FuseConvolutionSumAndConvolutionSumActivation sumRejectGraph = some sumRejectGraph := by
  have hwf : childRefsLive sumRejectGraph = true := by decide
  have hnr : ¬ Reachable sumRejectGraph 5 4 :=
    not_reachable_of_search sumRejectGraph hwf 5 4 (by decide) rfl
  have h := FuseConvolutionSum_rejects_unread_consumer sumRejectGraph 4 2 3 3 5 hwf
    (by decide) (by decide) (Or.inl rfl) (by decide) hnr
  exact ⟨hwf, by decide, by decide, by decide, hnr, h.1, h.2 (by decide)⟩

end MKLDNNPlugin

namespace MKLDNNPlugin

lemma f32Eq_one (x : Nat) : f32Eq x f32One = f32DenotesOne x := by
  unfold f32Eq f32IsNaN f32IsZero f32One f32DenotesOne
  rw [Bool.eq_iff_iff]
  simp only [Bool.and_eq_true, Bool.or_eq_true, Bool.not_eq_true', Bool.and_eq_false_iff,
    beq_iff_eq, bne_iff_ne,
    decide_eq_true_eq, beq_eq_false_iff_ne, bne_eq_false_iff_eq, ne_eq]
  unfold F32
  constructor <;> intro h <;> omega

lemma f32Eq_zero (x : Nat) : f32Eq x f32Zero = f32DenotesZero x := by
  unfold f32Eq f32IsNaN f32IsZero f32Zero f32DenotesZero
  rw [Bool.eq_iff_iff]
  simp only [Bool.and_eq_true, Bool.or_eq_true, Bool.not_eq_true', Bool.and_eq_false_iff,
    beq_iff_eq, bne_iff_ne,
    decide_eq_true_eq, beq_eq_false_iff_ne, bne_eq_false_iff_eq, ne_eq]
  unfold F32
  constructor <;> intro h <;> omega

/-- The flag `toDrop` is the no-op test of the spec, for a node whose layer
descriptor fits its kind. -/
lemma toDrop_eq (g : MKLDNNGraph) (n : NodeId) (h : layerMatchesKind (g.node n) = true) :
    RemoveIdentityOperator.toDrop g n = some (isIdentityOperator (g.node n)) := by
  unfold RemoveIdentityOperator.toDrop isIdentityOperator
  unfold layerMatchesKind at h
  cases ht : (g.node n).type <;> rw [ht] at h <;> simp only [] at h ⊢ <;>
    first
    | rfl
    | (cases hl : (g.node n).cnnLayer with
       | none => rw [hl] at h; simp at h
       | some l =>
         rw [hl] at h
         cases l <;> simp at h ⊢ <;> simp [f32Eq_one, f32Eq_zero])

end MKLDNNPlugin

namespace MKLDNNPlugin

lemma SameLayers.refl (g : MKLDNNGraph) : SameLayers g g :=
  fun _ => ⟨rfl, rfl⟩

lemma SameLayers.trans {g g1 g2 : MKLDNNGraph} (h1 : SameLayers g g1) (h2 : SameLayers g1 g2) :
    SameLayers g g2 :=
  fun n => ⟨(h2 n).1.trans (h1 n).1, (h2 n).2.trans (h1 n).2⟩

lemma sameLayers_setChildEdges (g : MKLDNNGraph) (n : NodeId) (l : List MKLDNNEdgeWeakPtr) :
    SameLayers g (g.setChildEdges n l) := by
  intro m
  unfold MKLDNNGraph.setChildEdges MKLDNNGraph.setNode
  by_cases h : m = n
  · subst h; simp
  · simp [h]

lemma sameLayers_setParentEdges (g : MKLDNNGraph) (n : NodeId) (l : List MKLDNNEdgeWeakPtr) :
    SameLayers g (g.setParentEdges n l) := by
  intro m
  unfold MKLDNNGraph.setParentEdges MKLDNNGraph.setNode
  by_cases h : m = n
  · subst h; simp
  · simp [h]

lemma sameLayers_removeEdge (g : MKLDNNGraph) (w : MKLDNNEdgeWeakPtr) :
    SameLayers g (removeEdge g w) := by
  unfold removeEdge
  split
  · exact SameLayers.refl g
  · split
    · exact (sameLayers_setParentEdges _ _ _).trans (sameLayers_setChildEdges _ _ _)
    · exact SameLayers.refl g

lemma sameLayers_toParent (g : MKLDNNGraph) (parentPtr : NodeId) (edge : EdgeId)
    (cIndex : Nat) : SameLayers g (addEdge.toParent g parentPtr edge cIndex) := by
  unfold addEdge.toParent
  split
  · exact (sameLayers_removeEdge _ _).trans (sameLayers_setChildEdges _ _ _)
  · exact sameLayers_setChildEdges _ _ _

lemma sameLayers_toChild (g : MKLDNNGraph) (childPtr : NodeId) (edge : EdgeId)
    (pIndex : Nat) : SameLayers g (addEdge.toChild g childPtr edge pIndex) := by
  unfold addEdge.toChild
  split
  · exact (sameLayers_removeEdge _ _).trans (sameLayers_setParentEdges _ _ _)
  · exact sameLayers_setParentEdges _ _ _

lemma sameLayers_addEdge (g : MKLDNNGraph) (edge : EdgeId) (pIndex cIndex : Nat) :
    SameLayers g (addEdge g edge pIndex cIndex) := by
  unfold addEdge
  split
  · exact SameLayers.refl g
  · split
    · exact (sameLayers_toParent _ _ _ _).trans (sameLayers_toChild _ _ _ _)
    · exact SameLayers.refl g

lemma sameLayers_takeParentEdge (g : MKLDNNGraph) (node : NodeId) (i : Nat) :
    SameLayers g (DropNode.takeParentEdge g node i).2 := by
  unfold DropNode.takeParentEdge
  split
  · exact sameLayers_removeEdge g _
  · exact SameLayers.refl g

lemma sameLayers_takeChildEdge (g : MKLDNNGraph) (node : NodeId) (j : Nat) :
    SameLayers g (DropNode.takeChildEdge g node j).2 := by
  unfold DropNode.takeChildEdge
  split
  · exact sameLayers_removeEdge g _
  · exact SameLayers.refl g

lemma sameLayers_body (node : NodeId) (i : Nat) (parent : NodeId) (j : Nat) (g : MKLDNNGraph) :
    SameLayers g (DropNode.body node i parent j g) := by
  unfold DropNode.body
  split
  · exact SameLayers.refl g
  · split
    · exact SameLayers.refl g
    · exact ((sameLayers_takeParentEdge g node i).trans
        (sameLayers_takeChildEdge _ node j)).trans (sameLayers_addEdge _ _ _ _)

lemma sameLayers_inner (node : NodeId) (i : Nat) (parent : NodeId) :
    ∀ (fuel j : Nat) (g g1 : MKLDNNGraph),
      DropNode.inner node i parent fuel j g = some g1 → SameLayers g g1 := by
  intro fuel
  induction fuel with
  | zero => intro j g g1 h; simp [DropNode.inner] at h
  | succ fuel ih =>
    intro j g g1 h
    unfold DropNode.inner at h
    split at h
    · exact (sameLayers_body node i parent j g).trans (ih _ _ _ h)
    · cases h
      exact SameLayers.refl g

lemma sameLayers_outer (node : NodeId) :
    ∀ (fuel i : Nat) (g g1 : MKLDNNGraph),
      DropNode.outer node fuel i g = some g1 → SameLayers g g1 := by
  intro fuel
  induction fuel with
  | zero => intro i g g1 h; simp [DropNode.outer] at h
  | succ fuel ih =>
    intro i g g1 h
    unfold DropNode.outer at h
    split at h
    · split at h
      · exact ih _ _ _ h
      · split at h
        · exact ih _ _ _ h
        · split at h
          · cases h
          · rename_i g2 hin
            exact (sameLayers_inner node i _ _ _ _ _ hin).trans (ih _ _ _ h)
    · cases h
      exact SameLayers.refl g

/-- DropNode changes neither the kind nor the layer descriptor of any node. -/
lemma sameLayers_DropNode (g g1 : MKLDNNGraph) (node : NodeId)
    (h : DropNode g node = some g1) : SameLayers g g1 :=
  sameLayers_outer node _ _ _ _ h

lemma isIdentityOperator_congr {g g1 : MKLDNNGraph} (h : SameLayers g g1) (n : NodeId) :
    isIdentityOperator (g1.node n) = isIdentityOperator (g.node n) := by
  unfold isIdentityOperator
  rw [(h n).1, (h n).2]

lemma layerMatchesKind_congr {g g1 : MKLDNNGraph} (h : SameLayers g g1) (n : NodeId) :
    layerMatchesKind (g1.node n) = layerMatchesKind (g.node n) := by
  unfold layerMatchesKind
  rw [(h n).1, (h n).2]

lemma RemoveIdentityOperator_fold (g0 : MKLDNNGraph) :
    ∀ (l : List NodeId) (g : MKLDNNGraph), SameLayers g0 g →
      (∀ n ∈ l, layerMatchesKind (g0.node n) = true) →
      l.foldlM RemoveIdentityOperator.step g =
        (l.filter (fun n => isIdentityOperator (g0.node n))).foldlM DropNode g := by
  intro l
  induction l with
  | nil => intro g _ _; rfl
  | cons n l ih =>
    intro g hs hl
    have hn : layerMatchesKind (g.node n) = true := by
      rw [layerMatchesKind_congr hs n]
      exact hl n (List.mem_cons_self _ _)
    have hl2 : ∀ m ∈ l, layerMatchesKind (g0.node m) = true :=
      fun m hm => hl m (List.mem_cons_of_mem _ hm)
    have htd := toDrop_eq g n hn
    rw [isIdentityOperator_congr hs n] at htd
    rw [List.foldlM_cons]
    cases hid : isIdentityOperator (g0.node n) with
    | false =>
      rw [hid] at htd
      have hstep : RemoveIdentityOperator.step g n = some g := by
        unfold RemoveIdentityOperator.step
        rw [htd]
      rw [hstep, List.filter_cons_of_neg (by simp [hid])]
      exact ih g hs hl2
    | true =>
      rw [hid] at htd
      have hstep : RemoveIdentityOperator.step g n = DropNode g n := by
        unfold RemoveIdentityOperator.step
        rw [htd]
      rw [hstep, List.filter_cons_of_pos (by simp [hid]), List.foldlM_cons]
      cases hd : DropNode g n with
      | none => rfl
      | some g1 =>
        exact ih g1 (hs.trans (sameLayers_DropNode g g1 n hd)) hl2

end MKLDNNPlugin

namespace MKLDNNPlugin

/-- C4, at a concrete input: in `sumFuseGraph` the search from `D` (2) for the sum
(4) answers, and it answers true exactly when a path of child edges exists. -/
theorem is_data_dependency_iff_path_witness :
    childRefsLive sumFuseGraph = true ∧ 2 ∈ sumFuseGraph.graphNodes ∧ (2 : NodeId) ≠ 4 ∧
    (∃ r, is_data_dependency sumFuseGraph 2 4 = .ok r) ∧
    (is_data_dependency sumFuseGraph 2 4 = .ok true ↔
      Relation.TransGen (childRel sumFuseGraph) 2 4) :=
  ⟨by decide, by decide, by decide,
    is_data_dependency_iff_path sumFuseGraph 2 4 (by decide) (by decide) (by decide)⟩

/-- The sum fusion evaluated on two graphs. In `sumFuseGraph` the further
consumer `D` (2) of `B` (1) feeds the sum (4) through `A` (3): `A` becomes
Convolution_Sum, its producers are `D` and then `B`, `B` feeds `A` and `D`, `A`
feeds the former child of the sum, and after the sweep the graph has no Eltwise
node. With a ReLU behind the sum (`sumFuseReluGraph`), `A` becomes
Convolution_Sum_Activation, absorbs the sum and the activation, feeds the
former child of the activation, and the sweep removes both. -/
theorem FuseConvolutionSum_on_examples :
    Reachable sumFuseGraph 2 4 ∧
    (FuseConvolutionSumAndConvolutionSumActivation sumFuseGraph).map
        (fun g => ((g.node 3).type, parents g 3, children g 1, children g 3,
          kinds (RemoveDropped g), (RemoveDropped g).graphNodes)) =
      some (.Convolution_Sum, [2, 1], [3, 2], [5],
        [.Input, .Convolution, .Generic, .Convolution_Sum, .Output], [0, 1, 2, 3, 5]) ∧
    Reachable sumFuseReluGraph 2 4 ∧
    (FuseConvolutionSumAndConvolutionSumActivation sumFuseReluGraph).map
        (fun g => ((g.node 3).type, (g.node 3).fusedWith, parents g 3, children g 1,
          children g 3, kinds (RemoveDropped g), (RemoveDropped g).graphNodes)) =
      some (.Convolution_Sum_Activation, [4, 5], [2, 1], [3, 2], [6],
        [.Input, .Convolution, .Generic, .Convolution_Sum_Activation, .Output],
        [0, 1, 2, 3, 6]) := by
  have h23 : childRel sumFuseGraph 2 3 := by
    show 3 ∈ children sumFuseGraph 2
    decide
  have h34 : childRel sumFuseGraph 3 4 := by
    show 4 ∈ children sumFuseGraph 3
    decide
  have k23 : childRel sumFuseReluGraph 2 3 := by
    show 3 ∈ children sumFuseReluGraph 2
    decide
  have k34 : childRel sumFuseReluGraph 3 4 := by
    show 4 ∈ children sumFuseReluGraph 3
    decide
  exact ⟨Relation.ReflTransGen.head h23 (Relation.ReflTransGen.single h34), rfl,
    Relation.ReflTransGen.head k23 (Relation.ReflTransGen.single k34), rfl⟩

/-- C9: on `convCopyReluGraph` the first run of Optimize drops the Copy node and
leaves a Convolution followed by the activation; the second run fuses the
two, so node list and kinds differ from those after the first run. -/
theorem Optimize_twice_differs :
    (Optimize convCopyReluGraph).map (fun g => (g.graphNodes, kinds g, g.graphEdges)) =
      some ([0, 1, 3, 4], [.Input, .Convolution, .Activation, .Output], [0, 3, 4]) ∧
    ((Optimize convCopyReluGraph).bind Optimize).map
        (fun g => (g.graphNodes, kinds g, g.graphEdges)) =
      some ([0, 1, 4], [.Input, .Convolution_Activation, .Output], [0, 5]) := by
  decide

end MKLDNNPlugin

namespace MKLDNNPlugin

lemma RemoveDropped_loop_keep (g : MKLDNNGraph) :
    ∀ (rest done : List NodeId), (∀ n ∈ rest, nodeIsDropped g n = false) →
      RemoveDropped.loop g done rest = done ++ rest := by
  intro rest
  induction rest with
  | nil => intro done _; simp [RemoveDropped.loop]
  | cons n rest ih =>
    intro done h
    have hn : nodeIsDropped { g with graphNodes := done ++ n :: rest } n = false :=
      h n (List.mem_cons_self _ _)
    unfold RemoveDropped.loop
    rw [hn]
    simp only [Bool.false_eq_true, if_false]
    rw [ih (done ++ [n]) (fun m hm => h m (List.mem_cons_of_mem _ hm))]
    simp

lemma RemoveDropped_id (g : MKLDNNGraph) (h : ∀ n ∈ g.graphNodes, nodeIsDropped g n = false) :
    RemoveDropped g = g := by
  unfold RemoveDropped
  rw [RemoveDropped_loop_keep g g.graphNodes [] h]
  rfl

lemma RemoveDroppedEdges_loop_keep (g : MKLDNNGraph) :
    ∀ (rest done : List EdgeId), done ++ rest = g.graphEdges →
      (∀ e ∈ rest, edgeIsDropped g e = false) →
      RemoveDroppedEdges.loop g done rest = g.graphEdges := by
  intro rest
  induction rest with
  | nil =>
    intro done hd _
    simp only [RemoveDroppedEdges.loop]
    simpa using hd
  | cons e rest ih =>
    intro done hd h
    have hg : ({ g with graphEdges := done ++ e :: rest } : MKLDNNGraph) = g := by
      rw [hd]
    have he : edgeIsDropped { g with graphEdges := done ++ e :: rest } e = false := by
      rw [hg]
      exact h e (List.mem_cons_self _ _)
    unfold RemoveDroppedEdges.loop
    rw [he]
    simp only [Bool.false_eq_true, if_false]
    exact ih (done ++ [e]) (by simpa using hd) (fun m hm => h m (List.mem_cons_of_mem _ hm))

lemma RemoveDroppedEdges_id (g : MKLDNNGraph)
    (h : ∀ e ∈ g.graphEdges, edgeIsDropped g e = false) : RemoveDroppedEdges g = g := by
  unfold RemoveDroppedEdges
  rw [RemoveDroppedEdges_loop_keep g g.graphEdges [] (by simp) h]

end MKLDNNPlugin

namespace MKLDNNPlugin

/-! ## How the edge operations change the reference lists -/

lemma Shrinks.shrinks_refl (l : List MKLDNNEdgeWeakPtr) : Shrinks l l := by
  unfold Shrinks
  induction l with
  | nil => exact List.Forall₂.nil
  | cons a l ih => exact List.Forall₂.cons (Or.inl rfl) ih

lemma Shrinks.shrinks_trans {l l1 l2 : List MKLDNNEdgeWeakPtr} (h1 : Shrinks l l1)
    (h2 : Shrinks l1 l2) : Shrinks l l2 := by
  unfold Shrinks at *
  induction h1 generalizing l2 with
  | nil => cases h2; exact List.Forall₂.nil
  | cons hab _ ih =>
    cases h2 with
    | cons hbc h2 =>
      refine List.Forall₂.cons ?_ (ih h2)
      rcases hbc with h | h
      · rw [h]; exact hab
      · exact Or.inr h

lemma Shrinks.length_eq {l l1 : List MKLDNNEdgeWeakPtr} (h : Shrinks l l1) :
    l1.length = l.length :=
  (List.Forall₂.length_eq h).symm

lemma Shrinks.mem_some {l l1 : List MKLDNNEdgeWeakPtr} (h : Shrinks l l1) {e : EdgeId}
    (he : some e ∈ l1) : some e ∈ l := by
  unfold Shrinks at h
  induction h with
  | nil => cases he
  | cons hab _ ih =>
    rcases List.mem_cons.mp he with h1 | h1
    · rcases hab with h2 | h2
      · rw [h1, h2]; exact List.mem_cons_self _ _
      · rw [h2] at h1; cases h1
    · exact List.mem_cons_of_mem _ (ih h1)

lemma shrinks_resetRef (e : EdgeId) (l : List MKLDNNEdgeWeakPtr) : Shrinks l (resetRef e l) := by
  unfold Shrinks resetRef
  induction l with
  | nil => exact List.Forall₂.nil
  | cons a l ih =>
    refine List.Forall₂.cons ?_ ih
    by_cases h : a = some e
    · right; simp [h]
    · left; simp [h]

lemma not_mem_resetRef (e : EdgeId) (l : List MKLDNNEdgeWeakPtr) : some e ∉ resetRef e l := by
  unfold resetRef
  intro h
  rw [List.mem_map] at h
  obtain ⟨a, _, ha⟩ := h
  by_cases h1 : a = some e
  · simp [h1] at ha
  · simp [h1] at ha

lemma mem_resetRef_of_ne {e e1 : EdgeId} (h : e1 ≠ e) {l : List MKLDNNEdgeWeakPtr}
    (hm : some e1 ∈ l) : some e1 ∈ resetRef e l := by
  unfold resetRef
  rw [List.mem_map]
  refine ⟨some e1, hm, ?_⟩
  have : (some e1 : MKLDNNEdgeWeakPtr) ≠ some e := fun h2 => h (Option.some.inj h2)
  simp [this]

@[simp] lemma setChildEdges_graphNodes (g : MKLDNNGraph) (n : NodeId)
    (l : List MKLDNNEdgeWeakPtr) : (g.setChildEdges n l).graphNodes = g.graphNodes := rfl

@[simp] lemma setChildEdges_graphEdges (g : MKLDNNGraph) (n : NodeId)
    (l : List MKLDNNEdgeWeakPtr) : (g.setChildEdges n l).graphEdges = g.graphEdges := rfl

@[simp] lemma setChildEdges_edge (g : MKLDNNGraph) (n : NodeId)
    (l : List MKLDNNEdgeWeakPtr) : (g.setChildEdges n l).edge = g.edge := rfl

@[simp] lemma setChildEdges_edgeCount (g : MKLDNNGraph) (n : NodeId)
    (l : List MKLDNNEdgeWeakPtr) : (g.setChildEdges n l).edgeCount = g.edgeCount := rfl

@[simp] lemma setParentEdges_graphNodes (g : MKLDNNGraph) (n : NodeId)
    (l : List MKLDNNEdgeWeakPtr) : (g.setParentEdges n l).graphNodes = g.graphNodes := rfl

@[simp] lemma setParentEdges_graphEdges (g : MKLDNNGraph) (n : NodeId)
    (l : List MKLDNNEdgeWeakPtr) : (g.setParentEdges n l).graphEdges = g.graphEdges := rfl

@[simp] lemma setParentEdges_edge (g : MKLDNNGraph) (n : NodeId)
    (l : List MKLDNNEdgeWeakPtr) : (g.setParentEdges n l).edge = g.edge := rfl

@[simp] lemma setParentEdges_edgeCount (g : MKLDNNGraph) (n : NodeId)
    (l : List MKLDNNEdgeWeakPtr) : (g.setParentEdges n l).edgeCount = g.edgeCount := rfl

lemma setChildEdges_childEdges (g : MKLDNNGraph) (n m : NodeId) (l : List MKLDNNEdgeWeakPtr) :
    ((g.setChildEdges n l).node m).childEdges = if m = n then l else (g.node m).childEdges := by
  unfold MKLDNNGraph.setChildEdges MKLDNNGraph.setNode
  by_cases h : m = n
  · subst h; simp
  · simp [h]

lemma setChildEdges_parentEdges (g : MKLDNNGraph) (n m : NodeId) (l : List MKLDNNEdgeWeakPtr) :
    ((g.setChildEdges n l).node m).parentEdges = (g.node m).parentEdges := by
  unfold MKLDNNGraph.setChildEdges MKLDNNGraph.setNode
  by_cases h : m = n
  · subst h; simp
  · simp [h]

lemma setParentEdges_parentEdges (g : MKLDNNGraph) (n m : NodeId) (l : List MKLDNNEdgeWeakPtr) :
    ((g.setParentEdges n l).node m).parentEdges =
      if m = n then l else (g.node m).parentEdges := by
  unfold MKLDNNGraph.setParentEdges MKLDNNGraph.setNode
  by_cases h : m = n
  · subst h; simp
  · simp [h]

lemma setParentEdges_childEdges (g : MKLDNNGraph) (n m : NodeId) (l : List MKLDNNEdgeWeakPtr) :
    ((g.setParentEdges n l).node m).childEdges = (g.node m).childEdges := by
  unfold MKLDNNGraph.setParentEdges MKLDNNGraph.setNode
  by_cases h : m = n
  · subst h; simp
  · simp [h]

lemma SameFrame.lock_eq {g g1 : MKLDNNGraph} (h : SameFrame g g1) (w : MKLDNNEdgeWeakPtr) :
    lock g1 w = lock g w := by
  unfold lock
  rw [h.2.1]

lemma SameFrame.getParent_eq {g g1 : MKLDNNGraph} (h : SameFrame g g1) (e : EdgeId) :
    getParent g1 e = getParent g e := by
  unfold getParent
  rw [h.1, h.2.2.1]

lemma SameFrame.getChild_eq {g g1 : MKLDNNGraph} (h : SameFrame g g1) (e : EdgeId) :
    getChild g1 e = getChild g e := by
  unfold getChild
  rw [h.1, h.2.2.1]

lemma SameFrame.frame_refl (g : MKLDNNGraph) : SameFrame g g := ⟨rfl, rfl, rfl, rfl⟩

lemma SameFrame.frame_trans {g g1 g2 : MKLDNNGraph} (h1 : SameFrame g g1) (h2 : SameFrame g1 g2) :
    SameFrame g g2 :=
  ⟨h2.1.trans h1.1, h2.2.1.trans h1.2.1, h2.2.2.1.trans h1.2.2.1, h2.2.2.2.trans h1.2.2.2⟩

/-- What `removeEdge` does when the reference is live and both endpoints are
owned: the edge is reset in the parent list of the consumer and in the child
list of the producer. -/
lemma removeEdge_live {g : MKLDNNGraph} {w : MKLDNNEdgeWeakPtr} {e : EdgeId} {p c : NodeId}
    (hl : lock g w = some e) (hp : getParent g e = some p) (hc : getChild g e = some c) :
    removeEdge g w =
      (g.setParentEdges c (resetRef e (g.node c).parentEdges)).setChildEdges p
        (resetRef e ((g.setParentEdges c (resetRef e (g.node c).parentEdges)).node p).childEdges) := by
  unfold removeEdge
  simp only [hl, hp, hc]

lemma removeEdge_sameFrame (g : MKLDNNGraph) (w : MKLDNNEdgeWeakPtr) :
    SameFrame g (removeEdge g w) := by
  unfold removeEdge
  split
  · exact SameFrame.frame_refl g
  · split
    · exact ⟨rfl, rfl, rfl, rfl⟩
    · exact SameFrame.frame_refl g

lemma removeEdge_shrinks (g : MKLDNNGraph) (w : MKLDNNEdgeWeakPtr) (m : NodeId) :
    Shrinks (g.node m).parentEdges ((removeEdge g w).node m).parentEdges ∧
    Shrinks (g.node m).childEdges ((removeEdge g w).node m).childEdges := by
  unfold removeEdge
  split
  · exact ⟨Shrinks.shrinks_refl _, Shrinks.shrinks_refl _⟩
  · split
    · constructor
      · rw [setChildEdges_parentEdges, setParentEdges_parentEdges]
        split
        · rename_i h; subst h; exact shrinks_resetRef _ _
        · exact Shrinks.shrinks_refl _
      · rw [setChildEdges_childEdges]
        split
        · rename_i h; subst h
          rw [setParentEdges_childEdges]
          exact shrinks_resetRef _ _
        · rw [setParentEdges_childEdges]
          exact Shrinks.shrinks_refl _
    · exact ⟨Shrinks.shrinks_refl _, Shrinks.shrinks_refl _⟩

lemma removeEdge_refsFrom (g : MKLDNNGraph) (w : MKLDNNEdgeWeakPtr) (E : EdgeId) :
    RefsFrom g (removeEdge g w) E :=
  ⟨removeEdge_sameFrame g w, fun m _ =>
    ⟨fun h => Or.inl ((removeEdge_shrinks g w m).1.mem_some h),
      fun h => Or.inl ((removeEdge_shrinks g w m).2.mem_some h)⟩⟩

lemma RefsFrom.refs_refl (g : MKLDNNGraph) (E : EdgeId) : RefsFrom g g E :=
  ⟨SameFrame.frame_refl g, fun _ _ => ⟨Or.inl, Or.inl⟩⟩

lemma RefsFrom.refs_trans {g g1 g2 : MKLDNNGraph} {E : EdgeId} (h1 : RefsFrom g g1 E)
    (h2 : RefsFrom g1 g2 E) : RefsFrom g g2 E := by
  refine ⟨h1.1.frame_trans h2.1, fun m e => ⟨fun h => ?_, fun h => ?_⟩⟩
  · rcases (h2.2 m e).1 h with h3 | ⟨h3, h4⟩
    · exact (h1.2 m e).1 h3
    · rw [h1.1.getChild_eq] at h4
      exact Or.inr ⟨h3, h4⟩
  · rcases (h2.2 m e).2 h with h3 | ⟨h3, h4⟩
    · exact (h1.2 m e).2 h3
    · rw [h1.1.getParent_eq] at h4
      exact Or.inr ⟨h3, h4⟩

lemma toParent_refsFrom (g : MKLDNNGraph) (p : NodeId) (E : EdgeId) (cIndex : Nat)
    (hp : getParent g E = some p) : RefsFrom g (addEdge.toParent g p E cIndex) E := by
  unfold addEdge.toParent
  split
  · refine (removeEdge_refsFrom g _ E).refs_trans ⟨⟨rfl, rfl, rfl, rfl⟩, fun m e => ⟨?_, ?_⟩⟩
    · intro h
      rw [setChildEdges_parentEdges] at h
      exact Or.inl h
    · intro h
      rw [setChildEdges_childEdges] at h
      split at h
      · rename_i hm
        subst hm
        rcases List.mem_or_eq_of_mem_set h with h1 | h1
        · exact Or.inl h1
        · right
          refine ⟨(Option.some.inj h1), ?_⟩
          rw [(removeEdge_sameFrame g _).getParent_eq]
          exact hp
      · exact Or.inl h
  · refine ⟨⟨rfl, rfl, rfl, rfl⟩, fun m e => ⟨?_, ?_⟩⟩
    · intro h
      rw [setChildEdges_parentEdges] at h
      exact Or.inl h
    · intro h
      rw [setChildEdges_childEdges] at h
      split at h
      · rename_i hm
        subst hm
        rcases List.mem_append.mp h with h1 | h1
        · exact Or.inl h1
        · right
          exact ⟨Option.some.inj (List.mem_singleton.mp h1), hp⟩
      · exact Or.inl h

lemma toChild_refsFrom (g : MKLDNNGraph) (c : NodeId) (E : EdgeId) (pIndex : Nat)
    (hc : getChild g E = some c) : RefsFrom g (addEdge.toChild g c E pIndex) E := by
  unfold addEdge.toChild
  split
  · refine (removeEdge_refsFrom g _ E).refs_trans ⟨⟨rfl, rfl, rfl, rfl⟩, fun m e => ⟨?_, ?_⟩⟩
    · intro h
      rw [setParentEdges_parentEdges] at h
      split at h
      · rename_i hm
        subst hm
        rcases List.mem_or_eq_of_mem_set h with h1 | h1
        · exact Or.inl h1
        · right
          refine ⟨(Option.some.inj h1), ?_⟩
          rw [(removeEdge_sameFrame g _).getChild_eq]
          exact hc
      · exact Or.inl h
    · intro h
      rw [setParentEdges_childEdges] at h
      exact Or.inl h
  · refine ⟨⟨rfl, rfl, rfl, rfl⟩, fun m e => ⟨?_, ?_⟩⟩
    · intro h
      rw [setParentEdges_parentEdges] at h
      split at h
      · rename_i hm
        subst hm
        rcases List.mem_append.mp h with h1 | h1
        · exact Or.inl h1
        · right
          exact ⟨Option.some.inj (List.mem_singleton.mp h1), hc⟩
      · exact Or.inl h
    · intro h
      rw [setParentEdges_childEdges] at h
      exact Or.inl h

lemma addEdge_refsFrom (g : MKLDNNGraph) (E : EdgeId) (pIndex cIndex : Nat) :
    RefsFrom g (addEdge g E pIndex cIndex) E := by
  unfold addEdge
  split
  · exact RefsFrom.refs_refl g E
  · split
    · rename_i p c hp hc
      refine (toParent_refsFrom g p E cIndex hp).refs_trans (toChild_refsFrom _ c E pIndex ?_)
      rw [(toParent_refsFrom g p E cIndex hp).1.getChild_eq]
      exact hc
    · exact RefsFrom.refs_refl g E

lemma getParent_eq_some {g : MKLDNNGraph} {e : EdgeId} {p : NodeId}
    (h : getParent g e = some p) : (g.edge e).parent = p ∧ p ∈ g.graphNodes := by
  unfold getParent at h
  split at h
  · cases h; exact ⟨rfl, by assumption⟩
  · cases h

lemma getChild_eq_some {g : MKLDNNGraph} {e : EdgeId} {c : NodeId}
    (h : getChild g e = some c) : (g.edge e).child = c ∧ c ∈ g.graphNodes := by
  unfold getChild at h
  split at h
  · cases h; exact ⟨rfl, by assumption⟩
  · cases h

/-- Consistency passes to a graph with the same frame whose lists hold no new
reference but live edges, consistent with the list they are in. -/
lemma consistent_of_refs {g g1 : MKLDNNGraph} (h : Consistent g) (hf : SameFrame g g1)
    (hm : ∀ m ∈ g.graphNodes, ∀ e,
      (some e ∈ (g1.node m).parentEdges → some e ∈ (g.node m).parentEdges ∨
        (e ∈ g.graphEdges ∧ (g.edge e).child = m ∧ (g.edge e).parent ∈ g.graphNodes)) ∧
      (some e ∈ (g1.node m).childEdges → some e ∈ (g.node m).childEdges ∨
        (e ∈ g.graphEdges ∧ (g.edge e).parent = m ∧ (g.edge e).child ∈ g.graphNodes))) :
    Consistent g1 := by
  obtain ⟨h1, h2, h3⟩ := h
  obtain ⟨f1, f2, f3, f4⟩ := hf
  refine ⟨?_, ?_, ?_⟩
  · intro e he
    rw [f2] at he
    rw [f4]
    exact h1 e he
  · intro n hn e he
    rw [f1] at hn
    rw [f1, f2, f3, f4]
    rcases (hm n hn e).1 he with h4 | ⟨h4, h5, h6⟩
    · exact h2 n hn e h4
    · exact ⟨h1 e h4, fun _ => ⟨h5, h6⟩⟩
  · intro n hn e he
    rw [f1] at hn
    rw [f1, f2, f3, f4]
    rcases (hm n hn e).2 he with h4 | ⟨h4, h5, h6⟩
    · exact h3 n hn e h4
    · exact ⟨h1 e h4, fun _ => ⟨h5, h6⟩⟩

lemma consistent_removeEdge {g : MKLDNNGraph} (h : Consistent g) (w : MKLDNNEdgeWeakPtr) :
    Consistent (removeEdge g w) :=
  consistent_of_refs h (removeEdge_sameFrame g w) (fun m _ _ =>
    ⟨fun he => Or.inl ((removeEdge_shrinks g w m).1.mem_some he),
      fun he => Or.inl ((removeEdge_shrinks g w m).2.mem_some he)⟩)

lemma consistent_addEdge {g : MKLDNNGraph} (h : Consistent g) (E : EdgeId)
    (pIndex cIndex : Nat) : Consistent (addEdge g E pIndex cIndex) := by
  by_cases hl : lock g (some E) = none
  · unfold addEdge
    rw [hl]
    exact h
  · have hE : E ∈ g.graphEdges := by
      unfold lock at hl
      by_contra hc
      simp [hc] at hl
    cases hp : getParent g E with
    | none =>
      unfold addEdge
      split
      · exact h
      · simp only [hp]
        exact h
    | some p =>
      cases hc : getChild g E with
      | none =>
        unfold addEdge
        split
        · exact h
        · simp only [hp, hc]
          exact h
      | some c =>
        have hr := addEdge_refsFrom g E pIndex cIndex
        refine consistent_of_refs h hr.1 (fun m _ e => ⟨fun he => ?_, fun he => ?_⟩)
        · rcases (hr.2 m e).1 he with h1 | ⟨h1, h2⟩
          · exact Or.inl h1
          · subst h1
            exact Or.inr ⟨hE, (getChild_eq_some h2).1, (getParent_eq_some hp).1 ▸
              (getParent_eq_some hp).2⟩
        · rcases (hr.2 m e).2 he with h1 | ⟨h1, h2⟩
          · exact Or.inl h1
          · subst h1
            exact Or.inr ⟨hE, (getParent_eq_some h2).1, (getChild_eq_some hc).1 ▸
              (getChild_eq_some hc).2⟩

lemma pushNewEdge_fst (g : MKLDNNGraph) (p c : NodeId) : (pushNewEdge g p c).1 = g.edgeCount :=
  rfl

lemma pushNewEdge_graphNodes (g : MKLDNNGraph) (p c : NodeId) :
    (pushNewEdge g p c).2.graphNodes = g.graphNodes := rfl

lemma pushNewEdge_graphEdges (g : MKLDNNGraph) (p c : NodeId) :
    (pushNewEdge g p c).2.graphEdges = g.graphEdges ++ [g.edgeCount] := rfl

lemma pushNewEdge_node (g : MKLDNNGraph) (p c : NodeId) :
    (pushNewEdge g p c).2.node = g.node := rfl

lemma pushNewEdge_edgeCount (g : MKLDNNGraph) (p c : NodeId) :
    (pushNewEdge g p c).2.edgeCount = g.edgeCount + 1 := rfl

lemma pushNewEdge_edge_new (g : MKLDNNGraph) (p c : NodeId) :
    (pushNewEdge g p c).2.edge g.edgeCount = ⟨p, c, []⟩ := by
  simp [pushNewEdge, newEdge, pushEdge]

lemma pushNewEdge_edge_old (g : MKLDNNGraph) (p c : NodeId) {e : EdgeId}
    (h : e ≠ g.edgeCount) : (pushNewEdge g p c).2.edge e = g.edge e := by
  simp [pushNewEdge, newEdge, pushEdge, h]

lemma consistent_pushNewEdge {g : MKLDNNGraph} (h : Consistent g) (p c : NodeId) :
    Consistent (pushNewEdge g p c).2 := by
  obtain ⟨h1, h2, h3⟩ := h
  refine ⟨?_, ?_, ?_⟩
  · intro e he
    rw [pushNewEdge_graphEdges] at he
    rw [pushNewEdge_edgeCount]
    rcases List.mem_append.mp he with h4 | h4
    · exact Nat.lt_succ_of_lt (h1 e h4)
    · rw [List.mem_singleton.mp h4]
      exact Nat.lt_succ_self _
  · intro n hn e he
    rw [pushNewEdge_graphNodes] at hn
    rw [pushNewEdge_node] at he
    have h4 := h2 n hn e he
    rw [pushNewEdge_edgeCount, pushNewEdge_graphEdges, pushNewEdge_graphNodes]
    refine ⟨Nat.lt_succ_of_lt h4.1, fun h5 => ?_⟩
    have hne : e ≠ g.edgeCount := Nat.ne_of_lt h4.1
    rw [pushNewEdge_edge_old g p c hne]
    rcases List.mem_append.mp h5 with h6 | h6
    · exact h4.2 h6
    · exact absurd (List.mem_singleton.mp h6) hne
  · intro n hn e he
    rw [pushNewEdge_graphNodes] at hn
    rw [pushNewEdge_node] at he
    have h4 := h3 n hn e he
    rw [pushNewEdge_edgeCount, pushNewEdge_graphEdges, pushNewEdge_graphNodes]
    refine ⟨Nat.lt_succ_of_lt h4.1, fun h5 => ?_⟩
    have hne : e ≠ g.edgeCount := Nat.ne_of_lt h4.1
    rw [pushNewEdge_edge_old g p c hne]
    rcases List.mem_append.mp h5 with h6 | h6
    · exact h4.2 h6
    · exact absurd (List.mem_singleton.mp h6) hne

lemma lock_eq_some {g : MKLDNNGraph} {w : MKLDNNEdgeWeakPtr} {e : EdgeId}
    (h : lock g w = some e) : w = some e ∧ e ∈ g.graphEdges := by
  unfold lock at h
  cases w with
  | none => cases h
  | some e1 =>
    simp only at h
    split at h
    · cases h; exact ⟨rfl, by assumption⟩
    · cases h

lemma lock_some_of_mem {g : MKLDNNGraph} {e : EdgeId} (h : e ∈ g.graphEdges) :
    lock g (some e) = some e := by
  unfold lock
  simp [h]

lemma foldl_removeEdge_sameFrame :
    ∀ (l : List MKLDNNEdgeWeakPtr) (g : MKLDNNGraph), SameFrame g (l.foldl removeEdge g) := by
  intro l
  induction l with
  | nil => intro g; exact SameFrame.frame_refl g
  | cons w l ih =>
    intro g
    exact (removeEdge_sameFrame g w).frame_trans (ih _)

lemma foldl_removeEdge_shrinks (m : NodeId) :
    ∀ (l : List MKLDNNEdgeWeakPtr) (g : MKLDNNGraph),
      Shrinks (g.node m).parentEdges ((l.foldl removeEdge g).node m).parentEdges ∧
      Shrinks (g.node m).childEdges ((l.foldl removeEdge g).node m).childEdges := by
  intro l
  induction l with
  | nil => intro g; exact ⟨Shrinks.shrinks_refl _, Shrinks.shrinks_refl _⟩
  | cons w l ih =>
    intro g
    exact ⟨(removeEdge_shrinks g w m).1.shrinks_trans (ih _).1,
      (removeEdge_shrinks g w m).2.shrinks_trans (ih _).2⟩

lemma consistent_foldl_removeEdge :
    ∀ (l : List MKLDNNEdgeWeakPtr) (g : MKLDNNGraph), Consistent g →
      Consistent (l.foldl removeEdge g) := by
  intro l
  induction l with
  | nil => intro g h; exact h
  | cons w l ih => intro g h; exact ih _ (consistent_removeEdge h w)

lemma foldl_removeEdge_parent_dead (n : NodeId) :
    ∀ (l : List MKLDNNEdgeWeakPtr) (g : MKLDNNGraph), Consistent g → n ∈ g.graphNodes →
      (∀ w ∈ (g.node n).parentEdges, lock g w ≠ none → w ∈ l) →
      ∀ w ∈ ((l.foldl removeEdge g).node n).parentEdges,
        lock (l.foldl removeEdge g) w = none := by
  intro l
  induction l with
  | nil =>
    intro g _ _ hJ w hw
    by_contra hne
    exact absurd (hJ w hw hne) (List.not_mem_nil _)
  | cons w0 rest ih =>
    intro g hc hn hJ
    have hf := removeEdge_sameFrame g w0
    refine ih (removeEdge g w0) (consistent_removeEdge hc w0) (by rw [hf.1]; exact hn) ?_
    intro w hw hlive
    rw [hf.lock_eq] at hlive
    cases hl : lock g w with
    | none => exact absurd hl hlive
    | some e =>
      obtain ⟨hwe, heg⟩ := lock_eq_some hl
      subst hwe
      have hold : some e ∈ (g.node n).parentEdges := (removeEdge_shrinks g w0 n).1.mem_some hw
      rcases List.mem_cons.mp (hJ _ hold hlive) with h0 | h0
      · exfalso
        subst h0
        have hcon := (hc.2.1 n hn e hold).2 heg
        have hgc : getChild g e = some n := by
          unfold getChild
          rw [hcon.1]
          simp [hn]
        have hgp : getParent g e = some (g.edge e).parent := by
          unfold getParent
          simp [hcon.2]
        rw [removeEdge_live hl hgp hgc, setChildEdges_parentEdges, setParentEdges_parentEdges]
          at hw
        simp only [if_true] at hw
        exact not_mem_resetRef e _ hw
      · exact h0

lemma foldl_removeEdge_child_dead (n : NodeId) :
    ∀ (l : List MKLDNNEdgeWeakPtr) (g : MKLDNNGraph), Consistent g → n ∈ g.graphNodes →
      (∀ w ∈ (g.node n).childEdges, lock g w ≠ none → w ∈ l) →
      ∀ w ∈ ((l.foldl removeEdge g).node n).childEdges,
        lock (l.foldl removeEdge g) w = none := by
  intro l
  induction l with
  | nil =>
    intro g _ _ hJ w hw
    by_contra hne
    exact absurd (hJ w hw hne) (List.not_mem_nil _)
  | cons w0 rest ih =>
    intro g hc hn hJ
    have hf := removeEdge_sameFrame g w0
    refine ih (removeEdge g w0) (consistent_removeEdge hc w0) (by rw [hf.1]; exact hn) ?_
    intro w hw hlive
    rw [hf.lock_eq] at hlive
    cases hl : lock g w with
    | none => exact absurd hl hlive
    | some e =>
      obtain ⟨hwe, heg⟩ := lock_eq_some hl
      subst hwe
      have hold : some e ∈ (g.node n).childEdges := (removeEdge_shrinks g w0 n).2.mem_some hw
      rcases List.mem_cons.mp (hJ _ hold hlive) with h0 | h0
      · exfalso
        subst h0
        have hcon := (hc.2.2 n hn e hold).2 heg
        have hgp : getParent g e = some n := by
          unfold getParent
          rw [hcon.1]
          simp [hn]
        have hgc : getChild g e = some (g.edge e).child := by
          unfold getChild
          simp [hcon.2]
        rw [removeEdge_live hl hgp hgc, setChildEdges_childEdges] at hw
        simp only [if_true] at hw
        exact not_mem_resetRef e _ hw
      · exact h0

lemma remove_sameFrame (g : MKLDNNGraph) (n : NodeId) : SameFrame g (remove g n) := by
  unfold remove
  exact (foldl_removeEdge_sameFrame _ g).frame_trans (foldl_removeEdge_sameFrame _ _)

lemma remove_shrinks (g : MKLDNNGraph) (n m : NodeId) :
    Shrinks (g.node m).parentEdges ((remove g n).node m).parentEdges ∧
    Shrinks (g.node m).childEdges ((remove g n).node m).childEdges := by
  unfold remove
  exact ⟨(foldl_removeEdge_shrinks m _ g).1.shrinks_trans (foldl_removeEdge_shrinks m _ _).1,
    (foldl_removeEdge_shrinks m _ g).2.shrinks_trans (foldl_removeEdge_shrinks m _ _).2⟩

lemma consistent_remove {g : MKLDNNGraph} (h : Consistent g) (n : NodeId) :
    Consistent (remove g n) := by
  unfold remove
  exact consistent_foldl_removeEdge _ _ (consistent_foldl_removeEdge _ _ h)

/-- In a consistent graph `remove` leaves its node without a live reference: the
node is dropped. -/
lemma remove_dropped {g : MKLDNNGraph} (hc : Consistent g) {n : NodeId}
    (hn : n ∈ g.graphNodes) : nodeIsDropped (remove g n) n = true := by
  have hp := foldl_removeEdge_parent_dead n (g.node n).parentEdges g hc hn
    (fun w hw _ => hw)
  have hc1 := consistent_foldl_removeEdge (g.node n).parentEdges g hc
  have hf1 := foldl_removeEdge_sameFrame (g.node n).parentEdges g
  have hch := foldl_removeEdge_child_dead n
    (((g.node n).parentEdges.foldl removeEdge g).node n).childEdges
    ((g.node n).parentEdges.foldl removeEdge g) hc1 (by rw [hf1.1]; exact hn)
    (fun w hw _ => hw)
  have hf2 := foldl_removeEdge_sameFrame
    (((g.node n).parentEdges.foldl removeEdge g).node n).childEdges
    ((g.node n).parentEdges.foldl removeEdge g)
  unfold nodeIsDropped
  rw [Bool.and_eq_true, List.all_eq_true, List.all_eq_true]
  constructor
  · intro w hw
    have hsh := (foldl_removeEdge_shrinks n
      (((g.node n).parentEdges.foldl removeEdge g).node n).childEdges
      ((g.node n).parentEdges.foldl removeEdge g)).1
    have hw1 : w ∈ ((remove g n).node n).parentEdges := hw
    unfold remove at hw1 ⊢
    cases w with
    | none => simp [lock]
    | some e =>
      have h1 := hp (some e) (hsh.mem_some hw1)
      rw [hf2.lock_eq, h1]
      rfl
  · intro w hw
    have hw1 : w ∈ ((remove g n).node n).childEdges := hw
    unfold remove at hw1 ⊢
    rw [hch w hw1]
    rfl

lemma ShrinksBy.by_refl (P : EdgeId → Prop) (l : List MKLDNNEdgeWeakPtr) : ShrinksBy P l l := by
  unfold ShrinksBy
  induction l with
  | nil => exact List.Forall₂.nil
  | cons a l ih => exact List.Forall₂.cons (Or.inl rfl) ih

lemma ShrinksBy.shrinks {P : EdgeId → Prop} {l l1 : List MKLDNNEdgeWeakPtr}
    (h : ShrinksBy P l l1) : Shrinks l l1 := by
  unfold ShrinksBy at h
  unfold Shrinks
  induction h with
  | nil => exact List.Forall₂.nil
  | cons hab _ ih =>
    refine List.Forall₂.cons ?_ ih
    rcases hab with h1 | ⟨h1, _⟩
    · exact Or.inl h1
    · exact Or.inr h1

lemma ShrinksBy.mono {P Q : EdgeId → Prop} (hPQ : ∀ e, P e → Q e)
    {l l1 : List MKLDNNEdgeWeakPtr} (h : ShrinksBy P l l1) : ShrinksBy Q l l1 := by
  unfold ShrinksBy at *
  induction h with
  | nil => exact List.Forall₂.nil
  | cons hab _ ih =>
    refine List.Forall₂.cons ?_ ih
    rcases hab with h1 | ⟨h1, e, h2, h3⟩
    · exact Or.inl h1
    · exact Or.inr ⟨h1, e, h2, hPQ e h3⟩

lemma ShrinksBy.by_trans {P : EdgeId → Prop} {l l1 l2 : List MKLDNNEdgeWeakPtr}
    (h1 : ShrinksBy P l l1) (h2 : ShrinksBy P l1 l2) : ShrinksBy P l l2 := by
  unfold ShrinksBy at *
  induction h1 generalizing l2 with
  | nil => cases h2; exact List.Forall₂.nil
  | cons hab _ ih =>
    cases h2 with
    | cons hbc h2 =>
      refine List.Forall₂.cons ?_ (ih h2)
      rcases hbc with h | ⟨h, e, h3, _⟩
      · rw [h]; exact hab
      · rcases hab with h4 | ⟨h4, _⟩
        · rw [h4] at h3
          exact Or.inr ⟨h, e, h3, by assumption⟩
        · rw [h4] at h3; cases h3

lemma ShrinksBy.getElem?_keep {P : EdgeId → Prop} {l l1 : List MKLDNNEdgeWeakPtr}
    (h : ShrinksBy P l l1) {i : Nat} {e : EdgeId} (hi : l[i]? = some (some e))
    (hP : ¬ P e) : l1[i]? = some (some e) := by
  unfold ShrinksBy at h
  induction h generalizing i with
  | nil => simp at hi
  | cons hab _ ih =>
    cases i with
    | zero =>
      simp only [List.getElem?_cons_zero, Option.some.injEq] at hi ⊢
      rcases hab with h1 | ⟨_, e1, h2, h3⟩
      · rw [h1]; exact hi
      · rw [hi] at h2
        cases h2
        exact absurd h3 hP
    | succ i =>
      simp only [List.getElem?_cons_succ] at hi ⊢
      exact ih hi

lemma Shrinks.getElem?_some {l l1 : List MKLDNNEdgeWeakPtr} (h : Shrinks l l1) {i : Nat}
    {e : EdgeId} (hi : l1[i]? = some (some e)) : l[i]? = some (some e) := by
  unfold Shrinks at h
  induction h generalizing i with
  | nil => simp at hi
  | cons hab _ ih =>
    cases i with
    | zero =>
      simp only [List.getElem?_cons_zero, Option.some.injEq] at hi ⊢
      rcases hab with h1 | h1
      · rw [← h1]; exact hi
      · rw [h1] at hi; cases hi
    | succ i =>
      simp only [List.getElem?_cons_succ] at hi ⊢
      exact ih hi

lemma ShrinksBy.mem_keep {P : EdgeId → Prop} {l l1 : List MKLDNNEdgeWeakPtr}
    (h : ShrinksBy P l l1) {e : EdgeId} (he : some e ∈ l) (hP : ¬ P e) : some e ∈ l1 := by
  obtain ⟨i, hi⟩ := List.mem_iff_getElem?.mp he
  exact List.mem_iff_getElem?.mpr ⟨i, h.getElem?_keep hi hP⟩

lemma shrinksBy_resetRef (e : EdgeId) (l : List MKLDNNEdgeWeakPtr) :
    ShrinksBy (fun x => x = e) l (resetRef e l) := by
  unfold ShrinksBy resetRef
  induction l with
  | nil => exact List.Forall₂.nil
  | cons a l ih =>
    refine List.Forall₂.cons ?_ ih
    by_cases h : a = some e
    · right; exact ⟨by simp [h], e, h, rfl⟩
    · left; simp [h]

/-- `removeEdge` resets only references to the edge that its argument locks to. -/
lemma removeEdge_shrinksBy (g : MKLDNNGraph) (w : MKLDNNEdgeWeakPtr) (m : NodeId) :
    ShrinksBy (fun e => lock g w = some e) (g.node m).parentEdges
      ((removeEdge g w).node m).parentEdges ∧
    ShrinksBy (fun e => lock g w = some e) (g.node m).childEdges
      ((removeEdge g w).node m).childEdges := by
  unfold removeEdge
  split
  · exact ⟨ShrinksBy.by_refl _ _, ShrinksBy.by_refl _ _⟩
  · rename_i e hl
    split
    · constructor
      · rw [setChildEdges_parentEdges, setParentEdges_parentEdges]
        split
        · rename_i h; subst h
          exact (shrinksBy_resetRef e _).mono (fun x hx => by rw [hx]; exact hl)
        · exact ShrinksBy.by_refl _ _
      · rw [setChildEdges_childEdges]
        split
        · rename_i h; subst h
          rw [setParentEdges_childEdges]
          exact (shrinksBy_resetRef e _).mono (fun x hx => by rw [hx]; exact hl)
        · rw [setParentEdges_childEdges]
          exact ShrinksBy.by_refl _ _
    · exact ⟨ShrinksBy.by_refl _ _, ShrinksBy.by_refl _ _⟩

/-- The first half of `addEdge` in full: the frame is kept; references are reset
only to the edge that held the position `cIndex` of the producer; the child
list of the producer receives the new edge at that position, or at its end. -/
lemma toParent_spec (g : MKLDNNGraph) (p : NodeId) (E : EdgeId) (cIndex : Nat) :
    SameFrame g (addEdge.toParent g p E cIndex) ∧
    (∀ m, ShrinksBy (fun e => cIndex < (g.node p).childEdges.length ∧
        lock g ((g.node p).childEdges.getD cIndex none) = some e)
      (g.node m).parentEdges ((addEdge.toParent g p E cIndex).node m).parentEdges) ∧
    (∀ m, m ≠ p → ShrinksBy (fun e => cIndex < (g.node p).childEdges.length ∧
        lock g ((g.node p).childEdges.getD cIndex none) = some e)
      (g.node m).childEdges ((addEdge.toParent g p E cIndex).node m).childEdges) ∧
    (∃ l1, ShrinksBy (fun e => cIndex < (g.node p).childEdges.length ∧
        lock g ((g.node p).childEdges.getD cIndex none) = some e) (g.node p).childEdges l1 ∧
      ((addEdge.toParent g p E cIndex).node p).childEdges =
        if cIndex < (g.node p).childEdges.length then l1.set cIndex (some E)
        else l1 ++ [some E]) := by
  unfold addEdge.toParent
  by_cases hlt : cIndex < (g.node p).childEdges.length
  · simp only [hlt, if_true, true_and]
    refine ⟨?_, ?_, ?_, ?_⟩
    · exact (removeEdge_sameFrame g _).frame_trans ⟨rfl, rfl, rfl, rfl⟩
    · intro m
      rw [setChildEdges_parentEdges]
      exact (removeEdge_shrinksBy g _ m).1
    · intro m hm
      rw [setChildEdges_childEdges, if_neg hm]
      exact (removeEdge_shrinksBy g _ m).2
    · refine ⟨_, (removeEdge_shrinksBy g _ p).2, ?_⟩
      rw [setChildEdges_childEdges, if_pos rfl]
  · simp only [hlt, if_false, false_and]
    refine ⟨⟨rfl, rfl, rfl, rfl⟩, ?_, ?_, ?_⟩
    · intro m
      rw [setChildEdges_parentEdges]
      exact ShrinksBy.by_refl _ _
    · intro m hm
      rw [setChildEdges_childEdges, if_neg hm]
      exact ShrinksBy.by_refl _ _
    · refine ⟨_, ShrinksBy.by_refl _ _, ?_⟩
      rw [setChildEdges_childEdges, if_pos rfl]

/-- The second half of `addEdge` in full, as `toParent_spec` with the roles of
the two lists exchanged. -/
lemma toChild_spec (g : MKLDNNGraph) (c : NodeId) (E : EdgeId) (pIndex : Nat) :
    SameFrame g (addEdge.toChild g c E pIndex) ∧
    (∀ m, ShrinksBy (fun e => pIndex < (g.node c).parentEdges.length ∧
        lock g ((g.node c).parentEdges.getD pIndex none) = some e)
      (g.node m).childEdges ((addEdge.toChild g c E pIndex).node m).childEdges) ∧
    (∀ m, m ≠ c → ShrinksBy (fun e => pIndex < (g.node c).parentEdges.length ∧
        lock g ((g.node c).parentEdges.getD pIndex none) = some e)
      (g.node m).parentEdges ((addEdge.toChild g c E pIndex).node m).parentEdges) ∧
    (∃ l1, ShrinksBy (fun e => pIndex < (g.node c).parentEdges.length ∧
        lock g ((g.node c).parentEdges.getD pIndex none) = some e) (g.node c).parentEdges l1 ∧
      ((addEdge.toChild g c E pIndex).node c).parentEdges =
        if pIndex < (g.node c).parentEdges.length then l1.set pIndex (some E)
        else l1 ++ [some E]) := by
  unfold addEdge.toChild
  by_cases hlt : pIndex < (g.node c).parentEdges.length
  · simp only [hlt, if_true, true_and]
    refine ⟨?_, ?_, ?_, ?_⟩
    · exact (removeEdge_sameFrame g _).frame_trans ⟨rfl, rfl, rfl, rfl⟩
    · intro m
      rw [setParentEdges_childEdges]
      exact (removeEdge_shrinksBy g _ m).2
    · intro m hm
      rw [setParentEdges_parentEdges, if_neg hm]
      exact (removeEdge_shrinksBy g _ m).1
    · refine ⟨_, (removeEdge_shrinksBy g _ c).1, ?_⟩
      rw [setParentEdges_parentEdges, if_pos rfl]
  · simp only [hlt, if_false, false_and]
    refine ⟨⟨rfl, rfl, rfl, rfl⟩, ?_, ?_, ?_⟩
    · intro m
      rw [setParentEdges_childEdges]
      exact ShrinksBy.by_refl _ _
    · intro m hm
      rw [setParentEdges_parentEdges, if_neg hm]
      exact ShrinksBy.by_refl _ _
    · refine ⟨_, ShrinksBy.by_refl _ _, ?_⟩
      rw [setParentEdges_parentEdges, if_pos rfl]

lemma foldl_removeEdge_shrinksBy (m : NodeId) :
    ∀ (l : List MKLDNNEdgeWeakPtr) (g : MKLDNNGraph),
      ShrinksBy (fun e => some e ∈ l ∧ e ∈ g.graphEdges) (g.node m).parentEdges
        ((l.foldl removeEdge g).node m).parentEdges ∧
      ShrinksBy (fun e => some e ∈ l ∧ e ∈ g.graphEdges) (g.node m).childEdges
        ((l.foldl removeEdge g).node m).childEdges := by
  intro l
  induction l with
  | nil => intro g; exact ⟨ShrinksBy.by_refl _ _, ShrinksBy.by_refl _ _⟩
  | cons w l ih =>
    intro g
    have h1 := removeEdge_shrinksBy g w m
    have h2 := ih (removeEdge g w)
    have hf := removeEdge_sameFrame g w
    have hw : ∀ e, lock g w = some e → some e ∈ w :: l ∧ e ∈ g.graphEdges := by
      intro e he
      obtain ⟨h3, h4⟩ := lock_eq_some he
      exact ⟨by rw [h3]; exact List.mem_cons_self _ _, h4⟩
    have hl : ∀ e, (some e ∈ l ∧ e ∈ (removeEdge g w).graphEdges) →
        some e ∈ w :: l ∧ e ∈ g.graphEdges := by
      intro e he
      rw [hf.2.1] at he
      exact ⟨List.mem_cons_of_mem _ he.1, he.2⟩
    exact ⟨(h1.1.mono hw).by_trans (h2.1.mono hl), (h1.2.mono hw).by_trans (h2.2.mono hl)⟩

/-- `remove` resets only references to live edges that the removed node lists. -/
lemma remove_shrinksBy (g : MKLDNNGraph) (n m : NodeId) :
    ShrinksBy (fun e => (some e ∈ (g.node n).parentEdges ∨ some e ∈ (g.node n).childEdges) ∧
        e ∈ g.graphEdges) (g.node m).parentEdges ((remove g n).node m).parentEdges ∧
    ShrinksBy (fun e => (some e ∈ (g.node n).parentEdges ∨ some e ∈ (g.node n).childEdges) ∧
        e ∈ g.graphEdges) (g.node m).childEdges ((remove g n).node m).childEdges := by
  unfold remove
  have h1 := foldl_removeEdge_shrinksBy m (g.node n).parentEdges g
  have h2 := foldl_removeEdge_shrinksBy m
    (((g.node n).parentEdges.foldl removeEdge g).node n).childEdges
    ((g.node n).parentEdges.foldl removeEdge g)
  have hf := foldl_removeEdge_sameFrame (g.node n).parentEdges g
  have hs := (foldl_removeEdge_shrinks n (g.node n).parentEdges g).2
  have ha : ∀ e, (some e ∈ (g.node n).parentEdges ∧ e ∈ g.graphEdges) →
      (some e ∈ (g.node n).parentEdges ∨ some e ∈ (g.node n).childEdges) ∧
        e ∈ g.graphEdges := fun e he => ⟨Or.inl he.1, he.2⟩
  have hb : ∀ e, (some e ∈ (((g.node n).parentEdges.foldl removeEdge g).node n).childEdges ∧
      e ∈ ((g.node n).parentEdges.foldl removeEdge g).graphEdges) →
      (some e ∈ (g.node n).parentEdges ∨ some e ∈ (g.node n).childEdges) ∧
        e ∈ g.graphEdges := by
    intro e he
    rw [hf.2.1] at he
    exact ⟨Or.inr (hs.mem_some he.1), he.2⟩
  exact ⟨(h1.1.mono ha).by_trans (h2.1.mono hb), (h1.2.mono ha).by_trans (h2.2.mono hb)⟩

lemma nodeIsDropped_of_shrinks {g g1 : MKLDNNGraph} (hf : SameFrame g g1) (n : NodeId)
    (hp : Shrinks (g.node n).parentEdges (g1.node n).parentEdges)
    (hc : Shrinks (g.node n).childEdges (g1.node n).childEdges)
    (h : nodeIsDropped g n = true) : nodeIsDropped g1 n = true := by
  unfold nodeIsDropped at h ⊢
  rw [Bool.and_eq_true, List.all_eq_true, List.all_eq_true] at h ⊢
  constructor
  · intro w hw
    cases w with
    | none => simp [lock]
    | some e =>
      rw [hf.lock_eq]
      exact h.1 _ (hp.mem_some hw)
  · intro w hw
    cases w with
    | none => simp [lock]
    | some e =>
      rw [hf.lock_eq]
      exact h.2 _ (hc.mem_some hw)

lemma toSizeT_natCast {k : Nat} (h : k < 2 ^ 64) : toSizeT (k : Int) = k := by
  unfold toSizeT
  have h1 : ((k : Int) % (2 ^ 64 : Int)) = (k : Int) := by
    apply Int.emod_eq_of_lt
    · exact Int.natCast_nonneg k
    · exact_mod_cast h
  rw [h1]
  exact Int.toNat_natCast k

lemma toSizeT_neg_one : toSizeT (-1) = 2 ^ 64 - 1 := by
  unfold toSizeT
  decide

/-- The value of `slotOf`: `-1`, or the first position past `k` whose reference
locks to the edge. -/
lemma slotOf_cases (g : MKLDNNGraph) (e : EdgeId) :
    ∀ (l : List MKLDNNEdgeWeakPtr) (k : Nat),
      slotOf g e l k = -1 ∨
      ∃ i, slotOf g e l k = ((k + i : Nat) : Int) ∧ i < l.length ∧ l[i]? = some (some e) := by
  intro l
  induction l with
  | nil => intro k; left; rfl
  | cons w l ih =>
    intro k
    unfold slotOf
    split
    · rename_i hw
      right
      refine ⟨0, by simp, by simp, ?_⟩
      rw [(lock_eq_some hw).1]
      simp
    · rcases ih (k + 1) with h | ⟨i, h1, h2, h3⟩
      · left; exact h
      · right
        refine ⟨i + 1, ?_, by simpa using h2, by simpa using h3⟩
        rw [h1]
        congr 1
        omega

lemma slotOf_eq (g : MKLDNNGraph) (e : EdgeId) (he : e ∈ g.graphEdges) :
    ∀ (l : List MKLDNNEdgeWeakPtr) (j k : Nat), l[j]? = some (some e) →
      (∀ i, i < j → l[i]? ≠ some (some e)) → slotOf g e l k = ((k + j : Nat) : Int) := by
  intro l
  induction l with
  | nil => intro j k h; simp at h
  | cons w l ih =>
    intro j k hj hlt
    cases j with
    | zero =>
      simp only [List.getElem?_cons_zero, Option.some.injEq] at hj
      subst hj
      unfold slotOf
      rw [lock_some_of_mem he]
      simp
    | succ j =>
      have hw : lock g w ≠ some e := by
        intro h
        have := hlt 0 (Nat.succ_pos _)
        rw [(lock_eq_some h).1] at this
        simp at this
      unfold slotOf
      rw [if_neg hw]
      simp only [List.getElem?_cons_succ] at hj
      rw [ih j (k + 1) hj (fun i hi => by
        have := hlt (i + 1) (Nat.succ_lt_succ hi)
        simpa using this)]
      congr 1
      omega

lemma addEdge_live {g : MKLDNNGraph} {E : EdgeId} {p c : NodeId} (hE : E ∈ g.graphEdges)
    (hp : getParent g E = some p) (hc : getChild g E = some c) (pIndex cIndex : Nat) :
    addEdge g E pIndex cIndex =
      addEdge.toChild (addEdge.toParent g p E cIndex) c E pIndex := by
  unfold addEdge
  rw [lock_some_of_mem hE]
  simp only [hp, hc]

lemma mem_children_of_slot {g : MKLDNNGraph} {u c : NodeId} {e : EdgeId} {i : Nat}
    (hi : (g.node u).childEdges[i]? = some (some e)) (he : e ∈ g.graphEdges)
    (hc : getChild g e = some c) : c ∈ children g u := by
  unfold children
  rw [List.mem_filterMap]
  refine ⟨some e, List.mem_iff_getElem?.mpr ⟨i, hi⟩, ?_⟩
  rw [lock_some_of_mem he]
  exact hc

/-- The child edge of `lastNode` at position `j`, as the loop body reads it. -/
lemma rewire_slot {G γ : MKLDNNGraph} {mc ln : NodeId} {j : Nat} (H : RewireHyp G mc ln)
    (I : RewireInv G mc ln j γ) (hj : j < (G.node ln).childEdges.length) :
    ∃ e c, (G.node ln).childEdges[j]? = some (some e) ∧ e ∈ G.graphEdges ∧
      e < G.edgeCount ∧ (G.edge e).parent = ln ∧ (G.edge e).child = c ∧
      c ∈ G.graphNodes ∧ getChild G e = some c ∧ c ∈ children G ln ∧ c ≠ mc ∧
      e ∈ γ.graphEdges ∧ γ.edge e = G.edge e ∧
      getChildEdgeAt γ ln j = some e ∧ getChild γ e = some c ∧
      getInputNum γ e = (j : Int) := by
  have hget : (G.node ln).childEdges[j]? = some ((G.node ln).childEdges[j]) :=
    List.getElem?_eq_getElem hj
  obtain ⟨e, hwe, heG⟩ := H.live _ (List.getElem_mem hj)
  rw [hwe] at hget
  have hmem : some e ∈ (G.node ln).childEdges := List.mem_iff_getElem?.mpr ⟨j, hget⟩
  have hcon := H.cons.2.2 ln H.ln_mem e hmem
  have hpc := hcon.2 heG
  have hgc : getChild G e = some (G.edge e).child := by
    unfold getChild
    simp [hpc.2]
  have hkid := mem_children_of_slot hget heG hgc
  have heγ : e ∈ γ.graphEdges := (I.edgesOld e hcon.1).mpr heG
  have hedge : γ.edge e = G.edge e := I.edgeOld e hcon.1
  have hslot : (γ.node ln).childEdges[j]? = some (some e) := by
    rw [I.lnKeep j (Nat.le_refl _)]
    exact hget
  refine ⟨e, (G.edge e).child, hget, heG, hcon.1, hpc.1, rfl, hpc.2, hgc, hkid, ?_, heγ,
    hedge, ?_, ?_, ?_⟩
  · intro h
    exact H.kid (h ▸ hkid)
  · unfold getChildEdgeAt
    rw [List.get?_eq_getElem?, hslot]
    exact lock_some_of_mem heγ
  · unfold getChild
    rw [hedge, I.nodes]
    simp [hpc.2]
  · unfold getInputNum
    have hgp : getParent γ e = some ln := by
      unfold getParent
      rw [hedge, I.nodes, hpc.1]
      simp [H.ln_mem]
    rw [hgp]
    simp only
    have := slotOf_eq γ e heγ (γ.node ln).childEdges j 0 hslot (by
      intro i hi h
      have h1 := I.lnShr.getElem?_some h
      have hi2 : i < (G.node ln).childEdges.length := Nat.lt_trans hi hj
      have e1 : (G.node ln).childEdges[i] = some e := by
        rw [List.getElem?_eq_getElem hi2] at h1
        exact Option.some.inj h1
      have e2 : (G.node ln).childEdges[j] = some e := by
        rw [List.getElem?_eq_getElem hj] at hget
        exact Option.some.inj hget
      have := (List.Nodup.getElem_inj_iff H.nodup).mp (e1.trans e2.symm)
      omega)
    rw [this]
    simp

end MKLDNNPlugin

namespace MKLDNNPlugin

lemma ShrinksBy.same_length {P : EdgeId → Prop} {l l1 : List MKLDNNEdgeWeakPtr}
    (h : ShrinksBy P l l1) : l1.length = l.length :=
  h.shrinks.length_eq

lemma getD_of_getElem? {l : List MKLDNNEdgeWeakPtr} {i : Nat} {w : MKLDNNEdgeWeakPtr}
    (h : l[i]? = some w) : l.getD i none = w := by
  rw [List.getD_eq_getElem?_getD, h]
  rfl

lemma getElem?_of_lock_getD {g : MKLDNNGraph} {l : List MKLDNNEdgeWeakPtr} {i : Nat}
    {x : EdgeId} (h : lock g (l.getD i none) = some x) : l[i]? = some (some x) := by
  have h1 := (lock_eq_some h).1
  rw [List.getD_eq_getElem?_getD] at h1
  cases hl : l[i]? with
  | none => rw [hl] at h1; cases h1
  | some w =>
    rw [hl] at h1
    simp only [Option.getD_some] at h1
    rw [h1]

/-- One pass of the loop body of lines 327 to 336 succeeds and re-establishes the
loop invariant for the next position. -/
lemma rewireStep_inv {G γ : MKLDNNGraph} {mc ln : NodeId} {j : Nat} (H : RewireHyp G mc ln)
    (I : RewireInv G mc ln j γ) (hj : j < (G.node ln).childEdges.length) :
    ∃ γ1, FuseConvolutionSum.rewireStep mc ln j γ = some γ1 ∧
      RewireInv G mc ln (j + 1) γ1 := by
  obtain ⟨e, c, hGj, heG, heB, hep, hec, hcG, hgcG, hkid, hcmc, heγ, hedge, hgce, hgcγ, hin⟩ :=
    rewire_slot H I hj
  have hjs : j < 2 ^ 64 := Nat.lt_trans hj H.size
  -- the new edge
  have hc1 : Consistent (pushNewEdge γ mc c).2 := consistent_pushNewEdge I.cons mc c
  have hE1 : γ.edgeCount ∈ (pushNewEdge γ mc c).2.graphEdges := by
    rw [pushNewEdge_graphEdges]
    simp
  have hgp1 : getParent (pushNewEdge γ mc c).2 γ.edgeCount = some mc := by
    unfold getParent
    rw [pushNewEdge_edge_new, pushNewEdge_graphNodes, I.nodes]
    simp [H.mc_mem]
  have hgc1 : getChild (pushNewEdge γ mc c).2 γ.edgeCount = some c := by
    unfold getChild
    rw [pushNewEdge_edge_new, pushNewEdge_graphNodes, I.nodes]
    simp [hcG]
  have hstep : FuseConvolutionSum.rewireStep mc ln j γ =
      some (addEdge.toChild (addEdge.toParent (pushNewEdge γ mc c).2 mc γ.edgeCount j) c
        γ.edgeCount (toSizeT (getOutputNum γ e))) := by
    unfold FuseConvolutionSum.rewireStep
    rw [hgce]
    simp only [hgcγ]
    rw [hin, toSizeT_natCast hjs, pushNewEdge_fst, addEdge_live hE1 hgp1 hgc1]
  refine ⟨_, hstep, ?_⟩
  have hcons3 : Consistent (addEdge.toChild
      (addEdge.toParent (pushNewEdge γ mc c).2 mc γ.edgeCount j) c γ.edgeCount
      (toSizeT (getOutputNum γ e))) := by
    rw [← addEdge_live hE1 hgp1 hgc1]
    exact consistent_addEdge hc1 _ _ _
  obtain ⟨f12, tpP, tpC, l1, hl1, hmc2⟩ :=
    toParent_spec (pushNewEdge γ mc c).2 mc γ.edgeCount j
  obtain ⟨f23, tcC, tcP, l2, hl2, hc3⟩ :=
    toChild_spec (addEdge.toParent (pushNewEdge γ mc c).2 mc γ.edgeCount j) c γ.edgeCount
      (toSizeT (getOutputNum γ e))
  -- what the first half may reset
  have hP1 : ∀ x, (j < ((pushNewEdge γ mc c).2.node mc).childEdges.length ∧
      lock (pushNewEdge γ mc c).2 (((pushNewEdge γ mc c).2.node mc).childEdges.getD j none) =
        some x) → x < G.edgeCount ∧ (G.edge x).parent = mc := by
    intro x hx
    have hs := getElem?_of_lock_getD hx.2
    rw [pushNewEdge_node] at hs
    have hxB := I.mcOld j x (Nat.le_refl _) hs
    have hxγ : x ∈ γ.graphEdges := (I.edgesOld x hxB).mpr (by
      have h1 := (lock_eq_some hx.2).2
      rw [pushNewEdge_graphEdges] at h1
      rcases List.mem_append.mp h1 with h2 | h2
      · exact (I.edgesOld x hxB).mp h2
      · exfalso
        have hx2 := List.mem_singleton.mp h2
        have hcnt := I.count
        unfold EdgeId at *
        omega)
    have h3 := (I.cons.2.2 mc (by rw [I.nodes]; exact H.mc_mem) x
      (List.mem_iff_getElem?.mpr ⟨j, hs⟩)).2 hxγ
    rw [I.edgeOld x hxB] at h3
    exact ⟨hxB, h3.1⟩
  have hne1 : ¬ (e < G.edgeCount ∧ (G.edge e).parent = mc) := by
    intro h
    exact H.ne (hep.symm.trans h.2)
  -- lengths of the parent list of the consumer
  have hlenc : ((addEdge.toParent (pushNewEdge γ mc c).2 mc γ.edgeCount j).node c).parentEdges.length
      = (γ.node c).parentEdges.length := by
    rw [(tpP c).same_length, pushNewEdge_node]
  have hlenb : (γ.node c).parentEdges.length + 1 < 2 ^ 64 := by
    have h1 := I.parLen c
    have h2 := H.psize c hkid
    omega
  -- what the second half may reset
  have hP2 : ∀ x, (toSizeT (getOutputNum γ e) <
        ((addEdge.toParent (pushNewEdge γ mc c).2 mc γ.edgeCount j).node c).parentEdges.length ∧
      lock (addEdge.toParent (pushNewEdge γ mc c).2 mc γ.edgeCount j)
        (((addEdge.toParent (pushNewEdge γ mc c).2 mc γ.edgeCount j).node c).parentEdges.getD
          (toSizeT (getOutputNum γ e)) none) = some x) → x = e := by
    intro x hx
    have hout : getOutputNum γ e = slotOf γ e (γ.node c).parentEdges 0 := by
      unfold getOutputNum
      rw [hgcγ]
    rcases slotOf_cases γ e (γ.node c).parentEdges 0 with h | ⟨i, h1, h2, h3⟩
    · exfalso
      rw [hout, h, toSizeT_neg_one, hlenc] at hx
      omega
    · have hi : i < 2 ^ 64 := by omega
      rw [hout, h1, Nat.zero_add, toSizeT_natCast hi] at hx
      have h4 : ((addEdge.toParent (pushNewEdge γ mc c).2 mc γ.edgeCount j).node
          c).parentEdges[i]? = some (some e) := by
        apply ((tpP c).mono hP1).getElem?_keep _ hne1
        rw [pushNewEdge_node]
        exact h3
      rw [getD_of_getElem? h4] at hx
      have := (lock_eq_some hx.2).1
      exact (Option.some.inj this).symm
  -- the frame
  have hnodes : (addEdge.toChild (addEdge.toParent (pushNewEdge γ mc c).2 mc γ.edgeCount j) c
      γ.edgeCount (toSizeT (getOutputNum γ e))).graphNodes = γ.graphNodes := by
    rw [f23.1, f12.1, pushNewEdge_graphNodes]
  have hedges : (addEdge.toChild (addEdge.toParent (pushNewEdge γ mc c).2 mc γ.edgeCount j) c
      γ.edgeCount (toSizeT (getOutputNum γ e))).graphEdges = γ.graphEdges ++ [γ.edgeCount] := by
    rw [f23.2.1, f12.2.1, pushNewEdge_graphEdges]
  have hedge3 : (addEdge.toChild (addEdge.toParent (pushNewEdge γ mc c).2 mc γ.edgeCount j) c
      γ.edgeCount (toSizeT (getOutputNum γ e))).edge = (pushNewEdge γ mc c).2.edge := by
    rw [f23.2.2.1, f12.2.2.1]
  have hcount : (addEdge.toChild (addEdge.toParent (pushNewEdge γ mc c).2 mc γ.edgeCount j) c
      γ.edgeCount (toSizeT (getOutputNum γ e))).edgeCount = γ.edgeCount + 1 := by
    rw [f23.2.2.2, f12.2.2.2, pushNewEdge_edgeCount]
  -- child lists: all of them but that of mergedConv only shrink
  have hchi : ∀ m, m ≠ mc → ShrinksBy
      (fun x => (x < G.edgeCount ∧ (G.edge x).parent = mc) ∨ x = e) (γ.node m).childEdges
      ((addEdge.toChild (addEdge.toParent (pushNewEdge γ mc c).2 mc γ.edgeCount j) c
        γ.edgeCount (toSizeT (getOutputNum γ e))).node m).childEdges := by
    intro m hm
    have h1 := (tpC m hm).mono (fun x hx => Or.inl (hP1 x hx) :
      ∀ x, _ → (x < G.edgeCount ∧ (G.edge x).parent = mc) ∨ x = e)
    have h2 := (tcC m).mono (fun x hx => Or.inr (hP2 x hx) :
      ∀ x, _ → (x < G.edgeCount ∧ (G.edge x).parent = mc) ∨ x = e)
    rw [pushNewEdge_node] at h1
    exact h1.by_trans h2
  have hpar : ∀ m, m ≠ c → ShrinksBy
      (fun x => (x < G.edgeCount ∧ (G.edge x).parent = mc) ∨ x = e) (γ.node m).parentEdges
      ((addEdge.toChild (addEdge.toParent (pushNewEdge γ mc c).2 mc γ.edgeCount j) c
        γ.edgeCount (toSizeT (getOutputNum γ e))).node m).parentEdges := by
    intro m hm
    have h1 := (tpP m).mono (fun x hx => Or.inl (hP1 x hx) :
      ∀ x, _ → (x < G.edgeCount ∧ (G.edge x).parent = mc) ∨ x = e)
    have h2 := (tcP m hm).mono (fun x hx => Or.inr (hP2 x hx) :
      ∀ x, _ → (x < G.edgeCount ∧ (G.edge x).parent = mc) ∨ x = e)
    rw [pushNewEdge_node] at h1
    exact h1.by_trans h2
  -- the child list of mergedConv
  have hl1' : ShrinksBy (fun x => x < G.edgeCount ∧ (G.edge x).parent = mc)
      (γ.node mc).childEdges l1 := by
    have := hl1.mono hP1
    rw [pushNewEdge_node] at this
    exact this
  have hmc3 : ShrinksBy (fun x => x = e)
      (if j < (γ.node mc).childEdges.length then l1.set j (some γ.edgeCount)
        else l1 ++ [some γ.edgeCount])
      ((addEdge.toChild (addEdge.toParent (pushNewEdge γ mc c).2 mc γ.edgeCount j) c
        γ.edgeCount (toSizeT (getOutputNum γ e))).node mc).childEdges := by
    have h2 := (tcC mc).mono hP2
    rw [hmc2, pushNewEdge_node] at h2
    exact h2
  have hl1len : l1.length = (γ.node mc).childEdges.length := hl1'.same_length
  have heE : e ≠ γ.edgeCount := by
    have hcnt := I.count
    unfold EdgeId at *
    omega
  have hslotj : (if j < (γ.node mc).childEdges.length then l1.set j (some γ.edgeCount)
        else l1 ++ [some γ.edgeCount])[j]? = some (some γ.edgeCount) := by
    by_cases hlt : j < (γ.node mc).childEdges.length
    · rw [if_pos hlt, List.getElem?_set_self (by omega)]
    · have hlj : l1.length = j := by
        have hml := I.mcLen
        omega
      rw [if_neg hlt, List.getElem?_append_right (by omega), hlj]
      simp
  refine ⟨hcons3, ?_, ?_, ?_, ?_, ?_, ?_, ?_, ?_, ?_, ?_, ?_⟩
  · rw [hnodes]; exact I.nodes
  · rw [hcount]; exact Nat.le_succ_of_le I.count
  · intro x hx
    rw [hedge3, pushNewEdge_edge_old γ mc c (by have hcnt := I.count; unfold EdgeId at *; omega)]
    exact I.edgeOld x hx
  · intro x hx
    rw [hedges, List.mem_append, ← I.edgesOld x hx]
    constructor
    · intro h
      rcases h with h | h
      · exact h
      · exfalso
        have hx2 := List.mem_singleton.mp h
        have hcnt := I.count
        unfold EdgeId at *
        omega
    · exact Or.inl
  · exact I.lnShr.shrinks_trans (hchi ln H.ne).shrinks
  · intro i hi
    rw [← I.lnKeep i (by omega)]
    cases hγi : (γ.node ln).childEdges[i]? with
    | none =>
      apply List.getElem?_eq_none
      rw [(hchi ln H.ne).same_length]
      exact List.getElem?_eq_none_iff.mp hγi
    | some w =>
      have hGi : (G.node ln).childEdges[i]? = some w := by
        rw [← I.lnKeep i (by omega)]; exact hγi
      obtain ⟨x, hwx, hxG⟩ := H.live w (List.mem_iff_getElem?.mpr ⟨i, hGi⟩)
      subst hwx
      apply (hchi ln H.ne).getElem?_keep hγi
      intro h
      have hxcon := (H.cons.2.2 ln H.ln_mem x (List.mem_iff_getElem?.mpr ⟨i, hGi⟩)).2 hxG
      rcases h with h | h
      · exact H.ne (hxcon.1.symm.trans h.2)
      · subst h
        have hi2 : i < (G.node ln).childEdges.length := by
          by_contra hc
          rw [List.getElem?_eq_none (by omega)] at hGi
          cases hGi
        have e1 : (G.node ln).childEdges[i] = some x := by
          rw [List.getElem?_eq_getElem hi2] at hGi
          exact Option.some.inj hGi
        have e2 : (G.node ln).childEdges[j] = some x := by
          rw [List.getElem?_eq_getElem hj] at hGj
          exact Option.some.inj hGj
        have := (List.Nodup.getElem_inj_iff H.nodup).mp (e1.trans e2.symm)
        omega
  · rw [hmc3.same_length]
    split
    · rw [List.length_set]; omega
    · rw [List.length_append]
      have hml := I.mcLen
      simp
      omega
  · intro t ht
    by_cases htj : t = j
    · subst htj
      refine ⟨γ.edgeCount, ?_, I.count, ?_, e, c, hGj, hgcG, ?_⟩
      · exact hmc3.getElem?_keep hslotj (fun h => heE h.symm)
      · rw [hedges]; simp
      · rw [hedge3, pushNewEdge_edge_new]
    · have htlt : t < j := by omega
      obtain ⟨E, hE1', hE2, hE3, e', c', h1, h2, h3⟩ := I.mcNew t htlt
      have hEne : E ≠ γ.edgeCount := Nat.ne_of_lt (I.cons.1 E hE3)
      refine ⟨E, ?_, hE2, ?_, e', c', h1, h2, ?_⟩
      · apply hmc3.getElem?_keep _ (fun h => by unfold EdgeId at *; omega)
        have hk : l1[t]? = some (some E) :=
          hl1'.getElem?_keep hE1' (fun h => by unfold EdgeId at *; omega)
        split
        · rw [List.getElem?_set_ne (by omega)]
          exact hk
        · rw [List.getElem?_append_left (by
            have hml := I.mcLen
            omega)]
          exact hk
      · rw [hedges]
        exact List.mem_append_left _ hE3
      · rw [hedge3, pushNewEdge_edge_old γ mc c hEne]
        exact h3
  · intro i x hi hx
    have h1 := hmc3.shrinks.getElem?_some hx
    have h2 : l1[i]? = some (some x) := by
      split at h1
      · rw [List.getElem?_set_ne (by omega)] at h1
        exact h1
      · rename_i hlt
        have : l1.length = j := by
          have hml := I.mcLen
          omega
        rw [List.getElem?_append_right (by omega)] at h1
        have : i - l1.length ≠ 0 := by omega
        cases hk : i - l1.length with
        | zero => exact absurd hk this
        | succ k =>
          rw [hk] at h1
          simp at h1
    exact I.mcOld i x (by omega) (hl1'.shrinks.getElem?_some h2)
  · intro n
    have h0 := I.parLen n
    by_cases hn : n = c
    · subst hn
      rw [hc3]
      split
      · rw [List.length_set, hl2.same_length, hlenc]
        omega
      · rw [List.length_append, hl2.same_length, hlenc]
        simp
        omega
    · rw [(hpar n hn).same_length]
      omega
  · intro X m hX hXp hXc
    have hI := I.keep X m hX hXp hXc
    have hXB : X < G.edgeCount := H.cons.1 X hX
    have hnot : ¬ ((X < G.edgeCount ∧ (G.edge X).parent = mc) ∨ X = e) := by
      intro h
      rcases h with h | h
      · exact hXp h.2
      · subst h
        exact hXc (by rw [hec]; exact hkid)
    constructor
    · intro hm
      by_cases hmG : m ∈ G.graphNodes
      · have hmc' : m ≠ c := by
          intro h
          subst h
          exact hXc (by rw [((H.cons.2.1 m hmG X hm).2 hX).1]; exact hkid)
        exact (hpar m hmc').mem_keep (hI.1 hm) hnot
      · have hmc' : m ≠ c := fun h => hmG (h ▸ hcG)
        exact (hpar m hmc').mem_keep (hI.1 hm) hnot
    · intro hm
      have hmmc : m ≠ mc := by
        intro h
        subst h
        exact hXp ((H.cons.2.2 m H.mc_mem X hm).2 hX).1
      exact (hchi m hmmc).mem_keep (hI.2 hm) hnot

end MKLDNNPlugin

namespace MKLDNNPlugin

lemma rewire_range' {G : MKLDNNGraph} {mc ln : NodeId} (H : RewireHyp G mc ln) :
    ∀ (k j : Nat) (γ : MKLDNNGraph), j + k = (G.node ln).childEdges.length →
      RewireInv G mc ln j γ →
      ∃ γ1, FuseConvolutionSum.rewire mc ln (List.range' j k) γ = some γ1 ∧
        RewireInv G mc ln (G.node ln).childEdges.length γ1 := by
  intro k
  induction k with
  | zero =>
    intro j γ hjk I
    refine ⟨γ, rfl, ?_⟩
    have : j = (G.node ln).childEdges.length := by omega
    rw [← this]
    exact I
  | succ k ih =>
    intro j γ hjk I
    obtain ⟨γ1, h1, I1⟩ := rewireStep_inv H I (by omega)
    obtain ⟨γ2, h2, I2⟩ := ih (j + 1) γ1 (by omega) I1
    refine ⟨γ2, ?_, I2⟩
    rw [List.range'_succ]
    simp only [FuseConvolutionSum.rewire, h1]
    exact h2

/-- The invariant of the loop holds before its first pass. -/
lemma rewireInv_zero {G : MKLDNNGraph} {mc ln : NodeId} (H : RewireHyp G mc ln) :
    RewireInv G mc ln 0 G where
  cons := H.cons
  nodes := rfl
  count := Nat.le_refl _
  edgeOld := fun _ _ => rfl
  edgesOld := fun _ _ => Iff.rfl
  lnShr := Shrinks.shrinks_refl _
  lnKeep := fun _ _ => rfl
  mcLen := Nat.zero_le _
  mcNew := fun t ht => absurd ht (Nat.not_lt_zero t)
  mcOld := fun i e _ h =>
    (H.cons.2.2 mc H.mc_mem e (List.mem_iff_getElem?.mpr ⟨i, h⟩)).1
  parLen := fun _ => Nat.le_refl _
  keep := fun _ _ _ _ _ => ⟨id, id⟩

/-- The loop of lines 327 to 336 succeeds and ends in a state that satisfies the
invariant at the length of the child list of `lastNode`. -/
lemma rewire_spec {G : MKLDNNGraph} {mc ln : NodeId} (H : RewireHyp G mc ln) :
    ∃ γ, FuseConvolutionSum.rewire mc ln (List.range (G.node ln).childEdges.length) G =
        some γ ∧
      RewireInv G mc ln (G.node ln).childEdges.length γ := by
  rw [List.range_eq_range']
  exact rewire_range' H _ 0 G (by omega) (rewireInv_zero H)

lemma ShrinksBy.eq_of_not {P : EdgeId → Prop} {l l1 : List MKLDNNEdgeWeakPtr}
    (h : ShrinksBy P l l1) (hP : ∀ e, some e ∈ l → ¬ P e) : l1 = l := by
  unfold ShrinksBy at h
  induction h with
  | nil => rfl
  | cons hab _ ih =>
    rename_i a b l l1 _
    have h1 : b = a := by
      rcases hab with h1 | ⟨_, e, h2, h3⟩
      · exact h1
      · exact absurd h3 (hP e (by rw [h2]; exact List.mem_cons_self _ _))
    rw [h1, ih (fun e he => hP e (List.mem_cons_of_mem _ he))]

end MKLDNNPlugin

namespace MKLDNNPlugin

lemma childIdx_some (g : MKLDNNGraph) (sum : NodeId) :
    ∀ (l : List MKLDNNEdgeWeakPtr) (k : Nat), (∀ w ∈ l, ∃ e, lock g w = some e) →
      ∃ i, FuseConvolutionSum.childIdx g sum l k = some i := by
  intro l
  induction l with
  | nil => intro k _; exact ⟨k, rfl⟩
  | cons w l ih =>
    intro k h
    obtain ⟨e, he⟩ := h w (List.mem_cons_self _ _)
    by_cases hc : getChild g e = some sum
    · exact ⟨k, by simp [FuseConvolutionSum.childIdx, he, hc]⟩
    · obtain ⟨i, hi⟩ := ih (k + 1) (fun w1 h1 => h w1 (List.mem_cons_of_mem _ h1))
      exact ⟨i, by simp [FuseConvolutionSum.childIdx, he, hc, hi]⟩

lemma sameLayers_foldl_removeEdge :
    ∀ (l : List MKLDNNEdgeWeakPtr) (g : MKLDNNGraph), SameLayers g (l.foldl removeEdge g)
  | [], g => SameLayers.refl g
  | w :: l, g => (sameLayers_removeEdge g w).trans (sameLayers_foldl_removeEdge l _)

lemma sameLayers_remove (g : MKLDNNGraph) (n : NodeId) : SameLayers g (remove g n) := by
  unfold remove
  exact (sameLayers_foldl_removeEdge _ _).trans (sameLayers_foldl_removeEdge _ _)

lemma sameLayers_pushNewEdge (g : MKLDNNGraph) (p c : NodeId) :
    SameLayers g (pushNewEdge g p c).2 :=
  fun _ => ⟨rfl, rfl⟩

lemma sameLayers_rewireStep {mc ln : NodeId} {j : Nat} {g g1 : MKLDNNGraph}
    (h : FuseConvolutionSum.rewireStep mc ln j g = some g1) : SameLayers g g1 := by
  unfold FuseConvolutionSum.rewireStep at h
  split at h
  · cases h
  · split at h
    · cases h
    · simp only [Option.some.injEq] at h
      rw [← h]
      exact (sameLayers_pushNewEdge _ _ _).trans (sameLayers_addEdge _ _ _ _)

lemma sameLayers_rewire {mc ln : NodeId} :
    ∀ (idxs : List Nat) (g g1 : MKLDNNGraph),
      FuseConvolutionSum.rewire mc ln idxs g = some g1 → SameLayers g g1 := by
  intro idxs
  induction idxs with
  | nil =>
    intro g g1 h
    simp only [FuseConvolutionSum.rewire, Option.some.injEq] at h
    rw [← h]
    exact SameLayers.refl g
  | cons j rest ih =>
    intro g g1 h
    simp only [FuseConvolutionSum.rewire] at h
    split at h
    · cases h
    · rename_i g2 h2
      exact (sameLayers_rewireStep h2).trans (ih _ _ h)

lemma children_congr {g g1 : MKLDNNGraph} {n : NodeId}
    (hl : (g1.node n).childEdges = (g.node n).childEdges)
    (hn : g1.graphNodes = g.graphNodes)
    (he : ∀ e, some e ∈ (g.node n).childEdges →
      (e ∈ g1.graphEdges ↔ e ∈ g.graphEdges) ∧ g1.edge e = g.edge e) :
    children g1 n = children g n := by
  unfold children
  rw [hl]
  apply List.filterMap_congr
  intro w hw
  cases w with
  | none => rfl
  | some e =>
    obtain ⟨h1, h2⟩ := he e hw
    unfold lock getChild
    simp only [h1, hn]
    by_cases hx : e ∈ g.graphEdges
    · simp only [hx, if_true, Option.some_bind, h2]
    · simp only [hx, if_false, Option.none_bind]

lemma mem_set_self {l : List MKLDNNEdgeWeakPtr} {i : Nat} (h : i < l.length)
    (w : MKLDNNEdgeWeakPtr) : w ∈ l.set i w :=
  List.mem_iff_getElem?.mpr ⟨i, List.getElem?_set_self h⟩

/-- Lines 315 to 324: the new edge from the peer into the convolution. -/
lemma attach_spec {h : MKLDNNGraph} {mc peer ln : NodeId} (hc : Consistent h)
    (hmc : mc ∈ h.graphNodes) (hpeer : peer ∈ h.graphNodes) (hln : ln ∈ h.graphNodes)
    (hpl : peer ≠ ln)
    (hlive : ∀ w ∈ (h.node ln).childEdges, ∃ e, w = some e ∧ e ∈ h.graphEdges)
    (cI : Nat) :
    Attached h mc peer ln
      (addEdge (pushNewEdge h peer mc).2 (pushNewEdge h peer mc).1
        ((pushNewEdge h peer mc).2.node mc).parentEdges.length cI) := by
  have hcons := consistent_addEdge (consistent_pushNewEdge hc peer mc)
    (pushNewEdge h peer mc).1 ((pushNewEdge h peer mc).2.node mc).parentEdges.length cI
  have hlay := (sameLayers_pushNewEdge h peer mc).trans
    (sameLayers_addEdge (pushNewEdge h peer mc).2 (pushNewEdge h peer mc).1
      ((pushNewEdge h peer mc).2.node mc).parentEdges.length cI)
  have hE0 : h.edgeCount ∈ (pushNewEdge h peer mc).2.graphEdges := by
    rw [pushNewEdge_graphEdges]
    simp
  have hgp : getParent (pushNewEdge h peer mc).2 h.edgeCount = some peer := by
    unfold getParent
    rw [pushNewEdge_edge_new, pushNewEdge_graphNodes]
    simp [hpeer]
  have hgc : getChild (pushNewEdge h peer mc).2 h.edgeCount = some mc := by
    unfold getChild
    rw [pushNewEdge_edge_new, pushNewEdge_graphNodes]
    simp [hmc]
  rw [pushNewEdge_fst, addEdge_live hE0 hgp hgc] at hcons hlay ⊢
  rw [pushNewEdge_node] at hcons hlay ⊢
  obtain ⟨hf2, hp2, hc2, l1, hl1, hpeer2⟩ :=
    toParent_spec (pushNewEdge h peer mc).2 peer h.edgeCount cI
  obtain ⟨hf3, hc3, hp3, l2, hl2, hmc3⟩ :=
    toChild_spec (addEdge.toParent (pushNewEdge h peer mc).2 peer h.edgeCount cI) mc
      h.edgeCount (h.node mc).parentEdges.length
  have hlen : ((addEdge.toParent (pushNewEdge h peer mc).2 peer h.edgeCount cI).node
      mc).parentEdges.length = (h.node mc).parentEdges.length := (hp2 mc).same_length
  have hnlt : ¬ (h.node mc).parentEdges.length <
      ((addEdge.toParent (pushNewEdge h peer mc).2 peer h.edgeCount cI).node
        mc).parentEdges.length := by
    rw [hlen]
    exact Nat.lt_irrefl _
  -- the second half displaces nothing
  have hc3eq : ∀ m, ((addEdge.toChild (addEdge.toParent (pushNewEdge h peer mc).2 peer
      h.edgeCount cI) mc h.edgeCount (h.node mc).parentEdges.length).node m).childEdges =
      ((addEdge.toParent (pushNewEdge h peer mc).2 peer h.edgeCount cI).node m).childEdges :=
    fun m => (hc3 m).eq_of_not (fun e _ hP => hnlt hP.1)
  refine ⟨hcons, hlay, ?_, ?_, ?_, ?_, ?_, ?_, ?_, ?_, ?_⟩
  · rw [hf3.1, hf2.1]
    rfl
  · rw [hf3.2.1, hf2.2.1]
    rfl
  · rw [hf3.2.2.2, hf2.2.2.2]
    rfl
  · intro e he
    rw [hf3.2.2.1, hf2.2.2.1]
    exact pushNewEdge_edge_old h peer mc he
  · rw [hf3.2.2.1, hf2.2.2.1]
    exact pushNewEdge_edge_new h peer mc
  · rw [hc3eq ln]
    apply (hc2 ln (Ne.symm hpl)).eq_of_not
    intro e he hP
    rw [pushNewEdge_node] at he
    obtain ⟨e1, he1, he1G⟩ := hlive _ he
    cases he1
    have h1 := ((hc.2.2 ln hln e he).2 he1G).1
    have h2 := getElem?_of_lock_getD hP.2
    rw [pushNewEdge_node] at h2
    have h3 := ((hc.2.2 peer hpeer e (List.mem_iff_getElem?.mpr ⟨cI, h2⟩)).2 he1G).1
    exact hpl (h3.symm.trans h1)
  · intro m hm
    rw [(hp3 m hm).same_length, (hp2 m).same_length]
    rfl
  · rw [hmc3, if_neg hnlt]
    simp
  · rw [hc3eq peer, hpeer2]
    by_cases hlt : cI < ((pushNewEdge h peer mc).2.node peer).childEdges.length
    · rw [if_pos hlt]
      exact mem_set_self (by rw [hl1.same_length]; exact hlt) _
    · rw [if_neg hlt]
      simp

end MKLDNNPlugin

namespace MKLDNNPlugin

/-- Detaching a node leaves in place every reference to an edge that does not
touch the node. -/
lemma remove_keep {g : MKLDNNGraph} (hc : Consistent g) {n : NodeId} (hn : n ∈ g.graphNodes)
    {X : EdgeId} (hp : (g.edge X).parent ≠ n) (hcX : (g.edge X).child ≠ n) (m : NodeId) :
    (some X ∈ (g.node m).parentEdges → some X ∈ ((remove g n).node m).parentEdges) ∧
    (some X ∈ (g.node m).childEdges → some X ∈ ((remove g n).node m).childEdges) ∧
    (∀ i : Nat, (g.node m).childEdges[i]? = some (some X) →
      ((remove g n).node m).childEdges[i]? = some (some X)) := by
  have hP : ¬ ((some X ∈ (g.node n).parentEdges ∨ some X ∈ (g.node n).childEdges) ∧
      X ∈ g.graphEdges) := by
    rintro ⟨h1 | h1, h2⟩
    · exact hcX ((hc.2.1 n hn X h1).2 h2).1
    · exact hp ((hc.2.2 n hn X h1).2 h2).1
  obtain ⟨h1, h2⟩ := remove_shrinksBy g n m
  exact ⟨fun h => h1.mem_keep h hP, fun h => h2.mem_keep h hP,
    fun i h => h2.getElem?_keep h hP⟩

/-- Lines 338 to 340: `lastNode` (when it is not the sum) and the sum are
detached; edges that touch neither stay where they are listed. -/
lemma detach_spec {γ : MKLDNNGraph} (hc : Consistent γ) {ln sum : NodeId}
    (hln : ln ∈ γ.graphNodes) (hsum : sum ∈ γ.graphNodes) :
    SameFrame γ (remove (if ln ≠ sum then remove γ ln else γ) sum) ∧
    SameLayers γ (remove (if ln ≠ sum then remove γ ln else γ) sum) ∧
    nodeIsDropped (remove (if ln ≠ sum then remove γ ln else γ) sum) sum = true ∧
    nodeIsDropped (remove (if ln ≠ sum then remove γ ln else γ) sum) ln = true ∧
    ∀ X m, (γ.edge X).parent ≠ ln → (γ.edge X).child ≠ ln → (γ.edge X).parent ≠ sum →
      (γ.edge X).child ≠ sum →
      (some X ∈ (γ.node m).parentEdges →
        some X ∈ ((remove (if ln ≠ sum then remove γ ln else γ) sum).node m).parentEdges) ∧
      (some X ∈ (γ.node m).childEdges →
        some X ∈ ((remove (if ln ≠ sum then remove γ ln else γ) sum).node m).childEdges) ∧
      (∀ i : Nat, (γ.node m).childEdges[i]? = some (some X) →
        ((remove (if ln ≠ sum then remove γ ln else γ) sum).node m).childEdges[i]? =
          some (some X)) := by
  by_cases hls : ln = sum
  · subst hls
    simp only [ne_eq, not_true_eq_false, if_false]
    refine ⟨remove_sameFrame γ ln, sameLayers_remove γ ln, remove_dropped hc hln,
      remove_dropped hc hln, ?_⟩
    intro X m h1 h2 _ _
    exact remove_keep hc hln h1 h2 m
  · simp only [ne_eq, hls, not_false_eq_true, if_true]
    have hf1 := remove_sameFrame γ ln
    have hc1 := consistent_remove hc ln
    have hsum1 : sum ∈ (remove γ ln).graphNodes := by rw [hf1.1]; exact hsum
    have hln1 : ln ∈ (remove γ ln).graphNodes := by rw [hf1.1]; exact hln
    refine ⟨hf1.frame_trans (remove_sameFrame _ sum),
      (sameLayers_remove γ ln).trans (sameLayers_remove _ sum),
      remove_dropped hc1 hsum1, ?_, ?_⟩
    · exact nodeIsDropped_of_shrinks (remove_sameFrame _ sum) ln
        (remove_shrinks _ sum ln).1 (remove_shrinks _ sum ln).2 (remove_dropped hc hln)
    · intro X m h1 h2 h3 h4
      have k1 := remove_keep hc hln h1 h2 m
      have h3a : ((remove γ ln).edge X).parent ≠ sum := by rw [hf1.2.2.1]; exact h3
      have h4a : ((remove γ ln).edge X).child ≠ sum := by rw [hf1.2.2.1]; exact h4
      have k2 := remove_keep hc1 hsum1 h3a h4a m
      exact ⟨fun h => k2.1 (k1.1 h), fun h => k2.2.1 (k1.2.1 h),
        fun i h => k2.2.2 i (k1.2.2 i h)⟩

lemma mem_children_of_mem {g : MKLDNNGraph} {u c : NodeId} {e : EdgeId}
    (hi : some e ∈ (g.node u).childEdges) (he : e ∈ g.graphEdges)
    (hc : getChild g e = some c) : c ∈ children g u := by
  obtain ⟨i, hi1⟩ := List.mem_iff_getElem?.mp hi
  exact mem_children_of_slot hi1 he hc

lemma mem_parents_of_mem {g : MKLDNNGraph} {u p : NodeId} {e : EdgeId}
    (hi : some e ∈ (g.node u).parentEdges) (he : e ∈ g.graphEdges)
    (hp : getParent g e = some p) : p ∈ parents g u := by
  unfold parents
  rw [List.mem_filterMap]
  exact ⟨some e, hi, by rw [lock_some_of_mem he]; exact hp⟩

lemma mem_children_iff {g : MKLDNNGraph} {u c : NodeId} :
    c ∈ children g u ↔
      ∃ (i : Nat) (e : EdgeId), (g.node u).childEdges[i]? = some (some e) ∧ e ∈ g.graphEdges ∧
        getChild g e = some c := by
  constructor
  · intro h
    unfold children at h
    rw [List.mem_filterMap] at h
    obtain ⟨w, hw, hwc⟩ := h
    obtain ⟨i, hi⟩ := List.mem_iff_getElem?.mp hw
    cases hl : lock g w with
    | none => rw [hl] at hwc; cases hwc
    | some e =>
      rw [hl] at hwc
      obtain ⟨h1, h2⟩ := lock_eq_some hl
      rw [h1] at hi
      exact ⟨i, e, hi, h2, hwc⟩
  · rintro ⟨i, e, hi, he, hc⟩
    exact mem_children_of_slot hi he hc

/-- Lines 315 to 341 on a consistent graph: the peer is attached to the
convolution, the convolution takes over the consumers of `lastNode`, and the
sum and `lastNode` end without a live reference. -/
lemma connect_spec {h : MKLDNNGraph} {sum mc peer ln : NodeId} (hc : Consistent h)
    (hsum : sum ∈ h.graphNodes) (hmc : mc ∈ h.graphNodes) (hpeer : peer ∈ h.graphNodes)
    (hln : ln ∈ h.graphNodes)
    (hpm : peer ≠ mc) (hpl : peer ≠ ln) (hps : peer ≠ sum) (hml : mc ≠ ln) (hms : mc ≠ sum)
    (hplive : ∀ w ∈ (h.node peer).childEdges, ∃ e, w = some e ∧ e ∈ h.graphEdges)
    (hlive : ∀ w ∈ (h.node ln).childEdges, ∃ e, w = some e ∧ e ∈ h.graphEdges)
    (hnodup : (h.node ln).childEdges.Nodup)
    (hkids : ∀ c ∈ children h ln, c ≠ mc ∧ c ≠ sum ∧ c ≠ ln)
    (hsize : (h.node ln).childEdges.length < 2 ^ 64)
    (hpsize : ∀ c ∈ children h ln,
      (h.node c).parentEdges.length + (h.node ln).childEdges.length < 2 ^ 64) :
    ∃ g1, FuseConvolutionSum.connect h sum mc peer ln = some g1 ∧ SameLayers h g1 ∧
      g1.graphNodes = h.graphNodes ∧ mc ∈ children g1 peer ∧ peer ∈ parents g1 mc ∧
      (∀ c ∈ children h ln, c ∈ children g1 mc) ∧
      nodeIsDropped g1 sum = true ∧ nodeIsDropped g1 ln = true := by
  unfold FuseConvolutionSum.connect
  simp only []
  obtain ⟨cI, hcI⟩ := childIdx_some (pushNewEdge h peer mc).2 sum
    ((pushNewEdge h peer mc).2.node peer).childEdges 0 (by
      intro w hw
      rw [pushNewEdge_node] at hw
      obtain ⟨e, he, heG⟩ := hplive w hw
      refine ⟨e, ?_⟩
      rw [he]
      apply lock_some_of_mem
      rw [pushNewEdge_graphEdges]
      exact List.mem_append_left _ heG)
  rw [hcI]
  simp only []
  have A := @attach_spec h mc peer ln hc hmc hpeer hln hpl hlive cI
  generalize addEdge (pushNewEdge h peer mc).2 (pushNewEdge h peer mc).1
    ((pushNewEdge h peer mc).2.node mc).parentEdges.length cI = g4 at A ⊢
  have hlt : ∀ e, some e ∈ (h.node ln).childEdges → e < h.edgeCount :=
    fun e he => (hc.2.2 ln hln e he).1
  have hch : children g4 ln = children h ln := by
    apply children_congr A.lnList A.nodes
    intro e he
    have hne : e ≠ h.edgeCount := Nat.ne_of_lt (hlt e he)
    refine ⟨?_, A.edgeOld e hne⟩
    rw [A.edges, List.mem_append, List.mem_singleton]
    exact ⟨fun h1 => h1.resolve_right hne, Or.inl⟩
  have H : RewireHyp g4 mc ln :=
    { cons := A.cons
      ln_mem := by rw [A.nodes]; exact hln
      mc_mem := by rw [A.nodes]; exact hmc
      ne := Ne.symm hml
      live := by
        rw [A.lnList]
        intro w hw
        obtain ⟨e, he, heG⟩ := hlive w hw
        exact ⟨e, he, by rw [A.edges]; exact List.mem_append_left _ heG⟩
      nodup := by rw [A.lnList]; exact hnodup
      kid := by
        rw [hch]
        intro hk
        exact (hkids mc hk).1 rfl
      size := by rw [A.lnList]; exact hsize
      psize := by
        intro c hcm
        rw [hch] at hcm
        rw [A.parLen c (hkids c hcm).1, A.lnList]
        exact hpsize c hcm }
  obtain ⟨γ, hγ, I⟩ := rewire_spec H
  rw [hγ]
  simp only []
  have hlnγ : ln ∈ γ.graphNodes := by rw [I.nodes, A.nodes]; exact hln
  have hsumγ : sum ∈ γ.graphNodes := by rw [I.nodes, A.nodes]; exact hsum
  obtain ⟨hF, hL, hd1, hd2, hK⟩ := detach_spec I.cons hlnγ hsumγ
  generalize remove (if ln ≠ sum then remove γ ln else γ) sum = g1 at hF hL hd1 hd2 hK ⊢
  have hrl := sameLayers_rewire _ _ _ hγ
  -- the edge from the peer
  have hE0lt : h.edgeCount < g4.edgeCount := by rw [A.count]; exact Nat.lt_succ_self _
  have hE0g4 : h.edgeCount ∈ g4.graphEdges := by
    rw [A.edges]
    exact List.mem_append_right _ (List.mem_singleton.mpr rfl)
  have hE0γ : h.edgeCount ∈ γ.graphEdges := (I.edgesOld _ hE0lt).mpr hE0g4
  have hE0e : γ.edge h.edgeCount = ⟨peer, mc, []⟩ := (I.edgeOld _ hE0lt).trans A.edgeNew
  have hkeep := I.keep h.edgeCount
  have hE0p : (g4.edge h.edgeCount).parent ≠ mc := by rw [A.edgeNew]; exact hpm
  have hE0c : (g4.edge h.edgeCount).child ∉ children g4 ln := by rw [A.edgeNew]; exact H.kid
  have hK0 := hK h.edgeCount
  rw [hE0e] at hK0
  have hnodes1 : g1.graphNodes = h.graphNodes := by rw [hF.1, I.nodes, A.nodes]
  refine ⟨g1, rfl, (A.layers.trans hrl).trans hL, hnodes1, ?_, ?_, ?_, hd1, hd2⟩
  · apply mem_children_of_mem (e := h.edgeCount)
    · exact (hK0 peer hpl hml hps hms).2.1 ((hkeep peer hE0g4 hE0p hE0c).2 A.atParent)
    · rw [hF.2.1]; exact hE0γ
    · unfold getChild
      rw [hF.2.2.1, hE0e, hnodes1]
      simp [hmc]
  · apply mem_parents_of_mem (e := h.edgeCount)
    · exact (hK0 mc hpl hml hps hms).1 ((hkeep mc hE0g4 hE0p hE0c).1 A.atChild)
    · rw [hF.2.1]; exact hE0γ
    · unfold getParent
      rw [hF.2.2.1, hE0e, hnodes1]
      simp [hpeer]
  · intro c hcm
    have hcm4 : c ∈ children g4 ln := by rw [hch]; exact hcm
    obtain ⟨t, e, ht, he, hgc⟩ := mem_children_iff.mp hcm4
    have htl : t < (g4.node ln).childEdges.length := by
      by_contra hnl
      rw [List.getElem?_eq_none (Nat.le_of_not_lt hnl)] at ht
      cases ht
    obtain ⟨E, hEs, _, hEγ, e1, c1, hs1, hgc1, hEc⟩ := I.mcNew t htl
    rw [ht] at hs1
    cases hs1
    rw [hgc] at hgc1
    cases hgc1
    have hEp : (γ.edge E).parent = mc :=
      ((I.cons.2.2 mc (by rw [I.nodes]; exact H.mc_mem) E
        (List.mem_iff_getElem?.mpr ⟨t, hEs⟩)).2 hEγ).1
    obtain ⟨hc1, hc2, hc3⟩ := hkids c hcm
    have hslot := (hK E mc (by rw [hEp]; exact hml) (by rw [hEc]; exact hc3)
      (by rw [hEp]; exact hms) (by rw [hEc]; exact hc2)).2.2 t hEs
    apply mem_children_of_slot hslot
    · rw [hF.2.1]; exact hEγ
    · unfold getChild
      rw [hF.2.2.1, hEc, hnodes1]
      have := children_mem_graphNodes hcm
      simp [this]

end MKLDNNPlugin

namespace MKLDNNPlugin

lemma consistent_of_check {g : MKLDNNGraph} (h : consistentRefs g = true) : Consistent g := by
  unfold consistentRefs at h
  rw [Bool.and_eq_true, List.all_eq_true, List.all_eq_true] at h
  obtain ⟨h1, h2⟩ := h
  refine ⟨fun e he => of_decide_eq_true (h1 e he), ?_, ?_⟩
  · intro n hn e he
    have h3 := h2 n hn
    rw [Bool.and_eq_true, List.all_eq_true, List.all_eq_true] at h3
    have h4 := h3.1 (some e) he
    simp only [consistentRef, Bool.and_eq_true, Bool.or_eq_true, Bool.not_eq_true',
      decide_eq_true_eq, decide_eq_false_iff_not] at h4
    refine ⟨h4.1, fun hm => ?_⟩
    rcases h4.2 with h5 | h5
    · exact absurd hm h5
    · exact h5
  · intro n hn e he
    have h3 := h2 n hn
    rw [Bool.and_eq_true, List.all_eq_true, List.all_eq_true] at h3
    have h4 := h3.2 (some e) he
    simp only [consistentRef, Bool.and_eq_true, Bool.or_eq_true, Bool.not_eq_true',
      decide_eq_true_eq, decide_eq_false_iff_not] at h4
    refine ⟨h4.1, fun hm => ?_⟩
    rcases h4.2 with h5 | h5
    · exact absurd hm h5
    · exact h5

lemma wellFormed_spec {g : MKLDNNGraph} (h : wellFormed g = true) :
    Consistent g ∧ childRefsLive g = true ∧ parentRefsLive g = true ∧ g.graphNodes.Nodup ∧
    ∀ n ∈ g.graphNodes, (g.node n).childEdges.Nodup ∧
      (g.node n).parentEdges.length < 2 ^ 32 ∧ (g.node n).childEdges.length < 2 ^ 32 := by
  unfold wellFormed at h
  simp only [Bool.and_eq_true, decide_eq_true_eq, List.all_eq_true] at h
  obtain ⟨⟨⟨⟨h1, h2⟩, h3⟩, h4⟩, h5⟩ := h
  exact ⟨consistent_of_check h1, h2, h3, h4, fun n hn => ⟨(h5 n hn).1.1, (h5 n hn).1.2,
    (h5 n hn).2⟩⟩

lemma childRef_live {g : MKLDNNGraph} (hcl : childRefsLive g = true) {n : NodeId}
    (hn : n ∈ g.graphNodes) {w : MKLDNNEdgeWeakPtr} (hw : w ∈ (g.node n).childEdges) :
    ∃ e c, w = some e ∧ e ∈ g.graphEdges ∧ lock g w = some e ∧ getChild g e = some c := by
  have h := childRefsLive_node hcl hn w hw
  cases hl : lock g w with
  | none => rw [hl] at h; cases h
  | some e =>
    rw [hl] at h
    cases hc : getChild g e with
    | none => simp [hc] at h
    | some c => exact ⟨e, c, (lock_eq_some hl).1, (lock_eq_some hl).2, rfl, hc⟩

lemma parentRef_live {g : MKLDNNGraph} (hc : Consistent g) (hpl : parentRefsLive g = true)
    {n : NodeId} (hn : n ∈ g.graphNodes) {w : MKLDNNEdgeWeakPtr}
    (hw : w ∈ (g.node n).parentEdges) :
    ∃ e p, w = some e ∧ e ∈ g.graphEdges ∧ lock g w = some e ∧ getParent g e = some p := by
  unfold parentRefsLive at hpl
  rw [List.all_eq_true] at hpl
  have h1 := hpl n hn
  rw [List.all_eq_true] at h1
  have h := h1 w hw
  cases hl : lock g w with
  | none => rw [hl] at h; cases h
  | some e =>
    obtain ⟨hwe, heG⟩ := lock_eq_some hl
    rw [hwe] at hw
    have hp := ((hc.2.1 n hn e hw).2 heG).2
    refine ⟨e, (g.edge e).parent, hwe, heG, rfl, ?_⟩
    unfold getParent
    simp [hp]

lemma filterMap_length_of_isSome {α β : Type} (f : α → Option β) :
    ∀ (l : List α), (∀ w ∈ l, (f w).isSome = true) → (l.filterMap f).length = l.length := by
  intro l
  induction l with
  | nil => intro _; rfl
  | cons a l ih =>
    intro h
    have ha := h a (List.mem_cons_self _ _)
    cases hf : f a with
    | none => rw [hf] at ha; cases ha
    | some b =>
      rw [List.filterMap_cons_some hf, List.length_cons, List.length_cons,
        ih (fun w hw => h w (List.mem_cons_of_mem _ hw))]

lemma children_length {g : MKLDNNGraph} (hcl : childRefsLive g = true) {n : NodeId}
    (hn : n ∈ g.graphNodes) : (children g n).length = (g.node n).childEdges.length :=
  filterMap_length_of_isSome _ _ (childRefsLive_node hcl hn)

lemma parents_length {g : MKLDNNGraph} (hc : Consistent g) (hpl : parentRefsLive g = true)
    {n : NodeId} (hn : n ∈ g.graphNodes) :
    (parents g n).length = (g.node n).parentEdges.length := by
  apply filterMap_length_of_isSome
  intro w hw
  obtain ⟨e, p, _, _, hl, hp⟩ := parentRef_live hc hpl hn hw
  rw [hl]
  simp [hp]

/-- The child list of a node with the single consumer `c`. -/
lemma children_single {g : MKLDNNGraph} (hcl : childRefsLive g = true) {n c : NodeId}
    (hn : n ∈ g.graphNodes) (h : children g n = [c]) :
    ∃ w e, (g.node n).childEdges = [w] ∧ lock g w = some e ∧ getChild g e = some c := by
  have hlen := children_length hcl hn
  rw [h] at hlen
  obtain ⟨w, hw⟩ := List.length_eq_one.mp hlen.symm
  obtain ⟨e, c1, _, _, hl, hgc⟩ := childRef_live hcl hn (w := w) (by rw [hw]; simp)
  refine ⟨w, e, hw, hl, ?_⟩
  unfold children at h
  rw [hw] at h
  simp only [List.filterMap_cons, hl, Option.some_bind, hgc, List.filterMap_nil,
    List.cons.injEq, and_true] at h
  rw [hgc, h]

/-- The parent list of a node with the two producers `a` and `b`. -/
lemma parents_pair {g : MKLDNNGraph} (hc : Consistent g) (hpl : parentRefsLive g = true)
    {n a b : NodeId} (hn : n ∈ g.graphNodes) (h : parents g n = [a, b]) :
    ∃ w0 e0 w1 e1, (g.node n).parentEdges = [w0, w1] ∧ lock g w0 = some e0 ∧
      getParent g e0 = some a ∧ lock g w1 = some e1 ∧ getParent g e1 = some b := by
  have hlen := parents_length hc hpl hn
  rw [h] at hlen
  obtain ⟨w0, w1, hw⟩ := List.length_eq_two.mp hlen.symm
  obtain ⟨e0, p0, _, _, hl0, hp0⟩ := parentRef_live hc hpl hn (w := w0) (by rw [hw]; simp)
  obtain ⟨e1, p1, _, _, hl1, hp1⟩ := parentRef_live hc hpl hn (w := w1) (by rw [hw]; simp)
  refine ⟨w0, e0, w1, e1, hw, hl0, ?_, hl1, ?_⟩
  all_goals
    unfold parents at h
    rw [hw] at h
    simp only [List.filterMap_cons, hl0, hl1, Option.some_bind, hp0, hp1, List.filterMap_nil,
      List.cons.injEq, and_true] at h
  · rw [hp0, h.1]
  · rw [hp1, h.2]

lemma SameLists.lists_refl (g : MKLDNNGraph) : SameLists g g :=
  ⟨SameFrame.frame_refl g, fun _ => ⟨rfl, rfl⟩⟩

lemma SameLists.lists_trans {g g1 g2 : MKLDNNGraph} (h1 : SameLists g g1) (h2 : SameLists g1 g2) :
    SameLists g g2 :=
  ⟨h1.1.frame_trans h2.1, fun m => ⟨((h2.2 m).1).trans (h1.2 m).1, ((h2.2 m).2).trans (h1.2 m).2⟩⟩

lemma sameLists_setNode (g : MKLDNNGraph) (n : NodeId) (v : MKLDNNNode)
    (hp : v.parentEdges = (g.node n).parentEdges) (hc : v.childEdges = (g.node n).childEdges) :
    SameLists g (g.setNode n v) := by
  refine ⟨⟨rfl, rfl, rfl, rfl⟩, fun m => ?_⟩
  unfold MKLDNNGraph.setNode
  by_cases h : m = n
  · subst h; simp [hp, hc]
  · simp [h]

lemma sameLists_setType (g : MKLDNNGraph) (n : NodeId) (t : NodeType) :
    SameLists g (setType g n t) :=
  sameLists_setNode g n _ rfl rfl

lemma sameLists_fuseWith (g : MKLDNNGraph) (n f : NodeId) : SameLists g (fuseWith g n f) :=
  sameLists_setNode g n _ rfl rfl

lemma setType_type (g : MKLDNNGraph) (n : NodeId) (t : NodeType) (m : NodeId) :
    ((setType g n t).node m).type = if m = n then t else (g.node m).type := by
  unfold setType MKLDNNGraph.setNode
  by_cases h : m = n
  · subst h; simp
  · simp [h]

lemma fuseWith_type (g : MKLDNNGraph) (n f : NodeId) (m : NodeId) :
    ((fuseWith g n f).node m).type = (g.node m).type := by
  unfold fuseWith MKLDNNGraph.setNode
  by_cases h : m = n
  · subst h; simp
  · simp [h]

lemma SameLists.consistent {g h : MKLDNNGraph} (hs : SameLists g h) (hc : Consistent g) :
    Consistent h :=
  consistent_of_refs hc hs.1 (fun m _ e =>
    ⟨fun h1 => Or.inl (by rw [← (hs.2 m).1]; exact h1),
      fun h1 => Or.inl (by rw [← (hs.2 m).2]; exact h1)⟩)

lemma SameLists.children_eq {g h : MKLDNNGraph} (hs : SameLists g h) (n : NodeId) :
    children h n = children g n :=
  children_congr (hs.2 n).2 hs.1.1 (fun e _ => ⟨by rw [hs.1.2.1], by rw [hs.1.2.2.1]⟩)

lemma isFusingSupported_type {g : MKLDNNGraph} {n : NodeId}
    (h : isFusingSupported g n = true) : (g.node n).type = .Activation := by
  unfold isFusingSupported at h
  split at h
  · cases h
  · simp only [Bool.and_eq_true, decide_eq_true_eq] at h
    exact h.1

end MKLDNNPlugin

namespace MKLDNNPlugin

lemma checkParents_true (g : MKLDNNGraph) (mc peer : NodeId) :
    ∀ idxs, (∀ j ∈ idxs, ∃ e, getParentEdgeAt g mc j = some e ∧ getParent g e ≠ some peer) →
      FuseConvolutionSum.checkParents g mc peer idxs true = some true := by
  intro idxs
  induction idxs with
  | nil => intro _; rfl
  | cons j rest ih =>
    intro h
    obtain ⟨e, he, hp⟩ := h j (List.mem_cons_self _ _)
    simp only [FuseConvolutionSum.checkParents, Bool.not_true, Bool.false_eq_true, if_false, he,
      hp]
    exact ih (fun j1 h1 => h j1 (List.mem_cons_of_mem _ h1))

lemma checkConsumers_true (g : MKLDNNGraph) (sum : NodeId) :
    ∀ ws, (∀ w ∈ ws, ∃ e c, lock g w = some e ∧ getChild g e = some c ∧
        is_data_dependency g c sum = .ok true) →
      FuseConvolutionSum.checkConsumers g sum ws true = some true := by
  intro ws
  induction ws with
  | nil => intro _; rfl
  | cons w rest ih =>
    intro h
    obtain ⟨e, c, he, hc, hd⟩ := h w (List.mem_cons_self _ _)
    simp only [FuseConvolutionSum.checkConsumers, Bool.not_true, Bool.false_eq_true, if_false,
      he, hc, hd, Bool.and_true]
    exact ih (fun w1 h1 => h w1 (List.mem_cons_of_mem _ h1))

lemma search_of_reachable (g : MKLDNNGraph) (hwf : childRefsLive g = true)
    (a b : NodeId) (ha : a ∈ g.graphNodes) (h : Reachable g a b) :
    is_data_dependency g a b = .ok true := by
  rcases is_data_dependency_spec g hwf a b ha with ⟨h1, _⟩ | ⟨_, h2⟩
  · exact h1
  · exact absurd h h2

/-- The tests of lines 287 to 300 pass: the convolution has one child edge, none
of its producers is the peer, and every consumer of the peer leads to the sum. -/
lemma fuseAllowed_true {g : MKLDNNGraph} {sum mc peer : NodeId} (hc : Consistent g)
    (hcl : childRefsLive g = true) (hpl : parentRefsLive g = true)
    (hmc : mc ∈ g.graphNodes) (hpeer : peer ∈ g.graphNodes)
    (hone : (g.node mc).childEdges.length = 1) (hnot : peer ∉ parents g mc)
    (hfeed : ∀ d ∈ children g peer, Reachable g d sum) :
    FuseConvolutionSum.fuseAllowed g sum mc peer = some true := by
  unfold FuseConvolutionSum.fuseAllowed
  rw [hone, show decide ((1 : Nat) = 1) = true from rfl, checkParents_true]
  · simp only []
    apply checkConsumers_true
    intro w hw
    obtain ⟨e, c, _, heG, hl, hgc⟩ := childRef_live hcl hpeer hw
    have hcm : c ∈ children g peer :=
      mem_children_of_mem (by rw [← (lock_eq_some hl).1]; exact hw) heG hgc
    exact ⟨e, c, hl, hgc, search_of_reachable g hcl c sum (getChild_mem hgc) (hfeed c hcm)⟩
  · intro j hj
    rw [List.mem_range] at hj
    have hget : (g.node mc).parentEdges[j]? = some ((g.node mc).parentEdges[j]) :=
      List.getElem?_eq_getElem hj
    obtain ⟨e, p, hwe, heG, hl, hp⟩ := parentRef_live hc hpl hmc (List.getElem_mem hj)
    refine ⟨e, ?_, ?_⟩
    · unfold getParentEdgeAt
      rw [List.get?_eq_getElem?, hget]
      exact hl
    · intro hpe
      apply hnot
      exact mem_parents_of_mem (by rw [← hwe]; exact List.getElem_mem hj) heG hpe

/-- The tests of lines 267 to 283 pick the first producer of the sum as the
convolution to merge into when it is a convolution. -/
lemma candidate_first {g : MKLDNNGraph} {sum a b : NodeId} (hc : Consistent g)
    (hpl : parentRefsLive g = true) (hsum : sum ∈ g.graphNodes)
    (hkind : (g.node sum).type = .Eltwise ∧ (g.node sum).eltwise = some (true, true))
    (hpar : parents g sum = [a, b]) (ha : (g.node a).type = .Convolution) :
    FuseConvolutionSum.candidate g sum = some (some (a, b)) := by
  obtain ⟨w0, e0, w1, e1, hw, hl0, hp0, hl1, hp1⟩ := parents_pair hc hpl hsum hpar
  unfold FuseConvolutionSum.candidate
  simp [hkind.1, hkind.2, hw, getParentEdgeAt, hl0, hp0, hl1, hp1, ha]

/-- Lines 303 to 311: the node chosen as `lastNode` and the kind given to the
convolution. -/
lemma retag_spec {g : MKLDNNGraph} {sum ln : NodeId} (mc : NodeId) (hcl : childRefsLive g = true)
    (hsum : sum ∈ g.graphNodes) (hkind : (g.node sum).type = .Eltwise)
    (hln : (ln = sum ∧ ∀ c, children g sum = [c] → isFusingSupported g c = false) ∨
      (children g sum = [ln] ∧ isFusingSupported g ln = true)) :
    ∃ g1, FuseConvolutionSum.retag g sum mc = some (ln, g1) ∧ SameLists g g1 ∧
      ∀ m, (g1.node m).type =
        if m = mc then (if ln = sum then .Convolution_Sum else .Convolution_Sum_Activation)
        else (g.node m).type := by
  rcases hln with ⟨hls, hno⟩ | ⟨hch, hsup⟩
  · subst hls
    refine ⟨setType g mc .Convolution_Sum, ?_, sameLists_setType _ _ _, ?_⟩
    · unfold FuseConvolutionSum.retag
      by_cases hl1 : (g.node ln).childEdges.length = 1
      · obtain ⟨w, hw⟩ := List.length_eq_one.mp hl1
        obtain ⟨e, c, _, _, hl, hgc⟩ := childRef_live hcl hsum (w := w) (by rw [hw]; simp)
        have hch : children g ln = [c] := by
          unfold children
          rw [hw]
          simp [hl, hgc]
        have hns := hno c hch
        simp [hl1, getChildEdgeAt, hw, hl, hgc, hns]
      · simp [hl1]
    · intro m
      rw [setType_type]
      simp
  · have hne : ln ≠ sum := by
      intro h
      have := isFusingSupported_type hsup
      rw [h, hkind] at this
      cases this
    obtain ⟨w, e, hw, hl, hgc⟩ := children_single hcl hsum hch
    refine ⟨fuseWith (setType g mc .Convolution_Sum_Activation) mc sum, ?_,
      (sameLists_setType _ _ _).lists_trans (sameLists_fuseWith _ _ _), ?_⟩
    · unfold FuseConvolutionSum.retag
      simp [hw, getChildEdgeAt, hl, hgc, hsup]
    · intro m
      rw [fuseWith_type, setType_type]
      simp [hne]

lemma step_skip {g : MKLDNNGraph} {n : NodeId} (h : (g.node n).type ≠ .Eltwise) :
    FuseConvolutionSum.step g n = some g := by
  unfold FuseConvolutionSum.step FuseConvolutionSum.candidate
  simp [h]

lemma mem_RemoveDropped_loop (g : MKLDNNGraph) :
    ∀ (rest done : List NodeId) (x : NodeId), x ∈ RemoveDropped.loop g done rest →
      x ∈ done ∨ (x ∈ rest ∧ nodeIsDropped g x = false) := by
  intro rest
  induction rest with
  | nil =>
    intro done x h
    simp only [RemoveDropped.loop] at h
    exact Or.inl h
  | cons n rest ih =>
    intro done x h
    unfold RemoveDropped.loop at h
    by_cases hd : nodeIsDropped g n = true
    · have hd1 : nodeIsDropped { g with graphNodes := done ++ n :: rest } n = true := hd
      rw [hd1] at h
      simp only [if_true] at h
      rcases ih done x h with h1 | ⟨h1, h2⟩
      · exact Or.inl h1
      · exact Or.inr ⟨List.mem_cons_of_mem _ h1, h2⟩
    · have hd0 : nodeIsDropped g n = false := by simpa using hd
      have hd1 : nodeIsDropped { g with graphNodes := done ++ n :: rest } n = false := hd0
      rw [hd1] at h
      simp only [Bool.false_eq_true, if_false] at h
      rcases ih (done ++ [n]) x h with h1 | ⟨h1, h2⟩
      · rcases List.mem_append.mp h1 with h3 | h3
        · exact Or.inl h3
        · rw [List.mem_singleton] at h3
          subst h3
          exact Or.inr ⟨List.mem_cons_self _ _, hd0⟩
      · exact Or.inr ⟨List.mem_cons_of_mem _ h1, h2⟩

lemma mem_RemoveDropped {g : MKLDNNGraph} {x : NodeId} (h : x ∈ (RemoveDropped g).graphNodes) :
    x ∈ g.graphNodes ∧ nodeIsDropped g x = false := by
  unfold RemoveDropped at h
  rcases mem_RemoveDropped_loop g g.graphNodes [] x h with h1 | h1
  · cases h1
  · exact h1

end MKLDNNPlugin

namespace MKLDNNPlugin

/-- The loop body of the sum fusion, run for the sum of a well-formed graph in
which the tests of lines 267 to 300 pass. -/
lemma step_fuses {g : MKLDNNGraph} {sum A B ln : NodeId} (hwf : wellFormed g = true)
    (hsum : sum ∈ g.graphNodes)
    (hkind : (g.node sum).type = .Eltwise ∧ (g.node sum).eltwise = some (true, true))
    (hpar : parents g sum = [A, B])
    (hA : (g.node A).type = .Convolution) (hB : (g.node B).type = .Convolution)
    (hAB : A ≠ B) (hone : children g A = [sum]) (hnot : B ∉ parents g A)
    (hfeed : ∀ d ∈ children g B, Reachable g d sum)
    (hln : (ln = sum ∧ ∀ c, children g sum = [c] → isFusingSupported g c = false) ∨
      (children g sum = [ln] ∧ isFusingSupported g ln = true))
    (hkids : ∀ c ∈ children g ln, c ≠ A ∧ c ≠ sum ∧ c ≠ ln) :
    ∃ g1, FuseConvolutionSum.step g sum = some g1 ∧ g1.graphNodes = g.graphNodes ∧
      (∀ m, (g1.node m).type =
        if m = A then (if ln = sum then .Convolution_Sum else .Convolution_Sum_Activation)
        else (g.node m).type) ∧
      A ∈ children g1 B ∧ B ∈ parents g1 A ∧ (∀ c ∈ children g ln, c ∈ children g1 A) ∧
      nodeIsDropped g1 sum = true ∧ nodeIsDropped g1 ln = true := by
  obtain ⟨hc, hcl, hpl, _, hall⟩ := wellFormed_spec hwf
  obtain ⟨w0, e0, w1, e1, _, _, hp0, _, hp1⟩ := parents_pair hc hpl hsum hpar
  have hAm := getParent_mem hp0
  have hBm := getParent_mem hp1
  have hcand := candidate_first hc hpl hsum hkind hpar hA
  have hone1 : (g.node A).childEdges.length = 1 := by
    rw [← children_length hcl hAm, hone]
    rfl
  have hfa := fuseAllowed_true hc hcl hpl hAm hBm hone1 hnot hfeed
  obtain ⟨g1, hrt, hs1, ht1⟩ := retag_spec A hcl hsum hkind.1 hln
  have hAs : A ≠ sum := by
    intro h
    rw [h, hkind.1] at hA
    cases hA
  have hBs : B ≠ sum := by
    intro h
    rw [h, hkind.1] at hB
    cases hB
  have hlnm : ln ∈ g.graphNodes := by
    rcases hln with ⟨h, _⟩ | ⟨h, _⟩
    · rw [h]; exact hsum
    · exact children_mem_graphNodes (u := sum) (by rw [h]; exact List.mem_singleton.mpr rfl)
  have hAl : A ≠ ln := by
    rcases hln with ⟨h, _⟩ | ⟨_, h⟩
    · rw [h]; exact hAs
    · intro h1
      have h2 := isFusingSupported_type h
      rw [← h1, hA] at h2
      cases h2
  have hBl : B ≠ ln := by
    rcases hln with ⟨h, _⟩ | ⟨_, h⟩
    · rw [h]; exact hBs
    · intro h1
      have h2 := isFusingSupported_type h
      rw [← h1, hB] at h2
      cases h2
  have hs : SameLists g (fuseWith g1 A ln) := hs1.lists_trans (sameLists_fuseWith _ _ _)
  have hlnl := (hall ln hlnm).2.2
  obtain ⟨g2, hcon, hlay, hnodes, h1, h2, h3, h4, h5⟩ :=
    connect_spec (hs.consistent hc) (by rw [hs.1.1]; exact hsum) (by rw [hs.1.1]; exact hAm)
      (by rw [hs.1.1]; exact hBm) (by rw [hs.1.1]; exact hlnm) (Ne.symm hAB) hBl hBs hAl hAs
      (by
        rw [(hs.2 B).2, hs.1.2.1]
        intro w hw
        obtain ⟨e, c, k1, k2, _, _⟩ := childRef_live hcl hBm hw
        exact ⟨e, k1, k2⟩)
      (by
        rw [(hs.2 ln).2, hs.1.2.1]
        intro w hw
        obtain ⟨e, c, k1, k2, _, _⟩ := childRef_live hcl hlnm hw
        exact ⟨e, k1, k2⟩)
      (by rw [(hs.2 ln).2]; exact (hall ln hlnm).1)
      (by rw [hs.children_eq ln]; exact hkids)
      (by
        rw [(hs.2 ln).2]
        exact Nat.lt_trans hlnl (by norm_num))
      (by
        intro c hcm
        rw [hs.children_eq ln] at hcm
        rw [(hs.2 c).1, (hs.2 ln).2]
        have k1 := (hall c (children_mem_graphNodes hcm)).2.1
        have k2 : (2 : Nat) ^ 32 + 2 ^ 32 < 2 ^ 64 := by norm_num
        exact Nat.lt_trans (Nat.add_lt_add k1 hlnl) k2)
  refine ⟨g2, ?_, by rw [hnodes, hs.1.1], ?_, h1, h2, ?_, h4, h5⟩
  · simp only [FuseConvolutionSum.step, hcand, hfa, FuseConvolutionSum.apply, hrt]
    exact hcon
  · intro m
    rw [(hlay m).1, fuseWith_type, ht1 m]
  · intro c hcm
    exact h3 c (by rw [hs.children_eq ln]; exact hcm)

end MKLDNNPlugin

namespace MKLDNNPlugin

/-- C7: let `g` be a well-formed graph whose only Eltwise node is the unit-scale
sum `sum` of the convolutions `A` and `B`, in this order; the sum is the only
consumer of `A`, `B` is not a producer of `A`, and every consumer of `B` leads
to the sum. Let `lastNode` be the sole child of the sum when that is a
supported activation, and the sum otherwise, and let no consumer of `lastNode`
be `A`, the sum or `lastNode` (as in every acyclic graph). Then
FuseConvolutionSumAndConvolutionSumActivation returns a graph in which `A` has
kind Convolution_Sum (Convolution_Sum_Activation in the activation case), `B`
feeds `A` through a live edge that both list, `A` feeds every former consumer of
`lastNode`, and the sweep RemoveDropped removes the sum and `lastNode` and leaves
no Eltwise node. -/
theorem FuseConvolutionSum_fuses_when_consumers_feed_sum (g : MKLDNNGraph)
    (sum A B lastNode : NodeId) (hwf : wellFormed g = true) (hsum : sum ∈ g.graphNodes)
    (hkind : (g.node sum).type = .Eltwise ∧ (g.node sum).eltwise = some (true, true))
    (honly : ∀ n ∈ g.graphNodes, (g.node n).type = .Eltwise → n = sum)
    (hpar : parents g sum = [A, B])
    (hA : (g.node A).type = .Convolution) (hB : (g.node B).type = .Convolution)
    (hAB : A ≠ B) (hone : children g A = [sum]) (hnot : B ∉ parents g A)
    (hfeed : ∀ d ∈ children g B, Reachable g d sum)
    (hln : (lastNode = sum ∧ ∀ c, children g sum = [c] → isFusingSupported g c = false) ∨
      (children g sum = [lastNode] ∧ isFusingSupported g lastNode = true))
    (hkids : ∀ c ∈ children g lastNode, c ≠ A ∧ c ≠ sum ∧ c ≠ lastNode) :
    ∃ g1, FuseConvolutionSumAndConvolutionSumActivation g = some g1 ∧
      (g1.node A).type =
        (if lastNode = sum then .Convolution_Sum else .Convolution_Sum_Activation) ∧
      A ∈ children g1 B ∧ B ∈ parents g1 A ∧
      (∀ c ∈ children g lastNode, c ∈ children g1 A) ∧
      sum ∉ (RemoveDropped g1).graphNodes ∧ lastNode ∉ (RemoveDropped g1).graphNodes ∧
      ∀ n ∈ (RemoveDropped g1).graphNodes, ((RemoveDropped g1).node n).type ≠ .Eltwise := by
  obtain ⟨g1, hstep, hnodes, htype, h1, h2, h3, h4, h5⟩ :=
    step_fuses hwf hsum hkind hpar hA hB hAB hone hnot hfeed hln hkids
  have hnd := (wellFormed_spec hwf).2.2.2.1
  have hT : ∀ m, m ≠ sum → m ∈ g.graphNodes → (g1.node m).type ≠ .Eltwise := by
    intro m hm hmem
    rw [htype m]
    by_cases hmA : m = A
    · rw [if_pos hmA]
      by_cases hl : lastNode = sum
      · rw [if_pos hl]; intro h; cases h
      · rw [if_neg hl]; intro h; cases h
    · rw [if_neg hmA]
      exact fun h => hm (honly m hmem h)
  obtain ⟨l1, l2, hl⟩ := List.append_of_mem hsum
  rw [hl] at hnd
  have hnd2 := List.nodup_append.mp hnd
  have hs1 : sum ∉ l1 := fun h => hnd2.2.2 h (List.mem_cons_self _ _)
  have hs2 : sum ∉ l2 := (List.nodup_cons.mp hnd2.2.1).1
  refine ⟨g1, ?_, ?_, h1, h2, h3, ?_, ?_, ?_⟩
  · unfold FuseConvolutionSumAndConvolutionSumActivation
    rw [hl, List.foldlM_append, foldlM_skip l1]
    · show List.foldlM FuseConvolutionSum.step g (sum :: l2) = some g1
      rw [List.foldlM_cons, hstep]
      show List.foldlM FuseConvolutionSum.step g1 l2 = some g1
      apply foldlM_skip
      intro n hn
      apply step_skip
      apply hT n (fun h => hs2 (h ▸ hn))
      rw [hl]
      exact List.mem_append_right _ (List.mem_cons_of_mem _ hn)
    · intro n hn
      apply step_skip
      intro h
      have hmem : n ∈ g.graphNodes := by
        rw [hl]
        exact List.mem_append_left _ hn
      exact hs1 (honly n hmem h ▸ hn)
  · rw [htype A, if_pos rfl]
  · intro h
    have := (mem_RemoveDropped h).2
    rw [h4] at this
    cases this
  · intro h
    have := (mem_RemoveDropped h).2
    rw [h5] at this
    cases this
  · intro n hn
    obtain ⟨hn1, hn2⟩ := mem_RemoveDropped hn
    show (g1.node n).type ≠ .Eltwise
    apply hT n
    · intro h
      rw [h, h4] at hn2
      cases hn2
    · rw [← hnodes]
      exact hn1

/-- C7, at a concrete input: `sumFuseReluGraph`, with the sum 4 of the
convolutions `A` (3) and `B` (1) and the ReLU 5 behind the sum. -/
theorem FuseConvolutionSum_fuses_when_consumers_feed_sum_witness :
    wellFormed sumFuseReluGraph = true ∧ parents sumFuseReluGraph 4 = [3, 1] ∧
    children sumFuseReluGraph 1 = [4, 2] ∧ Reachable sumFuseReluGraph 2 4 ∧
    children sumFuseReluGraph 4 = [5] ∧ isFusingSupported sumFuseReluGraph 5 = true ∧
    children sumFuseReluGraph 5 = [6] ∧
    ∃ g1, FuseConvolutionSumAndConvolutionSumActivation sumFuseReluGraph = some g1 ∧
      (g1.node 3).type =
        (if (5 : NodeId) = 4 then .Convolution_Sum else .Convolution_Sum_Activation) ∧
      3 ∈ children g1 1 ∧ 1 ∈ parents g1 3 ∧
      (∀ c ∈ children sumFuseReluGraph 5, c ∈ children g1 3) ∧
      4 ∉ (RemoveDropped g1).graphNodes ∧ 5 ∉ (RemoveDropped g1).graphNodes ∧
      ∀ n ∈ (RemoveDropped g1).graphNodes, ((RemoveDropped g1).node n).type ≠ .Eltwise :=
  have k23 : childRel sumFuseReluGraph 2 3 :=
    show 3 ∈ children sumFuseReluGraph 2 by decide
  have k34 : childRel sumFuseReluGraph 3 4 :=
    show 4 ∈ children sumFuseReluGraph 3 by decide
  have hr : Reachable sumFuseReluGraph 2 4 :=
    Relation.ReflTransGen.head k23 (Relation.ReflTransGen.single k34)
  ⟨by decide, by decide, by decide, hr, by decide, by decide, by decide,
    FuseConvolutionSum_fuses_when_consumers_feed_sum sumFuseReluGraph 4 3 1 5 (by decide)
      (by decide) (by decide) (by decide) (by decide) (by decide) (by decide) (by decide)
      (by decide) (by decide)
      (fun d hd => by
        have hd1 : d = 4 ∨ d = 2 := by
          have hd2 : d ∈ [4, 2] := hd
          simpa using hd2
        rcases hd1 with h | h
        · rw [h]; exact Relation.ReflTransGen.refl
        · rw [h]; exact hr)
      (Or.inr ⟨by decide, by decide⟩) (by decide)⟩

end MKLDNNPlugin

namespace InferenceEngine

lemma product_foldl_lt (dims : SizeVector) :
    ∀ (acc : Nat), acc < 2 ^ 64 →
      dims.foldl (fun acc d => (acc * d) % 2 ^ 64) acc < 2 ^ 64 := by
  induction dims with
  | nil => intro acc h; exact h
  | cons d t ih =>
    intro acc _
    exact ih _ (Nat.mod_lt _ (by norm_num))

lemma product_foldl_mod (dims : SizeVector) :
    ∀ (acc : Nat),
      dims.foldl (fun acc d => (acc * d) % 2 ^ 64) acc % 2 ^ 64 =
        (acc * dims.prod) % 2 ^ 64 := by
  induction dims with
  | nil => intro acc; simp
  | cons d t ih =>
    intro acc
    rw [List.foldl_cons, ih, List.prod_cons, Nat.mod_mul_mod, Nat.mul_assoc]

lemma product_eq (dims : SizeVector) (h : dims ≠ []) :
    Blob.product dims = dims.prod % 2 ^ 64 := by
  unfold Blob.product
  have he : dims.isEmpty = false := by
    cases dims with
    | nil => exact absurd rfl h
    | cons _ _ => rfl
  rw [he]
  simp only [Bool.false_eq_true, if_false]
  have h1 := product_foldl_mod dims 1
  rw [Nat.one_mul] at h1
  rw [← h1, Nat.mod_eq_of_lt (product_foldl_lt dims 1 (by norm_num))]

/-- C17: the constructor of a TBlob on pre-allocated memory ends in an error
exactly when the pointer is null and the element count `size()` is not zero;
a null pointer with element count zero is accepted. The element count is 0
for an empty vector of dimensions and otherwise the product of the dimensions
in `size_t` arithmetic. -/
theorem TBlob_onMemory_error_iff (tensorDesc : TensorDesc) (ptr : Option Nat)
    (data_sze : Nat) :
    ((∃ msg, TBlob.onMemory tensorDesc ptr data_sze = .error msg) ↔
      (ptr = none ∧ Blob.size tensorDesc ≠ 0)) ∧
    (Blob.size tensorDesc = 0 →
      TBlob.onMemory tensorDesc none data_sze =
        .ok { tensorDesc := tensorDesc, allocatorPtr := none, allocatorSize := 0 }) ∧
    (tensorDesc.dims = [] → Blob.size tensorDesc = 0) ∧
    (tensorDesc.dims ≠ [] → Blob.size tensorDesc = tensorDesc.dims.prod % 2 ^ 64) := by
  refine ⟨?_, ?_, ?_, ?_⟩
  · unfold TBlob.onMemory
    by_cases h : Blob.size tensorDesc ≠ 0 ∧ ptr = none
    · rw [if_pos h]
      exact ⟨fun _ => ⟨h.2, h.1⟩, fun _ => ⟨_, rfl⟩⟩
    · rw [if_neg h]
      constructor
      · rintro ⟨msg, hm⟩
        cases hm
      · intro h1
        exact absurd ⟨h1.2, h1.1⟩ h
  · intro h
    unfold TBlob.onMemory
    rw [h]
    simp
  · intro h
    unfold Blob.size Blob.product
    rw [h]
    rfl
  · intro h
    exact product_eq _ h

end InferenceEngine

namespace InferenceEngine

/-- C17, at concrete inputs: with dimensions (2, 3) the element count is 6 and a
null pointer is refused. -/
theorem TBlob_onMemory_error_iff_witness :
    Blob.size ⟨[2, 3]⟩ = 6 ∧
    ((∃ msg, TBlob.onMemory ⟨[2, 3]⟩ none 0 = .error msg) ↔
      ((none : Option Nat) = none ∧ Blob.size ⟨[2, 3]⟩ ≠ 0)) ∧
    (∃ msg, TBlob.onMemory ⟨[2, 3]⟩ none 0 = .error msg) :=
  ⟨by decide, (TBlob_onMemory_error_iff ⟨[2, 3]⟩ none 0).1,
    ((TBlob_onMemory_error_iff ⟨[2, 3]⟩ none 0).1).mpr ⟨rfl, by decide⟩⟩

end InferenceEngine

namespace VPU

/-- C16: for a layer that is not null, a first input and a first output whose
dimensions start with `x` and `y`, checkBatchFC throws exactly when `x` or `y`
differs from 1, and otherwise returns with the state as it was. -/
theorem checkBatchFC_throws_iff (s : GraphTransformerImpl) (layer : CNNLayer)
    (inputs outputs : List VpuDataHandle) (input output : VpuDataHandle) (d : VpuData)
    (x y : Nat) (rest : List Nat)
    (hin : inputs.get? 0 = some input) (hout : outputs.get? 0 = some output)
    (hd : s.datas.get? output = some d) (hdims : d.dims = x :: y :: rest) :
    ((∃ what, checkBatchFC s (some layer) inputs outputs = .error (.exception what)) ↔
      (x ≠ 1 ∨ y ≠ 1)) ∧
    (x = 1 ∧ y = 1 → checkBatchFC s (some layer) inputs outputs = .ok s) := by
  have hX : VpuDims.at d.dims .X = .ok x := by rw [hdims]; rfl
  have hY : VpuDims.at d.dims .Y = .ok y := by rw [hdims]; rfl
  have hdo : dimsOf s output = .ok d.dims := by
    unfold dimsOf
    rw [hd]
  by_cases h : x ≠ 1 ∨ y ≠ 1
  · have hc : checkBatchFC s (some layer) inputs outputs =
        .error (.exception ("[VPU] FC output " ++ layer.name ++ " has invalid batch")) := by
      simp only [checkBatchFC, hin, hout, hdo, hX, hY, if_pos h]
    rw [hc]
    refine ⟨⟨fun _ => h, fun _ => ⟨_, rfl⟩⟩, ?_⟩
    rintro ⟨h1, h2⟩
    rcases h with h | h
    · exact absurd h1 h
    · exact absurd h2 h
  · have hc : checkBatchFC s (some layer) inputs outputs = .ok s := by
      simp only [checkBatchFC, hin, hout, hdo, hX, hY, if_neg h]
    rw [hc]
    refine ⟨⟨?_, fun h1 => absurd h1 h⟩, fun _ => rfl⟩
    rintro ⟨what, hw⟩
    cases hw

/-- C16, at concrete inputs: an output of sizes (2, 1, 10) is refused. -/
theorem checkBatchFC_throws_iff_witness :
    fcBatchState.datas.get? 1 = some (tensor "out" [2, 1, 10]) ∧
    ((∃ what, checkBatchFC fcBatchState (some fcLayer) [0] [1] = .error (.exception what)) ↔
      ((2 : Nat) ≠ 1 ∨ (1 : Nat) ≠ 1)) ∧
    ((2 : Nat) = 1 ∧ (1 : Nat) = 1 →
      checkBatchFC fcBatchState (some fcLayer) [0] [1] = .ok fcBatchState) :=
  ⟨rfl, checkBatchFC_throws_iff fcBatchState fcLayer [0] [1] 0 1 (tensor "out" [2, 1, 10])
    2 1 [10] rfl rfl rfl rfl⟩

/-- C15: for a fully-connected layer with weights, one input whose dimensions
start with `X`, `Y`, `Z` and one output, parseFullyConnected succeeds and the
Data object it creates first, at the next free handle, is named after the
layer with the suffix `@weights`, has element type FP16, order XYZ, the
dimensions (`X * Y` in 32-bit arithmetic, `Z`, the total size of the output)
and the strides that calcStrides gives for these dimensions, type and order. -/
theorem parseFullyConnected_weights (hdr : Header) (s : GraphTransformerImpl)
    (name : String) (params : List (String × Float32)) (weights : Blob)
    (biases : Option Blob) (input output : VpuDataHandle) (din dout : VpuData)
    (X Y Z : Nat) (rest : List Nat)
    (hin : s.datas.get? input = some din) (hout : s.datas.get? output = some dout)
    (hdims : din.dims = X :: Y :: Z :: rest) :
    ∃ s1 w, parseFullyConnected hdr s
        (some ⟨name, params, .FullyConnectedLayer (some weights) biases⟩) [input] [output] =
          .ok s1 ∧
      s1.datas.get? s.datas.length = some w ∧
      w.name = name ++ "@weights" ∧ w.type = .FP16 ∧ w.order = .orderXYZ ∧
      w.dims = [(X * Y) % 2 ^ 32, Z, hdr.totalSize dout.dims] ∧
      w.strides = hdr.calcStrides w.dims w.type w.order ∧
      (X * Y < 2 ^ 32 → w.dims = [X * Y, Z, hdr.totalSize dout.dims]) := by
  have hX : VpuDims.at din.dims .X = .ok X := by rw [hdims]; rfl
  have hY : VpuDims.at din.dims .Y = .ok Y := by rw [hdims]; rfl
  have hZ : VpuDims.at din.dims .Z = .ok Z := by rw [hdims]; rfl
  have hdi : dimsOf s input = .ok din.dims := by
    unfold dimsOf
    rw [hin]
  have hdo : dimsOf s output = .ok dout.dims := by
    unfold dimsOf
    rw [hout]
  refine ⟨parseFullyConnected.stages hdr
      (addNewData hdr s (parseFullyConnected.weightsInit hdr
        ⟨name, params, .FullyConnectedLayer (some weights) biases⟩ weights
        [mulU32 X Y, Z, hdr.totalSize dout.dims])).2
      ⟨name, params, .FullyConnectedLayer (some weights) biases⟩ biases input output
      s.datas.length,
    parseFullyConnected.weightsInit hdr
      ⟨name, params, .FullyConnectedLayer (some weights) biases⟩ weights
      [mulU32 X Y, Z, hdr.totalSize dout.dims] hdr.blank, ?_, ?_, rfl, rfl, rfl, rfl, rfl, ?_⟩
  · simp only [parseFullyConnected, List.length_singleton, ne_eq, not_true_eq_false, if_false,
      List.get?_cons_zero, hdi, hX, hY, hZ, hdo]
    rfl
  · cases biases with
    | none =>
      simp [parseFullyConnected.stages, addNewStage, addNewData]
    | some b =>
      simp only [parseFullyConnected.stages, addNewStage, addNewData, List.get?_eq_getElem?]
      rw [List.getElem?_append_left (by simp), List.getElem?_append_right (Nat.le_refl _)]
      simp
  · intro h
    show [mulU32 X Y, Z, hdr.totalSize dout.dims] = _
    unfold mulU32
    rw [Nat.mod_eq_of_lt h]

/-- C15, at concrete inputs: an input of sizes (7, 7, 64) and an output of sizes
(1, 1, 10) give weights of sizes (49, 64, 10). -/
theorem parseFullyConnected_weights_witness :
    fcState.datas.get? 0 = some (tensor "in" [7, 7, 64]) ∧
    ∃ s1 w, parseFullyConnected sampleHeader fcState (some fcLayer) [0] [1] = .ok s1 ∧
      s1.datas.get? fcState.datas.length = some w ∧
      w.name = "fc" ++ "@weights" ∧ w.type = .FP16 ∧ w.order = .orderXYZ ∧
      w.dims = [(7 * 7) % 2 ^ 32, 64, sampleHeader.totalSize (tensor "out" [1, 1, 10]).dims] ∧
      w.strides = sampleHeader.calcStrides w.dims w.type w.order ∧
      (7 * 7 < 2 ^ 32 →
        w.dims = [7 * 7, 64, sampleHeader.totalSize (tensor "out" [1, 1, 10]).dims]) :=
  ⟨rfl, parseFullyConnected_weights sampleHeader fcState "fc" [] ⟨0, 31360⟩ none 0 1
    (tensor "in" [7, 7, 64]) (tensor "out" [1, 1, 10]) 7 7 64 [] rfl rfl rfl⟩

end VPU

namespace VPU

/-- C14: the ELU stage writes the 32 bits of its `alpha` as one 32-bit word, for
every `alpha`, writer, input and output; for `alpha` = 1.5 the stage built by
parseELU writes 0x3FC00000, while the half-precision pattern of 1.5 is 0x3E00.
The LRN stage built by parseNorm writes its `k`, `alpha` and `beta` of 1.5 as
the half-precision pattern 0x3E00. -/
theorem VpuEluStage_dumpToBlob_writes_single_precision :
    (∀ (alpha : Float32) (writer : BlobWriter) (i o : VpuDataHandle),
      VpuStage.dumpToBlob
          { handle := 0, cls := .VpuEluStage, name := "elu", type := .kElu, layer := none,
            params := .elu alpha, inputs := [i], outputs := [o], parentOp := none } writer =
        some (.ok (writer ++ [Item.u32 (alpha % 2 ^ 32), Item.data i, Item.data o]))) ∧
    f32tof16 0x3FC00000 = 0x3E00 ∧
    firstStageBlob (parseELU fcState (some eluLayer) [0] [1]) =
      some (.ok [Item.u32 0x3FC00000, Item.data 0, Item.data 1]) ∧
    firstStageBlob (parseNorm fcState (some lrnLayer) [0] [1]) =
      some (.ok [Item.u32 5, Item.f16 0x3E00, Item.f16 0x3E00, Item.f16 0x3E00, Item.f16 0,
        Item.data 0, Item.data 1]) := by
  refine ⟨?_, by decide, rfl, rfl⟩
  intro alpha writer i o
  simp [VpuStage.dumpToBlob, VpuEluStage.dumpToBlob, dumpHandleAt, BlobWriter.write32]

end VPU

namespace MKLDNNPlugin

/-- C19: for every graph and every node `a`, is_data_dependency(a, a) answers true:
the search compares the start node with the target before it follows any
edge. -/
theorem is_data_dependency_self (g : MKLDNNGraph) (a : NodeId) :
    is_data_dependency g a a = .ok true := by
  unfold is_data_dependency
  simp [is_data_dependency.loop]

end MKLDNNPlugin

namespace MKLDNNPlugin

lemma acyclic_of_rank {g : MKLDNNGraph} (r : NodeId → Nat)
    (h : ∀ u v, childRel g u v → r u < r v) : Acyclic g := by
  have key : ∀ u v, Relation.TransGen (childRel g) u v → r u < r v := by
    intro u v huv
    induction huv with
    | single h1 => exact h _ _ h1
    | tail _ h2 ih => exact Nat.lt_trans ih (h _ _ h2)
  intro n hn
  exact Nat.lt_irrefl _ (key n n hn)

lemma mkGraph_children_nil (nodes : List MKLDNNNode) (edges : List MKLDNNEdge)
    (outs : List NodeId) {u : NodeId} (hu : u ∉ (mkGraph nodes edges outs).graphNodes) :
    children (mkGraph nodes edges outs) u = [] := by
  have hlen : nodes.length ≤ u := by
    by_contra hlt
    exact hu (List.mem_range.mpr (Nat.lt_of_not_le hlt))
  unfold children
  have hnode : (mkGraph nodes edges outs).node u = nullNode := by
    show nodes.getD u nullNode = nullNode
    rw [List.getD_eq_getElem?_getD, List.getElem?_eq_none hlen]
    rfl
  rw [hnode]
  rfl

/-- A graph built by `mkGraph` whose child edges all lead to larger handles has no
cycle. -/
lemma acyclic_mkGraph (nodes : List MKLDNNNode) (edges : List MKLDNNEdge)
    (outs : List NodeId) (h : increasing (mkGraph nodes edges outs)) :
    Acyclic (mkGraph nodes edges outs) := by
  apply acyclic_of_rank id
  intro u v huv
  by_cases hu : u ∈ (mkGraph nodes edges outs).graphNodes
  · exact h u hu v huv
  · have : v ∈ children (mkGraph nodes edges outs) u := huv
    rw [mkGraph_children_nil nodes edges outs hu] at this
    cases this

lemma sumFuseGraph_acyclic : Acyclic sumFuseGraph :=
  acyclic_mkGraph _ _ _ (by decide)

/-- C19, refuted at a concrete input: `sumFuseGraph` has no cycle, and the search
from node 2 for node 2 answers true, not false. -/
theorem is_data_dependency_self_true_on_acyclic_graph :
    Acyclic sumFuseGraph ∧ is_data_dependency sumFuseGraph 2 2 = .ok true ∧
    is_data_dependency sumFuseGraph 2 2 ≠ .ok false :=
  ⟨sumFuseGraph_acyclic, rfl, fun h => by cases h⟩

end MKLDNNPlugin

namespace MKLDNNPlugin

lemma lock_withEdges (g : MKLDNNGraph) (l : List EdgeId) (e : EdgeId) (he : e ∈ l)
    (w : MKLDNNEdgeWeakPtr) :
    lock { g with graphEdges := l } w = some e ↔ w = some e := by
  unfold lock
  cases w with
  | none => simp
  | some e1 =>
    by_cases h : e1 = e
    · subst h
      simp [he]
    · by_cases h1 : e1 ∈ l
      · simp [h1, h]
      · simp [h1, h]

lemma slotOf_withEdges (g : MKLDNNGraph) (l1 l2 : List EdgeId) (e : EdgeId) (h1 : e ∈ l1)
    (h2 : e ∈ l2) :
    ∀ (ws : List MKLDNNEdgeWeakPtr) (k : Nat),
      slotOf { g with graphEdges := l1 } e ws k = slotOf { g with graphEdges := l2 } e ws k := by
  intro ws
  induction ws with
  | nil => intro k; rfl
  | cons w rest ih =>
    intro k
    unfold slotOf
    by_cases hw : w = some e
    · rw [if_pos ((lock_withEdges g l1 e h1 w).mpr hw),
        if_pos ((lock_withEdges g l2 e h2 w).mpr hw)]
    · rw [if_neg (fun h => hw ((lock_withEdges g l1 e h1 w).mp h)),
        if_neg (fun h => hw ((lock_withEdges g l2 e h2 w).mp h))]
      exact ih (k + 1)

/-- Whether an edge of the edge list is dropped does not depend on which other
edges the list holds. -/
lemma edgeIsDropped_withEdges (g : MKLDNNGraph) (l1 l2 : List EdgeId) (e : EdgeId)
    (h1 : e ∈ l1) (h2 : e ∈ l2) :
    edgeIsDropped { g with graphEdges := l1 } e = edgeIsDropped { g with graphEdges := l2 } e := by
  unfold edgeIsDropped getInputNum getOutputNum
  have hp : getParent { g with graphEdges := l1 } e = getParent { g with graphEdges := l2 } e :=
    rfl
  have hc : getChild { g with graphEdges := l1 } e = getChild { g with graphEdges := l2 } e :=
    rfl
  rw [hp, hc]
  cases getParent { g with graphEdges := l2 } e <;>
    cases getChild { g with graphEdges := l2 } e <;>
    simp only [] <;>
    first
      | rfl
      | (congr 2 <;> exact slotOf_withEdges g l1 l2 e h1 h2 _ _)

lemma mem_RemoveDroppedEdges_loop (g : MKLDNNGraph) :
    ∀ (rest done : List EdgeId) (x : EdgeId), x ∈ RemoveDroppedEdges.loop g done rest →
      x ∈ done ∨ (x ∈ rest ∧ ∀ l, x ∈ l → edgeIsDropped { g with graphEdges := l } x = false) := by
  intro rest
  induction rest with
  | nil =>
    intro done x h
    simp only [RemoveDroppedEdges.loop] at h
    exact Or.inl h
  | cons e rest ih =>
    intro done x h
    unfold RemoveDroppedEdges.loop at h
    by_cases hd : edgeIsDropped { g with graphEdges := done ++ e :: rest } e = true
    · rw [hd] at h
      simp only [if_true] at h
      rcases ih done x h with h1 | ⟨h1, h2⟩
      · exact Or.inl h1
      · exact Or.inr ⟨List.mem_cons_of_mem _ h1, h2⟩
    · have hd0 : edgeIsDropped { g with graphEdges := done ++ e :: rest } e = false := by
        simpa using hd
      rw [hd0] at h
      simp only [Bool.false_eq_true, if_false] at h
      rcases ih (done ++ [e]) x h with h1 | ⟨h1, h2⟩
      · rcases List.mem_append.mp h1 with h3 | h3
        · exact Or.inl h3
        · rw [List.mem_singleton] at h3
          subst h3
          refine Or.inr ⟨List.mem_cons_self _ _, fun l hl => ?_⟩
          rw [edgeIsDropped_withEdges g l (done ++ x :: rest) x hl (by simp)]
          exact hd0
      · exact Or.inr ⟨List.mem_cons_of_mem _ h1, h2⟩

/-- The node sweep leaves no dropped node in the node list. -/
lemma RemoveDropped_clean (g : MKLDNNGraph) :
    ∀ n ∈ (RemoveDropped g).graphNodes, nodeIsDropped (RemoveDropped g) n = false :=
  fun _ hn => (mem_RemoveDropped hn).2

/-- The edge sweep leaves no dropped edge in the edge list. -/
lemma RemoveDroppedEdges_clean (g : MKLDNNGraph) :
    ∀ e ∈ (RemoveDroppedEdges g).graphEdges, edgeIsDropped (RemoveDroppedEdges g) e = false := by
  intro e he
  rcases mem_RemoveDroppedEdges_loop g g.graphEdges [] e he with h | ⟨_, h⟩
  · cases h
  · exact h _ he

end MKLDNNPlugin

namespace MKLDNNPlugin

/-- C20, refuted at a concrete input: on `splitConcatGraph` the graph that
MergeGroupConvolution and the node sweep hand to the second pass still holds
the four detached edges of the merged branches in its edge list, all of them
dropped; the node list holds no dropped node. -/
theorem Optimize_keeps_dropped_edges_between_passes :
    (MergeGroupConvolution splitConcatGraph).map
        (fun g => ((RemoveDropped g).graphEdges, droppedEdges (RemoveDropped g),
          droppedNodes (RemoveDropped g))) =
      some ([2, 3, 5, 6, 8, 9], [2, 3, 5, 6], []) := by
  rfl

/-- C20, amended: the graph that each of the five passes hands on, after its node
sweep, holds no dropped node in its node list; the edge list is swept once,
after the last pass, and the graph that Optimize returns holds no dropped edge
in its edge list. -/
theorem Optimize_sweeps_nodes_after_each_pass (g g1 : MKLDNNGraph)
    (h : Optimize g = some g1) :
    ∃ p1 p2 p3 p4 p5,
      MergeGroupConvolution g = some p1 ∧
      FuseConvolutionAndActivation (RemoveDropped p1) = some p2 ∧
      FuseBatchNormWithScale (RemoveDropped p2) = some p3 ∧
      RemoveIdentityOperator (RemoveDropped p3) = some p4 ∧
      FuseConvolutionSumAndConvolutionSumActivation (RemoveDropped p4) = some p5 ∧
      g1 = RemoveDroppedEdges (RemoveDropped p5) ∧
      droppedNodes (RemoveDropped p1) = [] ∧ droppedNodes (RemoveDropped p2) = [] ∧
      droppedNodes (RemoveDropped p3) = [] ∧ droppedNodes (RemoveDropped p4) = [] ∧
      droppedNodes (RemoveDropped p5) = [] ∧ droppedEdges g1 = [] := by
  have hn : ∀ p, droppedNodes (RemoveDropped p) = [] := by
    intro p
    unfold droppedNodes
    rw [List.filter_eq_nil_iff]
    intro n hn
    rw [RemoveDropped_clean p n hn]
    simp
  have he : ∀ p, droppedEdges (RemoveDroppedEdges p) = [] := by
    intro p
    unfold droppedEdges
    rw [List.filter_eq_nil_iff]
    intro e hm
    rw [RemoveDroppedEdges_clean p e hm]
    simp
  unfold Optimize at h
  cases h1 : MergeGroupConvolution g with
  | none => rw [h1] at h; cases h
  | some p1 =>
    rw [h1] at h
    simp only [] at h
    cases h2 : FuseConvolutionAndActivation (RemoveDropped p1) with
    | none => rw [h2] at h; cases h
    | some p2 =>
      rw [h2] at h
      simp only [] at h
      cases h3 : FuseBatchNormWithScale (RemoveDropped p2) with
      | none => rw [h3] at h; cases h
      | some p3 =>
        rw [h3] at h
        simp only [] at h
        cases h4 : RemoveIdentityOperator (RemoveDropped p3) with
        | none => rw [h4] at h; cases h
        | some p4 =>
          rw [h4] at h
          simp only [] at h
          cases h5 : FuseConvolutionSumAndConvolutionSumActivation (RemoveDropped p4) with
          | none => rw [h5] at h; cases h
          | some p5 =>
            rw [h5] at h
            simp only [Option.some.injEq] at h
            refine ⟨p1, p2, p3, p4, p5, rfl, h2, h3, h4, h5, h.symm, hn _, hn _, hn _, hn _,
              hn _, ?_⟩
            rw [← h]
            exact he _

/-- C20, amended, at a concrete input: the run of Optimize on `splitConcatGraph`. -/
theorem Optimize_sweeps_nodes_after_each_pass_witness :
    Optimize splitConcatGraph = some ((Optimize splitConcatGraph).getD splitConcatGraph) ∧
    ∃ p1 p2 p3 p4 p5,
      MergeGroupConvolution splitConcatGraph = some p1 ∧
      FuseConvolutionAndActivation (RemoveDropped p1) = some p2 ∧
      FuseBatchNormWithScale (RemoveDropped p2) = some p3 ∧
      RemoveIdentityOperator (RemoveDropped p3) = some p4 ∧
      FuseConvolutionSumAndConvolutionSumActivation (RemoveDropped p4) = some p5 ∧
      (Optimize splitConcatGraph).getD splitConcatGraph =
        RemoveDroppedEdges (RemoveDropped p5) ∧
      droppedNodes (RemoveDropped p1) = [] ∧ droppedNodes (RemoveDropped p2) = [] ∧
      droppedNodes (RemoveDropped p3) = [] ∧ droppedNodes (RemoveDropped p4) = [] ∧
      droppedNodes (RemoveDropped p5) = [] ∧
      droppedEdges ((Optimize splitConcatGraph).getD splitConcatGraph) = [] :=
  ⟨rfl, Optimize_sweeps_nodes_after_each_pass splitConcatGraph
    ((Optimize splitConcatGraph).getD splitConcatGraph) rfl⟩

end MKLDNNPlugin

namespace MKLDNNPlugin

/-- C18: in `portsGraph` the parent edge of `n` has input number 1 and the child
edges of `n` have output number 0. DropNode(n) attaches the new edge to `c1`
(handle 5) at input number 1, not 1 + 1, and by that detaches the edge to `c0`
(handle 4) it had attached just before, so that `c0` is left without producer.
When the parent edge has input number 0 (`portsGraphZero`) the new edges get
the input numbers 0 and 1 and the output number 0. -/
theorem DropNode_second_child_reuses_first_port :
    (getInputNum portsGraph 1, getOutputNum portsGraph 2, getOutputNum portsGraph 3) =
      (1, 0, 0) ∧
    (DropNode portsGraph 2).map (fun g => (ports g, parents g 3, parents g 4)) =
      some ([(0, (0, 1), 0, 0), (4, (0, 3), -1, -1), (5, (0, 4), 1, 0)], [], [0]) ∧
    (DropNode portsGraphZero 1).map (fun g => (ports g, parents g 2, parents g 3)) =
      some ([(3, (0, 2), 0, 0), (4, (0, 3), 1, 0)], [0], [0]) := by
  refine ⟨rfl, rfl, rfl⟩

end MKLDNNPlugin

namespace MKLDNNPlugin

/-- C11: in `bnScaleLastGraph` the ScaleShift node (2) is the sole child of the
batch normalization (1), which is no graph output, and has no child edge of
its own. FuseBatchNormWithScale records it as fused, but after the sweep the
node list, the kinds and the edge from the batch normalization are as before:
the ScaleShift node is not dropped. With a consumer behind the ScaleShift node
(`bnScaleGraph`) it is fused and dropped, and the batch normalization feeds
its former consumer. -/
theorem FuseBatchNormWithScale_keeps_last_scaleshift :
    (FuseBatchNormWithScale bnScaleLastGraph).map
        (fun g => ((g.node 1).fusedWith, (RemoveDropped g).graphNodes,
          kinds (RemoveDropped g), endpoints g, children g 1)) =
      some ([2], [0, 1, 2], [.Input, .BatchNormalization, .ScaleShift], [(0, 1), (1, 2)],
        [2]) ∧
    (FuseBatchNormWithScale bnScaleGraph).map
        (fun g => ((g.node 1).fusedWith, (RemoveDropped g).graphNodes,
          kinds (RemoveDropped g), endpoints g, children g 1)) =
      some ([2], [0, 1, 3], [.Input, .BatchNormalization, .Output], [(0, 1), (1, 3)], [3]) :=
  ⟨rfl, rfl⟩

end MKLDNNPlugin

namespace MKLDNNPlugin

lemma filterMap_getElem?_of_isSome {α β : Type} (f : α → Option β) :
    ∀ (l : List α), (∀ w ∈ l, (f w).isSome = true) →
      ∀ (i : Nat), (l.filterMap f)[i]? = (l[i]?).bind f := by
  intro l
  induction l with
  | nil => intro _ i; simp
  | cons a l ih =>
    intro h i
    have ha := h a (List.mem_cons_self _ _)
    cases hf : f a with
    | none => rw [hf] at ha; cases ha
    | some b =>
      rw [List.filterMap_cons_some hf]
      cases i with
      | zero => simp [hf]
      | succ i =>
        simp only [List.getElem?_cons_succ]
        exact ih (fun w hw => h w (List.mem_cons_of_mem _ hw)) i

lemma lock_isSome_of_live {g : MKLDNNGraph} (hcl : childRefsLive g = true) {n : NodeId}
    (hn : n ∈ g.graphNodes) : ∀ w ∈ (g.node n).childEdges, (lock g w).isSome = true := by
  intro w hw
  obtain ⟨e, c, _, _, hl, _⟩ := childRef_live hcl hn hw
  rw [hl]
  rfl

lemma liveChildEdges_length {g : MKLDNNGraph} (hcl : childRefsLive g = true) {n : NodeId}
    (hn : n ∈ g.graphNodes) :
    (liveChildEdges g n).length = (g.node n).childEdges.length :=
  filterMap_length_of_isSome _ _ (lock_isSome_of_live hcl hn)

lemma getChildEdgeAt_eq {g : MKLDNNGraph} (hcl : childRefsLive g = true) {n : NodeId}
    (hn : n ∈ g.graphNodes) (i : Nat) :
    getChildEdgeAt g n i = (liveChildEdges g n)[i]? := by
  unfold getChildEdgeAt liveChildEdges
  rw [filterMap_getElem?_of_isSome _ _ (lock_isSome_of_live hcl hn), List.get?_eq_getElem?]
  cases (g.node n).childEdges[i]? <;> rfl

lemma children_eq_filterMap (g : MKLDNNGraph) (n : NodeId) :
    children g n = (liveChildEdges g n).filterMap (getChild g) := by
  unfold children liveChildEdges
  rw [List.filterMap_filterMap]

/-- The single child edge of a node with one child reference. -/
lemma single_child {g : MKLDNNGraph} (hcl : childRefsLive g = true) {n : NodeId}
    (hn : n ∈ g.graphNodes) (hlen : (g.node n).childEdges.length = 1) :
    ∃ e c, getChildEdgeAt g n 0 = some e ∧ getChild g e = some c ∧ children g n = [c] ∧
      liveChildEdges g n = [e] := by
  obtain ⟨w, hw⟩ := List.length_eq_one.mp hlen
  obtain ⟨e, c, _, _, hl, hgc⟩ := childRef_live hcl hn (w := w) (by rw [hw]; simp)
  refine ⟨e, c, ?_, hgc, ?_, ?_⟩
  · unfold getChildEdgeAt
    rw [hw]
    exact hl
  · unfold children
    rw [hw]
    simp [hl, hgc]
  · unfold liveChildEdges
    rw [hw]
    simp [hl]

lemma not_single_child {g : MKLDNNGraph} (hcl : childRefsLive g = true) {n : NodeId}
    (hn : n ∈ g.graphNodes) (hlen : (g.node n).childEdges.length ≠ 1) (c : NodeId) :
    children g n ≠ [c] := by
  intro h
  apply hlen
  rw [← children_length hcl hn, h]
  rfl

/-- A node that is not what FuseBatchNormWithScale looks for is skipped. -/
lemma FuseBatchNormWithScale_skip {g : MKLDNNGraph} (hcl : childRefsLive g = true)
    {n : NodeId} (hn : n ∈ g.graphNodes) (h : ¬ BatchNormCandidate g n) :
    FuseBatchNormWithScale.step g n = some g := by
  unfold FuseBatchNormWithScale.step
  by_cases ht : (g.node n).type = .BatchNormalization
  · by_cases ho : isGraphOutput g n = true
    · have ho1 : (g.outputNodes.any fun x => decide ((g.node x).name = (g.node n).name)) =
          true := ho
      simp [ht, ho1]
    · have ho1 : (g.outputNodes.any fun x => decide ((g.node x).name = (g.node n).name)) =
          false := by
        simpa [isGraphOutput] using ho
      by_cases hl : (g.node n).childEdges.length = 1
      · obtain ⟨e, c, h1, h2, h3, _⟩ := single_child hcl hn hl
        by_cases hs : (g.node c).type = .ScaleShift
        · exact absurd ⟨ht, by simpa using ho, c, h3, hs⟩ h
        · simp [ht, ho1, hl, h1, h2, hs]
      · simp [ht, ho1, hl]
  · simp [ht]

end MKLDNNPlugin

namespace MKLDNNPlugin

lemma castsSucceed_pooling {g : MKLDNNGraph} (hc : castsSucceed g = true) {n : NodeId}
    (hn : n ∈ g.graphNodes) (ht : (g.node n).type = .Pooling) :
    ∃ t pt, (g.node n).cnnLayer = some (.PoolingLayer t pt) := by
  unfold castsSucceed at hc
  rw [List.all_eq_true] at hc
  have h := hc n hn
  rw [ht] at h
  cases hl : (g.node n).cnnLayer with
  | none => rw [hl] at h; simp at h
  | some l =>
    cases l with
    | PoolingLayer t pt => exact ⟨t, pt, rfl⟩
    | Base _ => rw [hl] at h; simp at h
    | PowerLayer _ _ _ _ => rw [hl] at h; simp at h
    | ScaleShiftLayer _ _ _ => rw [hl] at h; simp at h
    | WithParams _ _ => rw [hl] at h; simp at h

lemma castsSucceed_eltwise {g : MKLDNNGraph} (hc : castsSucceed g = true) {n : NodeId}
    (hn : n ∈ g.graphNodes) (ht : (g.node n).type = .Eltwise) :
    ∃ v, (g.node n).eltwise = some v := by
  unfold castsSucceed at hc
  rw [List.all_eq_true] at hc
  have h := hc n hn
  rw [ht] at h
  cases hl : (g.node n).eltwise with
  | none => rw [hl] at h; simp at h
  | some v => exact ⟨v, rfl⟩

/-- A node that does not match the pattern of FuseConvolutionAndActivation is
skipped. -/
lemma FuseConvolutionAndActivation_skip {g : MKLDNNGraph} (hcl : childRefsLive g = true)
    (hc : castsSucceed g = true) {n : NodeId} (hn : n ∈ g.graphNodes)
    (h : ¬ ConvActivationCandidate g n) : FuseConvolutionAndActivation.step g n = some g := by
  unfold FuseConvolutionAndActivation.step
  by_cases ht : (g.node n).type = .Convolution
  · by_cases hl : (g.node n).childEdges.length = 1
    · obtain ⟨e1, ch1, h1, h2, h3, _⟩ := single_child hcl hn hl
      have hch1 : ch1 ∈ g.graphNodes := getChild_mem h2
      by_cases hs : isFusingSupported g ch1 = true
      · exact absurd ⟨ht, ch1, h3, Or.inl hs⟩ h
      · by_cases hp : (g.node ch1).type = .Pooling
        · obtain ⟨t, pt, hlay⟩ := castsSucceed_pooling hc hch1 hp
          by_cases hmax : pt = .MAX ∧ (g.node ch1).childEdges.length = 1
          · obtain ⟨e2, ch2, k1, k2, k3, _⟩ := single_child hcl hch1 hmax.2
            by_cases hs2 : isFusingSupported g ch2 = true
            · have hmp : isMaxPooling g ch1 = true := by
                unfold isMaxPooling
                rw [hlay, hmax.1]
              exact absurd ⟨ht, ch1, h3, Or.inr ⟨hp, hmp, ch2, k3, hs2⟩⟩ h
            · simp [ht, hl, h1, h2, hs, hp, hlay, hmax.1, hmax.2, k1, k2, hs2]
          · simp only [ht, hl, h1, h2, hs, hp, hlay, ne_eq, not_true_eq_false, if_false,
              Bool.false_eq_true, hmax]
        · simp [ht, hl, h1, h2, hs, hp]
    · simp [ht, hl]
  · simp [ht]

end MKLDNNPlugin

namespace MKLDNNPlugin

lemma checkParents_true_imp (g : MKLDNNGraph) (mc peer : NodeId) :
    ∀ (idxs : List Nat) (fa : Bool),
      FuseConvolutionSum.checkParents g mc peer idxs fa = some true →
      fa = true ∧ ∀ j ∈ idxs, ∀ e, getParentEdgeAt g mc j = some e →
        getParent g e ≠ some peer := by
  intro idxs
  induction idxs with
  | nil =>
    intro fa h
    simp only [FuseConvolutionSum.checkParents, Option.some.injEq] at h
    exact ⟨h, fun j hj => by cases hj⟩
  | cons j rest ih =>
    intro fa h
    cases fa with
    | false =>
      rw [checkParents_false] at h
      cases h
    | true =>
      refine ⟨rfl, ?_⟩
      simp only [FuseConvolutionSum.checkParents, Bool.not_true, Bool.false_eq_true,
        if_false] at h
      cases he : getParentEdgeAt g mc j with
      | none => rw [he] at h; cases h
      | some e =>
        rw [he] at h
        simp only [] at h
        by_cases hp : getParent g e = some peer
        · rw [if_pos hp, checkParents_false] at h
          cases h
        · rw [if_neg hp] at h
          intro j1 hj1 e1 he1
          rcases List.mem_cons.mp hj1 with h1 | h1
          · subst h1
            rw [he] at he1
            cases he1
            exact hp
          · exact (ih true h).2 j1 h1 e1 he1

lemma checkConsumers_true_imp (g : MKLDNNGraph) (sum : NodeId) :
    ∀ (ws : List MKLDNNEdgeWeakPtr) (fa : Bool),
      FuseConvolutionSum.checkConsumers g sum ws fa = some true →
      fa = true ∧ ∀ w ∈ ws, ∀ e c, lock g w = some e → getChild g e = some c →
        is_data_dependency g c sum = .ok true := by
  intro ws
  induction ws with
  | nil =>
    intro fa h
    simp only [FuseConvolutionSum.checkConsumers, Option.some.injEq] at h
    exact ⟨h, fun w hw => by cases hw⟩
  | cons w rest ih =>
    intro fa h
    cases fa with
    | false =>
      rw [checkConsumers_false] at h
      cases h
    | true =>
      refine ⟨rfl, ?_⟩
      simp only [FuseConvolutionSum.checkConsumers, Bool.not_true, Bool.false_eq_true,
        if_false] at h
      cases hl : lock g w with
      | none => rw [hl] at h; cases h
      | some e =>
        rw [hl] at h
        simp only [] at h
        cases hc : getChild g e with
        | none => rw [hc] at h; cases h
        | some c =>
          rw [hc] at h
          simp only [] at h
          cases hd : is_data_dependency g c sum with
          | error x => rw [hd] at h; cases h
          | ok b =>
            rw [hd] at h
            simp only [Bool.true_and] at h
            have hb := (ih b h).1
            intro w1 hw1 e1 c1 hl1 hc1
            rcases List.mem_cons.mp hw1 with h1 | h1
            · subst h1
              rw [hl] at hl1
              cases hl1
              rw [hc] at hc1
              cases hc1
              rw [hd, hb]
            · exact (ih b h).2 w1 h1 e1 c1 hl1 hc1

lemma checkConsumers_returns (g : MKLDNNGraph) (hcl : childRefsLive g = true) (sum : NodeId) :
    ∀ (ws : List MKLDNNEdgeWeakPtr),
      (∀ w ∈ ws, ((lock g w).bind (getChild g)).isSome = true) →
      ∀ fa, ∃ r, FuseConvolutionSum.checkConsumers g sum ws fa = some r := by
  intro ws
  induction ws with
  | nil => intro _ fa; exact ⟨fa, rfl⟩
  | cons w rest ih =>
    intro hws fa
    cases fa with
    | false => exact ⟨false, checkConsumers_false g sum _⟩
    | true =>
      have hw := hws w (List.mem_cons_self _ _)
      cases hl : lock g w with
      | none => rw [hl] at hw; cases hw
      | some e =>
        rw [hl] at hw
        cases hc : getChild g e with
        | none => simp [hc] at hw
        | some c =>
          rcases is_data_dependency_spec g hcl c sum (getChild_mem hc) with ⟨h1, _⟩ | ⟨h1, _⟩
          · simp only [FuseConvolutionSum.checkConsumers, hl, hc, h1, Bool.not_true,
              Bool.false_eq_true, if_false]
            exact ih (fun w1 h => hws w1 (List.mem_cons_of_mem _ h)) _
          · simp only [FuseConvolutionSum.checkConsumers, hl, hc, h1, Bool.not_true,
              Bool.false_eq_true, if_false]
            exact ih (fun w1 h => hws w1 (List.mem_cons_of_mem _ h)) _

/-- The value of `fuse_allowed` is computed, and when it is true the tests of
lines 287 to 300 hold in the words of the pattern. -/
lemma fuseAllowed_spec {g : MKLDNNGraph} {sum mc peer : NodeId}
    (hcl : childRefsLive g = true) (hpl : parentRefsLive g = true)
    (hmc : mc ∈ g.graphNodes) (hpeer : peer ∈ g.graphNodes) :
    ∃ b, FuseConvolutionSum.fuseAllowed g sum mc peer = some b ∧
      (b = true → (∃ c, children g mc = [c]) ∧ peer ∉ parents g mc ∧
        ∀ d ∈ children g peer, Reachable g d sum) := by
  unfold FuseConvolutionSum.fuseAllowed
  obtain ⟨r1, hr1⟩ := checkParents_returns g hpl mc peer hmc
    (List.range (g.node mc).parentEdges.length) (fun j hj => List.mem_range.mp hj)
    (decide ((g.node mc).childEdges.length = 1))
  rw [hr1]
  simp only []
  obtain ⟨r2, hr2⟩ := checkConsumers_returns g hcl sum (g.node peer).childEdges
    (childRefsLive_node hcl hpeer) r1
  refine ⟨r2, hr2, ?_⟩
  intro hb
  subst hb
  obtain ⟨hr1t, hcons⟩ := checkConsumers_true_imp g sum _ _ hr2
  subst hr1t
  obtain ⟨hone, hpar⟩ := checkParents_true_imp g mc peer _ _ hr1
  have hone1 : (g.node mc).childEdges.length = 1 := by simpa using hone
  obtain ⟨e, c, _, _, hch, _⟩ := single_child hcl hmc hone1
  refine ⟨⟨c, hch⟩, ?_, ?_⟩
  · intro hmem
    unfold parents at hmem
    rw [List.mem_filterMap] at hmem
    obtain ⟨w, hw, hwp⟩ := hmem
    obtain ⟨j, hj⟩ := List.mem_iff_getElem?.mp hw
    cases hl : lock g w with
    | none => rw [hl] at hwp; cases hwp
    | some e1 =>
      rw [hl] at hwp
      have hjl : j < (g.node mc).parentEdges.length := by
        by_contra hnl
        rw [List.getElem?_eq_none (Nat.le_of_not_lt hnl)] at hj
        cases hj
      have hge : getParentEdgeAt g mc j = some e1 := by
        unfold getParentEdgeAt
        rw [List.get?_eq_getElem?, hj]
        exact hl
      exact hpar j (List.mem_range.mpr hjl) e1 hge hwp
  · intro d hd
    obtain ⟨i, e1, hi, he1, hgc⟩ := mem_children_iff.mp hd
    have hdd := hcons (some e1) (List.mem_iff_getElem?.mpr ⟨i, hi⟩) e1 d
      (lock_some_of_mem he1) hgc
    rcases is_data_dependency_spec g hcl d sum (getChild_mem hgc) with ⟨_, h2⟩ | ⟨h1, _⟩
    · exact h2
    · rw [h1] at hdd
      cases hdd

end MKLDNNPlugin

namespace MKLDNNPlugin

/-- The two producers of a node with two parent references. -/
lemma two_parents {g : MKLDNNGraph} (hc : Consistent g) (hpl : parentRefsLive g = true)
    {n : NodeId} (hn : n ∈ g.graphNodes) (hlen : (g.node n).parentEdges.length = 2) :
    ∃ e0 p0 e1 p1, getParentEdgeAt g n 0 = some e0 ∧ getParent g e0 = some p0 ∧
      getParentEdgeAt g n 1 = some e1 ∧ getParent g e1 = some p1 ∧ parents g n = [p0, p1] := by
  obtain ⟨w0, w1, hw⟩ := List.length_eq_two.mp hlen
  obtain ⟨e0, p0, _, _, hl0, hp0⟩ := parentRef_live hc hpl hn (w := w0) (by rw [hw]; simp)
  obtain ⟨e1, p1, _, _, hl1, hp1⟩ := parentRef_live hc hpl hn (w := w1) (by rw [hw]; simp)
  refine ⟨e0, p0, e1, p1, ?_, hp0, ?_, hp1, ?_⟩
  · unfold getParentEdgeAt
    rw [hw]
    exact hl0
  · unfold getParentEdgeAt
    rw [hw]
    exact hl1
  · unfold parents
    rw [hw]
    simp [hl0, hl1, hp0, hp1]

/-- The tests of lines 267 to 283 either skip the node or name the convolution
and the peer that the pattern names. -/
lemma candidate_cases {g : MKLDNNGraph} (hc : Consistent g) (hpl : parentRefsLive g = true)
    (hcast : castsSucceed g = true) {n : NodeId} (hn : n ∈ g.graphNodes) :
    FuseConvolutionSum.candidate g n = some none ∨
    ∃ conv peer, FuseConvolutionSum.candidate g n = some (some (conv, peer)) ∧
      (g.node n).type = .Eltwise ∧ (g.node n).eltwise = some (true, true) ∧
      (parents g n = [conv, peer] ∨
        (parents g n = [peer, conv] ∧ (g.node peer).type ≠ .Convolution)) ∧
      (g.node conv).type = .Convolution := by
  unfold FuseConvolutionSum.candidate
  by_cases ht : (g.node n).type = .Eltwise
  · obtain ⟨⟨isSum, isUnit⟩, hv⟩ := castsSucceed_eltwise hcast hn ht
    cases isSum with
    | false => exact Or.inl (by simp [ht, hv])
    | true =>
      cases isUnit with
      | false => exact Or.inl (by simp [ht, hv])
      | true =>
        by_cases hl : (g.node n).parentEdges.length = 2
        · obtain ⟨e0, p0, e1, p1, h0, hp0, h1, hp1, hpar⟩ := two_parents hc hpl hn hl
          by_cases hc0 : (g.node p0).type = .Convolution
          · refine Or.inr ⟨p0, p1, ?_, ht, hv, Or.inl hpar, hc0⟩
            simp [ht, hv, hl, h0, hp0, h1, hp1, hc0]
          · by_cases hc1 : (g.node p1).type = .Convolution
            · refine Or.inr ⟨p1, p0, ?_, ht, hv, Or.inr ⟨hpar, hc0⟩, hc1⟩
              simp [ht, hv, hl, h0, hp0, h1, hp1, hc0, hc1]
            · exact Or.inl (by simp [ht, hv, hl, h0, hp0, h1, hp1, hc0, hc1])
        · exact Or.inl (by simp [ht, hv, hl])
  · exact Or.inl (by simp [ht])

/-- A node that is not what the sum fusion looks for is skipped. -/
lemma FuseConvolutionSum_skip {g : MKLDNNGraph} (hc : Consistent g)
    (hcl : childRefsLive g = true) (hpl : parentRefsLive g = true)
    (hcast : castsSucceed g = true) {n : NodeId} (hn : n ∈ g.graphNodes)
    (h : ¬ ConvSumCandidate g n) : FuseConvolutionSum.step g n = some g := by
  unfold FuseConvolutionSum.step
  rcases candidate_cases hc hpl hcast hn with h0 | ⟨conv, peer, h0, ht, hv, hpar, hct⟩
  · rw [h0]
  · rw [h0]
    simp only []
    obtain ⟨hcm, hpm⟩ := candidate_mem h0
    obtain ⟨b, hb, hspec⟩ := @fuseAllowed_spec g n conv peer hcl hpl hcm hpm
    rw [hb]
    cases b with
    | false => rfl
    | true =>
      obtain ⟨h1, h2, h3⟩ := hspec rfl
      exact absurd ⟨ht, hv, conv, peer, hpar, hct, h1, h2, h3⟩ h

end MKLDNNPlugin

namespace MKLDNNPlugin

lemma liveChildEdges_spec {g : MKLDNNGraph} (hcl : childRefsLive g = true) {n : NodeId}
    (hn : n ∈ g.graphNodes) {i : Nat} {e : EdgeId} (h : (liveChildEdges g n)[i]? = some e) :
    ∃ c, getChild g e = some c ∧ c ∈ children g n := by
  rw [← getChildEdgeAt_eq hcl hn] at h
  unfold getChildEdgeAt at h
  rw [List.get?_eq_getElem?] at h
  cases hw : (g.node n).childEdges[i]? with
  | none => rw [hw] at h; cases h
  | some w =>
    rw [hw] at h
    simp only [] at h
    obtain ⟨e1, c, hwe, heG, hl, hgc⟩ := childRef_live hcl hn (List.mem_iff_getElem?.mpr ⟨i, hw⟩)
    rw [hl] at h
    cases h
    rw [hwe] at hw
    exact ⟨c, hgc, mem_children_of_slot hw heG hgc⟩

lemma first_child {g : MKLDNNGraph} (hcl : childRefsLive g = true) {n : NodeId}
    (hn : n ∈ g.graphNodes) (hne : (g.node n).childEdges ≠ []) :
    ∃ e c, getChildEdgeAt g n 0 = some e ∧ (liveChildEdges g n).head? = some e ∧
      getChild g e = some c := by
  have hlen : 0 < (liveChildEdges g n).length := by
    rw [liveChildEdges_length hcl hn]
    exact List.length_pos.mpr hne
  have h0 : (liveChildEdges g n)[0]? = some ((liveChildEdges g n)[0]) :=
    List.getElem?_eq_getElem hlen
  obtain ⟨c, hc, _⟩ := liveChildEdges_spec hcl hn h0
  refine ⟨_, c, ?_, ?_, hc⟩
  · rw [getChildEdgeAt_eq hcl hn, h0]
  · rw [List.head?_eq_getElem?, h0]

/-- The loop of lines 85 to 96 ends with an answer, and the answer is true only
when every branch it looked at passes the branch test. -/
lemma canBeMerged_spec {g : MKLDNNGraph} (hcl : childRefsLive g = true) {split : NodeId}
    (hs : split ∈ g.graphNodes)
    (hkids : ∀ c ∈ children g split, (g.node c).childEdges ≠ [])
    (convType : NodeType) (inD outD : List Nat) :
    ∀ (idxs : List Nat), (∀ i ∈ idxs, i < (g.node split).childEdges.length) →
      ∃ b, MergeGroupConvolution.canBeMerged g split convType inD outD idxs = some b ∧
        (b = true → ∀ i ∈ idxs, ∃ e, (liveChildEdges g split)[i]? = some e ∧
          MergeBranch g convType inD outD e) := by
  intro idxs
  induction idxs with
  | nil => intro _; exact ⟨true, rfl, fun _ i hi => by cases hi⟩
  | cons i rest ih =>
    intro hlt
    have hi := hlt i (List.mem_cons_self _ _)
    have hil : i < (liveChildEdges g split).length := by
      rw [liveChildEdges_length hcl hs]
      exact hi
    obtain ⟨childEdge, hget⟩ : ∃ e, (liveChildEdges g split)[i]? = some e :=
      ⟨_, List.getElem?_eq_getElem hil⟩
    obtain ⟨child, hgc, hmem⟩ := liveChildEdges_spec hcl hs hget
    have hcn : child ∈ g.graphNodes := getChild_mem hgc
    obtain ⟨ce, cc, hce, hhead, hcc⟩ := first_child hcl hcn (hkids child hmem)
    have hge : getChildEdgeAt g split i = some childEdge := by
      rw [getChildEdgeAt_eq hcl hs, hget]
    unfold MergeGroupConvolution.canBeMerged
    rw [hge]
    simp only [hgc, hce, hcc]
    by_cases h1 : convType ≠ (g.node child).type
    · exact ⟨false, by rw [if_pos h1], fun h => by cases h⟩
    · rw [if_neg h1]
      by_cases h2 : (g.node cc).type ≠ .Concatenation
      · exact ⟨false, by rw [if_pos h2], fun h => by cases h⟩
      · rw [if_neg h2]
        by_cases h3 : outD ≠ getDims g ce
        · exact ⟨false, by rw [if_pos h3], fun h => by cases h⟩
        · rw [if_neg h3]
          by_cases h4 : (g.node child).childEdges.length ≠ 1
          · exact ⟨false, by rw [if_pos h4], fun h => by cases h⟩
          · rw [if_neg h4]
            by_cases h5 : inD ≠ getDims g childEdge
            · exact ⟨false, by rw [if_pos h5], fun h => by cases h⟩
            · rw [if_neg h5]
              obtain ⟨b, hb, hspec⟩ := ih (fun j hj => hlt j (List.mem_cons_of_mem _ hj))
              refine ⟨b, hb, fun hbt j hj => ?_⟩
              rcases List.mem_cons.mp hj with hj1 | hj1
              · subst hj1
                obtain ⟨e1, c1, k1, _, _, k4⟩ :=
                  single_child hcl hcn (by simpa using h4)
                rw [hce] at k1
                cases k1
                exact ⟨childEdge, hget, child, ce, cc, hgc, (by simpa using h1 : _ = _).symm,
                  k4, hcc, by simpa using h2, (by simpa using h3 : _ = _).symm,
                  (by simpa using h5 : _ = _).symm⟩
              · exact hspec hbt j hj1

end MKLDNNPlugin

namespace MKLDNNPlugin

/-- A node that is not what MergeGroupConvolution looks for is skipped, when every
branch of the Split has a child edge. -/
lemma MergeGroupConvolution_skip {g : MKLDNNGraph} (hcl : childRefsLive g = true)
    {n : NodeId} (hn : n ∈ g.graphNodes)
    (hkids : ∀ c ∈ children g n, (g.node c).childEdges ≠ [])
    (h : ¬ MergeCandidate g n) : MergeGroupConvolution.step g n = some g := by
  unfold MergeGroupConvolution.step
  by_cases ht : (g.node n).type = .Split
  · have hone : IsOneOf (g.node n).type [.Split] = true := by
      rw [ht]
      rfl
    rw [hone]
    simp only [Bool.not_true, Bool.false_eq_true, if_false]
    by_cases hl : (g.node n).childEdges.length < 2
    · rw [if_pos hl]
    · rw [if_neg hl]
      have hne : (g.node n).childEdges ≠ [] := by
        intro h0
        rw [h0] at hl
        exact hl (by simp)
      obtain ⟨convInEdge, conv, h1, hhead, h2⟩ := first_child hcl hn hne
      have hconv : conv ∈ children g n := by
        rw [List.head?_eq_getElem?] at hhead
        obtain ⟨c, hc1, hc2⟩ := liveChildEdges_spec hcl hn hhead
        rw [h2] at hc1
        cases hc1
        exact hc2
      rw [h1]
      simp only [h2]
      by_cases hk : IsOneOf (g.node conv).type [.Convolution, .Convolution_Activation] = true
      · rw [hk]
        simp only [Bool.not_true, Bool.false_eq_true, if_false]
        obtain ⟨convOutEdge, cc, k1, khead, k2⟩ :=
          first_child hcl (getChild_mem h2) (hkids conv hconv)
        rw [k1]
        simp only []
        obtain ⟨b, hb, hspec⟩ := canBeMerged_spec hcl hn hkids (g.node conv).type
          (getDims g convInEdge) (getDims g convOutEdge)
          (List.range' 1 ((g.node n).childEdges.length - 1)) (by
            intro i hi
            rw [List.mem_range'_1] at hi
            omega)
        rw [hb]
        cases b with
        | false => rfl
        | true =>
          exfalso
          apply h
          have hkind : (g.node conv).type = .Convolution ∨
              (g.node conv).type = .Convolution_Activation := by
            unfold IsOneOf at hk
            by_cases hc1 : (g.node conv).type = .Convolution
            · exact Or.inl hc1
            · rw [if_neg hc1] at hk
              unfold IsOneOf at hk
              by_cases hc2 : (g.node conv).type = .Convolution_Activation
              · exact Or.inr hc2
              · rw [if_neg hc2] at hk
                unfold IsOneOf at hk
                cases hk
          have hlen := liveChildEdges_length hcl hn
          cases hL : liveChildEdges g n with
          | nil =>
            rw [hL] at hhead
            cases hhead
          | cons e0 rest =>
            rw [hL] at hhead hlen
            simp only [List.head?_cons, Option.some.injEq] at hhead
            subst hhead
            refine ⟨ht, e0, rest, conv, convOutEdge, hL, ?_, h2, hkind, khead, ?_⟩
            · intro hr
              rw [hr] at hlen
              simp only [List.length_singleton] at hlen
              omega
            · intro e he
              obtain ⟨k, hk1⟩ := List.mem_iff_getElem?.mp he
              have hk2 : k < rest.length := by
                by_contra hnl
                rw [List.getElem?_eq_none (Nat.le_of_not_lt hnl)] at hk1
                cases hk1
              simp only [List.length_cons] at hlen
              obtain ⟨e1, hget, hbr⟩ := hspec rfl (k + 1) (by
                rw [List.mem_range'_1]
                omega)
              rw [hL, List.getElem?_cons_succ, hk1] at hget
              cases hget
              exact hbr
      · have hk0 : IsOneOf (g.node conv).type [.Convolution, .Convolution_Activation] =
            false := by simpa using hk
        rw [hk0]
        rfl
  · have hone : IsOneOf (g.node n).type [.Split] = false := by
      unfold IsOneOf
      rw [if_neg ht]
      rfl
    rw [hone]
    rfl

end MKLDNNPlugin

namespace MKLDNNPlugin

/-! Acyclicity through the passes -/

lemma transGen_of_shortcut {G g : MKLDNNGraph} (h : Shortcut G g) {u v : NodeId}
    (huv : Relation.TransGen (childRel g) u v) : Relation.TransGen (childRel G) u v := by
  induction huv with
  | single h1 => exact h _ _ h1
  | tail _ h2 ih => exact Relation.TransGen.trans ih (h _ _ h2)

lemma acyclic_of_shortcut {G g : MKLDNNGraph} (h : Shortcut G g) (hG : Acyclic G) :
    Acyclic g :=
  fun n hn => hG n (transGen_of_shortcut h hn)

lemma shortcut_refl (G : MKLDNNGraph) : Shortcut G G :=
  fun _ _ h => Relation.TransGen.single h

lemma shortcut_trans {G g g1 : MKLDNNGraph} (h1 : Shortcut G g) (h2 : Shortcut g g1) :
    Shortcut G g1 :=
  fun u v h => transGen_of_shortcut h1 (h2 u v h)

/-- Adding to the paths of an acyclic relation one pair `(a, b)` such that `a`
is not reachable from `b` gives no cycle. -/
lemma acyclic_add_pair {G g : MKLDNNGraph} (hG : Acyclic G) {a b : NodeId}
    (hab : ¬ Relation.ReflTransGen (childRel G) b a)
    (h : ∀ u v, childRel g u v → Relation.TransGen (childRel G) u v ∨ (u = a ∧ v = b)) :
    Acyclic g := by
  have key : ∀ x y, Relation.TransGen (childRel g) x y →
      Relation.TransGen (childRel G) x y ∨
        (Relation.ReflTransGen (childRel G) x a ∧ Relation.ReflTransGen (childRel G) b y) := by
    intro x y hxy
    induction hxy with
    | single h1 =>
      rcases h _ _ h1 with h2 | ⟨h2, h3⟩
      · exact Or.inl h2
      · subst h2; subst h3
        exact Or.inr ⟨Relation.ReflTransGen.refl, Relation.ReflTransGen.refl⟩
    | tail _ h2 ih =>
      rcases ih with h3 | ⟨h3, h4⟩
      · rcases h _ _ h2 with h5 | ⟨h5, h6⟩
        · exact Or.inl (Relation.TransGen.trans h3 h5)
        · subst h5; subst h6
          exact Or.inr ⟨h3.to_reflTransGen, Relation.ReflTransGen.refl⟩
      · rcases h _ _ h2 with h5 | ⟨h5, h6⟩
        · exact Or.inr ⟨h3, h4.trans h5.to_reflTransGen⟩
        · subst h5; subst h6
          exact absurd h4 hab
  intro n hn
  rcases key n n hn with h1 | ⟨h1, h2⟩
  · exact hG n h1
  · exact hab (h2.trans h1)

end MKLDNNPlugin

namespace MKLDNNPlugin

lemma children_sub_of_shrinks {g g1 : MKLDNNGraph} (hf : SameFrame g g1) {u : NodeId}
    (hs : Shrinks (g.node u).childEdges (g1.node u).childEdges) {v : NodeId}
    (h : v ∈ children g1 u) : v ∈ children g u := by
  obtain ⟨i, e, hi, he, hc⟩ := mem_children_iff.mp h
  rw [hf.2.1] at he
  rw [hf.getChild_eq] at hc
  exact mem_children_of_slot (hs.getElem?_some hi) he hc

lemma shortcut_of_shrinks {g g1 : MKLDNNGraph} (hf : SameFrame g g1)
    (hs : ∀ u, Shrinks (g.node u).childEdges (g1.node u).childEdges) : Shortcut g g1 :=
  fun u _ h => Relation.TransGen.single (children_sub_of_shrinks hf (hs u) h)

lemma shortcut_removeEdge (g : MKLDNNGraph) (w : MKLDNNEdgeWeakPtr) :
    Shortcut g (removeEdge g w) :=
  shortcut_of_shrinks (removeEdge_sameFrame g w) (fun u => (removeEdge_shrinks g w u).2)

lemma shortcut_remove (g : MKLDNNGraph) (n : NodeId) : Shortcut g (remove g n) :=
  shortcut_of_shrinks (remove_sameFrame g n) (fun u => (remove_shrinks g n u).2)

lemma shortcut_erase (g : MKLDNNGraph) (e0 : EdgeId) : Shortcut g (DropNode.removeEdge g e0) := by
  intro u v h
  obtain ⟨i, e, hi, he, hc⟩ := mem_children_iff.mp h
  exact Relation.TransGen.single
    (mem_children_of_slot (g := g) hi (List.mem_of_mem_erase he) hc)

lemma shortcut_sameLists {g g1 : MKLDNNGraph} (hs : SameLists g g1) : Shortcut g g1 := by
  intro u v h
  have h1 : v ∈ children g1 u := h
  rw [hs.children_eq u] at h1
  exact Relation.TransGen.single h1

lemma sameLists_shortcut_back {g g1 : MKLDNNGraph} (hs : SameLists g g1) : Shortcut g1 g := by
  intro u v h
  have h1 : v ∈ children g u := h
  rw [← hs.children_eq u] at h1
  exact Relation.TransGen.single h1

lemma children_pushNewEdge {g : MKLDNNGraph}
    (hb : ∀ n e, some e ∈ (g.node n).childEdges → e < g.edgeCount) (p c u : NodeId) :
    children (pushNewEdge g p c).2 u = children g u := by
  apply children_congr (pushNewEdge_node g p c ▸ rfl) (pushNewEdge_graphNodes g p c)
  intro e he
  have hlt := hb u e he
  have hne : e ≠ g.edgeCount := Nat.ne_of_lt hlt
  refine ⟨?_, pushNewEdge_edge_old g p c hne⟩
  rw [pushNewEdge_graphEdges, List.mem_append, List.mem_singleton]
  exact ⟨fun h => h.resolve_right hne, Or.inl⟩

/-- A child edge of the graph after `addEdge` is a child edge of the graph before,
or the attached edge. -/
lemma childRel_addEdge {g : MKLDNNGraph} {E : EdgeId} {pIndex cIndex : Nat} {u v : NodeId}
    (h : childRel (addEdge g E pIndex cIndex) u v) :
    childRel g u v ∨ (getParent g E = some u ∧ getChild g E = some v) := by
  obtain ⟨hf, hr⟩ := addEdge_refsFrom g E pIndex cIndex
  obtain ⟨i, e, hi, he, hc⟩ := mem_children_iff.mp h
  rw [hf.2.1] at he
  rw [hf.getChild_eq] at hc
  rcases (hr u e).2 (List.mem_iff_getElem?.mpr ⟨i, hi⟩) with h1 | ⟨h1, h2⟩
  · exact Or.inl (mem_children_of_mem h1 he hc)
  · subst h1
    exact Or.inr ⟨h2, hc⟩

end MKLDNNPlugin

namespace MKLDNNPlugin

/-! Preservation of the linking of the two ends of an edge -/

lemma consistent_of_refsFrom {g g1 : MKLDNNGraph} {E : EdgeId} {p c : NodeId}
    (h : Consistent g) (hr : RefsFrom g g1 E) (hE : E ∈ g.graphEdges)
    (hp : getParent g E = some p) (hc : getChild g E = some c) : Consistent g1 := by
  refine consistent_of_refs h hr.1 (fun m _ e => ⟨fun he => ?_, fun he => ?_⟩)
  · rcases (hr.2 m e).1 he with h1 | ⟨h1, h2⟩
    · exact Or.inl h1
    · subst h1
      exact Or.inr ⟨hE, (getChild_eq_some h2).1, (getParent_eq_some hp).1 ▸
        (getParent_eq_some hp).2⟩
  · rcases (hr.2 m e).2 he with h1 | ⟨h1, h2⟩
    · exact Or.inl h1
    · subst h1
      exact Or.inr ⟨hE, (getParent_eq_some h2).1, (getChild_eq_some hc).1 ▸
        (getChild_eq_some hc).2⟩

lemma linked_sameLists {g g1 : MKLDNNGraph} (hs : SameLists g g1) (h : Linked g) :
    Linked g1 := by
  have hcons := hs.consistent h.cons
  obtain ⟨⟨f1, f2, f3, f4⟩, hl⟩ := hs
  refine ⟨hcons, ?_, ?_, ?_⟩
  · intro n hn e he hlive
    rw [f1] at hn
    rw [(hl n).1] at he
    rw [f2] at hlive
    rw [f3, (hl _).2]
    exact h.paired n hn e he hlive
  · intro n hn i j e hi hj he
    rw [f1] at hn
    rw [(hl n).1] at hi hj
    rw [f2] at he
    exact h.nodup n hn i j e hi hj he
  · intro n e he
    rw [(hl n).2] at he
    rw [f4]
    exact h.bounded n e he

lemma linked_removeEdge {g : MKLDNNGraph} (h : Linked g) (w : MKLDNNEdgeWeakPtr) :
    Linked (removeEdge g w) := by
  have hf := removeEdge_sameFrame g w
  have hsb := removeEdge_shrinksBy g w
  refine ⟨consistent_removeEdge h.cons w, ?_, ?_, ?_⟩
  · intro n hn e he hlive
    rw [hf.1] at hn
    rw [hf.2.1] at hlive
    rw [hf.2.2.1]
    have he0 : some e ∈ (g.node n).parentEdges := (hsb n).1.shrinks.mem_some he
    have hp := h.paired n hn e he0 hlive
    by_cases hw : lock g w = some e
    · exfalso
      have hchild := ((h.cons.2.1 n hn e he0).2 hlive)
      have hgc : getChild g e = some n := by
        unfold getChild
        rw [hchild.1]
        simp [hn]
      have hgp : getParent g e = some (g.edge e).parent := by
        unfold getParent
        simp [hchild.2]
      rw [removeEdge_live hw hgp hgc, setChildEdges_parentEdges,
        setParentEdges_parentEdges] at he
      simp only [if_true] at he
      exact not_mem_resetRef e _ he
    · exact (hsb _).2.mem_keep hp hw
  · intro n hn i j e hi hj he
    rw [hf.1] at hn
    rw [hf.2.1] at he
    exact h.nodup n hn i j e ((hsb n).1.shrinks.getElem?_some hi)
      ((hsb n).1.shrinks.getElem?_some hj) he
  · intro n e he
    rw [hf.2.2.2]
    exact h.bounded n e ((hsb n).2.shrinks.mem_some he)

lemma linked_erase {g : MKLDNNGraph} (h : Linked g) (e0 : EdgeId) :
    Linked (DropNode.removeEdge g e0) := by
  refine ⟨⟨?_, ?_, ?_⟩, ?_, ?_, ?_⟩
  · intro e he
    exact h.cons.1 e (List.mem_of_mem_erase he)
  · intro n hn e he
    exact ⟨(h.cons.2.1 n hn e he).1, fun hl =>
      (h.cons.2.1 n hn e he).2 (List.mem_of_mem_erase hl)⟩
  · intro n hn e he
    exact ⟨(h.cons.2.2 n hn e he).1, fun hl =>
      (h.cons.2.2 n hn e he).2 (List.mem_of_mem_erase hl)⟩
  · intro n hn e he hl
    exact h.paired n hn e he (List.mem_of_mem_erase hl)
  · intro n hn i j e hi hj hl
    exact h.nodup n hn i j e hi hj (List.mem_of_mem_erase hl)
  · intro n e he
    exact h.bounded n e he

lemma linked_pushNewEdge {g : MKLDNNGraph} (h : Linked g) (p c : NodeId) :
    Linked (pushNewEdge g p c).2 := by
  have hold : ∀ n ∈ g.graphNodes, ∀ e, some e ∈ (g.node n).parentEdges →
      e ∈ (pushNewEdge g p c).2.graphEdges → e ≠ g.edgeCount ∧ e ∈ g.graphEdges := by
    intro n hn e he hl
    have hlt := (h.cons.2.1 n hn e he).1
    have hne : e ≠ g.edgeCount := Nat.ne_of_lt hlt
    rw [pushNewEdge_graphEdges, List.mem_append, List.mem_singleton] at hl
    exact ⟨hne, hl.resolve_right hne⟩
  refine ⟨consistent_pushNewEdge h.cons p c, ?_, ?_, ?_⟩
  · intro n hn e he hl
    rw [pushNewEdge_graphNodes] at hn
    rw [pushNewEdge_node] at he
    obtain ⟨hne, hl1⟩ := hold n hn e he hl
    rw [pushNewEdge_edge_old g p c hne, pushNewEdge_node]
    exact h.paired n hn e he hl1
  · intro n hn i j e hi hj hl
    rw [pushNewEdge_graphNodes] at hn
    rw [pushNewEdge_node] at hi hj
    exact h.nodup n hn i j e hi hj
      (hold n hn e (List.mem_iff_getElem?.mpr ⟨i, hi⟩) hl).2
  · intro n e he
    rw [pushNewEdge_node] at he
    rw [pushNewEdge_edgeCount]
    exact Nat.lt_succ_of_lt (h.bounded n e he)

end MKLDNNPlugin

namespace MKLDNNPlugin

/-- The content of a slot after the edge found there has been detached is not a
live reference. -/
lemma slot_dead_child {g : MKLDNNGraph} (h : Consistent g) {p : NodeId}
    (hp : p ∈ g.graphNodes) (k : Nat) :
    lock (removeEdge g ((g.node p).childEdges.getD k none))
      (((removeEdge g ((g.node p).childEdges.getD k none)).node p).childEdges.getD k none)
      = none := by
  cases hl : lock g ((g.node p).childEdges.getD k none) with
  | none =>
    have : removeEdge g ((g.node p).childEdges.getD k none) = g := by
      unfold removeEdge
      rw [hl]
    rw [this]
    exact hl
  | some X =>
    have hk := getElem?_of_lock_getD hl
    have hX := (lock_eq_some hl).2
    have hc := (h.2.2 p hp X (List.mem_iff_getElem?.mpr ⟨k, hk⟩)).2 hX
    have hgp : getParent g X = some p := by
      unfold getParent
      rw [hc.1]
      simp [hp]
    have hgc : getChild g X = some (g.edge X).child := by
      unfold getChild
      simp [hc.2]
    rw [removeEdge_live hl hgp hgc, setChildEdges_childEdges, setParentEdges_childEdges]
    simp only [if_true]
    have : (resetRef X (g.node p).childEdges).getD k none = none := by
      rw [List.getD_eq_getElem?_getD]
      unfold resetRef
      rw [List.getElem?_map, hk]
      simp
    rw [this]
    rfl

lemma slot_dead_parent {g : MKLDNNGraph} (h : Consistent g) {c : NodeId}
    (hc : c ∈ g.graphNodes) (k : Nat) :
    lock (removeEdge g ((g.node c).parentEdges.getD k none))
      (((removeEdge g ((g.node c).parentEdges.getD k none)).node c).parentEdges.getD k none)
      = none := by
  cases hl : lock g ((g.node c).parentEdges.getD k none) with
  | none =>
    have : removeEdge g ((g.node c).parentEdges.getD k none) = g := by
      unfold removeEdge
      rw [hl]
    rw [this]
    exact hl
  | some X =>
    have hk := getElem?_of_lock_getD hl
    have hX := (lock_eq_some hl).2
    have hp := (h.2.1 c hc X (List.mem_iff_getElem?.mpr ⟨k, hk⟩)).2 hX
    have hgc : getChild g X = some c := by
      unfold getChild
      rw [hp.1]
      simp [hc]
    have hgp : getParent g X = some (g.edge X).parent := by
      unfold getParent
      simp [hp.2]
    rw [removeEdge_live hl hgp hgc, setChildEdges_parentEdges, setParentEdges_parentEdges]
    simp only [if_true]
    have : (resetRef X (g.node c).parentEdges).getD k none = none := by
      rw [List.getD_eq_getElem?_getD]
      unfold resetRef
      rw [List.getElem?_map, hk]
      simp
    rw [this]
    rfl

/-- Writing a new child list for `p` that keeps every live reference and adds
none but the live edge `E`, whose producer is `p`, keeps the graph linked. -/
lemma linked_putChild {g : MKLDNNGraph} (h : Linked g) {p c : NodeId} {E : EdgeId}
    (hE : E ∈ g.graphEdges) (hp : getParent g E = some p) (hc : getChild g E = some c)
    (l1 : List MKLDNNEdgeWeakPtr)
    (hkeep : ∀ e, some e ∈ (g.node p).childEdges → e ∈ g.graphEdges → some e ∈ l1)
    (hsub : ∀ e, some e ∈ l1 → some e ∈ (g.node p).childEdges ∨ e = E) :
    Linked (g.setChildEdges p l1) := by
  have hr : RefsFrom g (g.setChildEdges p l1) E := by
    refine ⟨⟨rfl, rfl, rfl, rfl⟩, fun m e => ⟨fun h1 => ?_, fun h1 => ?_⟩⟩
    · rw [setChildEdges_parentEdges] at h1
      exact Or.inl h1
    · rw [setChildEdges_childEdges] at h1
      split at h1
      · rename_i hm
        subst hm
        rcases hsub e h1 with h2 | h2
        · exact Or.inl h2
        · exact Or.inr ⟨h2, hp⟩
      · exact Or.inl h1
  refine ⟨consistent_of_refsFrom h.cons hr hE hp hc, ?_, ?_, ?_⟩
  · intro n hn e he hl
    rw [setChildEdges_parentEdges] at he
    have h1 := h.paired n hn e he hl
    rw [setChildEdges_childEdges]
    split
    · rename_i hm
      rw [setChildEdges_edge] at hm
      rw [hm] at h1
      exact hkeep e h1 hl
    · exact h1
  · intro n hn i j e hi hj hl
    rw [setChildEdges_parentEdges] at hi hj
    exact h.nodup n hn i j e hi hj hl
  · intro n e he
    rw [setChildEdges_childEdges] at he
    split at he
    · rcases hsub e he with h2 | h2
      · exact h.bounded _ e h2
      · rw [h2]
        exact h.cons.1 E hE
    · exact h.bounded n e he

end MKLDNNPlugin

namespace MKLDNNPlugin

/-- Writing a new parent list for `c` that adds no reference but the live edge
`E`, whose consumer is `c` and which its producer lists, and that holds no live
edge twice, keeps the graph linked. -/
lemma linked_putParent {g : MKLDNNGraph} (h : Linked g) {p c : NodeId} {E : EdgeId}
    (hE : E ∈ g.graphEdges) (hp : getParent g E = some p) (hc : getChild g E = some c)
    (hlisted : some E ∈ (g.node p).childEdges)
    (l1 : List MKLDNNEdgeWeakPtr)
    (hsub : ∀ e, some e ∈ l1 → some e ∈ (g.node c).parentEdges ∨ e = E)
    (hnodup : ∀ (i j : Nat) (e : EdgeId), l1[i]? = some (some e) → l1[j]? = some (some e) →
      e ∈ g.graphEdges → i = j) :
    Linked (g.setParentEdges c l1) := by
  have hr : RefsFrom g (g.setParentEdges c l1) E := by
    refine ⟨⟨rfl, rfl, rfl, rfl⟩, fun m e => ⟨fun h1 => ?_, fun h1 => ?_⟩⟩
    · rw [setParentEdges_parentEdges] at h1
      split at h1
      · rename_i hm
        subst hm
        rcases hsub e h1 with h2 | h2
        · exact Or.inl h2
        · exact Or.inr ⟨h2, hc⟩
      · exact Or.inl h1
    · rw [setParentEdges_childEdges] at h1
      exact Or.inl h1
  refine ⟨consistent_of_refsFrom h.cons hr hE hp hc, ?_, ?_, ?_⟩
  · intro n hn e he hl
    rw [setParentEdges_childEdges, setParentEdges_edge]
    rw [setParentEdges_parentEdges] at he
    split at he
    · rename_i hm
      subst hm
      rcases hsub e he with h2 | h2
      · exact h.paired n hn e h2 hl
      · rw [h2, (getParent_eq_some hp).1]
        exact hlisted
    · exact h.paired n hn e he hl
  · intro n hn i j e hi hj hl
    rw [setParentEdges_parentEdges] at hi hj
    split at hi
    · rename_i hm
      simp only [hm, if_true] at hj
      exact hnodup i j e hi hj hl
    · rename_i hm
      simp only [hm, if_false] at hj
      exact h.nodup n hn i j e hi hj hl
  · intro n e he
    rw [setParentEdges_childEdges] at he
    exact h.bounded n e he

lemma nodup_set {l : List MKLDNNEdgeWeakPtr} {E : EdgeId} {k : Nat} {P : EdgeId → Prop}
    (hfresh : some E ∉ l)
    (hn : ∀ (i j : Nat) (e : EdgeId), l[i]? = some (some e) → l[j]? = some (some e) →
      P e → i = j) :
    ∀ (i j : Nat) (e : EdgeId), (l.set k (some E))[i]? = some (some e) →
      (l.set k (some E))[j]? = some (some e) → P e → i = j := by
  intro i j e hi hj hP
  by_cases hik : k = i
  · by_cases hjk : k = j
    · rw [← hik, ← hjk]
    · exfalso
      rw [List.getElem?_set_ne hjk] at hj
      subst hik
      have hlt : k < l.length := by
        by_contra hge
        rw [List.getElem?_eq_none (by simpa using hge)] at hi
        cases hi
      rw [List.getElem?_set_self hlt] at hi
      have : e = E := (Option.some.inj (Option.some.inj hi)).symm
      subst this
      exact hfresh (List.mem_iff_getElem?.mpr ⟨j, hj⟩)
  · rw [List.getElem?_set_ne hik] at hi
    by_cases hjk : k = j
    · exfalso
      subst hjk
      have hlt : k < l.length := by
        by_contra hge
        rw [List.getElem?_eq_none (by simpa using hge)] at hj
        cases hj
      rw [List.getElem?_set_self hlt] at hj
      have : e = E := (Option.some.inj (Option.some.inj hj)).symm
      subst this
      exact hfresh (List.mem_iff_getElem?.mpr ⟨i, hi⟩)
    · rw [List.getElem?_set_ne hjk] at hj
      exact hn i j e hi hj hP

lemma nodup_append {l : List MKLDNNEdgeWeakPtr} {E : EdgeId} {P : EdgeId → Prop}
    (hfresh : some E ∉ l)
    (hn : ∀ (i j : Nat) (e : EdgeId), l[i]? = some (some e) → l[j]? = some (some e) →
      P e → i = j) :
    ∀ (i j : Nat) (e : EdgeId), (l ++ [some E])[i]? = some (some e) →
      (l ++ [some E])[j]? = some (some e) → P e → i = j := by
  have key : ∀ (i : Nat) (e : EdgeId), (l ++ [some E])[i]? = some (some e) →
      (i < l.length ∧ l[i]? = some (some e)) ∨ (i = l.length ∧ e = E) := by
    intro i e hi
    by_cases hlt : i < l.length
    · rw [List.getElem?_append_left hlt] at hi
      exact Or.inl ⟨hlt, hi⟩
    · have hge : l.length ≤ i := Nat.le_of_not_lt hlt
      rw [List.getElem?_append_right hge] at hi
      have h0 : i - l.length = 0 := by
        by_contra hne
        rw [List.getElem?_eq_none (by simp; omega)] at hi
        cases hi
      rw [h0] at hi
      right
      refine ⟨by omega, ?_⟩
      simp at hi
      exact hi.symm
  intro i j e hi hj hP
  rcases key i e hi with ⟨h1, h2⟩ | ⟨h1, h2⟩
  · rcases key j e hj with ⟨h3, h4⟩ | ⟨h3, h4⟩
    · exact hn i j e h2 h4 hP
    · subst h4
      exact absurd (List.mem_iff_getElem?.mpr ⟨i, h2⟩) hfresh
  · rcases key j e hj with ⟨h3, h4⟩ | ⟨h3, h4⟩
    · subst h2
      exact absurd (List.mem_iff_getElem?.mpr ⟨j, h4⟩) hfresh
    · rw [h1, h3]

end MKLDNNPlugin

namespace MKLDNNPlugin

lemma linked_toParent {g : MKLDNNGraph} (h : Linked g) {p c : NodeId} {E : EdgeId}
    (hE : E ∈ g.graphEdges) (hp : getParent g E = some p) (hc : getChild g E = some c)
    (cIndex : Nat) : Linked (addEdge.toParent g p E cIndex) := by
  unfold addEdge.toParent
  split
  · have hf := removeEdge_sameFrame g ((g.node p).childEdges.getD cIndex none)
    have h0 := linked_removeEdge h ((g.node p).childEdges.getD cIndex none)
    have hdead := slot_dead_child h.cons (getParent_eq_some hp).2 cIndex
    refine linked_putChild h0 (hf.2.1 ▸ hE) (hf.getParent_eq E ▸ hp)
      (hf.getChild_eq E ▸ hc) _ ?_ ?_
    · intro e he hl
      obtain ⟨i, hi⟩ := List.mem_iff_getElem?.mp he
      by_cases hik : cIndex = i
      · exfalso
        subst hik
        rw [getD_of_getElem? hi, lock_some_of_mem hl] at hdead
        cases hdead
      · exact List.mem_iff_getElem?.mpr ⟨i, by rw [List.getElem?_set_ne hik]; exact hi⟩
    · intro e he
      rcases List.mem_or_eq_of_mem_set he with h1 | h1
      · exact Or.inl h1
      · exact Or.inr (Option.some.inj h1)
  · refine linked_putChild h hE hp hc _ ?_ ?_
    · intro e he _
      exact List.mem_append_left _ he
    · intro e he
      rcases List.mem_append.mp he with h1 | h1
      · exact Or.inl h1
      · exact Or.inr (Option.some.inj (List.mem_singleton.mp h1))

lemma toParent_parentEdges (g : MKLDNNGraph) (p : NodeId) (E : EdgeId) (cIndex : Nat)
    (m : NodeId) :
    Shrinks (g.node m).parentEdges ((addEdge.toParent g p E cIndex).node m).parentEdges := by
  unfold addEdge.toParent
  split
  · rw [setChildEdges_parentEdges]
    exact (removeEdge_shrinks g _ m).1
  · rw [setChildEdges_parentEdges]
    exact Shrinks.shrinks_refl _

lemma toParent_listed (g : MKLDNNGraph) (p : NodeId) (E : EdgeId) (cIndex : Nat) :
    some E ∈ ((addEdge.toParent g p E cIndex).node p).childEdges := by
  unfold addEdge.toParent
  split
  · rename_i hlt
    rw [setChildEdges_childEdges]
    simp only [if_true]
    apply mem_set_self
    rw [(removeEdge_shrinks g _ p).2.length_eq]
    exact hlt
  · rw [setChildEdges_childEdges]
    simp only [if_true]
    exact List.mem_append_right _ (List.mem_singleton.mpr rfl)

lemma linked_toChild {g : MKLDNNGraph} (h : Linked g) {p c : NodeId} {E : EdgeId}
    (hE : E ∈ g.graphEdges) (hp : getParent g E = some p) (hc : getChild g E = some c)
    (hlisted : some E ∈ (g.node p).childEdges) (hfresh : some E ∉ (g.node c).parentEdges)
    (pIndex : Nat) : Linked (addEdge.toChild g c E pIndex) := by
  have hcm := (getChild_eq_some hc).2
  unfold addEdge.toChild
  split
  · have hf := removeEdge_sameFrame g ((g.node c).parentEdges.getD pIndex none)
    have h0 := linked_removeEdge h ((g.node c).parentEdges.getD pIndex none)
    have hsb := removeEdge_shrinksBy g ((g.node c).parentEdges.getD pIndex none)
    have hfresh0 : some E ∉
        ((removeEdge g ((g.node c).parentEdges.getD pIndex none)).node c).parentEdges :=
      fun hm => hfresh ((hsb c).1.shrinks.mem_some hm)
    have hlisted0 : some E ∈
        ((removeEdge g ((g.node c).parentEdges.getD pIndex none)).node p).childEdges := by
      refine (hsb p).2.mem_keep hlisted ?_
      intro hl
      exact hfresh (List.mem_iff_getElem?.mpr ⟨pIndex, getElem?_of_lock_getD hl⟩)
    refine linked_putParent h0 (hf.2.1 ▸ hE) (hf.getParent_eq E ▸ hp)
      (hf.getChild_eq E ▸ hc) hlisted0 _ ?_ ?_
    · intro e he
      rcases List.mem_or_eq_of_mem_set he with h1 | h1
      · exact Or.inl h1
      · exact Or.inr (Option.some.inj h1)
    · exact nodup_set hfresh0 (fun i j e hi hj hl => h0.nodup c (hf.1 ▸ hcm) i j e hi hj hl)
  · refine linked_putParent h hE hp hc hlisted _ ?_ ?_
    · intro e he
      rcases List.mem_append.mp he with h1 | h1
      · exact Or.inl h1
      · exact Or.inr (Option.some.inj (List.mem_singleton.mp h1))
    · exact nodup_append hfresh (fun i j e hi hj hl => h.nodup c hcm i j e hi hj hl)

/-- Attaching an edge that no parent list holds yet keeps the graph linked. -/
lemma linked_addEdge {g : MKLDNNGraph} (h : Linked g) {E : EdgeId}
    (hfresh : ∀ n ∈ g.graphNodes, some E ∉ (g.node n).parentEdges) (pIndex cIndex : Nat) :
    Linked (addEdge g E pIndex cIndex) := by
  by_cases hl : lock g (some E) = none
  · unfold addEdge
    rw [hl]
    exact h
  · have hE : E ∈ g.graphEdges := by
      unfold lock at hl
      by_contra hc
      simp [hc] at hl
    cases hp : getParent g E with
    | none =>
      unfold addEdge
      split
      · exact h
      · simp only [hp]
        exact h
    | some p =>
      cases hc : getChild g E with
      | none =>
        unfold addEdge
        split
        · exact h
        · simp only [hp, hc]
          exact h
      | some c =>
        rw [addEdge_live hE hp hc]
        have hf := (toParent_refsFrom g p E cIndex hp).1
        refine linked_toChild (linked_toParent h hE hp hc cIndex) (hf.2.1 ▸ hE)
          (hf.getParent_eq E ▸ hp) (hf.getChild_eq E ▸ hc) (toParent_listed g p E cIndex)
          ?_ pIndex
        intro hm
        exact hfresh c (getChild_eq_some hc).2 ((toParent_parentEdges g p E cIndex c).mem_some hm)

lemma linked_foldl_removeEdge :
    ∀ (l : List MKLDNNEdgeWeakPtr) (g : MKLDNNGraph), Linked g →
      Linked (l.foldl removeEdge g) := by
  intro l
  induction l with
  | nil => intro g h; exact h
  | cons w l ih => intro g h; exact ih _ (linked_removeEdge h w)

lemma linked_remove {g : MKLDNNGraph} (h : Linked g) (n : NodeId) : Linked (remove g n) := by
  unfold remove
  exact linked_foldl_removeEdge _ _ (linked_foldl_removeEdge _ _ h)

/-- The handle that the next new edge takes is in no list of the graph. -/
lemma fresh_pushNewEdge {g : MKLDNNGraph} (h : Linked g) (p c : NodeId) :
    ∀ n ∈ (pushNewEdge g p c).2.graphNodes,
      some (pushNewEdge g p c).1 ∉ ((pushNewEdge g p c).2.node n).parentEdges := by
  intro n hn hm
  rw [pushNewEdge_graphNodes] at hn
  rw [pushNewEdge_node, pushNewEdge_fst] at hm
  exact Nat.lt_irrefl _ (h.cons.2.1 n hn _ hm).1

end MKLDNNPlugin

namespace MKLDNNPlugin

/-! Listing of an edge by its consumer -/

lemma back_sameLists {g g1 : MKLDNNGraph} (hs : SameLists g g1) {E : Option EdgeId}
    (h : BackBut E g) : BackBut E g1 := by
  obtain ⟨⟨f1, f2, f3, _⟩, hl⟩ := hs
  intro n hn e he hlive hne
  rw [f1] at hn
  rw [(hl n).2] at he
  rw [f2] at hlive
  rw [f3, (hl _).1]
  exact h n hn e he hlive hne

lemma back_removeEdge {g : MKLDNNGraph} (hc : Consistent g) {E : Option EdgeId}
    (h : BackBut E g) (w : MKLDNNEdgeWeakPtr) : BackBut E (removeEdge g w) := by
  have hf := removeEdge_sameFrame g w
  have hsb := removeEdge_shrinksBy g w
  intro n hn e he hlive hne
  rw [hf.1] at hn
  rw [hf.2.1] at hlive
  rw [hf.2.2.1]
  have he0 : some e ∈ (g.node n).childEdges := (hsb n).2.shrinks.mem_some he
  have hp := h n hn e he0 hlive hne
  by_cases hw : lock g w = some e
  · exfalso
    have hpar := ((hc.2.2 n hn e he0).2 hlive)
    have hgp : getParent g e = some n := by
      unfold getParent
      rw [hpar.1]
      simp [hn]
    have hgc : getChild g e = some (g.edge e).child := by
      unfold getChild
      simp [hpar.2]
    rw [removeEdge_live hw hgp hgc, setChildEdges_childEdges,
      setParentEdges_childEdges] at he
    simp only [if_true] at he
    exact not_mem_resetRef e _ he
  · exact (hsb _).1.mem_keep hp hw

lemma back_erase {g : MKLDNNGraph} {E : Option EdgeId} (h : BackBut E g) (e0 : EdgeId) :
    BackBut E (DropNode.removeEdge g e0) :=
  fun n hn e he hl hne => h n hn e he (List.mem_of_mem_erase hl) hne

lemma back_pushNewEdge {g : MKLDNNGraph} (hc : Consistent g) {E : Option EdgeId}
    (h : BackBut E g) (p c : NodeId) : BackBut E (pushNewEdge g p c).2 := by
  intro n hn e he hl hne
  rw [pushNewEdge_graphNodes] at hn
  rw [pushNewEdge_node] at he
  have hlt := (hc.2.2 n hn e he).1
  have hne1 : e ≠ g.edgeCount := Nat.ne_of_lt hlt
  rw [pushNewEdge_graphEdges, List.mem_append, List.mem_singleton] at hl
  rw [pushNewEdge_edge_old g p c hne1, pushNewEdge_node]
  exact h n hn e he (hl.resolve_right hne1) hne

lemma back_putChild {g : MKLDNNGraph} (h : BackBut none g) {p : NodeId} {E : EdgeId}
    (l1 : List MKLDNNEdgeWeakPtr)
    (hsub : ∀ e, some e ∈ l1 → some e ∈ (g.node p).childEdges ∨ e = E) :
    BackBut (some E) (g.setChildEdges p l1) := by
  intro n hn e he hl hne
  rw [setChildEdges_parentEdges, setChildEdges_edge]
  rw [setChildEdges_childEdges] at he
  split at he
  · rename_i hm
    subst hm
    rcases hsub e he with h1 | h1
    · exact h n hn e h1 hl (by simp)
    · exact absurd (congrArg some h1) hne
  · exact h n hn e he hl (by simp)

lemma back_putParent {g : MKLDNNGraph} {c : NodeId} {E : EdgeId} (h : BackBut (some E) g)
    (hc : (g.edge E).child = c) (l1 : List MKLDNNEdgeWeakPtr) (hE : some E ∈ l1)
    (hkeep : ∀ e, some e ∈ (g.node c).parentEdges → e ∈ g.graphEdges → some e ∈ l1) :
    BackBut none (g.setParentEdges c l1) := by
  intro n hn e he hl _
  rw [setParentEdges_childEdges] at he
  rw [setParentEdges_parentEdges, setParentEdges_edge]
  by_cases hee : e = E
  · rw [hee, hc]
    simp only [if_true]
    exact hE
  · have h1 := h n hn e he hl (fun hq => hee (Option.some.inj hq))
    split
    · rename_i hm
      rw [hm] at h1
      exact hkeep e h1 hl
    · exact h1

end MKLDNNPlugin

namespace MKLDNNPlugin

lemma back_toParent {g : MKLDNNGraph} (hc : Consistent g) (h : BackBut none g) (p : NodeId)
    (E : EdgeId) (cIndex : Nat) : BackBut (some E) (addEdge.toParent g p E cIndex) := by
  unfold addEdge.toParent
  split
  · refine back_putChild (back_removeEdge hc h _) _ ?_
    intro e he
    rcases List.mem_or_eq_of_mem_set he with h1 | h1
    · exact Or.inl h1
    · exact Or.inr (Option.some.inj h1)
  · refine back_putChild h _ ?_
    intro e he
    rcases List.mem_append.mp he with h1 | h1
    · exact Or.inl h1
    · exact Or.inr (Option.some.inj (List.mem_singleton.mp h1))

lemma back_toChild {g : MKLDNNGraph} (hc : Consistent g) {c : NodeId} {E : EdgeId}
    (h : BackBut (some E) g) (hgc : getChild g E = some c) (pIndex : Nat) :
    BackBut none (addEdge.toChild g c E pIndex) := by
  have hcm := getChild_eq_some hgc
  unfold addEdge.toChild
  split
  · rename_i hlt
    have hf := removeEdge_sameFrame g ((g.node c).parentEdges.getD pIndex none)
    have hdead := slot_dead_parent hc hcm.2 pIndex
    refine back_putParent (back_removeEdge hc h _) (by rw [hf.2.2.1]; exact hcm.1) _ ?_ ?_
    · apply mem_set_self
      rw [(removeEdge_shrinks g _ c).1.length_eq]
      exact hlt
    · intro e he hl
      obtain ⟨i, hi⟩ := List.mem_iff_getElem?.mp he
      by_cases hik : pIndex = i
      · exfalso
        subst hik
        rw [getD_of_getElem? hi, lock_some_of_mem hl] at hdead
        cases hdead
      · exact List.mem_iff_getElem?.mpr ⟨i, by rw [List.getElem?_set_ne hik]; exact hi⟩
  · refine back_putParent h hcm.1 _ (List.mem_append_right _ (List.mem_singleton.mpr rfl)) ?_
    intro e he _
    exact List.mem_append_left _ he

lemma back_addEdge {g : MKLDNNGraph} (hl : Linked g) (h : BackBut none g) (E : EdgeId)
    (pIndex cIndex : Nat) : BackBut none (addEdge g E pIndex cIndex) := by
  by_cases hlk : lock g (some E) = none
  · unfold addEdge
    rw [hlk]
    exact h
  · have hE : E ∈ g.graphEdges := by
      unfold lock at hlk
      by_contra hc
      simp [hc] at hlk
    cases hp : getParent g E with
    | none =>
      unfold addEdge
      split
      · exact h
      · simp only [hp]
        exact h
    | some p =>
      cases hc : getChild g E with
      | none =>
        unfold addEdge
        split
        · exact h
        · simp only [hp, hc]
          exact h
      | some c =>
        rw [addEdge_live hE hp hc]
        have hf := (toParent_refsFrom g p E cIndex hp).1
        exact back_toChild (linked_toParent hl hE hp hc cIndex).cons
          (back_toParent hl.cons h p E cIndex) (hf.getChild_eq E ▸ hc) pIndex

lemma tied_sameLists {g g1 : MKLDNNGraph} (hs : SameLists g g1) (h : Tied g) : Tied g1 :=
  ⟨linked_sameLists hs h.1, back_sameLists hs h.2⟩

lemma tied_removeEdge {g : MKLDNNGraph} (h : Tied g) (w : MKLDNNEdgeWeakPtr) :
    Tied (removeEdge g w) :=
  ⟨linked_removeEdge h.1 w, back_removeEdge h.1.cons h.2 w⟩

lemma tied_erase {g : MKLDNNGraph} (h : Tied g) (e0 : EdgeId) :
    Tied (DropNode.removeEdge g e0) :=
  ⟨linked_erase h.1 e0, back_erase h.2 e0⟩

lemma tied_pushNewEdge {g : MKLDNNGraph} (h : Tied g) (p c : NodeId) :
    Tied (pushNewEdge g p c).2 :=
  ⟨linked_pushNewEdge h.1 p c, back_pushNewEdge h.1.cons h.2 p c⟩

lemma tied_addEdge {g : MKLDNNGraph} (h : Tied g) {E : EdgeId}
    (hfresh : ∀ n ∈ g.graphNodes, some E ∉ (g.node n).parentEdges) (pIndex cIndex : Nat) :
    Tied (addEdge g E pIndex cIndex) :=
  ⟨linked_addEdge h.1 hfresh pIndex cIndex, back_addEdge h.1 h.2 E pIndex cIndex⟩

lemma tied_foldl_removeEdge :
    ∀ (l : List MKLDNNEdgeWeakPtr) (g : MKLDNNGraph), Tied g → Tied (l.foldl removeEdge g) := by
  intro l
  induction l with
  | nil => intro g h; exact h
  | cons w l ih => intro g h; exact ih _ (tied_removeEdge h w)

lemma tied_remove {g : MKLDNNGraph} (h : Tied g) (n : NodeId) : Tied (remove g n) := by
  unfold remove
  exact tied_foldl_removeEdge _ _ (tied_foldl_removeEdge _ _ h)

end MKLDNNPlugin

namespace MKLDNNPlugin

/-! DropNode keeps the graph acyclic -/

lemma addEdge_length_other (g : MKLDNNGraph) (E : EdgeId) (pIndex cIndex : Nat) (node : NodeId)
    (hp : getParent g E ≠ some node) (hc : getChild g E ≠ some node) :
    ((addEdge g E pIndex cIndex).node node).parentEdges.length =
        (g.node node).parentEdges.length ∧
      ((addEdge g E pIndex cIndex).node node).childEdges.length =
        (g.node node).childEdges.length := by
  by_cases hl : lock g (some E) = none
  · unfold addEdge
    rw [hl]
    exact ⟨rfl, rfl⟩
  · have hE : E ∈ g.graphEdges := by
      unfold lock at hl
      by_contra hc
      simp [hc] at hl
    cases hp1 : getParent g E with
    | none =>
      unfold addEdge
      split
      · exact ⟨rfl, rfl⟩
      · simp only [hp1]
        exact ⟨trivial, trivial⟩
    | some p =>
      cases hc1 : getChild g E with
      | none =>
        unfold addEdge
        split
        · exact ⟨rfl, rfl⟩
        · simp only [hp1, hc1]
          exact ⟨trivial, trivial⟩
      | some c =>
        rw [addEdge_live hE hp1 hc1]
        have hnp : node ≠ p := fun h => hp (h ▸ hp1)
        have hnc : node ≠ c := fun h => hc (h ▸ hc1)
        obtain ⟨_, a1, a2, _⟩ := toParent_spec g p E cIndex
        obtain ⟨_, b1, b2, _⟩ := toChild_spec (addEdge.toParent g p E cIndex) c E pIndex
        constructor
        · rw [(b2 node hnc).same_length, (a1 node).same_length]
        · rw [(b1 node).same_length, (a2 node hnp).same_length]

lemma dropInv_takeParentEdge {G g : MKLDNNGraph} {node : NodeId} (h : DropInv G node g)
    (i : Nat) : DropInv G node (DropNode.takeParentEdge g node i).2 := by
  unfold DropNode.takeParentEdge
  split
  · rename_i rem _
    refine ⟨tied_erase (tied_removeEdge h.linked _) _, ?_,
      shortcut_trans h.short (shortcut_trans (shortcut_removeEdge g _) (shortcut_erase _ _)),
      ?_, ?_⟩
    · exact (removeEdge_sameFrame g (some rem)).1.trans h.nodes
    · exact ((removeEdge_shrinks g (some rem) node).1.length_eq).trans h.plen
    · exact ((removeEdge_shrinks g (some rem) node).2.length_eq).trans h.clen
  · exact h

lemma dropInv_takeChildEdge {G g : MKLDNNGraph} {node : NodeId} (h : DropInv G node g)
    (j : Nat) : DropInv G node (DropNode.takeChildEdge g node j).2 := by
  unfold DropNode.takeChildEdge
  split
  · rename_i rem _
    refine ⟨tied_erase (tied_removeEdge h.linked _) _, ?_,
      shortcut_trans h.short (shortcut_trans (shortcut_removeEdge g _) (shortcut_erase _ _)),
      ?_, ?_⟩
    · exact (removeEdge_sameFrame g (some rem)).1.trans h.nodes
    · exact ((removeEdge_shrinks g (some rem) node).1.length_eq).trans h.plen
    · exact ((removeEdge_shrinks g (some rem) node).2.length_eq).trans h.clen
  · exact h

/-- Creating the edge from `parent` to `child` and attaching it keeps the state
of the loops, when `G` has a path from `parent` through `node` to `child`. -/
lemma dropInv_connect {G g : MKLDNNGraph} {node parent child : NodeId} (hac : Acyclic G)
    (h : DropInv G node g) (hpn : Relation.TransGen (childRel G) parent node)
    (hnc : Relation.TransGen (childRel G) node child) (pIndex cIndex : Nat) :
    DropInv G node
      (addEdge (pushNewEdge g parent child).2 (pushNewEdge g parent child).1 pIndex cIndex) := by
  have hl3 := tied_pushNewEdge h.linked parent child
  have hfr := fresh_pushNewEdge h.linked.1 parent child
  have hf := (addEdge_refsFrom (pushNewEdge g parent child).2 (pushNewEdge g parent child).1
    pIndex cIndex).1
  have hne1 : parent ≠ node := fun hq => hac node (hq ▸ hpn)
  have hne2 : child ≠ node := fun hq => hac node (hq ▸ hnc)
  have hgp : getParent (pushNewEdge g parent child).2 (pushNewEdge g parent child).1 ≠
      some node := by
    intro hq
    have := (getParent_eq_some hq).1
    rw [pushNewEdge_fst, pushNewEdge_edge_new] at this
    exact hne1 this
  have hgc : getChild (pushNewEdge g parent child).2 (pushNewEdge g parent child).1 ≠
      some node := by
    intro hq
    have := (getChild_eq_some hq).1
    rw [pushNewEdge_fst, pushNewEdge_edge_new] at this
    exact hne2 this
  have hlen := addEdge_length_other (pushNewEdge g parent child).2
    (pushNewEdge g parent child).1 pIndex cIndex node hgp hgc
  refine ⟨tied_addEdge hl3 hfr pIndex cIndex, ?_, ?_, ?_, ?_⟩
  · rw [hf.1, pushNewEdge_graphNodes]
    exact h.nodes
  · intro u v huv
    rcases childRel_addEdge huv with h1 | ⟨h1, h2⟩
    · have h3 : v ∈ children (pushNewEdge g parent child).2 u := h1
      rw [children_pushNewEdge h.linked.1.bounded] at h3
      exact h.short u v h3
    · have e1 := (getParent_eq_some h1).1
      have e2 := (getChild_eq_some h2).1
      rw [pushNewEdge_fst, pushNewEdge_edge_new] at e1 e2
      simp only at e1 e2
      rw [← e1, ← e2]
      exact hpn.trans hnc
  · rw [hlen.1, pushNewEdge_node]
    exact h.plen
  · rw [hlen.2, pushNewEdge_node]
    exact h.clen

end MKLDNNPlugin

namespace MKLDNNPlugin

lemma dropInv_body {G g : MKLDNNGraph} {node parent : NodeId} (hac : Acyclic G)
    (h : DropInv G node g) (hpn : Relation.TransGen (childRel G) parent node) (i j : Nat) :
    DropInv G node (DropNode.body node i parent j g) := by
  unfold DropNode.body
  split
  · exact h
  · rename_i ce hl
    split
    · exact h
    · rename_i child hc
      have hnc : Relation.TransGen (childRel G) node child :=
        h.short node child
          (mem_children_of_slot (getElem?_of_lock_getD hl) (lock_eq_some hl).2 hc)
      exact dropInv_connect hac (dropInv_takeChildEdge (dropInv_takeParentEdge h i) j)
        hpn hnc _ _

lemma dropInv_inner {G : MKLDNNGraph} {node parent : NodeId} (hac : Acyclic G)
    (hpn : Relation.TransGen (childRel G) parent node) (i : Nat) :
    ∀ (fuel j : Nat) (g : MKLDNNGraph), DropInv G node g →
      (G.node node).childEdges.length - j + 1 ≤ fuel →
      ∃ g1, DropNode.inner node i parent fuel j g = some g1 ∧ DropInv G node g1 := by
  intro fuel
  induction fuel with
  | zero => intro j g _ hf; omega
  | succ fuel ih =>
    intro j g h hf
    unfold DropNode.inner
    split
    · rename_i hlt
      rw [h.clen] at hlt
      exact ih (j + 1) _ (dropInv_body hac h hpn i j) (by omega)
    · exact ⟨g, rfl, h⟩

lemma dropInv_outer {G : MKLDNNGraph} {node : NodeId} (hac : Acyclic G)
    (hn : node ∈ G.graphNodes) :
    ∀ (fuel i : Nat) (g : MKLDNNGraph), DropInv G node g →
      (G.node node).parentEdges.length - i + 1 ≤ fuel →
      ∃ g1, DropNode.outer node fuel i g = some g1 ∧ DropInv G node g1 := by
  intro fuel
  induction fuel with
  | zero => intro i g _ hf; omega
  | succ fuel ih =>
    intro i g h hf
    unfold DropNode.outer
    split
    · rename_i hlt
      rw [h.plen] at hlt
      split
      · exact ih (i + 1) g h (by omega)
      · rename_i pe hl
        split
        · exact ih (i + 1) g h (by omega)
        · rename_i parent hp
          have hng : node ∈ g.graphNodes := h.nodes ▸ hn
          have hlisted : some pe ∈ (g.node node).parentEdges :=
            List.mem_iff_getElem?.mpr ⟨i, getElem?_of_lock_getD hl⟩
          have hlive := (lock_eq_some hl).2
          have hpair := h.linked.1.paired node hng pe hlisted hlive
          rw [(getParent_eq_some hp).1] at hpair
          have hch := ((h.linked.1.cons.2.1 node hng pe hlisted).2 hlive).1
          have hgc : getChild g pe = some node := by
            unfold getChild
            rw [hch]
            simp [hng]
          have hpn : Relation.TransGen (childRel G) parent node :=
            h.short parent node (mem_children_of_mem hpair hlive hgc)
          obtain ⟨g1, hg1, hinv⟩ := dropInv_inner hac hpn i
            ((g.node node).childEdges.length + 2) 0 g h (by rw [h.clen]; omega)
          rw [hg1]
          exact ih (i + 1) g1 hinv (by omega)
    · exact ⟨g, rfl, h⟩

/-- On a tied acyclic graph DropNode returns, and every child step of the
graph it returns is a path of the graph it was given. -/
lemma DropNode_shortcut {G : MKLDNNGraph} (h : Tied G) (hac : Acyclic G) {node : NodeId}
    (hn : node ∈ G.graphNodes) :
    ∃ g1, DropNode G node = some g1 ∧ Tied g1 ∧ g1.graphNodes = G.graphNodes ∧
      Shortcut G g1 := by
  obtain ⟨g1, h1, h2⟩ := dropInv_outer hac hn
    ((G.node node).parentEdges.length + (G.node node).childEdges.length + 2) 0 G
    ⟨h, rfl, shortcut_refl G, rfl, rfl⟩ (by omega)
  exact ⟨g1, h1, h2.linked, h2.nodes, h2.short⟩

end MKLDNNPlugin

namespace MKLDNNPlugin

/-! The passes built on DropNode -/

/-- A loop over the node list whose body keeps the graph tied and acyclic, and
the node list as it is, does so as a whole. -/
lemma fold_acyclic {f : MKLDNNGraph → NodeId → Option MKLDNNGraph}
    (hf : ∀ g n, Tied g → Acyclic g → n ∈ g.graphNodes → ∀ g1, f g n = some g1 →
      Tied g1 ∧ Acyclic g1 ∧ g1.graphNodes = g.graphNodes) :
    ∀ (l : List NodeId) (g : MKLDNNGraph), Tied g → Acyclic g →
      (∀ n ∈ l, n ∈ g.graphNodes) → ∀ g1, l.foldlM f g = some g1 →
      Tied g1 ∧ Acyclic g1 ∧ g1.graphNodes = g.graphNodes := by
  intro l
  induction l with
  | nil =>
    intro g h hac _ g1 h1
    cases h1
    exact ⟨h, hac, rfl⟩
  | cons x xs ih =>
    intro g h hac hl g1 h1
    rw [List.foldlM_cons] at h1
    cases hx : f g x with
    | none => rw [hx] at h1; cases h1
    | some g2 =>
      rw [hx] at h1
      obtain ⟨a1, a2, a3⟩ := hf g x h hac (hl x (List.mem_cons_self _ _)) g2 hx
      obtain ⟨b1, b2, b3⟩ := ih g2 a1 a2
        (fun n hn => a3 ▸ hl n (List.mem_cons_of_mem _ hn)) g1 h1
      exact ⟨b1, b2, b3.trans a3⟩

lemma kept_sameLists {G g g1 : MKLDNNGraph} (hs : SameLists g g1)
    (h : Tied g ∧ g.graphNodes = G.graphNodes ∧ Shortcut G g) :
    Tied g1 ∧ g1.graphNodes = G.graphNodes ∧ Shortcut G g1 :=
  ⟨tied_sameLists hs h.1, hs.1.1.trans h.2.1, shortcut_trans h.2.2 (shortcut_sameLists hs)⟩

lemma kept_remove {G g : MKLDNNGraph} (n : NodeId)
    (h : Tied g ∧ g.graphNodes = G.graphNodes ∧ Shortcut G g) :
    Tied (remove g n) ∧ (remove g n).graphNodes = G.graphNodes ∧ Shortcut G (remove g n) :=
  ⟨tied_remove h.1 n, (remove_sameFrame g n).1.trans h.2.1,
    shortcut_trans h.2.2 (shortcut_remove g n)⟩

lemma kept_DropNode {G g : MKLDNNGraph} (hac : Acyclic G)
    (h : Tied g ∧ g.graphNodes = G.graphNodes ∧ Shortcut G g) {node : NodeId}
    (hn : node ∈ G.graphNodes) :
    ∃ g1, DropNode g node = some g1 ∧
      (Tied g1 ∧ g1.graphNodes = G.graphNodes ∧ Shortcut G g1) := by
  obtain ⟨g1, h1, h2, h3, h4⟩ := DropNode_shortcut h.1 (acyclic_of_shortcut h.2.2 hac)
    (h.2.1 ▸ hn)
  exact ⟨g1, h1, h2, h3.trans h.2.1, shortcut_trans h.2.2 h4⟩

lemma kept_result {G g1 : MKLDNNGraph} (hac : Acyclic G)
    (h : Tied g1 ∧ g1.graphNodes = G.graphNodes ∧ Shortcut G g1) :
    Tied g1 ∧ Acyclic g1 ∧ g1.graphNodes = G.graphNodes :=
  ⟨h.1, acyclic_of_shortcut h.2.2 hac, h.2.1⟩

lemma kept_start {G : MKLDNNGraph} (h : Tied G) :
    Tied G ∧ G.graphNodes = G.graphNodes ∧ Shortcut G G :=
  ⟨h, rfl, shortcut_refl G⟩

lemma RemoveIdentityOperator_step_acyclic (g : MKLDNNGraph) (n : NodeId) (h : Tied g)
    (hac : Acyclic g) (hn : n ∈ g.graphNodes) (g1 : MKLDNNGraph)
    (h1 : RemoveIdentityOperator.step g n = some g1) :
    Tied g1 ∧ Acyclic g1 ∧ g1.graphNodes = g.graphNodes := by
  unfold RemoveIdentityOperator.step at h1
  split at h1
  · cases h1
  · obtain ⟨g2, h2, h3⟩ := kept_DropNode hac (kept_start h) hn
    rw [h2] at h1
    cases h1
    exact kept_result hac h3
  · cases h1
    exact ⟨h, hac, rfl⟩

lemma FuseBatchNormWithScale_step_acyclic (g : MKLDNNGraph) (n : NodeId) (h : Tied g)
    (hac : Acyclic g) (_hn : n ∈ g.graphNodes) (g1 : MKLDNNGraph)
    (h1 : FuseBatchNormWithScale.step g n = some g1) :
    Tied g1 ∧ Acyclic g1 ∧ g1.graphNodes = g.graphNodes := by
  unfold FuseBatchNormWithScale.step at h1
  repeat' split at h1
  all_goals first
    | (cases h1; exact ⟨h, hac, rfl⟩)
    | exact Option.noConfusion h1
    | skip
  rename_i child hc _
  obtain ⟨g2, h2, h3⟩ := kept_DropNode hac
    (kept_sameLists (sameLists_fuseWith g n child) (kept_start h)) (getChild_eq_some hc).2
  rw [h2] at h1
  cases h1
  exact kept_result hac h3

lemma fuse_acyclic {g : MKLDNNGraph} {conv relu : NodeId} (h : Tied g) (hac : Acyclic g)
    (hr : relu ∈ g.graphNodes) {g1 : MKLDNNGraph}
    (h1 : FuseConvolutionAndActivation.fuse g conv relu = some g1) :
    Tied g1 ∧ Acyclic g1 ∧ g1.graphNodes = g.graphNodes := by
  unfold FuseConvolutionAndActivation.fuse at h1
  obtain ⟨g2, h2, h3⟩ := kept_DropNode hac
    (kept_sameLists (sameLists_fuseWith _ conv relu)
      (kept_sameLists (sameLists_setType g conv .Convolution_Activation) (kept_start h))) hr
  rw [h2] at h1
  cases h1
  exact kept_result hac h3

lemma FuseConvolutionAndActivation_step_acyclic (g : MKLDNNGraph) (n : NodeId) (h : Tied g)
    (hac : Acyclic g) (_hn : n ∈ g.graphNodes) (g1 : MKLDNNGraph)
    (h1 : FuseConvolutionAndActivation.step g n = some g1) :
    Tied g1 ∧ Acyclic g1 ∧ g1.graphNodes = g.graphNodes := by
  unfold FuseConvolutionAndActivation.step at h1
  repeat' split at h1
  all_goals first
    | (cases h1; exact ⟨h, hac, rfl⟩)
    | exact Option.noConfusion h1
    | exact fuse_acyclic h hac (getChild_eq_some (by assumption)).2 h1

end MKLDNNPlugin

namespace MKLDNNPlugin

lemma sameLists_mergeWith (g : MKLDNNGraph) (n m : NodeId) : SameLists g (mergeWith g n m) :=
  sameLists_setNode g n _ rfl rfl

lemma merge_kept {G : MKLDNNGraph} (split conv : NodeId) :
    ∀ (idxs : List Nat) (g : MKLDNNGraph) (a b : List Nat) (g1 : MKLDNNGraph)
      (a1 b1 : List Nat),
      (Tied g ∧ g.graphNodes = G.graphNodes ∧ Shortcut G g) →
      MergeGroupConvolution.merge split conv idxs (g, a, b) = some (g1, a1, b1) →
      (Tied g1 ∧ g1.graphNodes = G.graphNodes ∧ Shortcut G g1) := by
  intro idxs
  induction idxs with
  | nil =>
    intro g a b g1 a1 b1 h h1
    unfold MergeGroupConvolution.merge at h1
    cases h1
    exact h
  | cons i rest ih =>
    intro g a b g1 a1 b1 h h1
    unfold MergeGroupConvolution.merge at h1
    repeat' split at h1
    all_goals first
      | exact Option.noConfusion h1
      | skip
    dsimp only at h1
    repeat' split at h1
    all_goals first
      | exact Option.noConfusion h1
      | skip
    refine ih _ _ _ _ _ _ ?_ h1
    exact kept_remove _ (kept_sameLists (sameLists_mergeWith _ _ _) h)

end MKLDNNPlugin

namespace MKLDNNPlugin

lemma MergeGroupConvolution_step_acyclic (g : MKLDNNGraph) (n : NodeId) (h : Tied g)
    (hac : Acyclic g) (hn : n ∈ g.graphNodes) (g1 : MKLDNNGraph)
    (h1 : MergeGroupConvolution.step g n = some g1) :
    Tied g1 ∧ Acyclic g1 ∧ g1.graphNodes = g.graphNodes := by
  unfold MergeGroupConvolution.step at h1
  repeat' split at h1
  all_goals first
    | (cases h1; exact ⟨h, hac, rfl⟩)
    | exact Option.noConfusion h1
    | skip
  all_goals try dsimp only at h1
  repeat' split at h1
  all_goals first
    | (cases h1; exact ⟨h, hac, rfl⟩)
    | exact Option.noConfusion h1
    | skip
  rename_i conv _ _ _ _ _ _ concat hconcat _ _ _ gm _ _ hmerge _ inD _ _ outD _ _ g4 hdrop
  have k1 := merge_kept n _ _ _ _ _ _ _ _ (kept_start h) hmerge
  have k2 := kept_sameLists (sameLists_setNode gm conv
    { gm.node conv with inDims := inD } rfl rfl) k1
  have k3 := kept_sameLists (sameLists_setNode _ conv
    { (gm.setNode conv { gm.node conv with inDims := inD }).node conv with
      outDims := outD } rfl rfl) k2
  obtain ⟨g5, e1, k4⟩ := kept_DropNode hac k3 hn
  have e2 : g5 = g4 := Option.some.inj (e1.symm.trans hdrop)
  subst e2
  obtain ⟨g6, e3, k5⟩ := kept_DropNode hac k4 (getChild_eq_some hconcat).2
  rw [e3] at h1
  cases h1
  exact kept_result hac k5

end MKLDNNPlugin

namespace MKLDNNPlugin

/-! The fusion of a sum into a convolution keeps the graph acyclic -/

lemma getParentEdgeAt_inv {g : MKLDNNGraph} {n : NodeId} {k : Nat} {e : EdgeId}
    (h : getParentEdgeAt g n k = some e) :
    (g.node n).parentEdges[k]? = some (some e) ∧ e ∈ g.graphEdges := by
  unfold getParentEdgeAt at h
  split at h
  · cases h
  · rename_i w hw
    rw [List.get?_eq_getElem?] at hw
    obtain ⟨h1, h2⟩ := lock_eq_some h
    rw [hw, h1]
    exact ⟨rfl, h2⟩

lemma getChildEdgeAt_inv {g : MKLDNNGraph} {n : NodeId} {k : Nat} {e : EdgeId}
    (h : getChildEdgeAt g n k = some e) :
    (g.node n).childEdges[k]? = some (some e) ∧ e ∈ g.graphEdges := by
  unfold getChildEdgeAt at h
  split at h
  · cases h
  · rename_i w hw
    rw [List.get?_eq_getElem?] at hw
    obtain ⟨h1, h2⟩ := lock_eq_some h
    rw [hw, h1]
    exact ⟨rfl, h2⟩

/-- A candidate pair is made of the producers of two live edges held at the two
positions of the parent list of the sum. -/
lemma candidate_inv {g : MKLDNNGraph} {sum mc peer : NodeId}
    (h : FuseConvolutionSum.candidate g sum = some (some (mc, peer))) :
    ∃ (i j : Nat) (em ep : EdgeId), i ≠ j ∧
      (g.node sum).parentEdges[i]? = some (some em) ∧ em ∈ g.graphEdges ∧
      getParent g em = some mc ∧
      (g.node sum).parentEdges[j]? = some (some ep) ∧ ep ∈ g.graphEdges ∧
      getParent g ep = some peer := by
  unfold FuseConvolutionSum.candidate at h
  repeat' split at h
  all_goals first
    | exact Option.noConfusion h
    | (cases h; done)
    | skip
  · rename_i pe1 h1 _ parent1 hp1 _ pe2 h2 _ parent2 hp2 _ _
    cases h
    exact ⟨0, 1, pe1, pe2, by decide, (getParentEdgeAt_inv h1).1, (getParentEdgeAt_inv h1).2,
      hp1, (getParentEdgeAt_inv h2).1, (getParentEdgeAt_inv h2).2, hp2⟩
  · rename_i pe1 h1 _ parent1 hp1 _ pe2 h2 _ parent2 hp2 _ _
    cases h
    exact ⟨1, 0, pe2, pe1, by decide, (getParentEdgeAt_inv h2).1, (getParentEdgeAt_inv h2).2,
      hp2, (getParentEdgeAt_inv h1).1, (getParentEdgeAt_inv h1).2, hp1⟩

lemma fuseAllowed_inv {g : MKLDNNGraph} {sum mc peer : NodeId}
    (h : FuseConvolutionSum.fuseAllowed g sum mc peer = some true) :
    (g.node mc).childEdges.length = 1 := by
  unfold FuseConvolutionSum.fuseAllowed at h
  split at h
  · cases h
  · rename_i fa hfa
    have h1 := (checkConsumers_true_imp g sum _ fa h).1
    subst h1
    have h2 := (checkParents_true_imp g mc peer _ _ hfa).1
    exact of_decide_eq_true h2

lemma retag_inv {g : MKLDNNGraph} {sum mc ln : NodeId} {gr : MKLDNNGraph}
    (h : FuseConvolutionSum.retag g sum mc = some (ln, gr)) :
    SameLists g gr ∧ (ln = sum ∨ ln ∈ children g sum) := by
  unfold FuseConvolutionSum.retag at h
  repeat' split at h
  all_goals first
    | exact Option.noConfusion h
    | skip
  · rename_i ce hce _ relu hrelu _
    cases h
    refine ⟨(sameLists_setType g mc _).lists_trans (sameLists_fuseWith _ mc sum), Or.inr ?_⟩
    exact mem_children_of_slot (getChildEdgeAt_inv hce).1 (getChildEdgeAt_inv hce).2 hrelu
  · cases h
    exact ⟨sameLists_setType g mc _, Or.inl rfl⟩
  · cases h
    exact ⟨sameLists_setType g mc _, Or.inl rfl⟩

end MKLDNNPlugin

namespace MKLDNNPlugin

/-- What the tests of a fused candidate give on a linked graph: the sum is a
consumer of both producers, the convolution has no other consumer, and the two
producers are distinct. -/
lemma sum_facts {g : MKLDNNGraph} (h : Linked g) {sum mc peer : NodeId}
    (hs : sum ∈ g.graphNodes)
    (hcand : FuseConvolutionSum.candidate g sum = some (some (mc, peer)))
    (hfa : FuseConvolutionSum.fuseAllowed g sum mc peer = some true) :
    childRel g mc sum ∧ childRel g peer sum ∧ (∀ x, childRel g mc x → x = sum) ∧
      mc ≠ peer := by
  obtain ⟨i, j, em, ep, hij, hi, hem, hpm, hj, hep, hpp⟩ := candidate_inv hcand
  have hlen := fuseAllowed_inv hfa
  have mi : some em ∈ (g.node sum).parentEdges := List.mem_iff_getElem?.mpr ⟨i, hi⟩
  have mj : some ep ∈ (g.node sum).parentEdges := List.mem_iff_getElem?.mpr ⟨j, hj⟩
  have pm := h.paired sum hs em mi hem
  rw [(getParent_eq_some hpm).1] at pm
  have pp := h.paired sum hs ep mj hep
  rw [(getParent_eq_some hpp).1] at pp
  have cm : getChild g em = some sum := by
    unfold getChild
    rw [((h.cons.2.1 sum hs em mi).2 hem).1]
    simp [hs]
  have cp : getChild g ep = some sum := by
    unfold getChild
    rw [((h.cons.2.1 sum hs ep mj).2 hep).1]
    simp [hs]
  obtain ⟨w, hw⟩ := List.length_eq_one.mp hlen
  have hwm : w = some em := by
    rw [hw] at pm
    exact (List.mem_singleton.mp pm).symm
  subst hwm
  refine ⟨mem_children_of_mem pm hem cm, mem_children_of_mem pp hep cp, ?_, ?_⟩
  · intro x hx
    obtain ⟨k, e, hk, _, hc⟩ := mem_children_iff.mp hx
    have hme : some e ∈ (g.node mc).childEdges := List.mem_iff_getElem?.mpr ⟨k, hk⟩
    rw [hw] at hme
    have hee : e = em := Option.some.inj (List.mem_singleton.mp hme)
    rw [hee, cm] at hc
    exact (Option.some.inj hc).symm
  · intro hmp
    rw [← hmp, hw] at pp
    have hee : ep = em := Option.some.inj (List.mem_singleton.mp pp)
    rw [hee] at hj
    exact hij (h.nodup sum hs i j em hi hj hem)

/-- On an acyclic graph no path leads from the convolution of a fused candidate
to its peer. -/
lemma sum_no_path {g : MKLDNNGraph} (hac : Acyclic g) {sum mc peer : NodeId}
    (hf : childRel g mc sum ∧ childRel g peer sum ∧ (∀ x, childRel g mc x → x = sum) ∧
      mc ≠ peer) :
    ¬ Relation.ReflTransGen (childRel g) mc peer := by
  intro hp
  rcases Relation.ReflTransGen.cases_head hp with h1 | ⟨x, h1, h2⟩
  · exact hf.2.2.2 h1
  · have hx := hf.2.2.1 x h1
    subst hx
    exact hac x (Relation.TransGen.tail' h2 hf.2.1)

/-- Creating an edge from `p` to `c` and attaching it adds to the child steps of
the graph at most the pair (`p`, `c`). -/
lemma plus_connect {H γ : MKLDNNGraph} {peer mc p c : NodeId}
    (hJ : Tied γ ∧ γ.graphNodes = H.graphNodes ∧
      ∀ u v, childRel γ u v → Relation.TransGen (childRel H) u v ∨ (u = peer ∧ v = mc))
    (hpc : Relation.TransGen (childRel H) p c ∨ (p = peer ∧ c = mc)) (pIndex cIndex : Nat) :
    Tied (addEdge (pushNewEdge γ p c).2 (pushNewEdge γ p c).1 pIndex cIndex) ∧
      (addEdge (pushNewEdge γ p c).2 (pushNewEdge γ p c).1 pIndex cIndex).graphNodes =
        H.graphNodes ∧
      ∀ u v, childRel (addEdge (pushNewEdge γ p c).2 (pushNewEdge γ p c).1 pIndex cIndex) u v →
        Relation.TransGen (childRel H) u v ∨ (u = peer ∧ v = mc) := by
  have hf := (addEdge_refsFrom (pushNewEdge γ p c).2 (pushNewEdge γ p c).1 pIndex cIndex).1
  refine ⟨tied_addEdge (tied_pushNewEdge hJ.1 p c) (fresh_pushNewEdge hJ.1.1 p c) _ _, ?_, ?_⟩
  · rw [hf.1, pushNewEdge_graphNodes]
    exact hJ.2.1
  · intro u v huv
    rcases childRel_addEdge huv with h1 | ⟨h1, h2⟩
    · have h3 : v ∈ children (pushNewEdge γ p c).2 u := h1
      rw [children_pushNewEdge hJ.1.1.bounded] at h3
      exact hJ.2.2 u v h3
    · have e1 := (getParent_eq_some h1).1
      have e2 := (getChild_eq_some h2).1
      rw [pushNewEdge_fst, pushNewEdge_edge_new] at e1 e2
      simp only at e1 e2
      rw [← e1, ← e2]
      exact hpc

lemma plus_remove {H γ : MKLDNNGraph} {peer mc : NodeId} (n : NodeId)
    (hJ : Tied γ ∧ γ.graphNodes = H.graphNodes ∧
      ∀ u v, childRel γ u v → Relation.TransGen (childRel H) u v ∨ (u = peer ∧ v = mc)) :
    Tied (remove γ n) ∧ (remove γ n).graphNodes = H.graphNodes ∧
      ∀ u v, childRel (remove γ n) u v →
        Relation.TransGen (childRel H) u v ∨ (u = peer ∧ v = mc) :=
  ⟨tied_remove hJ.1 n, (remove_sameFrame γ n).1.trans hJ.2.1, fun u v huv =>
    hJ.2.2 u v (children_sub_of_shrinks (remove_sameFrame γ n) (remove_shrinks γ n u).2 huv)⟩

lemma plus_rewireStep {H γ γ1 : MKLDNNGraph} {peer mc ln : NodeId} {j : Nat}
    (hml : Relation.TransGen (childRel H) mc ln) (hlp : ln ≠ peer)
    (hJ : Tied γ ∧ γ.graphNodes = H.graphNodes ∧
      ∀ u v, childRel γ u v → Relation.TransGen (childRel H) u v ∨ (u = peer ∧ v = mc))
    (h1 : FuseConvolutionSum.rewireStep mc ln j γ = some γ1) :
    Tied γ1 ∧ γ1.graphNodes = H.graphNodes ∧
      ∀ u v, childRel γ1 u v → Relation.TransGen (childRel H) u v ∨ (u = peer ∧ v = mc) := by
  unfold FuseConvolutionSum.rewireStep at h1
  split at h1
  · cases h1
  · rename_i edgePtr he
    split at h1
    · cases h1
    · rename_i child hc
      cases h1
      have hch : childRel γ ln child :=
        mem_children_of_slot (getChildEdgeAt_inv he).1 (getChildEdgeAt_inv he).2 hc
      refine plus_connect hJ (Or.inl ?_) _ _
      rcases hJ.2.2 ln child hch with h2 | ⟨h2, _⟩
      · exact hml.trans h2
      · exact absurd h2 hlp

lemma plus_rewire {H : MKLDNNGraph} {peer mc ln : NodeId}
    (hml : Relation.TransGen (childRel H) mc ln) (hlp : ln ≠ peer) :
    ∀ (idxs : List Nat) (γ γ1 : MKLDNNGraph),
      (Tied γ ∧ γ.graphNodes = H.graphNodes ∧
        ∀ u v, childRel γ u v → Relation.TransGen (childRel H) u v ∨ (u = peer ∧ v = mc)) →
      FuseConvolutionSum.rewire mc ln idxs γ = some γ1 →
      (Tied γ1 ∧ γ1.graphNodes = H.graphNodes ∧
        ∀ u v, childRel γ1 u v → Relation.TransGen (childRel H) u v ∨ (u = peer ∧ v = mc)) := by
  intro idxs
  induction idxs with
  | nil =>
    intro γ γ1 hJ h1
    unfold FuseConvolutionSum.rewire at h1
    cases h1
    exact hJ
  | cons j rest ih =>
    intro γ γ1 hJ h1
    unfold FuseConvolutionSum.rewire at h1
    split at h1
    · cases h1
    · rename_i γ2 h2
      exact ih γ2 γ1 (plus_rewireStep hml hlp hJ h2) h1

end MKLDNNPlugin

namespace MKLDNNPlugin

/-- Lines 315 to 341 add to the child steps of the graph at most the pair (peer,
convolution), besides paths the graph already had. -/
lemma plus_connect_all {H g1 : MKLDNNGraph} {sum mc peer ln : NodeId} (hL : Tied H)
    (hml : Relation.TransGen (childRel H) mc ln) (hlp : ln ≠ peer)
    (h1 : FuseConvolutionSum.connect H sum mc peer ln = some g1) :
    Tied g1 ∧ g1.graphNodes = H.graphNodes ∧
      ∀ u v, childRel g1 u v → Relation.TransGen (childRel H) u v ∨ (u = peer ∧ v = mc) := by
  have h0 : Tied H ∧ H.graphNodes = H.graphNodes ∧
      ∀ u v, childRel H u v → Relation.TransGen (childRel H) u v ∨ (u = peer ∧ v = mc) :=
    ⟨hL, rfl, fun _ _ huv => Or.inl (Relation.TransGen.single huv)⟩
  unfold FuseConvolutionSum.connect at h1
  dsimp only at h1
  split at h1
  · cases h1
  · rename_i k _
    split at h1
    · cases h1
    · rename_i g5 h5
      have h4 := @plus_connect H H peer mc peer mc h0 (Or.inr ⟨rfl, rfl⟩)
        ((pushNewEdge H peer mc).2.node mc).parentEdges.length k
      have hJ5 := plus_rewire hml hlp _ _ _ h4 h5
      cases h1
      by_cases hls : ln ≠ sum
      · rw [if_pos hls]
        exact plus_remove sum (plus_remove ln hJ5)
      · rw [if_neg hls]
        exact plus_remove sum hJ5

lemma FuseConvolutionSum_step_acyclic (g : MKLDNNGraph) (n : NodeId) (h : Tied g)
    (hac : Acyclic g) (hn : n ∈ g.graphNodes) (g1 : MKLDNNGraph)
    (h1 : FuseConvolutionSum.step g n = some g1) :
    Tied g1 ∧ Acyclic g1 ∧ g1.graphNodes = g.graphNodes := by
  unfold FuseConvolutionSum.step at h1
  split at h1
  · cases h1
  · cases h1
    exact ⟨h, hac, rfl⟩
  · rename_i mc peer hcand
    split at h1
    · cases h1
    · cases h1
      exact ⟨h, hac, rfl⟩
    · rename_i hfa
      have hf := sum_facts h.1 hn hcand hfa
      have hnp := sum_no_path hac hf
      unfold FuseConvolutionSum.apply at h1
      split at h1
      · cases h1
      · rename_i ln gr hre
        obtain ⟨hs0, hln⟩ := retag_inv hre
        have hs : SameLists g (fuseWith gr mc ln) :=
          hs0.lists_trans (sameLists_fuseWith gr mc ln)
        have hback := sameLists_shortcut_back hs
        have hmlg : Relation.TransGen (childRel g) mc ln := by
          rcases hln with h2 | h2
          · rw [h2]
            exact Relation.TransGen.single hf.1
          · exact (Relation.TransGen.single hf.1).tail h2
        have hlp : ln ≠ peer := by
          intro hq
          rw [hq] at hmlg
          exact hnp hmlg.to_reflTransGen
        have hacH : Acyclic (fuseWith gr mc ln) :=
          acyclic_of_shortcut (shortcut_sameLists hs) hac
        have hnpH : ¬ Relation.ReflTransGen (childRel (fuseWith gr mc ln)) mc peer := by
          intro hp
          refine hnp (Relation.ReflTransGen.mono (fun u v huv => ?_) hp)
          have h3 : v ∈ children (fuseWith gr mc ln) u := huv
          rw [hs.children_eq u] at h3
          exact h3
        obtain ⟨j1, j2, j3⟩ := plus_connect_all (tied_sameLists hs h)
          (transGen_of_shortcut hback hmlg) hlp h1
        exact ⟨j1, acyclic_add_pair hacH hnpH j3, j2.trans hs.1.1⟩

end MKLDNNPlugin

namespace MKLDNNPlugin

/-! The sweeps and the whole pipeline -/

lemma not_dropped_of_child {g : MKLDNNGraph} {p : NodeId} {e : EdgeId}
    (he : some e ∈ (g.node p).childEdges) (hl : e ∈ g.graphEdges) :
    nodeIsDropped g p = false := by
  cases hd : nodeIsDropped g p with
  | false => rfl
  | true =>
    exfalso
    unfold nodeIsDropped at hd
    rw [Bool.and_eq_true, List.all_eq_true, List.all_eq_true] at hd
    have := hd.2 (some e) he
    rw [lock_some_of_mem hl] at this
    cases this

lemma not_dropped_of_parent {g : MKLDNNGraph} {c : NodeId} {e : EdgeId}
    (he : some e ∈ (g.node c).parentEdges) (hl : e ∈ g.graphEdges) :
    nodeIsDropped g c = false := by
  cases hd : nodeIsDropped g c with
  | false => rfl
  | true =>
    exfalso
    unfold nodeIsDropped at hd
    rw [Bool.and_eq_true, List.all_eq_true, List.all_eq_true] at hd
    have := hd.1 (some e) he
    rw [lock_some_of_mem hl] at this
    cases this

lemma mem_RemoveDropped_of {g : MKLDNNGraph} :
    ∀ (rest done : List NodeId) (x : NodeId),
      (x ∈ done ∨ (x ∈ rest ∧ nodeIsDropped g x = false)) →
      x ∈ RemoveDropped.loop g done rest := by
  intro rest
  induction rest with
  | nil =>
    intro done x h
    rcases h with h | ⟨h, _⟩
    · simpa [RemoveDropped.loop] using h
    · cases h
  | cons n rest ih =>
    intro done x h
    unfold RemoveDropped.loop
    by_cases hd : nodeIsDropped g n = true
    · have hd1 : nodeIsDropped { g with graphNodes := done ++ n :: rest } n = true := hd
      rw [hd1]
      simp only [if_true]
      apply ih
      rcases h with h | ⟨h, h2⟩
      · exact Or.inl h
      · rcases List.mem_cons.mp h with h3 | h3
        · rw [h3, hd] at h2
          cases h2
        · exact Or.inr ⟨h3, h2⟩
    · have hd0 : nodeIsDropped g n = false := by simpa using hd
      have hd1 : nodeIsDropped { g with graphNodes := done ++ n :: rest } n = false := hd0
      rw [hd1]
      simp only [Bool.false_eq_true, if_false]
      apply ih
      rcases h with h | ⟨h, h2⟩
      · exact Or.inl (List.mem_append_left _ h)
      · rcases List.mem_cons.mp h with h3 | h3
        · exact Or.inl (List.mem_append_right _ (List.mem_singleton.mpr h3))
        · exact Or.inr ⟨h3, h2⟩

lemma mem_RemoveDropped_iff {g : MKLDNNGraph} {x : NodeId} :
    x ∈ (RemoveDropped g).graphNodes ↔ x ∈ g.graphNodes ∧ nodeIsDropped g x = false :=
  ⟨mem_RemoveDropped, fun h => mem_RemoveDropped_of g.graphNodes [] x (Or.inr h)⟩

/-- The node sweep keeps the graph tied: a node it takes away is at neither end
of a live edge. -/
lemma tied_RemoveDropped {g : MKLDNNGraph} (h : Tied g) : Tied (RemoveDropped g) := by
  obtain ⟨⟨⟨c1, c2, c3⟩, hp, hn, hb⟩, hk⟩ := h
  refine ⟨⟨⟨c1, ?_, ?_⟩, ?_, ?_, hb⟩, ?_⟩
  · intro n hm e he
    have hm0 := (mem_RemoveDropped hm).1
    refine ⟨(c2 n hm0 e he).1, fun hl => ?_⟩
    have h1 := (c2 n hm0 e he).2 hl
    exact ⟨h1.1, mem_RemoveDropped_iff.mpr ⟨h1.2, not_dropped_of_child (hp n hm0 e he hl) hl⟩⟩
  · intro n hm e he
    have hm0 := (mem_RemoveDropped hm).1
    refine ⟨(c3 n hm0 e he).1, fun hl => ?_⟩
    have h1 := (c3 n hm0 e he).2 hl
    exact ⟨h1.1, mem_RemoveDropped_iff.mpr
      ⟨h1.2, not_dropped_of_parent (hk n hm0 e he hl (by simp)) hl⟩⟩
  · intro n hm e he hl
    exact hp n (mem_RemoveDropped hm).1 e he hl
  · intro n hm i j e hi hj hl
    exact hn n (mem_RemoveDropped hm).1 i j e hi hj hl
  · intro n hm e he hl hne
    exact hk n (mem_RemoveDropped hm).1 e he hl hne

lemma shortcut_RemoveDropped (g : MKLDNNGraph) : Shortcut g (RemoveDropped g) := by
  intro u v h
  obtain ⟨i, e, hi, he, hc⟩ := mem_children_iff.mp h
  have hc1 := getChild_eq_some hc
  have hgc : getChild g e = some v := by
    unfold getChild
    have : (g.edge e).child = v := hc1.1
    rw [this]
    simp [(mem_RemoveDropped hc1.2).1]
  exact Relation.TransGen.single (mem_children_of_slot (g := g) hi he hgc)

lemma shortcut_RemoveDroppedEdges (g : MKLDNNGraph) : Shortcut g (RemoveDroppedEdges g) := by
  intro u v h
  obtain ⟨i, e, hi, he, hc⟩ := mem_children_iff.mp h
  have he0 : e ∈ g.graphEdges := by
    rcases mem_RemoveDroppedEdges_loop g g.graphEdges [] e he with h1 | ⟨h1, _⟩
    · cases h1
    · exact h1
  exact Relation.TransGen.single (mem_children_of_slot (g := g) hi he0 hc)

end MKLDNNPlugin

namespace MKLDNNPlugin

/-! The tests of the linking, and the graphs built by `mkGraph` -/

lemma nodup_of_filterMap :
    ∀ (l : List MKLDNNEdgeWeakPtr), (l.filterMap id).Nodup →
      ∀ (i j : Nat) (e : EdgeId), l[i]? = some (some e) → l[j]? = some (some e) → i = j := by
  intro l
  induction l with
  | nil => intro _ i j e hi; simp at hi
  | cons w t ih =>
    intro hn i j e hi hj
    have hmem : ∀ (k : Nat), t[k]? = some (some e) → e ∈ t.filterMap id := by
      intro k hk
      rw [List.mem_filterMap]
      exact ⟨some e, List.mem_iff_getElem?.mpr ⟨k, hk⟩, rfl⟩
    have htail : (t.filterMap id).Nodup := by
      cases w with
      | none => simpa [List.filterMap_cons] using hn
      | some a =>
        rw [List.filterMap_cons] at hn
        simp only [id] at hn
        exact (List.nodup_cons.mp hn).2
    cases i with
    | zero =>
      cases j with
      | zero => rfl
      | succ j =>
        exfalso
        simp only [List.getElem?_cons_zero, Option.some.injEq] at hi
        simp only [List.getElem?_cons_succ] at hj
        subst hi
        rw [List.filterMap_cons] at hn
        simp only [id] at hn
        exact (List.nodup_cons.mp hn).1 (hmem j hj)
    | succ i =>
      cases j with
      | zero =>
        exfalso
        simp only [List.getElem?_cons_zero, Option.some.injEq] at hj
        simp only [List.getElem?_cons_succ] at hi
        subst hj
        rw [List.filterMap_cons] at hn
        simp only [id] at hn
        exact (List.nodup_cons.mp hn).1 (hmem i hi)
      | succ j =>
        simp only [List.getElem?_cons_succ] at hi hj
        rw [ih htail i j e hi hj]

lemma linked_of_check {g : MKLDNNGraph} (h : linkedRefs g = true)
    (hnil : ∀ n, n ∉ g.graphNodes → (g.node n).childEdges = []) : Linked g := by
  unfold linkedRefs at h
  rw [Bool.and_eq_true, List.all_eq_true] at h
  obtain ⟨h1, h2⟩ := h
  have hc := consistent_of_check h1
  refine ⟨hc, ?_, ?_, ?_⟩
  · intro n hn e he hl
    have h3 := h2 n hn
    rw [Bool.and_eq_true, List.all_eq_true] at h3
    have h4 := h3.1 (some e) he
    simp only [Bool.or_eq_true, Bool.not_eq_true', decide_eq_false_iff_not,
      decide_eq_true_eq] at h4
    exact h4.resolve_left (fun hq => hq hl)
  · intro n hn i j e hi hj _
    have h3 := h2 n hn
    rw [Bool.and_eq_true] at h3
    exact nodup_of_filterMap _ (of_decide_eq_true h3.2) i j e hi hj
  · intro n e he
    by_cases hn : n ∈ g.graphNodes
    · exact (hc.2.2 n hn e he).1
    · rw [hnil n hn] at he
      cases he

lemma tied_of_check {g : MKLDNNGraph} (h : tiedRefs g = true)
    (hnil : ∀ n, n ∉ g.graphNodes → (g.node n).childEdges = []) : Tied g := by
  unfold tiedRefs at h
  rw [Bool.and_eq_true, List.all_eq_true] at h
  obtain ⟨h1, h2⟩ := h
  refine ⟨linked_of_check h1 hnil, ?_⟩
  intro n hn e he hl _
  have h3 := h2 n hn
  rw [List.all_eq_true] at h3
  have h4 := h3 (some e) he
  simp only [Bool.or_eq_true, Bool.not_eq_true', decide_eq_false_iff_not,
    decide_eq_true_eq] at h4
  exact h4.resolve_left (fun hq => hq hl)

lemma mkGraph_childEdges_nil (nodes : List MKLDNNNode) (edges : List MKLDNNEdge)
    (outs : List NodeId) (u : NodeId) (hu : u ∉ (mkGraph nodes edges outs).graphNodes) :
    ((mkGraph nodes edges outs).node u).childEdges = [] := by
  have hlen : nodes.length ≤ u := by
    by_contra hlt
    exact hu (List.mem_range.mpr (Nat.lt_of_not_le hlt))
  have hnode : (mkGraph nodes edges outs).node u = nullNode := by
    show nodes.getD u nullNode = nullNode
    rw [List.getD_eq_getElem?_getD, List.getElem?_eq_none hlen]
    rfl
  rw [hnode]
  rfl

/-- A graph built by `mkGraph` that passes the test of the linking is tied. -/
lemma tied_mkGraph (nodes : List MKLDNNNode) (edges : List MKLDNNEdge) (outs : List NodeId)
    (h : tiedRefs (mkGraph nodes edges outs) = true) : Tied (mkGraph nodes edges outs) :=
  tied_of_check h (mkGraph_childEdges_nil nodes edges outs)

end MKLDNNPlugin

namespace MKLDNNPlugin

/-! Every pass keeps the graph acyclic -/

lemma tied_withEdges {g : MKLDNNGraph} (h : Tied g) (l : List EdgeId)
    (hl : ∀ e ∈ l, e ∈ g.graphEdges) : Tied { g with graphEdges := l } := by
  obtain ⟨⟨⟨c1, c2, c3⟩, hp, hn, hb⟩, hk⟩ := h
  refine ⟨⟨⟨fun e he => c1 e (hl e he), ?_, ?_⟩, ?_, ?_, hb⟩, ?_⟩
  · intro n hm e he
    exact ⟨(c2 n hm e he).1, fun h1 => (c2 n hm e he).2 (hl e h1)⟩
  · intro n hm e he
    exact ⟨(c3 n hm e he).1, fun h1 => (c3 n hm e he).2 (hl e h1)⟩
  · intro n hm e he h1
    exact hp n hm e he (hl e h1)
  · intro n hm i j e hi hj h1
    exact hn n hm i j e hi hj (hl e h1)
  · intro n hm e he h1 hne
    exact hk n hm e he (hl e h1) hne

lemma tied_RemoveDroppedEdges {g : MKLDNNGraph} (h : Tied g) : Tied (RemoveDroppedEdges g) := by
  unfold RemoveDroppedEdges
  refine tied_withEdges h _ (fun e he => ?_)
  rcases mem_RemoveDroppedEdges_loop g g.graphEdges [] e he with h1 | ⟨h1, _⟩
  · cases h1
  · exact h1

lemma pass_acyclic {f : MKLDNNGraph → NodeId → Option MKLDNNGraph}
    (hf : ∀ g n, Tied g → Acyclic g → n ∈ g.graphNodes → ∀ g1, f g n = some g1 →
      Tied g1 ∧ Acyclic g1 ∧ g1.graphNodes = g.graphNodes)
    {g g1 : MKLDNNGraph} (h : Tied g) (hac : Acyclic g)
    (h1 : g.graphNodes.foldlM f g = some g1) : Tied g1 ∧ Acyclic g1 :=
  have h2 := fold_acyclic hf g.graphNodes g h hac (fun _ hn => hn) g1 h1
  ⟨h2.1, h2.2.1⟩

lemma sweep_acyclic {g : MKLDNNGraph} (h : Tied g ∧ Acyclic g) :
    Tied (RemoveDropped g) ∧ Acyclic (RemoveDropped g) :=
  ⟨tied_RemoveDropped h.1, acyclic_of_shortcut (shortcut_RemoveDropped g) h.2⟩

/-- C12: on a graph without a cycle whose edges are listed at both ends, each once,
DropNode returns for every owned node and the graph it returns has no cycle;
whenever one of the five passes returns a graph, that graph has no cycle and
its edges are again listed at both ends; the two sweeps keep both; and so the
graph that the whole pipeline returns has no cycle. -/
theorem passes_keep_graph_acyclic (g : MKLDNNGraph) (ht : Tied g) (hac : Acyclic g) :
    (∀ n ∈ g.graphNodes, ∃ g1, DropNode g n = some g1 ∧ Tied g1 ∧ Acyclic g1) ∧
    (∀ g1, MergeGroupConvolution g = some g1 → Tied g1 ∧ Acyclic g1) ∧
    (∀ g1, FuseConvolutionAndActivation g = some g1 → Tied g1 ∧ Acyclic g1) ∧
    (∀ g1, FuseBatchNormWithScale g = some g1 → Tied g1 ∧ Acyclic g1) ∧
    (∀ g1, RemoveIdentityOperator g = some g1 → Tied g1 ∧ Acyclic g1) ∧
    (∀ g1, FuseConvolutionSumAndConvolutionSumActivation g = some g1 →
      Tied g1 ∧ Acyclic g1) ∧
    (Tied (RemoveDropped g) ∧ Acyclic (RemoveDropped g)) ∧
    (Tied (RemoveDroppedEdges g) ∧ Acyclic (RemoveDroppedEdges g)) ∧
    (∀ g1, Optimize g = some g1 → Tied g1 ∧ Acyclic g1) := by
  refine ⟨?_, fun g1 h1 => pass_acyclic MergeGroupConvolution_step_acyclic ht hac h1,
    fun g1 h1 => pass_acyclic FuseConvolutionAndActivation_step_acyclic ht hac h1,
    fun g1 h1 => pass_acyclic FuseBatchNormWithScale_step_acyclic ht hac h1,
    fun g1 h1 => pass_acyclic RemoveIdentityOperator_step_acyclic ht hac h1,
    fun g1 h1 => pass_acyclic FuseConvolutionSum_step_acyclic ht hac h1,
    sweep_acyclic ⟨ht, hac⟩,
    ⟨tied_RemoveDroppedEdges ht, acyclic_of_shortcut (shortcut_RemoveDroppedEdges g) hac⟩, ?_⟩
  · intro n hn
    obtain ⟨g1, h1, h2, _, h4⟩ := DropNode_shortcut ht hac hn
    exact ⟨g1, h1, h2, acyclic_of_shortcut h4 hac⟩
  · intro g1 h1
    unfold Optimize at h1
    split at h1
    · cases h1
    · rename_i a1 e1
      have k1 := sweep_acyclic (pass_acyclic MergeGroupConvolution_step_acyclic ht hac e1)
      split at h1
      · cases h1
      · rename_i a2 e2
        have k2 := sweep_acyclic
          (pass_acyclic FuseConvolutionAndActivation_step_acyclic k1.1 k1.2 e2)
        split at h1
        · cases h1
        · rename_i a3 e3
          have k3 := sweep_acyclic
            (pass_acyclic FuseBatchNormWithScale_step_acyclic k2.1 k2.2 e3)
          split at h1
          · cases h1
          · rename_i a4 e4
            have k4 := sweep_acyclic
              (pass_acyclic RemoveIdentityOperator_step_acyclic k3.1 k3.2 e4)
            split at h1
            · cases h1
            · rename_i a5 e5
              have k5 := sweep_acyclic
                (pass_acyclic FuseConvolutionSum_step_acyclic k4.1 k4.2 e5)
              cases h1
              exact ⟨tied_RemoveDroppedEdges k5.1,
                acyclic_of_shortcut (shortcut_RemoveDroppedEdges _) k5.2⟩

end MKLDNNPlugin

namespace MKLDNNPlugin

theorem passes_keep_graph_acyclic_witness :
    Tied sumFuseReluGraph ∧ Acyclic sumFuseReluGraph ∧
    (Optimize sumFuseReluGraph).isSome = true ∧
    ((∀ n ∈ sumFuseReluGraph.graphNodes,
        ∃ g1, DropNode sumFuseReluGraph n = some g1 ∧ Tied g1 ∧ Acyclic g1) ∧
      (∀ g1, MergeGroupConvolution sumFuseReluGraph = some g1 → Tied g1 ∧ Acyclic g1) ∧
      (∀ g1, FuseConvolutionAndActivation sumFuseReluGraph = some g1 →
        Tied g1 ∧ Acyclic g1) ∧
      (∀ g1, FuseBatchNormWithScale sumFuseReluGraph = some g1 → Tied g1 ∧ Acyclic g1) ∧
      (∀ g1, RemoveIdentityOperator sumFuseReluGraph = some g1 → Tied g1 ∧ Acyclic g1) ∧
      (∀ g1, FuseConvolutionSumAndConvolutionSumActivation sumFuseReluGraph = some g1 →
        Tied g1 ∧ Acyclic g1) ∧
      (Tied (RemoveDropped sumFuseReluGraph) ∧ Acyclic (RemoveDropped sumFuseReluGraph)) ∧
      (Tied (RemoveDroppedEdges sumFuseReluGraph) ∧
        Acyclic (RemoveDroppedEdges sumFuseReluGraph)) ∧
      (∀ g1, Optimize sumFuseReluGraph = some g1 → Tied g1 ∧ Acyclic g1)) :=
  ⟨tied_mkGraph _ _ _ (by decide), acyclic_mkGraph _ _ _ (by decide), rfl,
    passes_keep_graph_acyclic sumFuseReluGraph (tied_mkGraph _ _ _ (by decide))
      (acyclic_mkGraph _ _ _ (by decide))⟩

end MKLDNNPlugin

namespace VPU

/-! The serializers and the fully-connected lowering -/

/-- C27: an LRN stage with one input and one output writes `size` as one 32-bit
word, then `k`, `alpha` and `beta` as half-precision values, then a
half-precision zero, then its input Data and its output Data, in this order,
after what the writer already holds: one 32-bit word and four 16-bit words
before the Data objects. The stage that parseNorm builds from a layer with
window 5 and `k`, `alpha`, `beta` of 1.5 writes 5, 0x3E00 three times, 0, and
the two Data objects. -/
theorem VpuLRNStage_dumpToBlob_layout :
    (∀ (size : Nat) (k alpha beta : Float32) (writer : BlobWriter) (handle : VpuStageHandle)
      (name : String) (type : VpuStageType) (layer : Option CNNLayer)
      (parentOp : Option VpuStageHandle) (i o : VpuDataHandle),
      VpuStage.dumpToBlob
          { handle := handle, cls := .VpuLRNStage, name := name, type := type, layer := layer,
            params := .lrn size k alpha beta, inputs := [i], outputs := [o],
            parentOp := parentOp } writer =
        some (.ok (writer ++ [Item.u32 (size % 2 ^ 32), Item.f16 (f32tof16 k % 2 ^ 16),
          Item.f16 (f32tof16 alpha % 2 ^ 16), Item.f16 (f32tof16 beta % 2 ^ 16),
          Item.f16 0, Item.data i, Item.data o]))) ∧
    (∀ (s : GraphTransformerImpl) (name : String) (params : List (String × Float32))
      (size : Nat) (k alpha beta : Float32) (i o : VpuDataHandle),
      parseNorm s (some ⟨name, params, .NormLayer size k alpha beta⟩) [i] [o] =
        .ok { s with
          stages := s.stages ++
            [{ handle := s.stageCount, cls := .VpuLRNStage, name := name, type := .kLRN,
               layer := some ⟨name, params, .NormLayer size k alpha beta⟩,
               params := .lrn size k alpha beta, inputs := [i], outputs := [o],
               parentOp := none }]
          stageCount := s.stageCount + 1 }) ∧
    firstStageBlob (parseNorm fcState (some lrnLayer) [0] [1]) =
      some (.ok [Item.u32 5, Item.f16 0x3E00, Item.f16 0x3E00, Item.f16 0x3E00, Item.f16 0,
        Item.data 0, Item.data 1]) := by
  refine ⟨?_, ?_, rfl⟩
  · intro size k alpha beta writer handle name type layer parentOp i o
    simp [VpuStage.dumpToBlob, VpuLRNStage.dumpToBlob, dumpHandleAt, BlobWriter.write32,
      BlobWriter.write16, f32tof16]
  · intro s name params size k alpha beta i o
    simp [parseNorm, addNewStage]

end VPU

namespace VPU

/-- C26, refuted at a concrete input: the FullyConnected stage that
parseFullyConnected builds for an input Data 0, an output Data 1 and the weights
Data 2 has the inputs (0, 2) and the output (1), and writes Data 0, Data 1,
Data 2 and a default-constructed Data: the output is written before the second
input, which is not the order scalars, inputs, outputs. -/
theorem VpuFullyConnectedStage_dumpToBlob_output_before_weights :
    (firstStage (parseFullyConnected sampleHeader fcState (some fcLayer) [0] [1])).map
        (fun st => (st.cls, st.inputs, st.outputs, st.dumpToBlob [],
          scalarsInputsOutputs st [Item.data 0, Item.data 1, Item.data 2, Item.defaultData])) =
      some (.VpuFullyConnectedStage, [0, 2], [1],
        some (.ok [Item.data 0, Item.data 1, Item.data 2, Item.defaultData]), false) ∧
    [Item.data 0, Item.data 1, Item.data 2, Item.defaultData].indexOf (Item.data 1) <
      [Item.data 0, Item.data 1, Item.data 2, Item.defaultData].indexOf (Item.data 2) := by
  refine ⟨rfl, by decide⟩

/-- C26, amended: an ELU stage and an LRN stage with one input and one output write
their scalar parameters first, then the input Data, then the output Data, which
is the order scalars, inputs, outputs. A FullyConnected stage writes no scalar:
it writes its first input, then its first output, then its second input, then
a default-constructed Data, which is not the order scalars, inputs, outputs. -/
theorem dumpToBlob_order_by_stage_class (writer : BlobWriter) (handle : VpuStageHandle)
    (name : String) (type : VpuStageType) (layer : Option CNNLayer)
    (parentOp : Option VpuStageHandle) (i o w : VpuDataHandle) :
    (∀ alpha : Float32,
      VpuStage.dumpToBlob
          { handle := handle, cls := .VpuEluStage, name := name, type := type, layer := layer,
            params := .elu alpha, inputs := [i], outputs := [o], parentOp := parentOp } writer =
        some (.ok (writer ++ [Item.u32 (alpha % 2 ^ 32)] ++ [Item.data i] ++ [Item.data o])) ∧
      scalarsInputsOutputs
          { handle := handle, cls := .VpuEluStage, name := name, type := type, layer := layer,
            params := .elu alpha, inputs := [i], outputs := [o], parentOp := parentOp }
          ([Item.u32 (alpha % 2 ^ 32)] ++ [Item.data i] ++ [Item.data o]) = true) ∧
    (∀ (size : Nat) (k alpha beta : Float32),
      VpuStage.dumpToBlob
          { handle := handle, cls := .VpuLRNStage, name := name, type := type, layer := layer,
            params := .lrn size k alpha beta, inputs := [i], outputs := [o],
            parentOp := parentOp } writer =
        some (.ok (writer ++ [Item.u32 (size % 2 ^ 32), Item.f16 (f32tof16 k % 2 ^ 16),
          Item.f16 (f32tof16 alpha % 2 ^ 16), Item.f16 (f32tof16 beta % 2 ^ 16),
          Item.f16 0] ++ [Item.data i] ++ [Item.data o])) ∧
      scalarsInputsOutputs
          { handle := handle, cls := .VpuLRNStage, name := name, type := type, layer := layer,
            params := .lrn size k alpha beta, inputs := [i], outputs := [o],
            parentOp := parentOp }
          ([Item.u32 (size % 2 ^ 32), Item.f16 (f32tof16 k % 2 ^ 16),
            Item.f16 (f32tof16 alpha % 2 ^ 16), Item.f16 (f32tof16 beta % 2 ^ 16),
            Item.f16 0] ++ [Item.data i] ++ [Item.data o]) = true) ∧
    (∀ params : StageParams,
      VpuStage.dumpToBlob
          { handle := handle, cls := .VpuFullyConnectedStage, name := name, type := type,
            layer := layer, params := params, inputs := [i, w], outputs := [o],
            parentOp := parentOp } writer =
        some (.ok (writer ++ [Item.data i, Item.data o, Item.data w, Item.defaultData])) ∧
      scalarsInputsOutputs
          { handle := handle, cls := .VpuFullyConnectedStage, name := name, type := type,
            layer := layer, params := params, inputs := [i, w], outputs := [o],
            parentOp := parentOp }
          [Item.data i, Item.data o, Item.data w, Item.defaultData] = false) := by
  refine ⟨?_, ?_, ?_⟩
  · intro alpha
    constructor
    · simp [VpuStage.dumpToBlob, VpuEluStage.dumpToBlob, dumpHandleAt, BlobWriter.write32]
    · simp [scalarsInputsOutputs, Item.isScalar, List.dropWhile]
  · intro size k alpha beta
    constructor
    · simp [VpuStage.dumpToBlob, VpuLRNStage.dumpToBlob, dumpHandleAt, BlobWriter.write32,
        BlobWriter.write16, f32tof16]
    · simp [scalarsInputsOutputs, Item.isScalar, List.dropWhile]
  · intro params
    constructor
    · simp [VpuStage.dumpToBlob, VpuFullyConnectedStage.dumpToBlob, dumpHandleAt]
    · simp [scalarsInputsOutputs, Item.isScalar, List.dropWhile]

end VPU

namespace VPU

/-- C25: for a fully-connected layer with weights, one input whose dimensions
start with `X`, `Y`, `Z` and one output, parseFullyConnected succeeds. Without
biases it adds the weights Data and nothing else to the Data objects, and one
stage at the end of the stage list: the FullyConnected stage with the inputs
(input, weights) and the output (output). With biases it adds after the weights
Data a Data named after the layer with the suffix `@biases`, of the sizes
(number of biases as a 32-bit value, 1, 1), and after the FullyConnected stage,
as the next stage of the list, a Bias stage named as the biases Data with the
inputs (output, biases), the output (output) and the FullyConnected stage as
the stage it accumulates into. -/
theorem parseFullyConnected_stages_and_biases (hdr : Header) (s : GraphTransformerImpl)
    (name : String) (params : List (String × Float32)) (weights : Blob)
    (input output : VpuDataHandle) (din dout : VpuData)
    (X Y Z : Nat) (rest : List Nat)
    (hin : s.datas.get? input = some din) (hout : s.datas.get? output = some dout)
    (hdims : din.dims = X :: Y :: Z :: rest) :
    (∃ s1 w, parseFullyConnected hdr s
        (some ⟨name, params, .FullyConnectedLayer (some weights) none⟩) [input] [output] =
          .ok s1 ∧
      s1.datas = s.datas ++ [w] ∧ w.name = name ++ "@weights" ∧
      s1.stages = s.stages ++
        [{ handle := s.stageCount, cls := .VpuFullyConnectedStage, name := name, type := .kFC,
           layer := some ⟨name, params, .FullyConnectedLayer (some weights) none⟩,
           params := .plain, inputs := [input, s.datas.length], outputs := [output],
           parentOp := none }]) ∧
    (∀ biases : Blob, ∃ s1 w b, parseFullyConnected hdr s
        (some ⟨name, params, .FullyConnectedLayer (some weights) (some biases)⟩)
          [input] [output] = .ok s1 ∧
      s1.datas = s.datas ++ [w, b] ∧ w.name = name ++ "@weights" ∧
      b.name = name ++ "@biases" ∧ b.dims = [biases.size % 2 ^ 32, 1, 1] ∧
      b.writer = some (.DefaultBiasesWriter biases) ∧
      s1.stages = s.stages ++
        [{ handle := s.stageCount, cls := .VpuFullyConnectedStage, name := name, type := .kFC,
           layer := some ⟨name, params, .FullyConnectedLayer (some weights) (some biases)⟩,
           params := .plain, inputs := [input, s.datas.length], outputs := [output],
           parentOp := none },
         { handle := s.stageCount + 1, cls := .VpuBiasStage, name := name ++ "@biases",
           type := .kBias,
           layer := some ⟨name, params, .FullyConnectedLayer (some weights) (some biases)⟩,
           params := .plain, inputs := [output, s.datas.length + 1], outputs := [output],
           parentOp := some s.stageCount }]) := by
  have hX : VpuDims.at din.dims .X = .ok X := by rw [hdims]; rfl
  have hY : VpuDims.at din.dims .Y = .ok Y := by rw [hdims]; rfl
  have hZ : VpuDims.at din.dims .Z = .ok Z := by rw [hdims]; rfl
  have hdi : dimsOf s input = .ok din.dims := by
    unfold dimsOf
    rw [hin]
  have hdo : dimsOf s output = .ok dout.dims := by
    unfold dimsOf
    rw [hout]
  constructor
  · refine ⟨parseFullyConnected.stages hdr
        (addNewData hdr s (parseFullyConnected.weightsInit hdr
          ⟨name, params, .FullyConnectedLayer (some weights) none⟩ weights
          [mulU32 X Y, Z, hdr.totalSize dout.dims])).2
        ⟨name, params, .FullyConnectedLayer (some weights) none⟩ none input output
        s.datas.length,
      parseFullyConnected.weightsInit hdr
        ⟨name, params, .FullyConnectedLayer (some weights) none⟩ weights
        [mulU32 X Y, Z, hdr.totalSize dout.dims] hdr.blank, ?_, ?_, rfl, ?_⟩
    · simp only [parseFullyConnected, List.length_singleton, ne_eq, not_true_eq_false,
        if_false, List.get?_cons_zero, hdi, hX, hY, hZ, hdo]
      rfl
    · simp [parseFullyConnected.stages, addNewStage, addNewData]
    · simp [parseFullyConnected.stages, addNewStage, addNewData]
  · intro biases
    refine ⟨parseFullyConnected.stages hdr
        (addNewData hdr s (parseFullyConnected.weightsInit hdr
          ⟨name, params, .FullyConnectedLayer (some weights) (some biases)⟩ weights
          [mulU32 X Y, Z, hdr.totalSize dout.dims])).2
        ⟨name, params, .FullyConnectedLayer (some weights) (some biases)⟩ (some biases)
        input output s.datas.length,
      parseFullyConnected.weightsInit hdr
        ⟨name, params, .FullyConnectedLayer (some weights) (some biases)⟩ weights
        [mulU32 X Y, Z, hdr.totalSize dout.dims] hdr.blank,
      parseFullyConnected.biasesInit hdr
        ⟨name, params, .FullyConnectedLayer (some weights) (some biases)⟩ biases hdr.blank,
      ?_, ?_, rfl, rfl, rfl, rfl, ?_⟩
    · simp only [parseFullyConnected, List.length_singleton, ne_eq, not_true_eq_false,
        if_false, List.get?_cons_zero, hdi, hX, hY, hZ, hdo]
      rfl
    · simp [parseFullyConnected.stages, addNewStage, addNewData]
    · simp only [parseFullyConnected.stages, addNewStage, addNewData, List.get?_eq_getElem?]
      rw [List.getElem?_append_right (by simp)]
      simp [parseFullyConnected.biasesInit]

/-- C25, at concrete inputs: an input of sizes (7, 7, 64), an output of sizes
(1, 1, 10) and a layer `fc` with 10 biases. -/
theorem parseFullyConnected_stages_and_biases_witness :
    fcState.datas.get? 0 = some (tensor "in" [7, 7, 64]) ∧
    fcState.datas.get? 1 = some (tensor "out" [1, 1, 10]) ∧
    (parseFullyConnected sampleHeader fcState (some fcBiasLayer) [0] [1]).toOption.map
        (fun s1 => (s1.datas.map (fun d => (d.name, d.dims)),
          s1.stages.map (fun st => (st.cls, st.name, st.inputs, st.outputs, st.parentOp)))) =
      some ([("in", [7, 7, 64]), ("out", [1, 1, 10]), ("fc@weights", [49, 64, 10]),
          ("fc@biases", [10, 1, 1])],
        [(.VpuFullyConnectedStage, "fc", [0, 2], [1], none),
         (.VpuBiasStage, "fc@biases", [1, 3], [1], some 0)]) ∧
    ((∃ s1 w, parseFullyConnected sampleHeader fcState
        (some ⟨"fc", [], .FullyConnectedLayer (some ⟨0, 31360⟩) none⟩) [0] [1] = .ok s1 ∧
      s1.datas = fcState.datas ++ [w] ∧ w.name = "fc" ++ "@weights" ∧
      s1.stages = fcState.stages ++
        [{ handle := fcState.stageCount, cls := .VpuFullyConnectedStage, name := "fc",
           type := .kFC,
           layer := some ⟨"fc", [], .FullyConnectedLayer (some ⟨0, 31360⟩) none⟩,
           params := .plain, inputs := [0, fcState.datas.length], outputs := [1],
           parentOp := none }]) ∧
    (∀ biases : Blob, ∃ s1 w b, parseFullyConnected sampleHeader fcState
        (some ⟨"fc", [], .FullyConnectedLayer (some ⟨0, 31360⟩) (some biases)⟩)
          [0] [1] = .ok s1 ∧
      s1.datas = fcState.datas ++ [w, b] ∧ w.name = "fc" ++ "@weights" ∧
      b.name = "fc" ++ "@biases" ∧ b.dims = [biases.size % 2 ^ 32, 1, 1] ∧
      b.writer = some (.DefaultBiasesWriter biases) ∧
      s1.stages = fcState.stages ++
        [{ handle := fcState.stageCount, cls := .VpuFullyConnectedStage, name := "fc",
           type := .kFC,
           layer := some ⟨"fc", [], .FullyConnectedLayer (some ⟨0, 31360⟩) (some biases)⟩,
           params := .plain, inputs := [0, fcState.datas.length], outputs := [1],
           parentOp := none },
         { handle := fcState.stageCount + 1, cls := .VpuBiasStage, name := "fc" ++ "@biases",
           type := .kBias,
           layer := some ⟨"fc", [], .FullyConnectedLayer (some ⟨0, 31360⟩) (some biases)⟩,
           params := .plain, inputs := [1, fcState.datas.length + 1], outputs := [1],
           parentOp := some fcState.stageCount }])) :=
  ⟨rfl, rfl, rfl, parseFullyConnected_stages_and_biases sampleHeader fcState "fc" []
    ⟨0, 31360⟩ 0 1 (tensor "in" [7, 7, 64]) (tensor "out" [1, 1, 10]) 7 7 64 [] rfl rfl rfl⟩

end VPU

namespace MKLDNNPlugin

/-! Fusion across a pooling node, and the branches of a Split -/

/-- C21: for a convolution whose only child is a max-pooling node whose only child
is a ReLU activation without consumer, the pass re-tags the convolution and
records the activation as fused, yet after the sweep the activation is still
in the node list, fed by the pooling node. With two consumers behind the
activation, of type ReLU or ELU, the activation is removed, the pooling node
stays the only child of the convolution and feeds the two former consumers of
the activation. With average pooling, or with a second child of the pooling
node, the pass changes no kind, no edge and fuses nothing. -/
theorem FuseConvolutionAndActivation_across_pooling_keeps_last_activation :
    (FuseConvolutionAndActivation convPoolReluLastGraph).map
        (fun g => (kinds (RemoveDropped g), endpoints (RemoveDropped g), (g.node 1).fusedWith)) =
      some ([.Input, .Convolution_Activation, .Pooling, .Activation],
        [(0, 1), (1, 2), (2, 3)], [3]) ∧
    (∀ act ∈ ["ReLU", "ELU"],
      (FuseConvolutionAndActivation (convPoolActGraph .MAX act)).map
          (fun g => (kinds (RemoveDropped g), children (RemoveDropped g) 1,
            children (RemoveDropped g) 2, parents (RemoveDropped g) 4,
            parents (RemoveDropped g) 5, (g.node 1).fusedWith)) =
        some ([.Input, .Convolution_Activation, .Pooling, .Output, .Output], [2], [4, 5], [2],
          [2], [3])) ∧
    (FuseConvolutionAndActivation (convPoolActGraph .AVG "ReLU")).map
        (fun g => (kinds g, endpoints g, (g.node 1).fusedWith)) =
      some (kinds (convPoolActGraph .AVG "ReLU"), endpoints (convPoolActGraph .AVG "ReLU"), []) ∧
    (FuseConvolutionAndActivation convPoolTwoGraph).map
        (fun g => (kinds g, endpoints g, (g.node 1).fusedWith)) =
      some (kinds convPoolTwoGraph, endpoints convPoolTwoGraph, []) := by
  refine ⟨rfl, ?_, rfl, rfl⟩
  intro act hact
  simp only [List.mem_cons, List.mem_singleton, List.not_mem_nil, or_false] at hact
  rcases hact with h | h <;> subst h <;> rfl

/-- C24: a Split with two convolution branches that do not meet, the first followed
by a ReLU activation and the second by a Concatenation, is merged: the second
convolution is merged into the first and detached, the channel counts are
added, and the Split and the activation behind the first branch are dropped,
the Concatenation being left without producer. A first branch with a second
child edge is merged as well. The same second child edge on the second branch
prevents the merge. -/
theorem MergeGroupConvolution_merges_branches_that_do_not_meet :
    (MergeGroupConvolution splitApartGraph).map
        (fun g => ((RemoveDropped g).graphNodes, (g.node 2).mergedWith, (g.node 2).inDims,
          (g.node 2).outDims, children (RemoveDropped g) 2, parents (RemoveDropped g) 5)) =
      some ([0, 2, 5, 6, 7], [3], [[1, 8, 8, 8]], [[1, 8, 8, 8]], [6], []) ∧
    (MergeGroupConvolution splitFirstTwoGraph).map
        (fun g => ((RemoveDropped g).graphNodes, (g.node 2).mergedWith, (g.node 2).inDims,
          (g.node 2).outDims, children (RemoveDropped g) 2)) =
      some ([0, 2, 5, 6], [3], [[1, 8, 8, 8]], [[1, 8, 8, 8]], [6, 5]) ∧
    (MergeGroupConvolution splitSecondTwoGraph).map
        (fun g => ((RemoveDropped g).graphNodes, endpoints g, (g.node 2).mergedWith,
          (g.node 2).inDims)) =
      some (splitSecondTwoGraph.graphNodes, endpoints splitSecondTwoGraph, [],
        [[1, 4, 8, 8]]) :=
  ⟨rfl, rfl, rfl⟩

end MKLDNNPlugin

namespace MKLDNNPlugin

/-! The candidates of the sum fusion -/

/-- What the tests of lines 267 to 283 have established when they pass. -/
lemma candidate_full {g : MKLDNNGraph} {sum mc peer : NodeId}
    (h : FuseConvolutionSum.candidate g sum = some (some (mc, peer))) :
    (g.node sum).type = .Eltwise ∧ (g.node sum).eltwise = some (true, true) ∧
    (g.node sum).parentEdges.length = 2 ∧
    ∃ e0 p0 e1 p1, getParentEdgeAt g sum 0 = some e0 ∧ getParent g e0 = some p0 ∧
      getParentEdgeAt g sum 1 = some e1 ∧ getParent g e1 = some p1 ∧
      ((mc = p0 ∧ peer = p1) ∨ ((g.node p0).type ≠ .Convolution ∧ mc = p1 ∧ peer = p0)) ∧
      (g.node mc).type = .Convolution := by
  unfold FuseConvolutionSum.candidate at h
  split at h
  · cases h
  · rename_i ht
    have ht1 : (g.node sum).type = .Eltwise := by
      by_contra hc
      exact ht hc
    split at h
    · cases h
    · rename_i isSum isUnit hel
      split at h
      · cases h
      · rename_i hs
        split at h
        · cases h
        · rename_i hu
          split at h
          · cases h
          · rename_i hlen
            have hs1 : isSum = true := by simpa using hs
            have hu1 : isUnit = true := by simpa using hu
            have hlen1 : (g.node sum).parentEdges.length = 2 := by
              by_contra hc
              exact hlen hc
            subst hs1
            subst hu1
            repeat' split at h
            all_goals first
              | exact Option.noConfusion h
              | (cases h; done)
              | skip
            · rename_i pe1 h1 _ parent1 hp1 _ pe2 h2 _ parent2 hp2 _ hconv
              cases h
              exact ⟨ht1, hel, hlen1, pe1, mc, pe2, peer, h1, hp1, h2, hp2,
                Or.inl ⟨rfl, rfl⟩, hconv⟩
            · rename_i pe1 h1 _ parent1 hp1 _ pe2 h2 _ parent2 hp2 hnot hconv
              cases h
              have hmc : (g.node mc).type = .Convolution := by
                by_contra hc
                exact hnot ⟨hconv, hc⟩
              exact ⟨ht1, hel, hlen1, pe1, peer, pe2, mc, h1, hp1, h2, hp2,
                Or.inr ⟨hconv, rfl, rfl⟩, hmc⟩

/-- The loop body changes the graph only for a candidate that passed the tests of
lines 287 to 300. -/
lemma step_changes {g g1 : MKLDNNGraph} {n : NodeId}
    (h1 : FuseConvolutionSum.step g n = some g1) (hne : g1 ≠ g) :
    ∃ mc peer, FuseConvolutionSum.candidate g n = some (some (mc, peer)) ∧
      FuseConvolutionSum.fuseAllowed g n mc peer = some true := by
  unfold FuseConvolutionSum.step at h1
  split at h1
  · cases h1
  · cases h1
    exact absurd rfl hne
  · rename_i mc peer hcand
    split at h1
    · cases h1
    · cases h1
      exact absurd rfl hne
    · rename_i hfa
      exact ⟨mc, peer, hcand, hfa⟩

lemma sum_only_child {g : MKLDNNGraph} (h : Linked g) {sum mc peer : NodeId}
    (hs : sum ∈ g.graphNodes)
    (hcand : FuseConvolutionSum.candidate g sum = some (some (mc, peer)))
    (hfa : FuseConvolutionSum.fuseAllowed g sum mc peer = some true) :
    children g mc = [sum] := by
  obtain ⟨h1, _, h3, _⟩ := sum_facts h hs hcand hfa
  have hlen := fuseAllowed_inv hfa
  have hle : (children g mc).length ≤ 1 := by
    rw [← hlen]
    unfold children
    exact List.length_filterMap_le _ _
  cases hc : children g mc with
  | nil =>
    have : sum ∈ children g mc := h1
    rw [hc] at this
    cases this
  | cons x xs =>
    rw [hc] at hle
    have hx : x = sum := h3 x (by show x ∈ children g mc; rw [hc]; exact List.mem_cons_self _ _)
    cases xs with
    | nil => rw [hx]
    | cons y ys => simp at hle

end MKLDNNPlugin

namespace MKLDNNPlugin

/-- C23, refuted at a concrete input: in `sumFuseGraph` both producers of the sum
(4), the nodes `A` (3) and `B` (1), are of kind Convolution, and the sum is
fused into `A`, the producer of its first parent edge. -/
theorem FuseConvolutionSum_fuses_sum_of_two_convolutions :
    parents sumFuseGraph 4 = [3, 1] ∧
    (sumFuseGraph.node 3).type = .Convolution ∧ (sumFuseGraph.node 1).type = .Convolution ∧
    (FuseConvolutionSumAndConvolutionSumActivation sumFuseGraph).map
        (fun g => ((g.node 3).type, (g.node 3).fusedWith, (g.node 1).type,
          kinds (RemoveDropped g))) =
      some (.Convolution_Sum, [4], .Convolution,
        [.Input, .Convolution, .Generic, .Convolution_Sum, .Output]) := by
  refine ⟨by decide, rfl, rfl, rfl⟩

/-- C23, amended: when the loop body of the pass changes the graph for a node, that
node is an Eltwise node that is a sum with unit scales and has exactly two
parent edges; the convolution it is fused into is the producer of its first
parent edge when that is of kind Convolution, else the producer of its second
parent edge, and is of kind Convolution; the other producer may be of any
kind; the convolution has exactly one child edge, and on a linked graph its
only child is the sum. -/
theorem FuseConvolutionSum_fuses_only_sum_with_convolution (g : MKLDNNGraph) (n : NodeId)
    (g1 : MKLDNNGraph) (h1 : FuseConvolutionSum.step g n = some g1) (hne : g1 ≠ g) :
    (g.node n).type = .Eltwise ∧ (g.node n).eltwise = some (true, true) ∧
    (g.node n).parentEdges.length = 2 ∧
    ∃ e0 p0 e1 p1 mc peer, getParentEdgeAt g n 0 = some e0 ∧ getParent g e0 = some p0 ∧
      getParentEdgeAt g n 1 = some e1 ∧ getParent g e1 = some p1 ∧
      ((mc = p0 ∧ peer = p1) ∨ ((g.node p0).type ≠ .Convolution ∧ mc = p1 ∧ peer = p0)) ∧
      (g.node mc).type = .Convolution ∧ (g.node mc).childEdges.length = 1 ∧
      (Linked g → n ∈ g.graphNodes → children g mc = [n]) := by
  obtain ⟨mc, peer, hcand, hfa⟩ := step_changes h1 hne
  obtain ⟨a1, a2, a3, e0, p0, e1, p1, b1, b2, b3, b4, b5, b6⟩ := candidate_full hcand
  exact ⟨a1, a2, a3, e0, p0, e1, p1, mc, peer, b1, b2, b3, b4, b5, b6, fuseAllowed_inv hfa,
    fun hl hn => sum_only_child hl hn hcand hfa⟩

theorem FuseConvolutionSum_fuses_only_sum_with_convolution_witness :
    FuseConvolutionSum.step sumFuseGraph 4 = some sumFused ∧ sumFused ≠ sumFuseGraph ∧
    (sumFuseGraph.node 4).type = .Eltwise ∧ (sumFuseGraph.node 4).eltwise = some (true, true) ∧
    (sumFuseGraph.node 4).parentEdges.length = 2 ∧
    ∃ e0 p0 e1 p1 mc peer, getParentEdgeAt sumFuseGraph 4 0 = some e0 ∧
      getParent sumFuseGraph e0 = some p0 ∧
      getParentEdgeAt sumFuseGraph 4 1 = some e1 ∧ getParent sumFuseGraph e1 = some p1 ∧
      ((mc = p0 ∧ peer = p1) ∨
        ((sumFuseGraph.node p0).type ≠ .Convolution ∧ mc = p1 ∧ peer = p0)) ∧
      (sumFuseGraph.node mc).type = .Convolution ∧
      (sumFuseGraph.node mc).childEdges.length = 1 ∧
      (Linked sumFuseGraph → 4 ∈ sumFuseGraph.graphNodes → children sumFuseGraph mc = [4]) :=
  ⟨rfl, fun h => absurd (congrArg (fun g => (g.node 3).type) h) (by decide),
    FuseConvolutionSum_fuses_only_sum_with_convolution sumFuseGraph 4 sumFused rfl
      (fun h => absurd (congrArg (fun g => (g.node 3).type) h) (by decide))⟩

end MKLDNNPlugin

namespace RoiPooling

/-! The channel blocks of a work item -/

lemma wrapInt_of_range {x : Int} (h1 : -2 ^ 31 ≤ x) (h2 : x < 2 ^ 31) : wrapInt x = x := by
  unfold wrapInt
  omega

lemma div_up_arg (a b : Int) (ha : 1 ≤ a) (ha1 : a < 2 ^ 31) (hb : 1 ≤ b) (hb1 : b < 2 ^ 31) :
    (a + b - 1 < 2 ^ 31 ∧ subInt (addInt a b) 1 = a + b - 1) ∨
    (2 ^ 31 ≤ a + b - 1 ∧ subInt (addInt a b) 1 = a + b - 1 - 2 ^ 32) := by
  unfold subInt addInt wrapInt
  omega

lemma tdiv_nonpos_bounds {t b : Int} (ht : t ≤ 0) (hb : 1 ≤ b) :
    t ≤ Int.tdiv t b ∧ Int.tdiv t b ≤ 0 := by
  have h1 : Int.tdiv t b = -(Int.tdiv (-t) b) := by
    rw [Int.neg_tdiv, neg_neg]
  have h2 : Int.tdiv (-t) b = (-t) / b := Int.tdiv_eq_ediv (by omega) (by omega)
  have h3 : 0 ≤ (-t) / b := Int.ediv_nonneg (by omega) (by omega)
  have h4 : (-t) / b ≤ -t := Int.ediv_le_self b (by omega)
  rw [h1, h2]
  omega

/-- The number of channel work items is the quotient rounded up when the sum fits
an `int`, and is not positive otherwise. -/
lemma cb_work_cases (jpp : jit_roi_pool_conf_t) (ha : 1 ≤ jpp.nb_c) (ha1 : jpp.nb_c < 2 ^ 31)
    (hb : 1 ≤ jpp.nb_c_blocking) (hb1 : jpp.nb_c_blocking < 2 ^ 31) :
    (jpp.nb_c + jpp.nb_c_blocking - 1 < 2 ^ 31 ∧
      execute_forward.cb_work jpp = (jpp.nb_c + jpp.nb_c_blocking - 1) / jpp.nb_c_blocking) ∨
    execute_forward.cb_work jpp ≤ 0 := by
  unfold execute_forward.cb_work div_up divInt
  rcases div_up_arg jpp.nb_c jpp.nb_c_blocking ha ha1 hb hb1 with ⟨h1, h2⟩ | ⟨h1, h2⟩
  · left
    rw [h2, Int.tdiv_eq_ediv (by omega) (by omega)]
    have h3 : 0 ≤ (jpp.nb_c + jpp.nb_c_blocking - 1) / jpp.nb_c_blocking :=
      Int.ediv_nonneg (by omega) (by omega)
    have h4 : (jpp.nb_c + jpp.nb_c_blocking - 1) / jpp.nb_c_blocking ≤
        jpp.nb_c + jpp.nb_c_blocking - 1 := Int.ediv_le_self _ (by omega)
    exact ⟨h1, wrapInt_of_range (by omega) (by omega)⟩
  · right
    rw [h2]
    obtain ⟨h3, h4⟩ := tdiv_nonpos_bounds
      (t := jpp.nb_c + jpp.nb_c_blocking - 1 - 2 ^ 32) (b := jpp.nb_c_blocking)
      (by omega) hb
    rw [wrapInt_of_range (by omega) (by omega)]
    exact h4

/-- The value of `c_blocks` for a channel work index below `cb_work`. -/
lemma c_blocks_cases (jpp : jit_roi_pool_conf_t) (cbb : Int)
    (ha : 1 ≤ jpp.nb_c) (ha1 : jpp.nb_c < 2 ^ 31)
    (hb : 1 ≤ jpp.nb_c_blocking) (hb1 : jpp.nb_c_blocking < 2 ^ 31)
    (h0 : 0 ≤ cbb) (h1 : cbb < execute_forward.cb_work jpp) :
    execute_forward.c_blocks jpp cbb = jpp.nb_c_blocking ∨
    (execute_forward.c_blocks jpp cbb = modInt jpp.nb_c jpp.nb_c_blocking ∧
      modInt jpp.nb_c jpp.nb_c_blocking ≠ 0) := by
  rcases cb_work_cases jpp ha ha1 hb hb1 with ⟨hS, hw⟩ | hw
  · rw [hw] at h1
    have h2 : (cbb + 1) * jpp.nb_c_blocking ≤ jpp.nb_c + jpp.nb_c_blocking - 1 :=
      (Int.le_ediv_iff_mul_le (by omega)).mp (by omega)
    have hP0 : 0 ≤ cbb * jpp.nb_c_blocking := Int.mul_nonneg h0 (by omega)
    have hP : (cbb + 1) * jpp.nb_c_blocking = cbb * jpp.nb_c_blocking + jpp.nb_c_blocking := by
      ring
    rw [hP] at h2
    have hm : mulInt cbb jpp.nb_c_blocking = cbb * jpp.nb_c_blocking :=
      wrapInt_of_range (by omega) (by omega)
    have had : addInt (cbb * jpp.nb_c_blocking) jpp.nb_c_blocking =
        cbb * jpp.nb_c_blocking + jpp.nb_c_blocking :=
      wrapInt_of_range (by omega) (by omega)
    unfold execute_forward.c_blocks
    simp only [hm, had]
    by_cases hle : cbb * jpp.nb_c_blocking + jpp.nb_c_blocking ≤ jpp.nb_c
    · left
      rw [min_eq_left hle]
      unfold subInt
      rw [wrapInt_of_range (by omega) (by omega)]
      omega
    · right
      rw [min_eq_right (by omega)]
      unfold subInt
      rw [wrapInt_of_range (by omega) (by omega)]
      have hu := (Int.ediv_emod_unique (a := jpp.nb_c) (b := jpp.nb_c_blocking)
        (r := jpp.nb_c - cbb * jpp.nb_c_blocking) (q := cbb) (by omega)).mpr
        ⟨by ring, by omega, by omega⟩
      unfold modInt
      rw [Int.tmod_eq_emod (by omega) (by omega), hu.2]
      exact ⟨rfl, by omega⟩
  · omega

end RoiPooling

namespace RoiPooling

/-- C30: for `nb_c` and `nb_c_blocking` of at least 1 and a channel work index
`cbb` from 0 to below `div_up(nb_c, nb_c_blocking)`, the value of `c_blocks` is
`nb_c_blocking`, or it is the remainder of `nb_c` by `nb_c_blocking` and that
remainder is not zero; for this value the kernel runs the zero fill (for an
empty bin) or the pooling loops over exactly `c_blocks` channel blocks, never
the bare exit; and no other value of `c_blocks` has a path of the kernel that
handles that number of channel blocks. -/
theorem c_blocks_is_blocking_or_tail (jpp : jit_roi_pool_conf_t) (cbb : Int)
    (ha : 1 ≤ jpp.nb_c) (ha1 : jpp.nb_c < 2 ^ 31)
    (hb : 1 ≤ jpp.nb_c_blocking) (hb1 : jpp.nb_c_blocking < 2 ^ 31)
    (h0 : 0 ≤ cbb) (h1 : cbb < execute_forward.cb_work jpp) :
    (execute_forward.c_blocks jpp cbb = jpp.nb_c_blocking ∨
      (execute_forward.c_blocks jpp cbb = modInt jpp.nb_c jpp.nb_c_blocking ∧
        modInt jpp.nb_c jpp.nb_c_blocking ≠ 0)) ∧
    (∀ bin_area, generate jpp (execute_forward.c_blocks jpp cbb) bin_area =
      if bin_area = 0 then .empty_roi (execute_forward.c_blocks jpp cbb)
      else .roi_pool (execute_forward.c_blocks jpp cbb)) ∧
    (∀ c bin_area, generate jpp c bin_area = .roi_pool c ∨ generate jpp c bin_area = .empty_roi c →
      c = jpp.nb_c_blocking ∨
        (c = modInt jpp.nb_c jpp.nb_c_blocking ∧ modInt jpp.nb_c jpp.nb_c_blocking ≠ 0)) := by
  have hc := c_blocks_cases jpp cbb ha ha1 hb hb1 h0 h1
  refine ⟨hc, ?_, ?_⟩
  · intro bin_area
    rcases hc with h | ⟨h, hne⟩
    · rw [h]
      unfold generate
      simp
    · rw [h]
      unfold generate
      by_cases hq : modInt jpp.nb_c jpp.nb_c_blocking = jpp.nb_c_blocking
      · simp [hq]
      · by_cases hz : bin_area = 0
        · simp [hq, hne, hz]
        · simp [hq, hne, hz]
  · intro c bin_area h
    unfold generate at h
    by_cases hcb : c = jpp.nb_c_blocking
    · exact Or.inl hcb
    · right
      by_cases ht : modInt jpp.nb_c jpp.nb_c_blocking = 0
      · simp [hcb, ht] at h
      · by_cases hz : bin_area = 0
        · simp only [ne_eq, hcb, not_false_eq_true, if_true, ht, hz] at h
          rcases h with h | h
          · cases h
          · exact ⟨(KernelPath.empty_roi.inj h).symm, ht⟩
        · by_cases hct : c = modInt jpp.nb_c jpp.nb_c_blocking
          · exact ⟨hct, ht⟩
          · simp [hcb, ht, hz, hct] at h

/-- C30, at concrete inputs: 16 channel blocks in groups of 7 give three work
indices; the last one (2) has `c_blocks` 2, the remainder of 16 by 7. -/
theorem c_blocks_is_blocking_or_tail_witness :
    execute_forward.cb_work ⟨16, 7, 14, 14, 6, 6⟩ = 3 ∧
    execute_forward.c_blocks ⟨16, 7, 14, 14, 6, 6⟩ 2 = 2 ∧
    ((execute_forward.c_blocks ⟨16, 7, 14, 14, 6, 6⟩ 2 = 7 ∨
      (execute_forward.c_blocks ⟨16, 7, 14, 14, 6, 6⟩ 2 = modInt 16 7 ∧ modInt 16 7 ≠ 0)) ∧
    (∀ bin_area, generate ⟨16, 7, 14, 14, 6, 6⟩
        (execute_forward.c_blocks ⟨16, 7, 14, 14, 6, 6⟩ 2) bin_area =
      if bin_area = 0 then .empty_roi (execute_forward.c_blocks ⟨16, 7, 14, 14, 6, 6⟩ 2)
      else .roi_pool (execute_forward.c_blocks ⟨16, 7, 14, 14, 6, 6⟩ 2)) ∧
    (∀ c bin_area, generate ⟨16, 7, 14, 14, 6, 6⟩ c bin_area = .roi_pool c ∨
        generate ⟨16, 7, 14, 14, 6, 6⟩ c bin_area = .empty_roi c →
      c = 7 ∨ (c = modInt 16 7 ∧ modInt 16 7 ≠ 0))) :=
  ⟨by decide, by decide,
    c_blocks_is_blocking_or_tail ⟨16, 7, 14, 14, 6, 6⟩ 2 (by decide) (by decide) (by decide)
      (by decide) (by decide) (by decide)⟩

end RoiPooling

namespace RoiPooling

/-! The bounds of a bin -/

/-- The bounds of a bin along one axis, when nothing overflows. -/
lemma axis_bounds {pooled i roi_start roi_size o : Int}
    (h : AxisFits pooled i roi_start roi_size o) :
    execute_forward.startDec pooled roi_size o = false ∧
    execute_forward.start1 pooled roi_size o = (o * roi_size) / pooled ∧
    execute_forward.end1 pooled roi_size o = ((o + 1) * roi_size + pooled - 1) / pooled ∧
    0 ≤ execute_forward.start1 pooled roi_size o ∧
    execute_forward.start1 pooled roi_size o < execute_forward.end1 pooled roi_size o ∧
    execute_forward.end1 pooled roi_size o ≤ roi_size ∧
    (o + 1) * roi_size ≤ execute_forward.end1 pooled roi_size o * pooled ∧
    (execute_forward.end1 pooled roi_size o - 1) * pooled < (o + 1) * roi_size := by
  obtain ⟨hp, hp1, hr, hi, hi1, ho, hop, hfit, hs, he⟩ := h
  have hA0 : 0 ≤ o * roi_size := Int.mul_nonneg ho (by omega)
  have hB : (o + 1) * roi_size = o * roi_size + roi_size := by ring
  have hmA : mulInt o roi_size = o * roi_size := wrapInt_of_range (by omega) (by omega)
  have ho1 : addInt o 1 = o + 1 := wrapInt_of_range (by omega) (by omega)
  have hmB : mulInt (o + 1) roi_size = (o + 1) * roi_size :=
    wrapInt_of_range (by omega) (by omega)
  -- the start
  have hq0 : 0 ≤ o * roi_size / pooled := Int.ediv_nonneg hA0 (by omega)
  have hq1 : o * roi_size / pooled ≤ o * roi_size := Int.ediv_le_self _ hA0
  have hq2 : o * roi_size / pooled * pooled ≤ o * roi_size := Int.ediv_mul_le _ (by omega)
  have hq3 : 0 ≤ o * roi_size / pooled * pooled := Int.mul_nonneg hq0 (by omega)
  have hs0 : execute_forward.start0 pooled roi_size o = o * roi_size / pooled := by
    unfold execute_forward.start0 divInt
    rw [hmA, Int.tdiv_eq_ediv hA0 (by omega)]
    exact wrapInt_of_range (by omega) (by omega)
  have hdec : execute_forward.startDec pooled roi_size o = false := by
    unfold execute_forward.startDec
    rw [hs0, hmA]
    have : mulInt (o * roi_size / pooled) pooled = o * roi_size / pooled * pooled :=
      wrapInt_of_range (by omega) (by omega)
    rw [this]
    exact decide_eq_false (by omega)
  have hs1 : execute_forward.start1 pooled roi_size o = o * roi_size / pooled := by
    unfold execute_forward.start1
    rw [hdec, hs0]
    simp
  -- the end
  have hB0 : 0 ≤ (o + 1) * roi_size := by omega
  have he0 : 0 ≤ (o + 1) * roi_size / pooled := Int.ediv_nonneg hB0 (by omega)
  have he1 : (o + 1) * roi_size / pooled ≤ (o + 1) * roi_size := Int.ediv_le_self _ hB0
  have he2 : (o + 1) * roi_size / pooled * pooled ≤ (o + 1) * roi_size :=
    Int.ediv_mul_le _ (by omega)
  have he3 : (o + 1) * roi_size < ((o + 1) * roi_size / pooled + 1) * pooled :=
    Int.lt_ediv_add_one_mul_self _ hp
  have he4 : 0 ≤ (o + 1) * roi_size / pooled * pooled := Int.mul_nonneg he0 (by omega)
  have hen0 : execute_forward.end0 pooled roi_size o = (o + 1) * roi_size / pooled := by
    unfold execute_forward.end0 divInt
    rw [ho1, hmB, Int.tdiv_eq_ediv hB0 (by omega)]
    exact wrapInt_of_range (by omega) (by omega)
  have hme : mulInt ((o + 1) * roi_size / pooled) pooled =
      (o + 1) * roi_size / pooled * pooled := wrapInt_of_range (by omega) (by omega)
  have hexp : ((o + 1) * roi_size / pooled + 1) * pooled =
      (o + 1) * roi_size / pooled * pooled + pooled := by ring
  have hexp1 : pooled * ((o + 1) * roi_size / pooled + 1) =
      (o + 1) * roi_size / pooled * pooled + pooled := by ring
  have hen1 : execute_forward.end1 pooled roi_size o =
      ((o + 1) * roi_size + pooled - 1) / pooled ∧
      (o + 1) * roi_size ≤ execute_forward.end1 pooled roi_size o * pooled ∧
      (execute_forward.end1 pooled roi_size o - 1) * pooled < (o + 1) * roi_size := by
    unfold execute_forward.end1
    rw [hen0, hme, ho1, hmB]
    by_cases hlt : (o + 1) * roi_size / pooled * pooled < (o + 1) * roi_size
    · rw [if_pos hlt]
      have hle : (o + 1) * roi_size / pooled < (o + 1) * roi_size := by
        have : (o + 1) * roi_size / pooled ≤ (o + 1) * roi_size / pooled * pooled :=
          le_mul_of_one_le_right he0 (by omega)
        omega
      have hadd : addInt ((o + 1) * roi_size / pooled) 1 = (o + 1) * roi_size / pooled + 1 :=
        wrapInt_of_range (by omega) (by omega)
      rw [hadd]
      refine ⟨?_, by omega, ?_⟩
      · have hu := (Int.ediv_emod_unique (a := (o + 1) * roi_size + pooled - 1) (b := pooled)
          (r := (o + 1) * roi_size + pooled - 1 - pooled * ((o + 1) * roi_size / pooled + 1))
          (q := (o + 1) * roi_size / pooled + 1) hp).mpr
          ⟨by ring, by rw [hexp1]; omega, by rw [hexp1]; omega⟩
        exact hu.1.symm
      · have : ((o + 1) * roi_size / pooled + 1 - 1) * pooled =
            (o + 1) * roi_size / pooled * pooled := by ring
        rw [this]
        exact hlt
    · rw [if_neg hlt]
      have heq : (o + 1) * roi_size / pooled * pooled = (o + 1) * roi_size := by omega
      have heq1 : pooled * ((o + 1) * roi_size / pooled) = (o + 1) * roi_size := by
        rw [mul_comm]
        exact heq
      refine ⟨?_, by omega, ?_⟩
      · have hu := (Int.ediv_emod_unique (a := (o + 1) * roi_size + pooled - 1) (b := pooled)
          (r := pooled - 1) (q := (o + 1) * roi_size / pooled) hp).mpr
          ⟨by rw [heq1]; ring, by omega, by omega⟩
        exact hu.1.symm
      · have : ((o + 1) * roi_size / pooled - 1) * pooled =
            (o + 1) * roi_size / pooled * pooled - pooled := by ring
        rw [this]
        omega
  obtain ⟨hf1, hf2, hf3⟩ := hen1
  refine ⟨hdec, hs1, hf1, by rw [hs1]; exact hq0, ?_, ?_, hf2, hf3⟩
  · rw [hs1]
    have : o * roi_size / pooled * pooled < execute_forward.end1 pooled roi_size o * pooled := by
      omega
    exact lt_of_mul_lt_mul_right this (by omega)
  · have h1 : (o + 1) * roi_size ≤ roi_size * pooled := by
      have : (o + 1) * roi_size ≤ pooled * roi_size :=
        Int.mul_le_mul_of_nonneg_right (by omega) (by omega)
      rw [mul_comm roi_size pooled]
      exact this
    have h2 : (execute_forward.end1 pooled roi_size o - 1) * pooled < roi_size * pooled := by
      omega
    have := lt_of_mul_lt_mul_right h2 (by omega : (0 : Int) ≤ pooled)
    omega

/-- The claim for one axis, when nothing overflows: the start is the quotient
rounded down and is not decremented, the end is the quotient rounded up, the
start is below the end, and the clamped bounds are ordered inside the input. -/
lemma axis_range {pooled i roi_start roi_size o : Int}
    (h : AxisFits pooled i roi_start roi_size o) :
    execute_forward.startDec pooled roi_size o = false ∧
    execute_forward.start1 pooled roi_size o = ⌊((o * roi_size : Int) : ℚ) / (pooled : ℚ)⌋ ∧
    execute_forward.end1 pooled roi_size o =
      ⌈(((o + 1) * roi_size : Int) : ℚ) / (pooled : ℚ)⌉ ∧
    execute_forward.start1 pooled roi_size o < execute_forward.end1 pooled roi_size o ∧
    0 ≤ execute_forward.clamp (execute_forward.start1 pooled roi_size o) roi_start i ∧
    execute_forward.clamp (execute_forward.start1 pooled roi_size o) roi_start i ≤
      execute_forward.clamp (execute_forward.end1 pooled roi_size o) roi_start i ∧
    execute_forward.clamp (execute_forward.end1 pooled roi_size o) roi_start i ≤ i := by
  obtain ⟨b1, b2, b3, b4, b5, b6, b7, b8⟩ := axis_bounds h
  obtain ⟨hp, hp1, hr, hi, hi1, ho, hop, hfit, hs, he⟩ := h
  have hpq : (0 : ℚ) < (pooled : ℚ) := by exact_mod_cast hp
  have hc1 : addInt (execute_forward.start1 pooled roi_size o) roi_start =
      execute_forward.start1 pooled roi_size o + roi_start :=
    wrapInt_of_range (by omega) (by omega)
  have hc2 : addInt (execute_forward.end1 pooled roi_size o) roi_start =
      execute_forward.end1 pooled roi_size o + roi_start :=
    wrapInt_of_range (by omega) (by omega)
  refine ⟨b1, ?_, ?_, b5, ?_, ?_, ?_⟩
  · symm
    rw [Int.floor_eq_iff, b2]
    constructor
    · rw [le_div_iff₀ hpq]
      exact_mod_cast Int.ediv_mul_le (o * roi_size) (by omega : pooled ≠ 0)
    · rw [div_lt_iff₀ hpq]
      exact_mod_cast Int.lt_ediv_add_one_mul_self (o * roi_size) hp
  · symm
    rw [Int.ceil_eq_iff]
    constructor
    · rw [lt_div_iff₀ hpq]
      exact_mod_cast b8
    · rw [div_le_iff₀ hpq]
      exact_mod_cast b7
  · unfold execute_forward.clamp
    rw [hc1]
    omega
  · unfold execute_forward.clamp
    rw [hc1, hc2]
    omega
  · unfold execute_forward.clamp
    rw [hc2]
    omega

end RoiPooling

namespace RoiPooling

/-- C29, refuted at a concrete input: for two output rows, an input of 10 rows and
a region from row 1 to row 2^30 (height 2^30), the bin of output row 1 has the
start 2^29 and the end -2^30 before clamping, where the claim gives the end
2^30: the product `(oh + 1) * roi_height` = 2^31 does not fit an `int`. After
clamping the start is 10 and the end 0, so `kh` and `bin_area` are -10. -/
theorem bin_range_overflows_for_large_region :
    execute_forward.roi_size 1 (2 ^ 30) = 2 ^ 30 ∧
    execute_forward.start1 2 (2 ^ 30) 1 = 2 ^ 29 ∧
    execute_forward.end1 2 (2 ^ 30) 1 = -2 ^ 30 ∧
    ¬ execute_forward.start1 2 (2 ^ 30) 1 < execute_forward.end1 2 (2 ^ 30) 1 ∧
    execute_forward.clamp (execute_forward.start1 2 (2 ^ 30) 1) 1 10 = 10 ∧
    execute_forward.clamp (execute_forward.end1 2 (2 ^ 30) 1) 1 10 = 0 ∧
    execute_forward.args ⟨16, 7, 10, 10, 2, 1⟩ 0 0 1 0 (2 ^ 30) 1 0 =
      { c_blocks := 7, bin_area := -10, kh := -10, kw := 1 } := by
  decide

/-- C29, amended: when on both axes the product `(o + 1) * roi_size` and the sum of
the region start and the region extent fit an `int`, and the product of the
input sizes does, then for the rows and for the columns the start of the bin
before clamping is the quotient `o * roi_size / pooled` rounded down, the
decrement does not take place, the end is the quotient
`(o + 1) * roi_size / pooled` rounded up, the start is below the end, and after
clamping 0 <= start <= end <= input size; `kh`, `kw` and `bin_area` are the
differences and their product, and none is negative. -/
theorem bin_range_when_nothing_overflows (jpp : jit_roi_pool_conf_t)
    (cbb roi_start_w roi_start_h roi_end_w roi_end_h oh ow : Int)
    (hrow : AxisFits jpp.pooled_h jpp.ih roi_start_h
      (execute_forward.roi_size roi_start_h roi_end_h) oh)
    (hcol : AxisFits jpp.pooled_w jpp.iw roi_start_w
      (execute_forward.roi_size roi_start_w roi_end_w) ow)
    (harea : jpp.ih * jpp.iw < 2 ^ 31) :
    (execute_forward.startDec jpp.pooled_h (execute_forward.roi_size roi_start_h roi_end_h) oh =
        false ∧
      execute_forward.start1 jpp.pooled_h (execute_forward.roi_size roi_start_h roi_end_h) oh =
        ⌊((oh * execute_forward.roi_size roi_start_h roi_end_h : Int) : ℚ) /
          (jpp.pooled_h : ℚ)⌋ ∧
      execute_forward.end1 jpp.pooled_h (execute_forward.roi_size roi_start_h roi_end_h) oh =
        ⌈(((oh + 1) * execute_forward.roi_size roi_start_h roi_end_h : Int) : ℚ) /
          (jpp.pooled_h : ℚ)⌉ ∧
      execute_forward.start1 jpp.pooled_h (execute_forward.roi_size roi_start_h roi_end_h) oh <
        execute_forward.end1 jpp.pooled_h (execute_forward.roi_size roi_start_h roi_end_h) oh ∧
      0 ≤ execute_forward.clamp (execute_forward.start1 jpp.pooled_h
          (execute_forward.roi_size roi_start_h roi_end_h) oh) roi_start_h jpp.ih ∧
      execute_forward.clamp (execute_forward.start1 jpp.pooled_h
          (execute_forward.roi_size roi_start_h roi_end_h) oh) roi_start_h jpp.ih ≤
        execute_forward.clamp (execute_forward.end1 jpp.pooled_h
          (execute_forward.roi_size roi_start_h roi_end_h) oh) roi_start_h jpp.ih ∧
      execute_forward.clamp (execute_forward.end1 jpp.pooled_h
          (execute_forward.roi_size roi_start_h roi_end_h) oh) roi_start_h jpp.ih ≤ jpp.ih) ∧
    (execute_forward.startDec jpp.pooled_w (execute_forward.roi_size roi_start_w roi_end_w) ow =
        false ∧
      execute_forward.start1 jpp.pooled_w (execute_forward.roi_size roi_start_w roi_end_w) ow =
        ⌊((ow * execute_forward.roi_size roi_start_w roi_end_w : Int) : ℚ) /
          (jpp.pooled_w : ℚ)⌋ ∧
      execute_forward.end1 jpp.pooled_w (execute_forward.roi_size roi_start_w roi_end_w) ow =
        ⌈(((ow + 1) * execute_forward.roi_size roi_start_w roi_end_w : Int) : ℚ) /
          (jpp.pooled_w : ℚ)⌉ ∧
      execute_forward.start1 jpp.pooled_w (execute_forward.roi_size roi_start_w roi_end_w) ow <
        execute_forward.end1 jpp.pooled_w (execute_forward.roi_size roi_start_w roi_end_w) ow ∧
      0 ≤ execute_forward.clamp (execute_forward.start1 jpp.pooled_w
          (execute_forward.roi_size roi_start_w roi_end_w) ow) roi_start_w jpp.iw ∧
      execute_forward.clamp (execute_forward.start1 jpp.pooled_w
          (execute_forward.roi_size roi_start_w roi_end_w) ow) roi_start_w jpp.iw ≤
        execute_forward.clamp (execute_forward.end1 jpp.pooled_w
          (execute_forward.roi_size roi_start_w roi_end_w) ow) roi_start_w jpp.iw ∧
      execute_forward.clamp (execute_forward.end1 jpp.pooled_w
          (execute_forward.roi_size roi_start_w roi_end_w) ow) roi_start_w jpp.iw ≤ jpp.iw) ∧
    (execute_forward.args jpp cbb roi_start_w roi_start_h roi_end_w roi_end_h oh ow).kh =
      execute_forward.clamp (execute_forward.end1 jpp.pooled_h
          (execute_forward.roi_size roi_start_h roi_end_h) oh) roi_start_h jpp.ih -
        execute_forward.clamp (execute_forward.start1 jpp.pooled_h
          (execute_forward.roi_size roi_start_h roi_end_h) oh) roi_start_h jpp.ih ∧
    (execute_forward.args jpp cbb roi_start_w roi_start_h roi_end_w roi_end_h oh ow).kw =
      execute_forward.clamp (execute_forward.end1 jpp.pooled_w
          (execute_forward.roi_size roi_start_w roi_end_w) ow) roi_start_w jpp.iw -
        execute_forward.clamp (execute_forward.start1 jpp.pooled_w
          (execute_forward.roi_size roi_start_w roi_end_w) ow) roi_start_w jpp.iw ∧
    (execute_forward.args jpp cbb roi_start_w roi_start_h roi_end_w roi_end_h oh ow).bin_area =
      (execute_forward.args jpp cbb roi_start_w roi_start_h roi_end_w roi_end_h oh ow).kh *
        (execute_forward.args jpp cbb roi_start_w roi_start_h roi_end_w roi_end_h oh ow).kw ∧
    0 ≤ (execute_forward.args jpp cbb roi_start_w roi_start_h roi_end_w roi_end_h oh ow).kh ∧
    0 ≤ (execute_forward.args jpp cbb roi_start_w roi_start_h roi_end_w roi_end_h oh ow).kw ∧
    0 ≤ (execute_forward.args jpp cbb roi_start_w roi_start_h roi_end_w roi_end_h oh ow).bin_area
    := by
  have hr := axis_range hrow
  have hc := axis_range hcol
  obtain ⟨_, _, _, _, r5, r6, r7⟩ := hr
  obtain ⟨_, _, _, _, c5, c6, c7⟩ := hc
  have hi1 := hrow.input_int
  have hw1 := hcol.input_int
  have hkh : subInt (execute_forward.clamp (execute_forward.end1 jpp.pooled_h
        (execute_forward.roi_size roi_start_h roi_end_h) oh) roi_start_h jpp.ih)
      (execute_forward.clamp (execute_forward.start1 jpp.pooled_h
        (execute_forward.roi_size roi_start_h roi_end_h) oh) roi_start_h jpp.ih) =
      execute_forward.clamp (execute_forward.end1 jpp.pooled_h
        (execute_forward.roi_size roi_start_h roi_end_h) oh) roi_start_h jpp.ih -
      execute_forward.clamp (execute_forward.start1 jpp.pooled_h
        (execute_forward.roi_size roi_start_h roi_end_h) oh) roi_start_h jpp.ih :=
    wrapInt_of_range (by omega) (by omega)
  have hkw : subInt (execute_forward.clamp (execute_forward.end1 jpp.pooled_w
        (execute_forward.roi_size roi_start_w roi_end_w) ow) roi_start_w jpp.iw)
      (execute_forward.clamp (execute_forward.start1 jpp.pooled_w
        (execute_forward.roi_size roi_start_w roi_end_w) ow) roi_start_w jpp.iw) =
      execute_forward.clamp (execute_forward.end1 jpp.pooled_w
        (execute_forward.roi_size roi_start_w roi_end_w) ow) roi_start_w jpp.iw -
      execute_forward.clamp (execute_forward.start1 jpp.pooled_w
        (execute_forward.roi_size roi_start_w roi_end_w) ow) roi_start_w jpp.iw :=
    wrapInt_of_range (by omega) (by omega)
  have hkh0 : 0 ≤ (execute_forward.args jpp cbb roi_start_w roi_start_h roi_end_w roi_end_h
      oh ow).kh := by
    show 0 ≤ subInt _ _
    rw [hkh]
    omega
  have hkw0 : 0 ≤ (execute_forward.args jpp cbb roi_start_w roi_start_h roi_end_w roi_end_h
      oh ow).kw := by
    show 0 ≤ subInt _ _
    rw [hkw]
    omega
  have hkhi : (execute_forward.args jpp cbb roi_start_w roi_start_h roi_end_w roi_end_h
      oh ow).kh ≤ jpp.ih := by
    show subInt _ _ ≤ _
    rw [hkh]
    omega
  have hkwi : (execute_forward.args jpp cbb roi_start_w roi_start_h roi_end_w roi_end_h
      oh ow).kw ≤ jpp.iw := by
    show subInt _ _ ≤ _
    rw [hkw]
    omega
  have hprod0 := Int.mul_nonneg hkh0 hkw0
  have hprod1 : (execute_forward.args jpp cbb roi_start_w roi_start_h roi_end_w roi_end_h
      oh ow).kh * (execute_forward.args jpp cbb roi_start_w roi_start_h roi_end_w roi_end_h
      oh ow).kw ≤ jpp.ih * jpp.iw :=
    Int.mul_le_mul hkhi hkwi hkw0 hrow.input_nonneg
  have harea1 : (execute_forward.args jpp cbb roi_start_w roi_start_h roi_end_w roi_end_h
      oh ow).bin_area = (execute_forward.args jpp cbb roi_start_w roi_start_h roi_end_w
      roi_end_h oh ow).kh * (execute_forward.args jpp cbb roi_start_w roi_start_h roi_end_w
      roi_end_h oh ow).kw := by
    have hmul : ∀ a b : Int, 0 ≤ a * b → a * b < 2 ^ 31 → mulInt a b = a * b :=
      fun a b h1 h2 => wrapInt_of_range (by omega) (by omega)
    exact hmul _ _ hprod0 (lt_of_le_of_lt hprod1 harea)
  refine ⟨axis_range hrow, axis_range hcol, hkh, hkw, harea1, hkh0, hkw0, ?_⟩
  rw [harea1]
  exact hprod0

/-- C29, at concrete inputs: six output rows and columns, an input of 14 by 14, a
region from row 2 to row 9 and from column 3 to column 12, the bin of output
row 3 and output column 5. -/
theorem bin_range_when_nothing_overflows_witness :
    AxisFits 6 14 2 (execute_forward.roi_size 2 9) 3 ∧
    AxisFits 6 14 3 (execute_forward.roi_size 3 12) 5 ∧
    execute_forward.args ⟨16, 7, 14, 14, 6, 6⟩ 0 3 2 12 9 3 5 =
      { c_blocks := 7, bin_area := 4, kh := 2, kw := 2 } ∧
    0 ≤ (execute_forward.args ⟨16, 7, 14, 14, 6, 6⟩ 0 3 2 12 9 3 5).bin_area :=
  have hrow : AxisFits 6 14 2 (execute_forward.roi_size 2 9) 3 :=
    ⟨by decide, by decide, by decide, by decide, by decide, by decide, by decide, by decide,
      by decide, by decide⟩
  have hcol : AxisFits 6 14 3 (execute_forward.roi_size 3 12) 5 :=
    ⟨by decide, by decide, by decide, by decide, by decide, by decide, by decide, by decide,
      by decide, by decide⟩
  ⟨hrow, hcol, by decide,
    (bin_range_when_nothing_overflows ⟨16, 7, 14, 14, 6, 6⟩ 0 3 2 12 9 3 5 hrow hcol
      (by decide)).2.2.2.2.2.2.2⟩

end RoiPooling

namespace MKLDNNPlugin

/-! Termination of the search -/

lemma potential_insert (g : MKLDNNGraph) (visited : List (Option NodeId)) (e : EdgeId)
    (hv : getChild g e ∉ visited) :
    potential g (getChild g e :: visited) + 1 ≤ potential g visited := by
  unfold potential
  cases hc : getChild g e with
  | none =>
    rw [hc] at hv
    have h1 : unvisited g (none :: visited) = unvisited g visited := by
      unfold unvisited
      congr 1
      funext n
      simp
    rw [h1]
    simp [hv]
  | some c =>
    rw [hc] at hv
    have hlt := countP_insert_lt g.graphNodes visited c (getChild_mem hc) hv
    have h2 : (none ∈ some c :: visited) ↔ none ∈ visited := by simp
    unfold unvisited
    by_cases hn : none ∈ visited
    · simp only [h2, hn, if_true]
      omega
    · simp only [h2, hn, if_false]
      omega

/-- The loop over the child references of one layer, on any graph: it fails on a
dead reference, or it appends to the queue consumers that were not visited,
the null pointer possibly among them, and the potential falls by at least the
number of entries appended. -/
lemma expand_general (g : MKLDNNGraph) :
    ∀ (ws : List MKLDNNEdgeWeakPtr) (visited nextLayers : List (Option NodeId)),
      is_data_dependency.expand g ws visited nextLayers = none ∨
      ∃ visited1 added, is_data_dependency.expand g ws visited nextLayers =
          some (visited1, nextLayers ++ added) ∧
        (∀ x, x ∈ visited1 ↔ x ∈ visited ∨ x ∈ added) ∧
        added.length + potential g visited1 ≤ potential g visited := by
  intro ws
  induction ws with
  | nil =>
    intro visited nextLayers
    exact Or.inr ⟨visited, [], by simp [is_data_dependency.expand], by simp, by simp⟩
  | cons w ws ih =>
    intro visited nextLayers
    cases hl : lock g w with
    | none =>
      left
      simp [is_data_dependency.expand, hl]
    | some e =>
      by_cases hv : getChild g e ∈ visited
      · rcases ih visited nextLayers with h | ⟨v1, added, he, hmem, hlen⟩
        · left
          simp only [is_data_dependency.expand, hl, hv, if_true]
          exact h
        · right
          refine ⟨v1, added, ?_, hmem, hlen⟩
          simp only [is_data_dependency.expand, hl, hv, if_true]
          exact he
      · rcases ih (getChild g e :: visited) (nextLayers ++ [getChild g e]) with
          h | ⟨v1, added, he, hmem, hlen⟩
        · left
          simp only [is_data_dependency.expand, hl, hv, if_false]
          exact h
        · right
          refine ⟨v1, getChild g e :: added, ?_, ?_, ?_⟩
          · simp only [is_data_dependency.expand, hl, hv, if_false]
            rw [he]
            simp
          · intro x
            rw [hmem x]
            simp only [List.mem_cons]
            tauto
          · have := potential_insert g visited e hv
            simp only [List.length_cons]
            omega

/-- The number of completed iterations is below the length of the queue plus the
potential, for every bound on the number of tests. -/
lemma pops_bound (g : MKLDNNGraph) (b : NodeId) :
    ∀ (fuel : Nat) (visited nextLayers : List (Option NodeId)),
      (none ∈ visited → none ∈ nextLayers) →
      is_data_dependency.pops g b fuel visited nextLayers + 1 ≤
        nextLayers.length + potential g visited := by
  intro fuel
  induction fuel with
  | zero =>
    intro visited nextLayers hinv
    have : 1 ≤ nextLayers.length + potential g visited := by
      unfold potential
      by_cases hn : none ∈ visited
      · have := List.length_pos_of_mem (hinv hn)
        omega
      · simp only [hn, if_false]
        omega
    simpa [is_data_dependency.pops] using this
  | succ fuel ih =>
    intro visited nextLayers hinv
    have hpos : 1 ≤ nextLayers.length + potential g visited := by
      unfold potential
      by_cases hn : none ∈ visited
      · have := List.length_pos_of_mem (hinv hn)
        omega
      · simp only [hn, if_false]
        omega
    cases nextLayers with
    | nil => simpa [is_data_dependency.pops] using hpos
    | cons layer rest =>
      cases layer with
      | none => simpa [is_data_dependency.pops] using hpos
      | some l =>
        by_cases hlb : l = b
        · simpa [is_data_dependency.pops, hlb] using hpos
        · rcases expand_general g (g.node l).childEdges visited (some l :: rest) with
            h | ⟨v1, added, he, hmem, hlen⟩
          · simpa [is_data_dependency.pops, hlb, h] using hpos
          · have hstep : is_data_dependency.pops g b (fuel + 1) visited (some l :: rest) =
                1 + is_data_dependency.pops g b fuel v1 (rest ++ added) := by
              simp [is_data_dependency.pops, hlb, he]
            rw [hstep]
            have hinv1 : none ∈ v1 → none ∈ rest ++ added := by
              intro hn
              rcases (hmem none).mp hn with h1 | h1
              · rcases List.mem_cons.mp (hinv h1) with h2 | h2
                · cases h2
                · exact List.mem_append_left _ h2
              · exact List.mem_append_right _ h1
            have := ih v1 (rest ++ added) hinv1
            simp only [List.length_append, List.length_cons] at this ⊢
            omega

/-- With as many tests allowed as the queue is long plus the potential, the loop
does not end on the bound. -/
lemma loop_in_bound (g : MKLDNNGraph) (b : NodeId) :
    ∀ (fuel : Nat) (visited nextLayers : List (Option NodeId)),
      (none ∈ visited → none ∈ nextLayers) →
      nextLayers.length + potential g visited ≤ fuel →
      is_data_dependency.loop g b fuel visited nextLayers ≠ .error .bound := by
  intro fuel
  induction fuel with
  | zero =>
    intro visited nextLayers hinv hf
    exfalso
    unfold potential at hf
    by_cases hn : none ∈ visited
    · have := List.length_pos_of_mem (hinv hn)
      omega
    · simp only [hn, if_false] at hf
      omega
  | succ fuel ih =>
    intro visited nextLayers hinv hf
    cases nextLayers with
    | nil => simp [is_data_dependency.loop]
    | cons layer rest =>
      cases layer with
      | none => simp [is_data_dependency.loop]
      | some l =>
        by_cases hlb : l = b
        · simp [is_data_dependency.loop, hlb]
        · rcases expand_general g (g.node l).childEdges visited (some l :: rest) with
            h | ⟨v1, added, he, hmem, hlen⟩
          · simp [is_data_dependency.loop, hlb, h]
          · have hstep : is_data_dependency.loop g b (fuel + 1) visited (some l :: rest) =
                is_data_dependency.loop g b fuel v1 (rest ++ added) := by
              simp [is_data_dependency.loop, hlb, he]
            rw [hstep]
            apply ih
            · intro hn
              rcases (hmem none).mp hn with h1 | h1
              · rcases List.mem_cons.mp (hinv h1) with h2 | h2
                · cases h2
                · exact List.mem_append_left _ h2
              · exact List.mem_append_right _ h1
            · simp only [List.length_append, List.length_cons] at hf ⊢
              omega

/-- A run that does not end on the bound gives the same result under every larger
bound. -/
lemma loop_more_fuel (g : MKLDNNGraph) (b : NodeId) :
    ∀ (fuel : Nat) (visited nextLayers : List (Option NodeId)),
      is_data_dependency.loop g b fuel visited nextLayers ≠ .error .bound →
      ∀ k, is_data_dependency.loop g b (fuel + k) visited nextLayers =
        is_data_dependency.loop g b fuel visited nextLayers := by
  intro fuel
  induction fuel with
  | zero =>
    intro visited nextLayers h
    exact absurd (by simp [is_data_dependency.loop]) h
  | succ fuel ih =>
    intro visited nextLayers h k
    have hk : fuel + 1 + k = (fuel + k) + 1 := by omega
    rw [hk]
    cases nextLayers with
    | nil => simp [is_data_dependency.loop]
    | cons layer rest =>
      cases layer with
      | none => simp [is_data_dependency.loop]
      | some l =>
        by_cases hlb : l = b
        · simp [is_data_dependency.loop, hlb]
        · cases he : is_data_dependency.expand g (g.node l).childEdges visited
              (some l :: rest) with
          | none => simp [is_data_dependency.loop, hlb, he]
          | some r =>
            obtain ⟨v1, n1⟩ := r
            have h1 : is_data_dependency.loop g b (fuel + 1) visited (some l :: rest) =
                is_data_dependency.loop g b fuel v1 n1.tail := by
              simp [is_data_dependency.loop, hlb, he]
            have h2 : is_data_dependency.loop g b (fuel + k + 1) visited (some l :: rest) =
                is_data_dependency.loop g b (fuel + k) v1 n1.tail := by
              simp [is_data_dependency.loop, hlb, he]
            rw [h1] at h ⊢
            rw [h2]
            exact ih v1 n1.tail h k

lemma potential_nil (g : MKLDNNGraph) : potential g [] ≤ g.graphNodes.length + 1 := by
  have h1 : unvisited g [] ≤ g.graphNodes.length := List.countP_le_length _
  have h2 : (if (none : Option NodeId) ∈ ([] : List (Option NodeId)) then 0 else 1) = 1 := by
    simp
  unfold potential
  rw [h2]
  omega

/-- C28: on every graph, with or without cycles, and for every start and target,
the search ends within the number of tests of the loop condition the model
allows (the number of owned nodes plus 2): it does not end on the bound, and
under every larger bound it gives the same result. The statement
`nextLayers.pop_front()` runs at most as many times as there are owned nodes,
plus one. On `cycleGraph`, two nodes on a cycle and a self-loop, the search
from node 0 for a node that is not there answers false after three
dequeues. -/
theorem is_data_dependency_terminates (g : MKLDNNGraph) (parent child : NodeId) :
    is_data_dependency g parent child ≠ .error .bound ∧
    (∀ fuel, g.graphNodes.length + 2 ≤ fuel →
      is_data_dependency.loop g child fuel [] [some parent] =
        is_data_dependency g parent child) ∧
    (∀ fuel, is_data_dependency.pops g child fuel [] [some parent] ≤
      g.graphNodes.length + 1) ∧
    is_data_dependency cycleGraph 0 7 = .ok false ∧
    is_data_dependency.pops cycleGraph 7 (cycleGraph.graphNodes.length + 2) [] [some 0] = 3 := by
  have hpot := potential_nil g
  have hb : is_data_dependency g parent child ≠ .error .bound := by
    unfold is_data_dependency
    apply loop_in_bound
    · intro h
      cases h
    · simp only [List.length_singleton]
      omega
  refine ⟨hb, ?_, ?_, rfl, rfl⟩
  · intro fuel hf
    obtain ⟨k, hk⟩ := Nat.exists_eq_add_of_le hf
    rw [hk]
    exact loop_more_fuel g child _ [] [some parent] hb k
  · intro fuel
    have := pops_bound g child fuel [] [some parent] (by intro h; cases h)
    simp only [List.length_singleton] at this
    omega

end MKLDNNPlugin

namespace MKLDNNPlugin

/-! Fusion across max pooling and monotonic activations -/

lemma f32Value_minus_one : f32Value 0xBF800000 = -1 := by
  norm_num [f32Value]

lemma f32Value_one : f32Value 0x3F800000 = 1 := by
  norm_num [f32Value]

lemma elu_monotone {alpha : ℝ} (ha : 0 ≤ alpha) : Monotone (elu alpha) := by
  intro x y hxy
  unfold elu
  by_cases hx : 0 < x
  · have hy : 0 < y := lt_of_lt_of_le hx hxy
    simp [hx, hy, hxy]
  · have hx1 : x ≤ 0 := le_of_not_lt hx
    have hex : Real.exp x - 1 ≤ 0 := by
      have := Real.exp_le_one_iff.mpr hx1
      linarith
    by_cases hy : 0 < y
    · simp only [hx, hy, if_true, if_false]
      have : alpha * (Real.exp x - 1) ≤ 0 := mul_nonpos_of_nonneg_of_nonpos ha hex
      linarith
    · simp only [hx, hy, if_false]
      have : Real.exp x ≤ Real.exp y := Real.exp_le_exp.mpr hxy
      exact mul_le_mul_of_nonneg_left (by linarith) ha

lemma elu_neg_not_monotone {alpha : ℝ} (ha : alpha < 0) :
    elu alpha 0 < elu alpha (-1) := by
  unfold elu
  have h1 : Real.exp (-1 : ℝ) < 1 := Real.exp_lt_one_iff.mpr (by norm_num)
  have h2 : ¬ (0 : ℝ) < -1 := by norm_num
  simp only [lt_irrefl, if_false, h2, Real.exp_zero, sub_self, mul_zero]
  exact mul_pos_of_neg_of_neg ha (by linarith)

lemma maxpool_map {f : ℝ → ℝ} (hf : Monotone f) :
    ∀ (xs : List ℝ) (x : ℝ), f (maxpool x xs) = maxpool (f x) (xs.map f) := by
  intro xs
  induction xs with
  | nil => intro x; rfl
  | cons a xs ih =>
    intro x
    unfold maxpool at ih ⊢
    simp only [List.foldl_cons, List.map_cons]
    rw [ih (max x a), hf.map_max]

lemma isFusingSupported_iff (g : MKLDNNGraph) (n : NodeId) :
    isFusingSupported g n = true ↔
      (g.node n).type = .Activation ∧
        ∃ l, (g.node n).cnnLayer = some l ∧ (l.type = "ReLU" ∨ l.type = "ELU") := by
  unfold isFusingSupported
  cases hl : (g.node n).cnnLayer with
  | none => simp
  | some l => simp

end MKLDNNPlugin

namespace MKLDNNPlugin

lemma step_across_pooling (g : MKLDNNGraph) (conv pool act : NodeId) (e1 e2 : EdgeId)
    (t : String)
    (hconv : (g.node conv).type = .Convolution)
    (hone : (g.node conv).childEdges.length = 1)
    (he1 : getChildEdgeAt g conv 0 = some e1) (hch1 : getChild g e1 = some pool)
    (hpool : (g.node pool).type = .Pooling)
    (hmax : (g.node pool).cnnLayer = some (.PoolingLayer t .MAX))
    (hone2 : (g.node pool).childEdges.length = 1)
    (he2 : getChildEdgeAt g pool 0 = some e2) (hch2 : getChild g e2 = some act) :
    FuseConvolutionAndActivation.step g conv =
      if isFusingSupported g act then FuseConvolutionAndActivation.fuse g conv act
      else some g := by
  have hnot : isFusingSupported g pool = false := by
    simp [isFusingSupported, hmax, hpool]
  unfold FuseConvolutionAndActivation.step
  simp [hconv, hone, he1, hch1, hnot, hpool, hmax, hone2, he2, hch2]

/-- C22 (counterexample): an ELU activation whose parameter `alpha` is -1 (the
pattern 0xBF800000) is not monotonic non-decreasing, it maps 0 to 0 and -1 to
a positive number, and it does not commute with the maximum of the window
(-1, 0); yet the pass accepts the node and fuses it across the max-pooling
node: the convolution is re-tagged, the activation is recorded as fused and
removed from the node list. -/
theorem FuseConvolutionAndActivation_fuses_decreasing_elu :
    f32Value ((CNNLayer.WithParams "ELU" [("alpha", 0xBF800000)]).GetParamAsFloat "alpha"
      0x3F800000) = -1 ∧
    eluOf (.WithParams "ELU" [("alpha", 0xBF800000)]) 0 <
      eluOf (.WithParams "ELU" [("alpha", 0xBF800000)]) (-1) ∧
    ¬ Monotone (eluOf (.WithParams "ELU" [("alpha", 0xBF800000)])) ∧
    eluOf (.WithParams "ELU" [("alpha", 0xBF800000)]) (maxpool (-1) [0]) ≠
      maxpool (eluOf (.WithParams "ELU" [("alpha", 0xBF800000)]) (-1))
        ([0].map (eluOf (.WithParams "ELU" [("alpha", 0xBF800000)]))) ∧
    isFusingSupported (convPoolLayerGraph (.WithParams "ELU" [("alpha", 0xBF800000)])) 3 =
      true ∧
    (FuseConvolutionAndActivation
        (convPoolLayerGraph (.WithParams "ELU" [("alpha", 0xBF800000)]))).map
        (fun g => (kinds (RemoveDropped g), children (RemoveDropped g) 1,
          children (RemoveDropped g) 2, (g.node 1).fusedWith)) =
      some ([.Input, .Convolution_Activation, .Pooling, .Output, .Output], [2], [4, 5], [3]) := by
  have hval : f32Value ((CNNLayer.WithParams "ELU" [("alpha", 0xBF800000)]).GetParamAsFloat
      "alpha" 0x3F800000) = -1 := f32Value_minus_one
  have hfun : eluOf (.WithParams "ELU" [("alpha", 0xBF800000)]) = elu (-1) := by
    unfold eluOf
    rw [hval]
    norm_num
  have hlt : elu (-1) 0 < elu (-1) (-1) := elu_neg_not_monotone (by norm_num)
  refine ⟨hval, ?_, ?_, ?_, rfl, rfl⟩
  · rw [hfun]; exact hlt
  · rw [hfun]
    intro hm
    have := hm (show (-1 : ℝ) ≤ 0 by norm_num)
    exact absurd hlt (not_lt.mpr this)
  · rw [hfun]
    have h0 : maxpool (-1 : ℝ) [0] = 0 := by
      simp [maxpool]
    have h1 : maxpool (elu (-1) (-1)) ([0].map (elu (-1))) = elu (-1) (-1) := by
      simp only [maxpool, List.map_cons, List.map_nil, List.foldl_cons, List.foldl_nil]
      exact max_eq_left (le_of_lt hlt)
    rw [h0, h1]
    exact ne_of_lt hlt

/-- C22 (amended): for a convolution whose only child is a max-pooling node with a
single child, the pass fuses that child exactly when `isFusingSupported`
accepts it, and otherwise leaves the graph as it is; the node is accepted
exactly when it is an Activation node whose layer type is ReLU or ELU,
whatever its parameters: an ELU layer behind the pooling node is accepted and
fused for every parameter map. Every
monotonic non-decreasing function commutes with the maximum of a non-empty
window, and the ELU function is monotonic non-decreasing when its `alpha` is
not negative, and is not when `alpha` is negative. -/
theorem FuseConvolutionAndActivation_across_pooling_decides_by_layer_type
    (g : MKLDNNGraph) (conv pool act : NodeId) (e1 e2 : EdgeId) (t : String)
    (hconv : (g.node conv).type = .Convolution)
    (hone : (g.node conv).childEdges.length = 1)
    (he1 : getChildEdgeAt g conv 0 = some e1) (hch1 : getChild g e1 = some pool)
    (hpool : (g.node pool).type = .Pooling)
    (hmax : (g.node pool).cnnLayer = some (.PoolingLayer t .MAX))
    (hone2 : (g.node pool).childEdges.length = 1)
    (he2 : getChildEdgeAt g pool 0 = some e2) (hch2 : getChild g e2 = some act) :
    (FuseConvolutionAndActivation.step g conv =
      if isFusingSupported g act then FuseConvolutionAndActivation.fuse g conv act
      else some g) ∧
    (isFusingSupported g act = true ↔
      (g.node act).type = .Activation ∧
        ∃ l, (g.node act).cnnLayer = some l ∧ (l.type = "ReLU" ∨ l.type = "ELU")) ∧
    (∀ params : List (String × F32),
      isFusingSupported (convPoolLayerGraph (.WithParams "ELU" params)) 3 = true ∧
      FuseConvolutionAndActivation.step (convPoolLayerGraph (.WithParams "ELU" params)) 1 =
        FuseConvolutionAndActivation.fuse (convPoolLayerGraph (.WithParams "ELU" params)) 1 3) ∧
    (∀ f : ℝ → ℝ, Monotone f → ∀ (x : ℝ) (xs : List ℝ),
      f (maxpool x xs) = maxpool (f x) (xs.map f)) ∧
    (∀ alpha : ℝ, 0 ≤ alpha → Monotone (elu alpha)) ∧
    (∀ alpha : ℝ, alpha < 0 → ¬ Monotone (elu alpha)) := by
  refine ⟨step_across_pooling g conv pool act e1 e2 t hconv hone he1 hch1 hpool hmax hone2 he2
    hch2, isFusingSupported_iff g act, ?_, ?_, ?_, ?_⟩
  · intro params
    have hs : isFusingSupported (convPoolLayerGraph (.WithParams "ELU" params)) 3 = true := rfl
    refine ⟨hs, ?_⟩
    rw [step_across_pooling (convPoolLayerGraph (.WithParams "ELU" params)) 1 2 3 1 2 "Pooling"
      rfl rfl rfl rfl rfl rfl rfl rfl rfl, hs]
    exact if_pos rfl
  · intro f hf x xs
    exact maxpool_map hf xs x
  · intro alpha ha
    exact elu_monotone ha
  · intro alpha ha hm
    have h1 := hm (show (-1 : ℝ) ≤ 0 by norm_num)
    exact absurd (elu_neg_not_monotone ha) (not_lt.mpr h1)

/-- Witness of C22 (amended): the graph input, convolution, max pooling, ELU with
`alpha` -1, two outputs, at the convolution (node 1). -/
theorem FuseConvolutionAndActivation_across_pooling_decides_by_layer_type_witness :
    (FuseConvolutionAndActivation.step
        (convPoolLayerGraph (.WithParams "ELU" [("alpha", 0xBF800000)])) 1 =
      if isFusingSupported (convPoolLayerGraph (.WithParams "ELU" [("alpha", 0xBF800000)])) 3
      then FuseConvolutionAndActivation.fuse
        (convPoolLayerGraph (.WithParams "ELU" [("alpha", 0xBF800000)])) 1 3
      else some (convPoolLayerGraph (.WithParams "ELU" [("alpha", 0xBF800000)]))) ∧
    isFusingSupported (convPoolLayerGraph (.WithParams "ELU" [("alpha", 0xBF800000)])) 3 =
      true :=
  ⟨(FuseConvolutionAndActivation_across_pooling_decides_by_layer_type
      (convPoolLayerGraph (.WithParams "ELU" [("alpha", 0xBF800000)])) 1 2 3 1 2 "Pooling"
      rfl rfl rfl rfl rfl rfl rfl rfl rfl).1, rfl⟩

end MKLDNNPlugin

namespace MKLDNNPlugin

/-! A second run of the pipeline -/

lemma Optimize_result {g g1 : MKLDNNGraph} (h : Optimize g = some g1) :
    ∃ g5, g1 = RemoveDroppedEdges (RemoveDropped g5) := by
  unfold Optimize at h
  repeat' split at h
  all_goals first
    | exact Option.noConfusion h
    | (injection h with h; exact ⟨_, h.symm⟩)

lemma lock_isNone_of_all {g : MKLDNNGraph} {l : List MKLDNNEdgeWeakPtr}
    (h : l.all (fun w => (lock g w).isNone) = false) : l ≠ [] := by
  intro hl
  rw [hl] at h
  cases h

/-- The graph that Optimize returns holds no dropped edge, and no dropped node when
every reference of its owned nodes is live. -/
lemma Optimize_clean {g g1 : MKLDNNGraph} (h : Optimize g = some g1)
    (hcl : childRefsLive g1 = true) (hpl : parentRefsLive g1 = true) :
    (∀ n ∈ g1.graphNodes, nodeIsDropped g1 n = false) ∧
    (∀ e ∈ g1.graphEdges, edgeIsDropped g1 e = false) := by
  obtain ⟨g5, rfl⟩ := Optimize_result h
  refine ⟨fun n hn => ?_, RemoveDroppedEdges_clean _⟩
  have hn1 : n ∈ (RemoveDropped g5).graphNodes := hn
  have hd := (mem_RemoveDropped hn1).2
  unfold childRefsLive at hcl
  unfold parentRefsLive at hpl
  rw [List.all_eq_true] at hcl hpl
  have hc1 := hcl n hn
  have hp1 := hpl n hn
  rw [List.all_eq_true] at hc1 hp1
  unfold nodeIsDropped at hd ⊢
  rw [Bool.and_eq_false_iff] at hd ⊢
  rcases hd with hd | hd
  · left
    obtain ⟨w, hw⟩ := List.exists_mem_of_ne_nil _ (lock_isNone_of_all hd)
    have hw1 : w ∈ ((RemoveDroppedEdges (RemoveDropped g5)).node n).parentEdges := hw
    have h1 := hp1 w hw1
    rw [List.all_eq_false]
    refine ⟨w, hw1, ?_⟩
    cases hl : lock (RemoveDroppedEdges (RemoveDropped g5)) w with
    | none => rw [hl] at h1; cases h1
    | some e => simp
  · right
    obtain ⟨w, hw⟩ := List.exists_mem_of_ne_nil _ (lock_isNone_of_all hd)
    have hw1 : w ∈ ((RemoveDroppedEdges (RemoveDropped g5)).node n).childEdges := hw
    have h1 := hc1 w hw1
    rw [List.all_eq_false]
    refine ⟨w, hw1, ?_⟩
    cases hl : lock (RemoveDroppedEdges (RemoveDropped g5)) w with
    | none => rw [hl] at h1; cases h1
    | some e => simp

lemma MergeGroupConvolution_skip_other {g : MKLDNNGraph} {n : NodeId}
    (ht : (g.node n).type ≠ .Split) : MergeGroupConvolution.step g n = some g := by
  unfold MergeGroupConvolution.step
  have hone : IsOneOf (g.node n).type [.Split] = false := by
    unfold IsOneOf
    rw [if_neg ht]
    rfl
  rw [hone]
  rfl

lemma RemoveIdentityOperator_skip {g : MKLDNNGraph} {n : NodeId}
    (hk : layerMatchesKind (g.node n) = true)
    (h : isIdentityOperator (g.node n) = false) :
    RemoveIdentityOperator.step g n = some g := by
  unfold RemoveIdentityOperator.step
  rw [toDrop_eq g n hk, h]

end MKLDNNPlugin

namespace MKLDNNPlugin

/-- C9, refuted in general by `convCopyReluGraph`; amended: when the graph that
Optimize returns for a graph `g` is well formed, its Pooling, Eltwise, Power
and ScaleShift nodes carry the descriptors the passes cast to, and none of its
nodes is what a pass looks for, then Optimize applied to it returns it as it
is: node list, edge list and node kinds are those after the first run. -/
theorem Optimize_twice_unchanged_when_settled (g g1 : MKLDNNGraph)
    (h1 : Optimize g = some g1)
    (hwf : wellFormed g1 = true) (hcast : castsSucceed g1 = true)
    (hkind : ∀ n ∈ g1.graphNodes, layerMatchesKind (g1.node n) = true)
    (hs : Settled g1) :
    Optimize g1 = some g1 ∧
    (Optimize g1).map (fun g2 => (g2.graphNodes, g2.graphEdges, kinds g2)) =
      some (g1.graphNodes, g1.graphEdges, kinds g1) := by
  obtain ⟨hc, hcl, hpl, _, _⟩ := wellFormed_spec hwf
  obtain ⟨hdn, hde⟩ := Optimize_clean h1 hcl hpl
  have hn : RemoveDropped g1 = g1 := RemoveDropped_id g1 hdn
  have he : RemoveDroppedEdges g1 = g1 := RemoveDroppedEdges_id g1 hde
  have m1 : MergeGroupConvolution g1 = some g1 :=
    foldlM_skip g1.graphNodes (fun n hm => by
      by_cases ht : (g1.node n).type = .Split
      · exact MergeGroupConvolution_skip hcl hm (hs.branches n hm ht) (hs.merge n hm)
      · exact MergeGroupConvolution_skip_other ht)
  have m2 : FuseConvolutionAndActivation g1 = some g1 :=
    foldlM_skip g1.graphNodes (fun n hm =>
      FuseConvolutionAndActivation_skip hcl hcast hm (hs.activation n hm))
  have m3 : FuseBatchNormWithScale g1 = some g1 :=
    foldlM_skip g1.graphNodes (fun n hm => FuseBatchNormWithScale_skip hcl hm (hs.batchNorm n hm))
  have m4 : RemoveIdentityOperator g1 = some g1 :=
    foldlM_skip g1.graphNodes (fun n hm =>
      RemoveIdentityOperator_skip (hkind n hm) (hs.identity n hm))
  have m5 : FuseConvolutionSumAndConvolutionSumActivation g1 = some g1 :=
    foldlM_skip g1.graphNodes (fun n hm =>
      FuseConvolutionSum_skip hc hcl hpl hcast hm (hs.sum n hm))
  have h2 : Optimize g1 = some g1 := by
    unfold Optimize
    simp only [m1, hn, m2, m3, m4, m5, he]
  exact ⟨h2, by rw [h2]; rfl⟩

end MKLDNNPlugin

namespace MKLDNNPlugin

/-- C9, amended, at a concrete input: the graph that Optimize returns for
`sumFuseReluGraph`, as the pipeline runs a second time on it. The first run
has fused the sum and the activation into the convolution `A`; the graph is
well formed, none of its nodes is what a pass looks for (the convolution `B`
has two children), and the second run returns it as it is. -/
theorem Optimize_twice_unchanged_when_settled_witness :
    Optimize sumFuseReluGraph = some sumFuseReluOptimized ∧
    kinds sumFuseReluGraph =
      [.Input, .Convolution, .Generic, .Convolution, .Eltwise, .Activation, .Output] ∧
    kinds sumFuseReluOptimized =
      [.Input, .Convolution, .Generic, .Convolution_Sum_Activation, .Output] ∧
    wellFormed sumFuseReluOptimized = true ∧ castsSucceed sumFuseReluOptimized = true ∧
    Settled sumFuseReluOptimized ∧
    Optimize sumFuseReluOptimized = some sumFuseReluOptimized := by
  have h1 : Optimize sumFuseReluGraph = some sumFuseReluOptimized := rfl
  have hwf : wellFormed sumFuseReluOptimized = true := rfl
  have hcast : castsSucceed sumFuseReluOptimized = true := rfl
  have hl : sumFuseReluOptimized.graphNodes = [0, 1, 2, 3, 6] := rfl
  have hk : [0, 1, 2, 3, 6].map (fun n => (sumFuseReluOptimized.node n).type) =
      [.Input, .Convolution, .Generic, .Convolution_Sum_Activation, .Output] := rfl
  have hid : [0, 1, 2, 3, 6].map (fun n => isIdentityOperator (sumFuseReluOptimized.node n)) =
      [false, false, false, false, false] := rfl
  have hlay : [0, 1, 2, 3, 6].map (fun n => layerMatchesKind (sumFuseReluOptimized.node n)) =
      [true, true, true, true, true] := rfl
  have hch : children sumFuseReluOptimized 1 = [3, 2] := rfl
  simp only [List.map, List.cons.injEq, and_true] at hk hid hlay
  obtain ⟨k0, k1, k2, k3, k6⟩ := hk
  obtain ⟨i0, i1, i2, i3, i6⟩ := hid
  obtain ⟨l0, l1, l2, l3, l6⟩ := hlay
  have hkind : ∀ n ∈ sumFuseReluOptimized.graphNodes,
      layerMatchesKind (sumFuseReluOptimized.node n) = true := by
    intro n hn
    rw [hl] at hn
    simp only [List.mem_cons, List.mem_singleton, List.not_mem_nil, or_false] at hn
    rcases hn with rfl | rfl | rfl | rfl | rfl <;> assumption
  have hs : Settled sumFuseReluOptimized := by
    refine ⟨?_, ?_, ?_, ?_, ?_, ?_⟩
    · intro n hn h
      have ht := h.1
      rw [hl] at hn
      simp only [List.mem_cons, List.mem_singleton, List.not_mem_nil, or_false] at hn
      rcases hn with rfl | rfl | rfl | rfl | rfl
      · rw [k0] at ht; cases ht
      · rw [k1] at ht; cases ht
      · rw [k2] at ht; cases ht
      · rw [k3] at ht; cases ht
      · rw [k6] at ht; cases ht
    · intro n hn ht
      rw [hl] at hn
      simp only [List.mem_cons, List.mem_singleton, List.not_mem_nil, or_false] at hn
      rcases hn with rfl | rfl | rfl | rfl | rfl
      · rw [k0] at ht; cases ht
      · rw [k1] at ht; cases ht
      · rw [k2] at ht; cases ht
      · rw [k3] at ht; cases ht
      · rw [k6] at ht; cases ht
    · intro n hn h
      have ht := h.1
      rw [hl] at hn
      simp only [List.mem_cons, List.mem_singleton, List.not_mem_nil, or_false] at hn
      rcases hn with rfl | rfl | rfl | rfl | rfl
      · rw [k0] at ht; cases ht
      · obtain ⟨_, ch1, hc1, _⟩ := h
        rw [hch] at hc1
        simp at hc1
      · rw [k2] at ht; cases ht
      · rw [k3] at ht; cases ht
      · rw [k6] at ht; cases ht
    · intro n hn h
      have ht := h.1
      rw [hl] at hn
      simp only [List.mem_cons, List.mem_singleton, List.not_mem_nil, or_false] at hn
      rcases hn with rfl | rfl | rfl | rfl | rfl
      · rw [k0] at ht; cases ht
      · rw [k1] at ht; cases ht
      · rw [k2] at ht; cases ht
      · rw [k3] at ht; cases ht
      · rw [k6] at ht; cases ht
    · intro n hn
      rw [hl] at hn
      simp only [List.mem_cons, List.mem_singleton, List.not_mem_nil, or_false] at hn
      rcases hn with rfl | rfl | rfl | rfl | rfl <;> assumption
    · intro n hn h
      have ht := h.1
      rw [hl] at hn
      simp only [List.mem_cons, List.mem_singleton, List.not_mem_nil, or_false] at hn
      rcases hn with rfl | rfl | rfl | rfl | rfl
      · rw [k0] at ht; cases ht
      · rw [k1] at ht; cases ht
      · rw [k2] at ht; cases ht
      · rw [k3] at ht; cases ht
      · rw [k6] at ht; cases ht
  exact ⟨h1, rfl, rfl, hwf, hcast, hs,
    (Optimize_twice_unchanged_when_settled sumFuseReluGraph sumFuseReluOptimized h1 hwf hcast
      hkind hs).1⟩

end MKLDNNPlugin

namespace MKLDNNPlugin

/-! Identity operators and rejected branches at concrete inputs -/

/-- C10: in `noChildGraph` the Copy node (1) is a last layer: the pass sets `toDrop`
for it and hands it to DropNode, yet after the sweeps the node list, the kinds
and the edge are as before, the Copy node is not removed; the same holds for
the Copy node (0) without producer in `noParentGraph`. In `portsGraph` the only
identity operator is the Copy node (2); after the pass and the sweeps the node
`c0` (3), which is no identity operator, is removed with it and only `c1` (4)
is fed by the producer. In `identityChainGraph`, where every identity operator
has one producer and one consumer, the three identity operators are removed
and the other nodes stay, in a chain. -/
theorem RemoveIdentityOperator_keeps_last_copy_and_removes_other_node :
    (isIdentityOperator (noChildGraph.node 1) = true ∧
      RemoveIdentityOperator.toDrop noChildGraph 1 = some true ∧
      (RemoveIdentityOperator noChildGraph).map
          (fun g => ((RemoveDropped g).graphNodes, kinds (RemoveDropped g),
            endpoints (RemoveDroppedEdges (RemoveDropped g)))) =
        some ([0, 1], [.Generic, .Copy], [(0, 1)])) ∧
    (isIdentityOperator (noParentGraph.node 0) = true ∧
      (RemoveIdentityOperator noParentGraph).map
          (fun g => ((RemoveDropped g).graphNodes, kinds (RemoveDropped g),
            endpoints (RemoveDroppedEdges (RemoveDropped g)))) =
        some ([0, 1], [.Copy, .Generic], [(0, 1)])) ∧
    (portsGraph.graphNodes.map (fun n => isIdentityOperator (portsGraph.node n)) =
        [false, false, true, false, false] ∧
      portsGraph.graphNodes.map (fun n => RemoveIdentityOperator.toDrop portsGraph n) =
        [some false, some false, some true, some false, some false] ∧
      (RemoveIdentityOperator portsGraph).map
          (fun g => ((RemoveDropped g).graphNodes,
            endpoints (RemoveDroppedEdges (RemoveDropped g)))) =
        some ([0, 1, 4], [(0, 1), (0, 4)])) ∧
    (identityChainGraph.graphNodes.map
        (fun n => isIdentityOperator (identityChainGraph.node n)) =
        [false, true, false, true, false, true, false] ∧
      (RemoveIdentityOperator identityChainGraph).map
          (fun g => ((RemoveDropped g).graphNodes, kinds (RemoveDropped g),
            endpoints (RemoveDroppedEdges (RemoveDropped g)))) =
        some ([0, 2, 4, 6], [.Input, .Power, .ScaleShift, .Output],
          [(0, 2), (2, 4), (4, 6)])) :=
  ⟨⟨rfl, rfl, rfl⟩, ⟨rfl, rfl⟩, ⟨rfl, rfl, rfl⟩, ⟨rfl, rfl⟩⟩

/-- C13: in `splitLastGraph`, a well-formed graph, the second branch (3) of the
Split (1) is a convolution without child edge, so it fails the test for exactly
one child edge. The loop body of MergeGroupConvolution does not skip the Split:
it fails on reading the first child edge of that branch, which comes before
the test of the number of child edges, and the pass and the pipeline fail with
it. In `splitSecondTwoGraph` the second branch has two child edges, the first
into the Concatenation; the same test is reached and the loop body returns the
graph as it is. In `splitApartGraph` the first branch does not lead to a
Concatenation; the loop body changes the graph all the same: the second
convolution is merged into the first, the shape is changed and edges are
replaced. -/
theorem MergeGroupConvolution_fails_on_branch_without_child :
    (wellFormed splitLastGraph = true ∧ castsSucceed splitLastGraph = true ∧
      children splitLastGraph 1 = [2, 3] ∧
      (splitLastGraph.node 3).type = .Convolution ∧
      (splitLastGraph.node 3).childEdges.length = 0 ∧
      MergeGroupConvolution.step splitLastGraph 1 = none ∧
      MergeGroupConvolution splitLastGraph = none ∧ Optimize splitLastGraph = none) ∧
    ((splitSecondTwoGraph.node 3).childEdges.length = 2 ∧
      MergeGroupConvolution.step splitSecondTwoGraph 1 = some splitSecondTwoGraph) ∧
    (children splitApartGraph 2 = [4] ∧ (splitApartGraph.node 4).type = .Activation ∧
      (endpoints splitApartGraph, (splitApartGraph.node 2).mergedWith,
        (splitApartGraph.node 2).inDims) =
        ([(0, 1), (1, 2), (1, 3), (2, 4), (3, 5), (4, 6), (5, 7)], [], [[1, 4, 8, 8]]) ∧
      (MergeGroupConvolution.step splitApartGraph 1).map
          (fun g => (endpoints g, (g.node 2).mergedWith, (g.node 2).inDims)) =
        some ([(1, 3), (3, 5), (5, 7), (0, 2), (2, 6)], [3], [[1, 8, 8, 8]])) :=
  ⟨⟨rfl, rfl, rfl, rfl, rfl, rfl, rfl, rfl⟩, ⟨rfl, rfl⟩, ⟨rfl, rfl, rfl, rfl⟩⟩

end MKLDNNPlugin
